import Mathlib

/-!
# vortexfinder2: extractor core

A shallow embedding of `src/extractor/Extractor.cpp` (with the incidence graph
of `src/common/MeshGraph.h`) and theorems about it.

Conventions of the embedding:

* identifiers (`NodeIdType`, `EdgeIdType`, `FaceIdType`, `CellIdType`) are natural
  numbers, `UINT_MAX` is the boundary sentinel;
* `std::map<K, V>` is an association list kept in ascending key order
  (`StdMap`), `std::set<K>` an ascending duplicate-free list (`StdSet`), so
  `begin()` is the head and iteration is list order;
* `while` loops take a fuel argument and return `none` when it runs out;
  termination theorems show that some fuel always suffices;
* a stored `double` value is a rational, a not-a-number is `none`; the arithmetic of the
  puncture detector is rounded after every operation by a rounding function `fl` that is a
  parameter of the detector, with the binary64 rounding `roundDouble` as its instance.
-/

namespace VortexFinder

/-- The boundary sentinel (no neighbour). -/
def UINT_MAX : Nat := 4294967295

/-! ## Ordered containers -/

/-- A `std::set` of ids: ascending list without repetition. -/
abbrev StdSet := List Nat

/-- A `std::map` from ids: association list in ascending key order. -/
abbrev StdMap (V : Type) := List (Nat × V)

namespace StdSet

/-- Ordered insertion, `std::set::insert`. -/
def insert : StdSet → Nat → StdSet
  | [], x => [x]
  | y :: r, x => if x < y then x :: y :: r else if x = y then y :: r else y :: insert r x

/-- Removal of a key, `std::set::erase`. -/
def erase (s : StdSet) (x : Nat) : StdSet := s.filter (fun y => decide (y ≠ x))

end StdSet

namespace StdMap

variable {V : Type}

/-- Lookup, `std::map::find`; `none` stands for `end()`. -/
def find : StdMap V → Nat → Option V
  | [], _ => none
  | (k, v) :: r, x => if x = k then some v else find r x

/-- Assignment `m[k] = v`: ordered insertion or replacement. -/
def insert : StdMap V → Nat → V → StdMap V
  | [], x, v => [(x, v)]
  | (k, w) :: r, x, v =>
    if x < k then (x, v) :: (k, w) :: r
    else if x = k then (k, v) :: r
    else (k, w) :: insert r x v

/-- Removal of a key, `std::map::erase`. -/
def erase (m : StdMap V) (x : Nat) : StdMap V := m.filter (fun p => decide (p.1 ≠ x))

/-- The keys in iteration order. -/
def keys (m : StdMap V) : List Nat := m.map Prod.fst

/-- Reading `m[k]` through `operator[]`: a missing key is first inserted with the
default value. Returns the value read and the map afterwards. -/
def index (m : StdMap V) (dflt : V) (x : Nat) : V × StdMap V :=
  match find m x with
  | some v => (v, m)
  | none => (dflt, insert m x dflt)

/-- Erasing every key of a set, `for (it in s) m.erase(*it)`. -/
def eraseAll (m : StdMap V) (s : StdSet) : StdMap V := s.foldl erase m

end StdMap

/-! ## Incidence graph (`MeshGraph.h`) -/

/-- The signed orientation type. -/
abbrev ChiralityType := Int

/-- An edge with the faces that contain it. -/
structure CEdge where
  node0 : Nat
  node1 : Nat
  contained_faces : List Nat
  contained_faces_chirality : List Int
  contained_faces_eid : List Nat
deriving DecidableEq, Repr

/-- A face: ordered nodes and edges, and the incident cells as the extractor
reads them (`contained_cells`, `contained_cells_chirality`, `contained_cells_fid`). -/
structure CFace where
  nodes : List Nat
  edges : List Nat
  edges_chirality : List Int
  contained_cells : List Nat
  contained_cells_chirality : List Int
  contained_cells_fid : List Nat
deriving DecidableEq, Repr

/-- A cell: ordered nodes, faces and neighbour cells (one neighbour per face). -/
structure CCell where
  nodes : List Nat
  faces : List Nat
  faces_chirality : List Int
  neighbor_cells : List Nat
deriving DecidableEq, Repr

/-- The incidence graph: flat arrays, all cross references are indices. -/
structure MeshGraph where
  edges : List CEdge
  faces : List CFace
  cells : List CCell
deriving DecidableEq, Repr

/-- Accessor `mg->Edge(i)`. An index out of range (undefined in the source) reads an edge
without faces. -/
def MeshGraph.Edge (mg : MeshGraph) (i : Nat) : CEdge := mg.edges.getD i ⟨0, 0, [], [], []⟩

/-- Accessor `mg->Face(i)`. An index out of range (undefined in the source) reads a face
without edges and cells. -/
def MeshGraph.Face (mg : MeshGraph) (i : Nat) : CFace := mg.faces.getD i ⟨[], [], [], [], [], []⟩

/-- Accessor `mg->Cell(i)`. An index out of range (undefined in the source) reads a cell
without faces and neighbours. -/
def MeshGraph.Cell (mg : MeshGraph) (i : Nat) : CCell := mg.cells.getD i ⟨[], [], [], []⟩

/-! ## Puncture records -/

/-- Modelled from the spec: the `PuncturedCell` record is declared in a header that is
not part of the sources. It holds the signed chirality slots of a cell; a slot that
was never set reads 0. -/
structure PuncturedCell where
  chiralities : List Int
deriving DecidableEq, Repr

namespace PuncturedCell

/-- Modelled from the spec: a default constructed `PuncturedCell` has no slot set. -/
def empty : PuncturedCell := ⟨[]⟩

/-- Modelled from the spec: `Chirality(i)` reads slot `i`. -/
def Chirality (p : PuncturedCell) (i : Nat) : Int := p.chiralities.getD i 0

/-- Modelled from the spec: `SetChirality(i, chi)` writes slot `i`. -/
def SetChirality (p : PuncturedCell) (i : Nat) (chi : Int) : PuncturedCell :=
  ⟨(p.chiralities ++ List.replicate (i + 1 - p.chiralities.length) 0).set i chi⟩

/-- Modelled from the spec: the number of nonzero slots. -/
def Degree (p : PuncturedCell) : Nat := (p.chiralities.filter (fun x => decide (x ≠ 0))).length

/-- Modelled from the spec: a cell is special if more than two slots are set. -/
def IsSpecial (p : PuncturedCell) : Bool := decide (2 < p.Degree)

end PuncturedCell

/-- Modelled from the spec: the `VortexObject` record is declared in a header that is
not part of the sources: local id, global id, time step, member faces, traces. -/
structure VortexObject where
  id : Nat
  gid : Int
  timestep : Int
  faces : StdSet
  traces : List (List Nat)
deriving DecidableEq, Repr

/-- Modelled from the spec: a default constructed `VortexObject`. -/
def VortexObject.empty : VortexObject := ⟨0, 0, 0, [], []⟩

/-! ## `TraceOverSpace` -/

/-- The variables of the component search of `TraceOverSpace` (step 1). -/
structure SearchState where
  to_visit : List Nat
  visited : StdSet
  ordinary_pcells : StdMap PuncturedCell
  special_pcells : StdMap PuncturedCell
  pcs : StdMap PuncturedCell
deriving DecidableEq, Repr

/-- The `for` loop of the component search: every neighbour that is valid, lies across a
punctured face, is itself punctured and is not yet visited goes to the back of `to_visit`.
`i` is the loop index of the head of `nbrs`. -/
def pushNeighbors (pcs : StdMap PuncturedCell) (pcell : PuncturedCell) (visited : StdSet) :
    List Nat → Nat → List Nat → List Nat
  | [], _, q => q
  | c1 :: rest, i, q =>
    if c1 ≠ UINT_MAX ∧ pcell.Chirality i ≠ 0 ∧ (StdMap.find pcs c1).isSome ∧ c1 ∉ visited then
      pushNeighbors pcs pcell visited rest (i + 1) (q ++ [c1])
    else
      pushNeighbors pcs pcell visited rest (i + 1) q

/-- One iteration of `while (!to_visit.empty())` for the front cell `c`. The parameter
`isSpecial` stands for `pcell.IsSpecial()`, which is declared in a header that is not part of
the sources. -/
def searchStep (isSpecial : PuncturedCell → Bool) (mg : MeshGraph) (c : Nat) (rest : List Nat)
    (s : SearchState) : SearchState :=
  let r := StdMap.index s.pcs PuncturedCell.empty c
  let pcell := r.1
  let pcs := r.2
  let cell := mg.Cell c
  let special := if isSpecial pcell then StdMap.insert s.special_pcells c pcell else s.special_pcells
  let ordinary := if isSpecial pcell then s.ordinary_pcells else StdMap.insert s.ordinary_pcells c pcell
  let visited := StdSet.insert s.visited c
  ⟨pushNeighbors pcs pcell visited cell.neighbor_cells 0 rest, visited, ordinary, special, pcs⟩

/-- The component search `while (!to_visit.empty())`. -/
def componentSearch (isSpecial : PuncturedCell → Bool) (mg : MeshGraph) :
    Nat → SearchState → Option SearchState
  | 0, _ => none
  | fuel + 1, s =>
    match s.to_visit with
    | [] => some s
    | c :: rest => componentSearch isSpecial mg fuel (searchStep isSpecial mg c rest s)

/-- The variables of one directed walk of `TraceOverSpace` (step 2.2). -/
structure WalkState where
  c : Nat
  visited : StdSet
  faces : StdSet
  trace : List Nat
  traced : Bool
deriving DecidableEq, Repr

/-- The `for` loop of a walk over the slots of the cell the iteration started in (`pcell` and
`cell` are references taken before the loop, while `c` moves inside it). `chi` is 1 for the
forward walk (faces are appended to the trace) and -1 for the backward walk (faces are
prepended). `i` is the loop index of the head of `nbrs`; a face index out of range
(undefined in the source) reads face 0. -/
def walkFor (special : StdMap PuncturedCell) (pcell : PuncturedCell) (cell : CCell) (chi : Int) :
    List Nat → Nat → WalkState → WalkState
  | [], _, s => s
  | n :: rest, i, s =>
    if pcell.Chirality i = chi then
      let visited := StdSet.insert s.visited s.c
      if (StdMap.find special n).isNone then
        let f := cell.faces.getD i 0
        walkFor special pcell cell chi rest (i + 1)
          ⟨n, visited, StdSet.insert s.faces f,
            if chi = 1 then s.trace ++ [f] else f :: s.trace, true⟩
      else
        walkFor special pcell cell chi rest (i + 1) ⟨s.c, visited, s.faces, s.trace, s.traced⟩
    else
      walkFor special pcell cell chi rest (i + 1) s

/-- The loop `while (1)` of a walk: stop at a cell that is not ordinary or already visited,
or when the `for` loop moved nowhere. -/
def walkLoop (mg : MeshGraph) (ordinary special : StdMap PuncturedCell) (chi : Int) :
    Nat → WalkState → Option WalkState
  | 0, _ => none
  | fuel + 1, s =>
    match StdMap.find ordinary s.c with
    | none => some ⟨s.c, s.visited, s.faces, s.trace, false⟩
    | some pcell =>
      if s.c ∈ s.visited then some ⟨s.c, s.visited, s.faces, s.trace, false⟩
      else
        let cell := mg.Cell s.c
        let s1 := walkFor special pcell cell chi cell.neighbor_cells 0
          ⟨s.c, s.visited, s.faces, s.trace, false⟩
        if s1.traced then walkLoop mg ordinary special chi fuel s1 else some s1

/-- The variables of the loop `while (!ordinary_pcells.empty())`. -/
structure TraceState where
  ordinary_pcells : StdMap PuncturedCell
  vobj : VortexObject
deriving DecidableEq, Repr

/-- One iteration of `while (!ordinary_pcells.empty())`: a forward and a backward walk from
the first ordinary cell, then the visited cells leave `ordinary_pcells` and the trace is
appended to the object. -/
def traceOnce (mg : MeshGraph) (special : StdMap PuncturedCell) (fuel : Nat) (seed : Nat)
    (t : TraceState) : Option TraceState :=
  match walkLoop mg t.ordinary_pcells special 1 fuel ⟨seed, [], t.vobj.faces, [], false⟩ with
  | none => none
  | some fw =>
    match walkLoop mg t.ordinary_pcells special (-1) fuel
        ⟨seed, StdSet.erase fw.visited seed, fw.faces, fw.trace, fw.traced⟩ with
    | none => none
    | some bw =>
      let visited := StdSet.insert bw.visited seed
      some ⟨StdMap.eraseAll t.ordinary_pcells visited,
        ⟨t.vobj.id, t.vobj.gid, t.vobj.timestep, bw.faces, t.vobj.traces ++ [bw.trace]⟩⟩

/-- The loop `while (!ordinary_pcells.empty())` (step 2.2). -/
def traceLoop (mg : MeshGraph) (special : StdMap PuncturedCell) :
    Nat → TraceState → Option TraceState
  | 0, _ => none
  | fuel + 1, t =>
    match t.ordinary_pcells with
    | [] => some t
    | (seed, _) :: _ =>
      match traceOnce mg special (fuel + 1) seed t with
      | none => none
      | some t1 => traceLoop mg special fuel t1

/-- The variables of the outer loop `while (!pcs.empty())`. -/
structure SpaceState where
  pcs : StdMap PuncturedCell
  vobjs : List VortexObject
deriving DecidableEq, Repr

/-- One iteration of `while (!pcs.empty())`: search the component of the first punctured
cell, erase it from `pcs`, trace its ordinary cells into one object whose id is the number
of objects so far. -/
def spaceOnce (isSpecial : PuncturedCell → Bool) (mg : MeshGraph) (fuel : Nat) (first : Nat)
    (s : SpaceState) : Option SpaceState :=
  match componentSearch isSpecial mg fuel ⟨[first], [], [], [], s.pcs⟩ with
  | none => none
  | some r =>
    match traceLoop mg r.special_pcells fuel ⟨r.ordinary_pcells, VortexObject.empty⟩ with
    | none => none
    | some t =>
      some ⟨StdMap.eraseAll r.pcs r.visited,
        s.vobjs ++ [⟨s.vobjs.length, t.vobj.gid, t.vobj.timestep, t.vobj.faces, t.vobj.traces⟩]⟩

/-- The outer loop `while (!pcs.empty())`. -/
def spaceLoop (isSpecial : PuncturedCell → Bool) (mg : MeshGraph) :
    Nat → SpaceState → Option SpaceState
  | 0, _ => none
  | fuel + 1, s =>
    match s.pcs with
    | [] => some s
    | (first, _) :: _ =>
      match spaceOnce isSpecial mg (fuel + 1) first s with
      | none => none
      | some s1 => spaceLoop isSpecial mg fuel s1

/-! ## Extractor state -/

/-- A stored `double`: a rational, or `none` for not-a-number. -/
abbrev Double := Option ℚ

/-- Modelled from the spec: the `PuncturedEdge` record (declared in a header that is not
part of the sources): chirality and crossing time. -/
structure PuncturedEdge where
  chirality : ChiralityType
  t : Double
deriving DecidableEq, Repr

/-- Modelled from the spec: the `PuncturedFace` record (declared in a header that is not
part of the sources): chirality and crossing position. -/
structure PuncturedFace where
  chirality : ChiralityType
  pos : Double × Double × Double
deriving DecidableEq, Repr

/-- Modelled from the spec: the `VortexLine` record (declared in a header that is not part
of the sources): metadata and the flattened coordinates. -/
structure VortexLine where
  id : Nat
  gid : Int
  timestep : Int
  coords : List Double
deriving DecidableEq, Repr

/-- Modelled from the spec: the `VortexTransitionMatrix` (declared in a header that is not
part of the sources): an `n0` by `n1` integer matrix; `entry i j` reads `tm(i, j)`. -/
structure VortexTransitionMatrix where
  n0 : Nat
  n1 : Nat
  entry : Nat → Nat → Int

/-- Modelled from the spec: a matrix as its constructor leaves it, every entry 0. -/
def VortexTransitionMatrix.zero (n0 n1 : Nat) : VortexTransitionMatrix := ⟨n0, n1, fun _ _ => 0⟩

/-- Modelled from the spec: the increment `tm(i, j) ++`. -/
def VortexTransitionMatrix.incr (tm : VortexTransitionMatrix) (i j : Nat) :
    VortexTransitionMatrix :=
  ⟨tm.n0, tm.n1, fun a b => if a = i ∧ b = j then tm.entry a b + 1 else tm.entry a b⟩

/-- The member variables of `VortexExtractor` that the extraction reads and writes. The
mesh graph of the data set is passed to the operations separately. -/
structure VortexExtractor where
  _gauge : Bool
  _archive : Bool
  _punctured_edges : StdMap PuncturedEdge
  _punctured_faces : StdMap PuncturedFace
  _punctured_faces1 : StdMap PuncturedFace
  _punctured_cells : StdMap PuncturedCell
  _punctured_cells1 : StdMap PuncturedCell
  _punctured_vcells : StdMap PuncturedCell
  _related_faces : StdMap (List Nat)
  _vortex_objects : List VortexObject
  _vortex_objects1 : List VortexObject
  _vortex_lines : List VortexLine
  _vortex_lines1 : List VortexLine
  _vortex_transition : List VortexTransitionMatrix

/-- The operation `TraceOverSpace(slot)`: the object list of the slot is cleared, then the
punctured cells of the slot are consumed component by component. -/
def TraceOverSpace (isSpecial : PuncturedCell → Bool) (mg : MeshGraph) (fuel : Nat) (slot : Int)
    (st : VortexExtractor) : Option VortexExtractor :=
  match spaceLoop isSpecial mg fuel
      ⟨if slot = 0 then st._punctured_cells else st._punctured_cells1, []⟩ with
  | none => none
  | some r =>
    if slot = 0 then
      some { st with _punctured_cells := r.pcs, _vortex_objects := r.vobjs }
    else
      some { st with _punctured_cells1 := r.pcs, _vortex_objects1 := r.vobjs }

/-- The object list `TraceOverSpace(slot)` works on. -/
def VortexExtractor.vobjs (st : VortexExtractor) (slot : Int) : List VortexObject :=
  if slot = 0 then st._vortex_objects else st._vortex_objects1

/-- The punctured-cell map `TraceOverSpace(slot)` works on. -/
def VortexExtractor.pcs (st : VortexExtractor) (slot : Int) : StdMap PuncturedCell :=
  if slot = 0 then st._punctured_cells else st._punctured_cells1

/-! ## `RelateOverTime` -/

/-- An entry of the three parallel lists `faces_to_visit`, `faces_to_visit_chirality` and
`faces_to_visit_time`, which are always pushed and popped together. -/
structure Visit where
  face : Nat
  chirality : Int
  time : Double
deriving DecidableEq, Repr

/-- The variables of the search of one seed in `RelateOverTime`. The maps `parent_map` and
`parent_edge_map` are only written (their readers are compiled out) and are left out. -/
structure RelateState where
  to_visit : List Visit
  faces_visited : StdSet
  edges_visited : StdSet
  related : List Nat
deriving DecidableEq, Repr

/-- The loop over `edge.contained_faces`: every face not yet visited goes to the front of the
lists, with chirality `-edge.contained_faces_chirality[j] * pe.chirality` and time `pe.t`.
`j` is the loop index of the head of the face list. -/
def pushFaces (faces_visited : StdSet) (edge : CEdge) (pe : PuncturedEdge) :
    List Nat → Nat → List Visit → List Visit
  | [], _, q => q
  | f :: rest, j, q =>
    if f ∉ faces_visited then
      pushFaces faces_visited edge pe rest (j + 1)
        (⟨f, -(edge.contained_faces_chirality.getD j 0) * pe.chirality, pe.t⟩ :: q)
    else
      pushFaces faces_visited edge pe rest (j + 1) q

/-- The loop over `face.edges` (add neighbours): an edge that is punctured and not yet
traversed is marked traversed, and when the chirality propagates its faces are pushed.
`i` is the loop index of the head of the edge list. -/
def edgeFor (mg : MeshGraph) (pes : StdMap PuncturedEdge) (face : CFace)
    (current_chirality : Int) (faces_visited : StdSet) :
    List Nat → Nat → StdSet × List Visit → StdSet × List Visit
  | [], _, s => s
  | e :: rest, i, s =>
    match StdMap.find pes e with
    | none => edgeFor mg pes face current_chirality faces_visited rest (i + 1) s
    | some pe =>
      if e ∉ s.1 then
        let edge := mg.Edge e
        let echirality := face.edges_chirality.getD i 0 * pe.chirality
        if current_chirality = echirality then
          edgeFor mg pes face current_chirality faces_visited rest (i + 1)
            (StdSet.insert s.1 e, pushFaces faces_visited edge pe edge.contained_faces 0 s.2)
        else
          edgeFor mg pes face current_chirality faces_visited rest (i + 1)
            (StdSet.insert s.1 e, s.2)
      else
        edgeFor mg pes face current_chirality faces_visited rest (i + 1) s

/-- The test `_punctured_faces1.find(current) != end && chirality == current_chirality`. -/
def matchesAtT1 (pfs1 : StdMap PuncturedFace) (current : Nat) (current_chirality : Int) : Bool :=
  match StdMap.find pfs1 current with
  | none => false
  | some pf => decide (pf.chirality = current_chirality)

/-- One iteration of `while (!faces_to_visit.empty())` for the front entry. -/
def relateStep (mg : MeshGraph) (pes : StdMap PuncturedEdge) (pfs1 : StdMap PuncturedFace)
    (cur : Visit) (rest : List Visit) (s : RelateState) : RelateState :=
  let faces_visited := StdSet.insert s.faces_visited cur.face
  let related := if matchesAtT1 pfs1 cur.face cur.chirality then s.related ++ [cur.face]
    else s.related
  let face := mg.Face cur.face
  let r := edgeFor mg pes face cur.chirality faces_visited face.edges 0 (s.edges_visited, rest)
  ⟨r.2, faces_visited, r.1, related⟩

/-- The search `while (!faces_to_visit.empty())` of one seed. -/
def relateLoop (mg : MeshGraph) (pes : StdMap PuncturedEdge) (pfs1 : StdMap PuncturedFace) :
    Nat → RelateState → Option RelateState
  | 0, _ => none
  | fuel + 1, s =>
    match s.to_visit with
    | [] => some s
    | cur :: rest => relateLoop mg pes pfs1 fuel (relateStep mg pes pfs1 cur rest s)

/-- The search started from the seed face `fid` punctured at t0 with chirality `chi`. -/
def relateSeed (mg : MeshGraph) (pes : StdMap PuncturedEdge) (pfs1 : StdMap PuncturedFace)
    (fuel : Nat) (fid : Nat) (chi : Int) : Option (List Nat) :=
  match relateLoop mg pes pfs1 fuel ⟨[⟨fid, chi, some 0⟩], [], [], []⟩ with
  | none => none
  | some r => some r.related

/-- The loop of `RelateOverTime` over the faces punctured at t0, in key order. -/
def relateSeeds (mg : MeshGraph) (pes : StdMap PuncturedEdge) (pfs1 : StdMap PuncturedFace)
    (fuel : Nat) : List (Nat × PuncturedFace) → StdMap (List Nat) → Option (StdMap (List Nat))
  | [], rel => some rel
  | (fid, pf) :: rest, rel =>
    match relateSeed mg pes pfs1 fuel fid pf.chirality with
    | none => none
    | some related => relateSeeds mg pes pfs1 fuel rest (StdMap.insert rel fid related)

/-- The operation `RelateOverTime()`. -/
def RelateOverTime (mg : MeshGraph) (fuel : Nat) (st : VortexExtractor) : Option VortexExtractor :=
  match relateSeeds mg st._punctured_edges st._punctured_faces1 fuel st._punctured_faces [] with
  | none => none
  | some rel => some { st with _related_faces := rel }

/-! ## `TraceOverTime` -/

/-- The loop over `related` (index `k`): whether some related face lies in `faces1`. -/
def relatedHit (faces1 : StdSet) : List Nat → Bool
  | [] => false
  | g :: rest => if g ∈ faces1 then true else relatedHit faces1 rest

/-- The loop over the member faces of object `i`: each face reads `_related_faces[*it]`
(which inserts an empty list for a missing key); the scan stops at the first hit
(`goto next`). Returns whether `tm(i, j)` is incremented and the related-face map. -/
def scanFaces (faces1 : StdSet) : List Nat → StdMap (List Nat) → Bool × StdMap (List Nat)
  | [], rel => (false, rel)
  | f :: rest, rel =>
    let r := StdMap.index rel [] f
    if relatedHit faces1 r.1 then (true, r.2) else scanFaces faces1 rest r.2

/-- The body of the loop over `j` for fixed `i`. -/
def transitionCell (vobjs0 vobjs1 : List VortexObject) (i j : Nat)
    (s : VortexTransitionMatrix × StdMap (List Nat)) : VortexTransitionMatrix × StdMap (List Nat) :=
  let r := scanFaces (vobjs1.getD j VortexObject.empty).faces
    (vobjs0.getD i VortexObject.empty).faces s.2
  (if r.1 then s.1.incr i j else s.1, r.2)

/-- The loops `for i < n0`, `for j < n1` of `TraceOverTime`. -/
def transitionLoops (vobjs0 vobjs1 : List VortexObject)
    (s : VortexTransitionMatrix × StdMap (List Nat)) : VortexTransitionMatrix × StdMap (List Nat) :=
  (List.range vobjs0.length).foldl
    (fun s i => (List.range vobjs1.length).foldl (fun s j => transitionCell vobjs0 vobjs1 i j s) s) s

/-- The operation `TraceOverTime()`: relate the faces over time, fill the matrix and add it
to the transition history. Writing the matrix to a file is not modelled. -/
def TraceOverTime (mg : MeshGraph) (fuel : Nat) (st : VortexExtractor) : Option VortexExtractor :=
  match RelateOverTime mg fuel st with
  | none => none
  | some st1 =>
    let r := transitionLoops st1._vortex_objects st1._vortex_objects1
      (VortexTransitionMatrix.zero st1._vortex_objects.length st1._vortex_objects1.length,
        st1._related_faces)
    some { st1 with _related_faces := r.2, _vortex_transition := st1._vortex_transition ++ [r.1] }

/-! ## Recording punctures -/

/-- The loop of `AddPuncturedEdge` over `edge.contained_faces`: the side slot `eid + 2` of the
virtual cell of each containing face is set to `chirality * echirality`. `i` is the loop
index of the head of the face list. -/
def vfaceLoop (edge : CEdge) (chirality : ChiralityType) :
    List Nat → Nat → StdMap PuncturedCell → StdMap PuncturedCell
  | [], _, vcells => vcells
  | f :: rest, i, vcells =>
    let echirality := edge.contained_faces_chirality.getD i 0
    let eid := edge.contained_faces_eid.getD i 0
    let r := StdMap.index vcells PuncturedCell.empty f
    vfaceLoop edge chirality rest (i + 1)
      (StdMap.insert r.2 f (r.1.SetChirality (eid + 2) (chirality * echirality)))

/-- The operation `AddPuncturedEdge(id, chirality, t)`. -/
def AddPuncturedEdge (mg : MeshGraph) (id : Nat) (chirality : ChiralityType) (t : Double)
    (st : VortexExtractor) : VortexExtractor :=
  { st with
    _punctured_edges := StdMap.insert st._punctured_edges id ⟨chirality, t⟩,
    _punctured_vcells :=
      vfaceLoop (mg.Edge id) chirality (mg.Edge id).contained_faces 0 st._punctured_vcells }

/-- The loop of `AddPuncturedFace` over `face.contained_cells`: the boundary sentinel is
skipped, otherwise slot `fid` of the cell is set to `chirality * fchirality`. `i` is the loop
index of the head of the cell list. -/
def cellLoop (face : CFace) (chirality : ChiralityType) :
    List Nat → Nat → StdMap PuncturedCell → StdMap PuncturedCell
  | [], _, cells => cells
  | cid :: rest, i, cells =>
    if cid = UINT_MAX then cellLoop face chirality rest (i + 1) cells
    else
      let fchirality := face.contained_cells_chirality.getD i 0
      let fid := face.contained_cells_fid.getD i 0
      let r := StdMap.index cells PuncturedCell.empty cid
      cellLoop face chirality rest (i + 1)
        (StdMap.insert r.2 cid (r.1.SetChirality fid (chirality * fchirality)))

/-- The operation `AddPuncturedFace(id, slot, chirality, pos)`. -/
def AddPuncturedFace (mg : MeshGraph) (id : Nat) (slot : Int) (chirality : ChiralityType)
    (pos : Double × Double × Double) (st : VortexExtractor) : VortexExtractor :=
  let r := StdMap.index st._punctured_vcells PuncturedCell.empty id
  let vc := if slot = 0 then r.1.SetChirality 0 (-chirality) else r.1.SetChirality 1 chirality
  let vcells := StdMap.insert r.2 id vc
  let face := mg.Face id
  if slot = 0 then
    { st with
      _punctured_faces := StdMap.insert st._punctured_faces id ⟨chirality, pos⟩,
      _punctured_vcells := vcells,
      _punctured_cells := cellLoop face chirality face.contained_cells 0 st._punctured_cells }
  else
    { st with
      _punctured_faces1 := StdMap.insert st._punctured_faces1 id ⟨chirality, pos⟩,
      _punctured_vcells := vcells,
      _punctured_cells1 := cellLoop face chirality face.contained_cells 0 st._punctured_cells1 }

/-! ## The puncture detector -/

/-- The constant `M_PI` of the C library: the exact value of the `double`. -/
def M_PI : ℚ := 884279719003555 / 281474976710656

/-- Modelled from the spec: `mod2pi1` (declared in `common/Utils.hpp`, which is not part of
the sources) reduces an angle to the canonical range (-pi, pi]. The detector below takes the
range reduction as the parameter `reduce`; this function is the instance of the examples. -/
def mod2pi1 (x : ℚ) : ℚ := x - 2 * M_PI * ⌈(x - M_PI) / (2 * M_PI)⌉

/-- The integer nearest to `q`; a tie goes to the even neighbour. -/
def roundEven (q : ℚ) : ℤ :=
  if q - ⌊q⌋ < 1 / 2 then ⌊q⌋
  else if 1 / 2 < q - ⌊q⌋ then ⌊q⌋ + 1
  else if ⌊q⌋ % 2 = 0 then ⌊q⌋ else ⌊q⌋ + 1

/-- The `double` nearest to `x`: rounding to nearest, ties to even, of IEEE 754 binary64 (a
significand of 53 bits). The exponent range is not modelled: no overflow and no subnormal
numbers. The detector below takes the rounding of its arithmetic as the parameter `fl`; this
function is the instance of the examples. -/
def roundDouble (x : ℚ) : ℚ :=
  if x = 0 then 0
  else roundEven (x / 2 ^ (Int.log 2 |x| - 52)) * 2 ^ (Int.log 2 |x| - 52)

/-- The rationals that are values of a `double` (IEEE 754 binary64, subnormal numbers
included): an integer of magnitude below 2^53 times a power of two whose exponent lies
between -1074 and 971. -/
def IsDouble (x : ℚ) : Prop :=
  ∃ m k : ℤ, |m| < 2 ^ 53 ∧ -1074 ≤ k ∧ k ≤ 971 ∧ x = m * 2 ^ k

/-- What the data set and `atan2` deliver for one space-time edge. The arrays `re` and `im`
are declared with three elements (`double re[3], im[3]`) and the loops of the code index
them with `i = 0..3`: `phi0`, `phi1`, `phi2` are the phases `atan2(im[i], re[i])` of the
elements in range, and `past` is the phase the code computes from the reads `re[3]`, `im[3]`
past the end of the arrays. Those reads are undefined in the source; the model takes what
they yield as given and takes every access past the end to leave the other variables alone.
`li0`, `li2` are the line integrals `li[0]`, `li[2]` and `qp0`, `qp2` the periodic-wrap terms
`qp[0]`, `qp[2]` (the entries 1 and 3 of `li` and `qp` are 0 in the code). All values are
finite: not-a-number and infinities are not modelled. -/
structure EdgeSample where
  phi0 : ℚ
  phi1 : ℚ
  phi2 : ℚ
  past : ℚ
  li0 : ℚ
  li2 : ℚ
  qp0 : ℚ
  qp2 : ℚ

/-- The array `phi[4]` of `ExtractSpaceTimeEdge`: `phi[i] = atan2(im[i], re[i])`, where
index 3 is past the end of `re` and `im`. -/
def EdgeSample.phi (s : EdgeSample) (i : Nat) : ℚ :=
  match i with
  | 0 => s.phi0
  | 1 => s.phi1
  | 2 => s.phi2
  | _ => s.past

/-- The corrected phase differences `delta[0..3]` of `ExtractSpaceTimeEdge`. `fl` is the
rounding of `double` arithmetic, applied to the result of every subtraction and addition,
and `reduce` stands for `mod2pi1`. -/
def edgeDelta (fl reduce : ℚ → ℚ) (gauge : Bool) (s : EdgeSample) : ℚ × ℚ × ℚ × ℚ :=
  let d0 := fl (s.phi 1 - s.phi 0)
  let d1 := fl (s.phi 2 - s.phi 1)
  let d2 := fl (s.phi 3 - s.phi 2)
  let d3 := fl (s.phi 0 - s.phi 3)
  if gauge then
    (reduce (fl (fl (d0 - s.li0) + s.qp0)), reduce (fl (fl (d1 - 0) + 0)),
      reduce (fl (fl (d2 - s.li2) + s.qp2)), reduce (fl (fl (d3 - 0) + 0)))
  else
    (reduce (fl (d0 + s.qp0)), reduce (fl (d1 + 0)),
      reduce (fl (d2 + s.qp2)), reduce (fl (d3 + 0)))

/-- The value `critera = phase_shift / (2*M_PI)` of `ExtractSpaceTimeEdge`, with
`phase_shift = -(delta[0] + delta[1] + delta[2] + delta[3])`: the three additions (from the
left) and the division are rounded by `fl`; the negation and the constant `2*M_PI` (a
doubling) are exact in `double`. -/
def edgeCritera (fl : ℚ → ℚ) (delta : ℚ × ℚ × ℚ × ℚ) : ℚ :=
  fl (-(fl (fl (fl (delta.1 + delta.2.1) + delta.2.2.1) + delta.2.2.2)) / (2 * M_PI))

/-- The chirality decision of `ExtractSpaceTimeEdge`; `none` is the early `return`. -/
def edgeChirality (critera : ℚ) : Option ChiralityType :=
  if critera > 1 / 2 then some 1
  else if critera < -(1 / 2) then some (-1)
  else none

/-- The function `FindSpaceTimeEdgeZero`: the arguments are the results of the bilinear and of
the barycentric solver (`none` when the solver fails, else the point `p`); the result is the
time `p[1]`, or `none` when both fail. -/
def FindSpaceTimeEdgeZero (bilinear barycentric : Option (ℚ × ℚ)) : Option ℚ :=
  match bilinear with
  | some p => some p.2
  | none =>
    match barycentric with
    | some p => some p.2
    | none => none

/-- The operation `ExtractSpaceTimeEdge(id)`. `fl` is the rounding of `double` arithmetic and
`reduce` stands for `mod2pi1`; `valid` is the result of `e.Valid()`, `smp` what the data set
delivers for the edge, `bilinear` and `barycentric` the results of the two zero solvers on
the samples. The gauge transformation between the decision and the solvers rewrites `phi`,
`re` and `im` (with gauge correction on it writes `re[3]` and `im[3]`, past the end of the
arrays); it reaches the recorded puncture only through the solver results, which are
arguments here. -/
def ExtractSpaceTimeEdge (fl reduce : ℚ → ℚ) (mg : MeshGraph) (valid : Bool) (smp : EdgeSample)
    (bilinear barycentric : Option (ℚ × ℚ)) (id : Nat) (st : VortexExtractor) : VortexExtractor :=
  if !valid then st
  else
    match edgeChirality (edgeCritera fl (edgeDelta fl reduce st._gauge smp)) with
    | none => st
    | some chirality =>
      match FindSpaceTimeEdgeZero bilinear barycentric with
      | some t => AddPuncturedEdge mg id chirality (some t) st
      | none => AddPuncturedEdge mg id chirality none st

/-- What the data set and `atan2` deliver for one face with `nnodes` corners: the phase of
each corner, and for each side `i` the line integral and the periodic-wrap term. All values
are finite: not-a-number and infinities are not modelled. -/
structure FaceSample where
  nnodes : Nat
  phi : List ℚ
  li : List ℚ
  qp : List ℚ

/-- The corrected phase difference `delta[i]` of `ExtractFace`. `fl` is the rounding of
`double` arithmetic, applied to the result of every subtraction and addition, and `reduce`
stands for `mod2pi1`. -/
def faceDelta (fl reduce : ℚ → ℚ) (gauge : Bool) (s : FaceSample) (i : Nat) : ℚ :=
  let j := (i + 1) % s.nnodes
  let delta := fl (s.phi.getD j 0 - s.phi.getD i 0)
  if gauge then reduce (fl (fl (delta - s.li.getD i 0) + s.qp.getD i 0))
  else reduce (fl (delta + s.qp.getD i 0))

/-- The value `phase_shift` of `ExtractFace`: each corrected difference is subtracted, and
each subtraction is rounded by `fl`. -/
def facePhaseShift (fl reduce : ℚ → ℚ) (gauge : Bool) (s : FaceSample) : ℚ :=
  (List.range s.nnodes).foldl
    (fun phase_shift i => fl (phase_shift - faceDelta fl reduce gauge s i)) 0

/-- The value `critera = phase_shift / (2*M_PI)` of `ExtractFace`: the division is rounded
by `fl`, the constant `2*M_PI` (a doubling) is exact in `double`. -/
def faceCritera (fl reduce : ℚ → ℚ) (gauge : Bool) (s : FaceSample) : ℚ :=
  fl (facePhaseShift fl reduce gauge s / (2 * M_PI))

/-- The decision of `ExtractFace` on `critera`; `none` is the early `return`. -/
def faceChirality (critera : ℚ) : Option ChiralityType :=
  if |critera| < 1 / 2 then none
  else some (if critera > 0 then 1 else -1)

/-- The operation `ExtractFace(id, slot)`. `fl` is the rounding of `double` arithmetic and
`reduce` stands for `mod2pi1`; `valid` is the result of `f.Valid()`, `smp` what the data set
delivers for the face, `zero` the result of `FindFaceZero` (`none` when it fails, else the
position). The gauge transformation between the decision and `FindFaceZero` reaches the
recorded puncture only through `zero`. -/
def ExtractFace (fl reduce : ℚ → ℚ) (mg : MeshGraph) (valid : Bool) (smp : FaceSample)
    (zero : Option (ℚ × ℚ × ℚ)) (id : Nat) (slot : Int) (st : VortexExtractor) :
    VortexExtractor :=
  if !valid then st
  else
    match faceChirality (faceCritera fl reduce st._gauge smp) with
    | none => st
    | some chirality =>
      match zero with
      | some pos => AddPuncturedFace mg id slot chirality (some pos.1, some pos.2.1, some pos.2.2) st
      | none => AddPuncturedFace mg id slot chirality (none, none, none) st

/-! ## Predicates, invariants and example data of the theorems -/

/-- The member-face set holds exactly the faces of the finished traces and of the trace
under construction. -/
def FacesMatch (faces : StdSet) (traces : List (List Nat)) (trace : List Nat) : Prop :=
  ∀ f, f ∈ faces ↔ (∃ t ∈ traces, f ∈ t) ∨ f ∈ trace

/-- Every object of the list satisfies `P` at its position. -/
def AllAt (P : Nat → VortexObject → Prop) (vobjs : List VortexObject) : Prop :=
  ∀ k (h : k < vobjs.length), P k (vobjs.get ⟨k, h⟩)

/-- The number of keys that are not in the visited set. -/
def unvisited (keys : List Nat) (visited : StdSet) : Nat :=
  keys.countP (fun k => decide (k ∉ visited))

/-- Every cell waiting in `to_visit` is a key of `pcs`. -/
def SearchInv (s : SearchState) : Prop :=
  ∀ c ∈ s.to_visit, (StdMap.find s.pcs c).isSome = true

/-- The length of the longest prefix of the queue made of visited cells. -/
def prefixLen (visited : StdSet) : List Nat → Nat
  | [] => 0
  | c :: r => if c ∈ visited then prefixLen visited r + 1 else 0

/-- The related list recorded for face `f`: what `_related_faces[f]` reads. -/
def relatedOf (rel : StdMap (List Nat)) (f : Nat) : List Nat := (StdMap.find rel f).getD []

/-- Whether some member face of the first set has a related face in the second set. -/
def overlaps (R : Nat → List Nat) (faces0 faces1 : List Nat) : Bool :=
  faces0.any (fun f => relatedHit faces1 (R f))

/-- The member-face set of the object at position `i`. -/
def facesAt (vobjs : List VortexObject) (i : Nat) : StdSet :=
  (vobjs.getD i VortexObject.empty).faces

/-- The distinct pairs `(f, g)` with `f` a member face of the first object, `g` a member face
of the second object and `g` recorded as related to `f`. -/
def overlapPairs (R : Nat → List Nat) (faces0 faces1 : List Nat) : List (Nat × Nat) :=
  faces0.dedup.flatMap (fun f => ((R f).dedup.filter (fun g => decide (g ∈ faces1))).map
    (fun g => (f, g)))

/-- A mesh of two faces without edges, for the transition examples. -/
def pairMesh : MeshGraph := ⟨[], [], []⟩

/-- A state whose faces 1 and 2 are punctured at t0 and at t1 with equal chirality; one
object at each time step holds both faces. -/
def pairState : VortexExtractor :=
  { _gauge := false, _archive := false, _punctured_edges := [],
    _punctured_faces := [(1, ⟨1, (some 0, some 0, some 0)⟩), (2, ⟨1, (some 0, some 0, some 0)⟩)],
    _punctured_faces1 := [(1, ⟨1, (some 0, some 0, some 0)⟩), (2, ⟨1, (some 0, some 0, some 0)⟩)],
    _punctured_cells := [], _punctured_cells1 := [], _punctured_vcells := [],
    _related_faces := [],
    _vortex_objects := [⟨0, 0, 0, [1, 2], [[1, 2]]⟩],
    _vortex_objects1 := [⟨0, 0, 0, [1, 2], [[1, 2]]⟩],
    _vortex_lines := [], _vortex_lines1 := [], _vortex_transition := [] }

/-- The chirality `chi` is one the search carries to face `g` through a punctured edge: `g` is
the face at some position `j` of a punctured edge and
`chi = -contained_faces_chirality[j] * pe.chirality`. -/
def CarriedThroughEdge (mg : MeshGraph) (pes : StdMap PuncturedEdge) (g : Nat) (chi : Int) :
    Prop :=
  ∃ e pe j, StdMap.find pes e = some pe ∧ (mg.Edge e).contained_faces[j]? = some g ∧
    chi = -((mg.Edge e).contained_faces_chirality.getD j 0) * pe.chirality

/-- Face `g` may stand in the related list of the seed `s` (punctured at t0 with chirality
`chi0`): it is punctured at t1 and its chirality at t1 is the one the search carried to it. -/
def RelatedOk (mg : MeshGraph) (pes : StdMap PuncturedEdge) (pfs1 : StdMap PuncturedFace)
    (s : Nat) (chi0 : Int) (g : Nat) : Prop :=
  ∃ pf1, StdMap.find pfs1 g = some pf1 ∧
    ((g = s ∧ pf1.chirality = chi0) ∨ (g ≠ s ∧ CarriedThroughEdge mg pes g pf1.chirality))

/-- The invariant of the search of seed `s` once the seed itself has been popped. -/
def RelateInv (mg : MeshGraph) (pes : StdMap PuncturedEdge) (pfs1 : StdMap PuncturedFace)
    (s : Nat) (chi0 : Int) (st : RelateState) : Prop :=
  s ∈ st.faces_visited ∧
  (∀ v ∈ st.to_visit, v.face ≠ s ∧ CarriedThroughEdge mg pes v.face v.chirality) ∧
  (∀ g ∈ st.related, RelatedOk mg pes pfs1 s chi0 g) ∧
  (s ∈ st.related ↔ matchesAtT1 pfs1 s chi0 = true)

/-- A state without punctures or objects, gauge correction off. -/
def emptyState : VortexExtractor :=
  { _gauge := false, _archive := false, _punctured_edges := [], _punctured_faces := [],
    _punctured_faces1 := [], _punctured_cells := [], _punctured_cells1 := [],
    _punctured_vcells := [], _related_faces := [], _vortex_objects := [],
    _vortex_objects1 := [], _vortex_lines := [], _vortex_lines1 := [],
    _vortex_transition := [] }

/-- The punctured-face map of a slot. -/
def VortexExtractor.pfs (st : VortexExtractor) (slot : Int) : StdMap PuncturedFace :=
  if slot = 0 then st._punctured_faces else st._punctured_faces1

/-- The winding of the claims about the edge detector, as `double` arithmetic yields it: the
sum of the four corrected, range-reduced phase differences (added from the left, each
addition rounded by `fl`) divided by 2 pi (the division rounded by `fl`). -/
def edgeWinding (fl : ℚ → ℚ) (delta : ℚ × ℚ × ℚ × ℚ) : ℚ :=
  fl (fl (fl (fl (delta.1 + delta.2.1) + delta.2.2.1) + delta.2.2.2) / (2 * M_PI))

/-- The winding number of a loop with the corrected phase differences `deltas`: their exact
sum divided by 2 pi. -/
def loopWinding (deltas : List ℚ) : ℚ := deltas.sum / (2 * M_PI)

/-- The corrected phase differences of a face, side by side. -/
def faceDeltas (fl reduce : ℚ → ℚ) (gauge : Bool) (s : FaceSample) : List ℚ :=
  (List.range s.nnodes).map (faceDelta fl reduce gauge s)

/-- The corrected phase differences of a space-time edge, side by side. -/
def edgeDeltas (fl reduce : ℚ → ℚ) (gauge : Bool) (s : EdgeSample) : List ℚ :=
  [(edgeDelta fl reduce gauge s).1, (edgeDelta fl reduce gauge s).2.1,
    (edgeDelta fl reduce gauge s).2.2.1, (edgeDelta fl reduce gauge s).2.2.2]

/-- Four samples whose phase advances by a quarter turn from each to the next:
0, pi/2, pi, -pi/2 (the last one being what the code reads at index 3); no line integral and
no periodic-wrap term. -/
def quarterTurnEdge : EdgeSample :=
  { phi0 := 0, phi1 := M_PI / 2, phi2 := M_PI, past := -(M_PI / 2),
    li0 := 0, li2 := 0, qp0 := 0, qp2 := 0 }

/-- The position `ExtractFace` stores: the located zero, or three not-a-numbers when
`FindFaceZero` fails. -/
def facePos (zero : Option (ℚ × ℚ × ℚ)) : Double × Double × Double :=
  match zero with
  | some pos => (some pos.1, some pos.2.1, some pos.2.2)
  | none => (none, none, none)

/-- Three samples whose phases are 0, 3 pi/4 and -3 pi/4 (one full positive turn around the
loop); no line integral and no periodic-wrap term. -/
def threeNodeTurn : FaceSample :=
  { nnodes := 3, phi := [0, 3 * M_PI / 4, -(3 * M_PI / 4)], li := [0, 0, 0], qp := [0, 0, 0] }

/-- A face of three nodes with equal phases whose line integrals are pi, 0 and 0: with gauge
correction on the corrected differences are pi, 0 and 0. -/
def halfTurnFace : FaceSample :=
  { nnodes := 3, phi := [0, 0, 0], li := [M_PI, 0, 0], qp := [0, 0, 0] }

/-- The empty state with gauge correction on. -/
def gaugeState : VortexExtractor := { emptyState with _gauge := true }

/-- Four samples of equal phase with the line integrals -pi and -2^-53: with gauge correction
on the corrected differences are pi, 0, 2^-53 and 0, whose exact sum is just above pi. -/
def nearHalfEdge : EdgeSample :=
  { phi0 := 0, phi1 := 0, phi2 := 0, past := 0,
    li0 := -M_PI, li2 := -(1 / 2 ^ 53), qp0 := 0, qp2 := 0 }

/-- A face of three nodes with equal phases whose line integrals are -pi, 2^-53 and 0: with
gauge correction on the corrected differences are pi, -2^-53 and 0, whose exact sum is just
below pi. -/
def nearHalfFace : FaceSample :=
  { nnodes := 3, phi := [0, 0, 0], li := [-M_PI, 1 / 2 ^ 53, 0], qp := [0, 0, 0] }

/-- A face of three nodes with the phases -2, pi - 2 + 2^-52 and 0 (each a `double`), no
line integral and no periodic-wrap term: the exact first difference is pi + 2^-52, half a
unit in the last place above pi. -/
def boundaryFace : FaceSample :=
  { nnodes := 3, phi := [-2, M_PI - 2 + 1 / 2 ^ 52, 0], li := [0, 0, 0], qp := [0, 0, 0] }

/-- A mesh of two faces 0 and 1 that share edge 0, for the relation examples. -/
def sharedEdgeMesh : MeshGraph :=
  ⟨[⟨0, 1, [0, 1], [1, -1], [0, 0]⟩],
    [⟨[], [0], [1], [], [], []⟩, ⟨[], [0], [-1], [], [], []⟩], []⟩

/-- Face 0 is punctured at t0, faces 0 and 1 at t1, and edge 0 is punctured in between. -/
def sharedEdgeState : VortexExtractor :=
  { emptyState with
    _punctured_edges := [(0, ⟨1, some 0⟩)],
    _punctured_faces := [(0, ⟨1, (none, none, none)⟩)],
    _punctured_faces1 := [(0, ⟨1, (none, none, none)⟩), (1, ⟨1, (none, none, none)⟩)] }

/-- The search moves from cell `x` to cell `y`: `y` is a valid neighbour of `x` across a face
with a nonzero chirality slot, and `y` is punctured. -/
def Adjacent (mg : MeshGraph) (pcs0 : StdMap PuncturedCell) (x y : Nat) : Prop :=
  ∃ i pcell, (mg.Cell x).neighbor_cells[i]? = some y ∧ y ≠ UINT_MAX ∧
    StdMap.find pcs0 x = some pcell ∧ pcell.Chirality i ≠ 0 ∧ y ∈ StdMap.keys pcs0

/-- The invariant of the component search over a map `pcs0` without special cells. -/
structure ComponentInv (mg : MeshGraph) (pcs0 : StdMap PuncturedCell) (s : SearchState) :
    Prop where
  pcs_eq : s.pcs = pcs0
  special_nil : s.special_pcells = []
  queue_keys : ∀ x ∈ s.to_visit, x ∈ StdMap.keys pcs0
  ordinary_find : ∀ x, StdMap.find s.ordinary_pcells x
    = if x ∈ s.visited then StdMap.find pcs0 x else none
  closed : ∀ x ∈ s.visited, ∀ y, Adjacent mg pcs0 x y → y ∈ s.visited ∨ y ∈ s.to_visit

/-- The line passes straight through a cell: exactly one slot `a` holds -1 (the line enters
through face `fin`, from the neighbour `prev`), exactly one slot `b` holds +1 (the line leaves
through face `fout`, to the neighbour `next`), every other slot holds 0. -/
def PassThrough (cell : CCell) (pcell : PuncturedCell) (prev next fin fout : Nat) : Prop :=
  ∃ a b, pcell.Chirality a = -1 ∧ pcell.Chirality b = 1 ∧
    (∀ i, i < cell.neighbor_cells.length → i ≠ a → i ≠ b → pcell.Chirality i = 0) ∧
    cell.neighbor_cells[a]? = some prev ∧ cell.neighbor_cells[b]? = some next ∧
    cell.faces.getD a 0 = fin ∧ cell.faces.getD b 0 = fout

/-- A chain of `N` punctured cells `c 0, ..., c (N-1)` with a consistent forward chirality:
the punctured cells are exactly the cells of the chain, none is special, and the line passes
straight through each, entering cell `k` through face `f k` and leaving through face
`f (k+1)`. The line enters the first cell from `lo` and leaves the last cell to `hi`, which
are not punctured cells (the boundary sentinel, for instance). -/
structure StraightChain (isSpecial : PuncturedCell → Bool) (mg : MeshGraph)
    (pcs : StdMap PuncturedCell) (N : Nat) (c f : Nat → Nat) (lo hi : Nat) : Prop where
  pos : 1 ≤ N
  inj : ∀ i j, i < N → j < N → c i = c j → i = j
  keys : ∀ x, x ∈ StdMap.keys pcs ↔ ∃ k, k < N ∧ x = c k
  valid : ∀ k, k < N → c k ≠ UINT_MAX
  lo_out : lo ∉ StdMap.keys pcs
  hi_out : hi ∉ StdMap.keys pcs
  link : ∀ k, k < N → ∃ pcell, StdMap.find pcs (c k) = some pcell ∧ isSpecial pcell = false ∧
    PassThrough (mg.Cell (c k)) pcell (if k = 0 then lo else c (k - 1))
      (if k + 1 = N then hi else c (k + 1)) (f k) (f (k + 1))

/-- A chain of three cells 0, 1, 2 between the faces 10, 11, 12, 13; both ends lie on the
boundary. -/
def chainMesh : MeshGraph :=
  ⟨[], [], [⟨[], [10, 11], [], [UINT_MAX, 1]⟩, ⟨[], [11, 12], [], [0, 2]⟩,
    ⟨[], [12, 13], [], [1, UINT_MAX]⟩]⟩

/-- Each cell of `chainMesh` is entered through its slot 0 and left through its slot 1. -/
def chainState : VortexExtractor :=
  { emptyState with _punctured_cells := [(0, ⟨[-1, 1]⟩), (1, ⟨[-1, 1]⟩), (2, ⟨[-1, 1]⟩)] }

/-- Two separate punctured cells 0 and 1, each passed through between two boundary faces. -/
def twoCellMesh : MeshGraph :=
  ⟨[], [], [⟨[], [20, 21], [], [UINT_MAX, UINT_MAX]⟩, ⟨[], [30, 31], [], [UINT_MAX, UINT_MAX]⟩]⟩

/-- Both cells of `twoCellMesh` are punctured at slot 1 of the extractor. -/
def twoCellState : VortexExtractor :=
  { emptyState with _punctured_cells1 := [(0, ⟨[-1, 1]⟩), (1, ⟨[1, -1]⟩)] }

/-! ## `RotateTimeSteps` and `VortexObjectsToVortexLines` -/

/-- The operation `RotateTimeSteps()`: the slot-0 containers, the punctured edges, the virtual
cells and the related faces are cleared, then the containers of the two slots are swapped. -/
def RotateTimeSteps (st : VortexExtractor) : VortexExtractor :=
  let st1 : VortexExtractor :=
    { st with
      _punctured_faces := [], _punctured_cells := [], _vortex_objects := [],
      _vortex_lines := [], _punctured_edges := [], _punctured_vcells := [],
      _related_faces := [] }
  { st1 with
    _punctured_faces := st1._punctured_faces1, _punctured_faces1 := st1._punctured_faces,
    _punctured_cells := st1._punctured_cells1, _punctured_cells1 := st1._punctured_cells,
    _vortex_objects := st1._vortex_objects1, _vortex_objects1 := st1._vortex_objects,
    _vortex_lines := st1._vortex_lines1, _vortex_lines1 := st1._vortex_lines }

/-- The loop over the faces of one trace in `VortexObjectsToVortexLines`: the three
coordinates of each face are appended to the line; `none` is the failed assertion
`it1 != pfs.end()`. -/
def traceCoords (pfs : StdMap PuncturedFace) : List Nat → List Double → Option (List Double)
  | [], line => some line
  | f :: rest, line =>
    match StdMap.find pfs f with
    | none => none
    | some pf => traceCoords pfs rest (line ++ [pf.pos.1, pf.pos.2.1, pf.pos.2.2])

/-- The loop over the traces of one object in `VortexObjectsToVortexLines`. -/
def tracesCoords (pfs : StdMap PuncturedFace) : List (List Nat) → List Double → Option (List Double)
  | [], line => some line
  | trace :: rest, line =>
    match traceCoords pfs trace line with
    | none => none
    | some line1 => tracesCoords pfs rest line1

/-- The operation `VortexObjectsToVortexLines(pfs, vobjs, vlines, bezier)`: one line per object
is appended to `vlines`; `none` is the failed assertion. The parameter `fit` stands for
`Flattern` followed by `ToBezier`, which are declared in a header that is not part of the
sources. -/
def VortexObjectsToVortexLines (pfs : StdMap PuncturedFace) (bezier : Bool)
    (fit : VortexLine → VortexLine) : List VortexObject → List VortexLine → Option (List VortexLine)
  | [], vlines => some vlines
  | vobj :: rest, vlines =>
    match tracesCoords pfs vobj.traces [] with
    | none => none
    | some coords =>
      let line : VortexLine := ⟨vobj.id, vobj.gid, vobj.timestep, coords⟩
      VortexObjectsToVortexLines pfs bezier fit rest
        (vlines ++ [if bezier then fit line else line])

/-- The three coordinates stored for face `f`, as a list; empty for a face without entry. -/
def faceCoords (pfs : StdMap PuncturedFace) (f : Nat) : List Double :=
  match StdMap.find pfs f with
  | none => []
  | some pf => [pf.pos.1, pf.pos.2.1, pf.pos.2.2]

/-- The line of an object as the claim describes it: the metadata of the object and the
coordinates of the faces of its traces, trace by trace and face by face. -/
def lineOfObject (pfs : StdMap PuncturedFace) (vobj : VortexObject) : VortexLine :=
  ⟨vobj.id, vobj.gid, vobj.timestep, (vobj.traces.flatten).flatMap (faceCoords pfs)⟩

/-- Every face of every trace of every object has an entry in `pfs`. -/
def TracesCovered (pfs : StdMap PuncturedFace) (vobjs : List VortexObject) : Prop :=
  ∀ vobj ∈ vobjs, ∀ trace ∈ vobj.traces, ∀ f ∈ trace, f ∈ StdMap.keys pfs

/-- The value `m[c].Chirality(j)` reads: slot `j` of the entry of cell `c`, 0 when the cell has
no entry. -/
def slotAt (m : StdMap PuncturedCell) (c j : Nat) : Int :=
  ((StdMap.find m c).getD PuncturedCell.empty).Chirality j

/-- The statement pair `PuncturedCell &pc = m[c]; pc.SetChirality(k, v);`. -/
def writeSlot (m : StdMap PuncturedCell) (c k : Nat) (v : Int) : StdMap PuncturedCell :=
  StdMap.insert (StdMap.index m PuncturedCell.empty c).2 c
    ((StdMap.index m PuncturedCell.empty c).1.SetChirality k v)

/-- Two punctured faces with their positions. -/
def lineFaces : StdMap PuncturedFace :=
  [(10, ⟨1, (some 1, some 2, some 3)⟩), (11, ⟨-1, (some 4, some 5, some 6)⟩)]

/-- One vortex object with the two traces `[10, 11]` and `[11]`. -/
def lineObjects : List VortexObject := [⟨0, 7, 3, [10, 11], [[10, 11], [11]]⟩]

/-- The classification invariant of the component search over the map `pcs0`: the map is not
changed, only keys of it wait in the queue or are visited, and the ordinary and the special map hold exactly
the visited cells whose record is not special, respectively special, with their records. -/
structure ClassInv (isSpecial : PuncturedCell → Bool) (pcs0 : StdMap PuncturedCell)
    (s : SearchState) : Prop where
  pcs_eq : s.pcs = pcs0
  queue_keys : ∀ x ∈ s.to_visit, (StdMap.find pcs0 x).isSome = true
  visited_keys : ∀ x ∈ s.visited, (StdMap.find pcs0 x).isSome = true
  ordinary_find : ∀ x pcell, StdMap.find s.ordinary_pcells x = some pcell ↔
    (x ∈ s.visited ∧ StdMap.find pcs0 x = some pcell ∧ isSpecial pcell = false)
  special_find : ∀ x pcell, StdMap.find s.special_pcells x = some pcell ↔
    (x ∈ s.visited ∧ StdMap.find pcs0 x = some pcell ∧ isSpecial pcell = true)

/-- Two cells sharing face 11: cell 0 lies between the boundary face 10 and face 11, cell 1
has the faces 11, 12, 13 with the boundary behind 12 and 13. -/
def specialMesh : MeshGraph :=
  ⟨[], [], [⟨[], [10, 11], [], [UINT_MAX, 1]⟩,
    ⟨[], [11, 12, 13], [], [0, UINT_MAX, UINT_MAX]⟩]⟩

/-- Cell 0 of `specialMesh` is passed through (slots -1, +1); cell 1 has three punctured
faces. -/
def specialState : VortexExtractor :=
  { emptyState with _punctured_cells := [(0, ⟨[-1, 1]⟩), (1, ⟨[-1, 1, 1]⟩)] }

/-- Face `f` is a face of a punctured cell of `pcs0` that is not special, at a local index
whose chirality slot holds +1 or -1. -/
def FromOrdinary (isSpecial : PuncturedCell → Bool) (mg : MeshGraph)
    (pcs0 : StdMap PuncturedCell) (f : Nat) : Prop :=
  ∃ c pcell i, StdMap.find pcs0 c = some pcell ∧ isSpecial pcell = false ∧
    (pcell.Chirality i = 1 ∨ pcell.Chirality i = -1) ∧
    i < (mg.Cell c).neighbor_cells.length ∧ f = (mg.Cell c).faces.getD i 0

/-- Every entry of `m` is an entry of `pcs0` whose record is not special. -/
def OrdinaryOf (isSpecial : PuncturedCell → Bool) (pcs0 m : StdMap PuncturedCell) : Prop :=
  ∀ c pcell, StdMap.find m c = some pcell →
    StdMap.find pcs0 c = some pcell ∧ isSpecial pcell = false

/-- Every entry of `m` is an entry of `pcs0`. -/
def SubmapOf (pcs0 m : StdMap PuncturedCell) : Prop :=
  ∀ c pcell, StdMap.find m c = some pcell → StdMap.find pcs0 c = some pcell

/-- Every face of every trace of every object of the list satisfies `P`. -/
def TraceFaces (P : Nat → Prop) (vobjs : List VortexObject) : Prop :=
  ∀ v ∈ vobjs, ∀ t ∈ v.traces, ∀ f ∈ t, P f

/-! ## The search of `RelateOverTime` with a log of its pushes -/

/-- One run of the push loop `for (j ...) faces_to_visit.push_front(...)` of the search:
the edge `e` it ran for, the entry `current` being expanded, the loop index `i` of `e` in
`face.edges`, and the entries it put at the front of the lists (front first). The source
records the same facts per pushed face in `parent_map` and `parent_edge_map`. -/
structure PushEvent where
  edge : Nat
  current : Visit
  index : Nat
  pushed : List Visit
deriving DecidableEq, Repr

/-- The loop `edgeFor` with a log: the same loop over `face.edges`, which in addition appends
a `PushEvent` to the log whenever the push loop runs. -/
def edgeForLog (mg : MeshGraph) (pes : StdMap PuncturedEdge) (face : CFace) (cur : Visit)
    (faces_visited : StdSet) :
    List Nat → Nat → (StdSet × List Visit) × List PushEvent →
      (StdSet × List Visit) × List PushEvent
  | [], _, s => s
  | e :: rest, i, s =>
    match StdMap.find pes e with
    | none => edgeForLog mg pes face cur faces_visited rest (i + 1) s
    | some pe =>
      if e ∉ s.1.1 then
        let edge := mg.Edge e
        let echirality := face.edges_chirality.getD i 0 * pe.chirality
        if cur.chirality = echirality then
          edgeForLog mg pes face cur faces_visited rest (i + 1)
            ((StdSet.insert s.1.1 e,
               pushFaces faces_visited edge pe edge.contained_faces 0 s.1.2),
             s.2 ++ [⟨e, cur, i, pushFaces faces_visited edge pe edge.contained_faces 0 []⟩])
        else
          edgeForLog mg pes face cur faces_visited rest (i + 1)
            ((StdSet.insert s.1.1 e, s.1.2), s.2)
      else
        edgeForLog mg pes face cur faces_visited rest (i + 1) s

/-- The iteration `relateStep` with the log. -/
def relateStepLog (mg : MeshGraph) (pes : StdMap PuncturedEdge) (pfs1 : StdMap PuncturedFace)
    (cur : Visit) (rest : List Visit) (s : RelateState × List PushEvent) :
    RelateState × List PushEvent :=
  let faces_visited := StdSet.insert s.1.faces_visited cur.face
  let related := if matchesAtT1 pfs1 cur.face cur.chirality then s.1.related ++ [cur.face]
    else s.1.related
  let face := mg.Face cur.face
  let r := edgeForLog mg pes face cur faces_visited face.edges 0
    ((s.1.edges_visited, rest), s.2)
  (⟨r.1.2, faces_visited, r.1.1, related⟩, r.2)

/-- The search `relateLoop` of one seed with the log. -/
def relateLoopLog (mg : MeshGraph) (pes : StdMap PuncturedEdge) (pfs1 : StdMap PuncturedFace) :
    Nat → RelateState × List PushEvent → Option (RelateState × List PushEvent)
  | 0, _ => none
  | fuel + 1, s =>
    match s.1.to_visit with
    | [] => some s
    | cur :: rest => relateLoopLog mg pes pfs1 fuel (relateStepLog mg pes pfs1 cur rest s)

/-- What holds when the push loop runs for edge `e` at index `i` of the face of `current`:
`e` is punctured, it is the edge at index `i` of that face, the chirality of `current` equals
the local edge chirality times the puncture chirality of `e`, and every entry pushed is a
face that contains `e`, with chirality `-contained_faces_chirality[j] * pe.chirality` and
time `pe.t`. -/
def PushEvent.Good (mg : MeshGraph) (pes : StdMap PuncturedEdge) (ev : PushEvent) : Prop :=
  ∃ pe, StdMap.find pes ev.edge = some pe ∧
    (mg.Face ev.current.face).edges[ev.index]? = some ev.edge ∧
    ev.current.chirality
      = (mg.Face ev.current.face).edges_chirality.getD ev.index 0 * pe.chirality ∧
    ∀ v ∈ ev.pushed, ∃ j, (mg.Edge ev.edge).contained_faces[j]? = some v.face ∧
      v.chirality = -((mg.Edge ev.edge).contained_faces_chirality.getD j 0) * pe.chirality ∧
      v.time = pe.t

/-- The invariant of the log along the search of one seed: no edge is logged twice, and
every logged edge is marked traversed and was logged by a run of the push loop that was
allowed to run. -/
def LogInv (mg : MeshGraph) (pes : StdMap PuncturedEdge) (s : RelateState)
    (L : List PushEvent) : Prop :=
  (L.map (fun ev => ev.edge)).Nodup ∧
  ∀ ev ∈ L, ev.edge ∈ s.edges_visited ∧ PushEvent.Good mg pes ev

/-! ## The graph builder -/

/-- Modelled from the spec: the state of `MeshGraphBuilder_Tet` (the class is declared in
`MeshGraph.h`, its member functions are not part of the sources): the graph under
construction and the two registries from canonical node tuples to edge and face ids. A
registry is a list searched from the front; an assignment puts the new pair in front. -/
structure MeshGraphBuilder_Tet where
  _mg : MeshGraph
  _edge_map : List ((Nat × Nat) × Nat)
  _face_map : List ((Nat × Nat × Nat) × Nat)

/-- Modelled from the spec: a builder over an empty graph with empty registries. -/
def MeshGraphBuilder_Tet.empty : MeshGraphBuilder_Tet := ⟨⟨[], [], []⟩, [], []⟩

/-- Modelled from the spec: `AddEdge(e2, chirality, f, eid)`. The supplied node pair is
brought to its canonical key, with the chirality of the supplied traversal relative to the
key; `canonEdge` stands for that canonicalization, which the sources declare
(`AlternateEdge`) but do not define. An edge already registered under the key gets the
face `f` appended to its contained faces, with the chirality and the local index `eid`; an
unregistered key makes a new edge at the end of the edge array, contained in `f` alone, and
registers it. Returns the edge id and the chirality. -/
def AddEdge (canonEdge : Nat × Nat → (Nat × Nat) × Int) (e2 : Nat × Nat) (f eid : Nat)
    (b : MeshGraphBuilder_Tet) : (Nat × Int) × MeshGraphBuilder_Tet :=
  let kc := canonEdge e2
  match b._edge_map.lookup kc.1 with
  | some id =>
    let edge := b._mg.Edge id
    ((id, kc.2),
      { b with
        _mg := { b._mg with
          edges := b._mg.edges.set id
            { edge with
              contained_faces := edge.contained_faces ++ [f],
              contained_faces_chirality := edge.contained_faces_chirality ++ [kc.2],
              contained_faces_eid := edge.contained_faces_eid ++ [eid] } } })
  | none =>
    let id := b._mg.edges.length
    ((id, kc.2),
      { b with
        _mg := { b._mg with edges := b._mg.edges ++ [⟨kc.1.1, kc.1.2, [f], [kc.2], [eid]⟩] },
        _edge_map := (kc.1, id) :: b._edge_map })

/-- Modelled from the spec: the three node pairs of a face with the ordered nodes
`(n0, n1, n2)`, in the order of their local edge indices. -/
def faceEdges (f3 : Nat × Nat × Nat) : List (Nat × Nat) :=
  [(f3.1, f3.2.1), (f3.2.1, f3.2.2), (f3.2.2, f3.1)]

/-- Modelled from the spec: the edges of a new face `f` are registered one after the other,
the edge at position `i` with local index `i`; the ids and chiralities returned are
collected in order. `i` is the index of the head of the list of node pairs. -/
def addEdges (canonEdge : Nat × Nat → (Nat × Nat) × Int) (f : Nat) :
    List (Nat × Nat) → Nat → List Nat × List Int → MeshGraphBuilder_Tet →
      (List Nat × List Int) × MeshGraphBuilder_Tet
  | [], _, acc, b => (acc, b)
  | e2 :: rest, i, acc, b =>
    let r := AddEdge canonEdge e2 f i b
    addEdges canonEdge f rest (i + 1) (acc.1 ++ [r.1.1], acc.2 ++ [r.1.2]) r.2

/-- Modelled from the spec: `AddFace(f3, chirality, c, fid)`. The supplied node triple is
brought to its canonical key, with the chirality of the supplied ordering relative to the
key; `canonFace` stands for that canonicalization, which the sources declare
(`AlternateFace`) but do not define. A face already registered under the key is completed
by `c` as its second cell (with the local index `fid`) if its second cell is still the
boundary sentinel. An unregistered key makes a new face at the end of the face array: its
nodes are the key, its edges are registered through `AddEdge`, its first cell is `c` with
local index `fid`, its second cell is the boundary sentinel, and the two sides carry the
orientations -1 (cell0) and +1 (cell1); the local index of the absent second cell is
modelled as 0. Returns the face id and the chirality. -/
def AddFace (canonEdge : Nat × Nat → (Nat × Nat) × Int)
    (canonFace : Nat × Nat × Nat → (Nat × Nat × Nat) × Int) (f3 : Nat × Nat × Nat) (c fid : Nat)
    (b : MeshGraphBuilder_Tet) : (Nat × Int) × MeshGraphBuilder_Tet :=
  let kc := canonFace f3
  match b._face_map.lookup kc.1 with
  | some id =>
    let face := b._mg.Face id
    let face1 : CFace :=
      if face.contained_cells.getD 1 UINT_MAX = UINT_MAX then
        { face with
          contained_cells := face.contained_cells.set 1 c,
          contained_cells_fid := face.contained_cells_fid.set 1 fid }
      else face
    ((id, kc.2), { b with _mg := { b._mg with faces := b._mg.faces.set id face1 } })
  | none =>
    let id := b._mg.faces.length
    let r := addEdges canonEdge id (faceEdges kc.1) 0 ([], []) b
    let face : CFace :=
      ⟨[kc.1.1, kc.1.2.1, kc.1.2.2], r.1.1, r.1.2, [c, UINT_MAX], [-1, 1], [fid, 0]⟩
    ((id, kc.2),
      { r.2 with
        _mg := { r.2._mg with faces := r.2._mg.faces ++ [face] },
        _face_map := (kc.1, id) :: r.2._face_map })

/-- Modelled from the spec: the faces of the new cell `c` are added one after the other, the
face at position `i` with local index `i`; the ids and chiralities returned are collected in
order. `i` is the index of the head of the list of node triples. -/
def addFaces (canonEdge : Nat × Nat → (Nat × Nat) × Int)
    (canonFace : Nat × Nat × Nat → (Nat × Nat × Nat) × Int) (c : Nat) :
    List (Nat × Nat × Nat) → Nat → List Nat × List Int → MeshGraphBuilder_Tet →
      (List Nat × List Int) × MeshGraphBuilder_Tet
  | [], _, acc, b => (acc, b)
  | f3 :: rest, i, acc, b =>
    let r := AddFace canonEdge canonFace f3 c i b
    addFaces canonEdge canonFace c rest (i + 1) (acc.1 ++ [r.1.1], acc.2 ++ [r.1.2]) r.2

/-- Modelled from the spec: `AddCell(nodes, neighbors, faces)`. The new cell gets the next
cell id, its faces are added through `AddFace`, which records their ids and chiralities on
the cell, and the neighbour list is stored as given. The construction errors of the spec
(node or cell ids out of range) need the node and cell counts of the whole mesh, which
`AddCell` does not receive; they are not modelled. Returns the cell id. -/
def AddCell (canonEdge : Nat × Nat → (Nat × Nat) × Int)
    (canonFace : Nat × Nat × Nat → (Nat × Nat × Nat) × Int) (nodes neighbors : List Nat)
    (faces : List (Nat × Nat × Nat)) (b : MeshGraphBuilder_Tet) : Nat × MeshGraphBuilder_Tet :=
  let c := b._mg.cells.length
  let r := addFaces canonEdge canonFace c faces 0 ([], []) b
  (c, { r.2 with
    _mg := { r.2._mg with cells := r.2._mg.cells ++ [⟨nodes, r.1.1, r.1.2, neighbors⟩] } })

/-- The arguments of one call of `AddCell`. -/
structure CellInput where
  nodes : List Nat
  neighbors : List Nat
  faces : List (Nat × Nat × Nat)
deriving DecidableEq, Repr

/-- Modelled from the spec: the graph produced by the builder for a mesh given cell by cell:
`AddCell` is applied to each cell in order, starting from the empty builder. -/
def buildGraph (canonEdge : Nat × Nat → (Nat × Nat) × Int)
    (canonFace : Nat × Nat × Nat → (Nat × Nat × Nat) × Int) (cs : List CellInput) : MeshGraph :=
  (cs.foldl (fun b ci => (AddCell canonEdge canonFace ci.nodes ci.neighbors ci.faces b).2)
    MeshGraphBuilder_Tet.empty)._mg

/-- Modelled from the spec: the canonical key of an edge is its node pair in ascending order;
the chirality is +1 when the supplied pair is traversed forward and -1 when reversed. -/
def ascendingEdge (e2 : Nat × Nat) : (Nat × Nat) × Int :=
  if e2.1 ≤ e2.2 then (e2, 1) else ((e2.2, e2.1), -1)

/-- Lexicographic order on node triples. -/
def tripleLe (x y : Nat × Nat × Nat) : Bool :=
  decide (x.1 < y.1) || (decide (x.1 = y.1) &&
    (decide (x.2.1 < y.2.1) || (decide (x.2.1 = y.2.1) && decide (x.2.2 ≤ y.2.2))))

/-- Modelled from the spec: the canonical key of a face is the lexicographically smallest
rotation or reflection of its node triple; the chirality is +1 when the key is a rotation of
the supplied triple and -1 when it is a rotation of its reflection. -/
def smallestFace (f3 : Nat × Nat × Nat) : (Nat × Nat × Nat) × Int :=
  [((f3.2.1, f3.2.2, f3.1), (1 : Int)), ((f3.2.2, f3.1, f3.2.1), 1),
    ((f3.2.2, f3.2.1, f3.1), -1), ((f3.2.1, f3.1, f3.2.2), -1),
    ((f3.1, f3.2.2, f3.2.1), -1)].foldl
    (fun best cand => if tripleLe best.1 cand.1 then best else cand) (f3, 1)

/-- Two tetrahedra `(0, 1, 2, 3)` and `(1, 2, 3, 4)` that share the face `(1, 2, 3)`. -/
def twoTets : List CellInput :=
  [⟨[0, 1, 2, 3], [UINT_MAX, UINT_MAX, UINT_MAX, 1], [(0, 1, 2), (0, 3, 1), (0, 2, 3), (1, 3, 2)]⟩,
    ⟨[1, 2, 3, 4], [0, UINT_MAX, UINT_MAX, UINT_MAX],
      [(1, 2, 3), (1, 4, 2), (1, 3, 4), (2, 4, 3)]⟩]

/-- The cell references of a face as the builder leaves them, for `n` cells: a first cell
`c0` and a second cell `c1` with the orientations -1 and +1; `c0` is a cell, `c1` is a cell or
the boundary sentinel. -/
def FaceRefs (n : Nat) (face : CFace) : Prop :=
  ∃ c0 c1 f0 f1, face.contained_cells = [c0, c1] ∧ face.contained_cells_chirality = [-1, 1] ∧
    face.contained_cells_fid = [f0, f1] ∧ c0 < n ∧ (c1 = UINT_MAX ∨ c1 < n)

/-- The invariant of the builder while a face with the edges `pending` so far is under
construction (`pending = []` between two faces): the faces refer to cells below `n`, the
contained-face lists of an edge have equal lengths, and a face `F` that an edge `e` lists with
local index `i` either is in the graph and lists `e` at index `i`, or is the face under
construction and `pending` lists `e` at index `i`. -/
structure BuildInv (n : Nat) (pending : List Nat) (b : MeshGraphBuilder_Tet) : Prop where
  faces_ok : ∀ face ∈ b._mg.faces, FaceRefs n face
  edges_len : ∀ E ∈ b._mg.edges, E.contained_faces.length = E.contained_faces_eid.length
  edges_ok : ∀ (e : Nat) (E : CEdge), b._mg.edges[e]? = some E →
    ∀ p ∈ E.contained_faces.zip E.contained_faces_eid,
      (∃ face, b._mg.faces[p.1]? = some face ∧ face.edges[p.2]? = some e) ∨
      (p.1 = b._mg.faces.length ∧ pending[p.2]? = some e)

/-- Four cells in a diamond: cell 0 has the neighbours 1 and 2, and both have the neighbour
3. -/
def diamondMesh : MeshGraph :=
  ⟨[], [], [⟨[], [10, 11], [], [1, 2]⟩, ⟨[], [10, 12], [], [0, 3]⟩, ⟨[], [11, 13], [], [0, 3]⟩,
    ⟨[], [12, 13], [], [1, 2]⟩]⟩

/-- All four cells of `diamondMesh` are punctured through both of their faces. -/
def diamondState : VortexExtractor :=
  { emptyState with
    _punctured_cells := [(0, ⟨[1, 1]⟩), (1, ⟨[-1, 1]⟩), (2, ⟨[-1, 1]⟩), (3, ⟨[-1, -1]⟩)] }

/-- A closed loop of three cells 0, 1, 2: face 11 lies between the cells 0 and 1, face 12
between 1 and 2, face 10 between 2 and 0. -/
def loopMesh : MeshGraph :=
  ⟨[], [], [⟨[], [10, 11], [], [2, 1]⟩, ⟨[], [11, 12], [], [0, 2]⟩, ⟨[], [12, 10], [], [1, 0]⟩]⟩

/-- Each cell of `loopMesh` is entered through its slot 0 and left through its slot 1. -/
def loopState : VortexExtractor :=
  { emptyState with _punctured_cells := [(0, ⟨[-1, 1]⟩), (1, ⟨[-1, 1]⟩), (2, ⟨[-1, 1]⟩)] }

/-! ## `RelateOverTime` with the maps threaded through the lookups -/

/-- The test `_punctured_faces1.find(current) != end && _punctured_faces1[current].chirality
== current_chirality` with the map threaded through: the right operand, which reads through
`operator[]`, is evaluated only when the key was found. `dflt` stands for a default
constructed `PuncturedFace`. Returns the outcome and the map afterwards. -/
def matchesAtT1Maps (dflt : PuncturedFace) (pfs1 : StdMap PuncturedFace) (current : Nat)
    (current_chirality : Int) : Bool × StdMap PuncturedFace :=
  match StdMap.find pfs1 current with
  | none => (false, pfs1)
  | some _ =>
    let r := StdMap.index pfs1 dflt current
    (decide (r.1.chirality = current_chirality), r.2)

/-- The loop `edgeFor` with the punctured-edge map threaded through: inside the guard
`_punctured_edges.find(e) != end && edges_visited.find(e) == end` the edge record is read
through `operator[]`. `dflt` stands for a default constructed `PuncturedEdge`. -/
def edgeForMaps (dflt : PuncturedEdge) (mg : MeshGraph) (face : CFace)
    (current_chirality : Int) (faces_visited : StdSet) :
    List Nat → Nat → (StdSet × List Visit) × StdMap PuncturedEdge →
      (StdSet × List Visit) × StdMap PuncturedEdge
  | [], _, s => s
  | e :: rest, i, s =>
    if (StdMap.find s.2 e).isSome = true ∧ e ∉ s.1.1 then
      let edge := mg.Edge e
      let r := StdMap.index s.2 dflt e
      let pe := r.1
      let echirality := face.edges_chirality.getD i 0 * pe.chirality
      if current_chirality = echirality then
        edgeForMaps dflt mg face current_chirality faces_visited rest (i + 1)
          ((StdSet.insert s.1.1 e, pushFaces faces_visited edge pe edge.contained_faces 0 s.1.2),
            r.2)
      else
        edgeForMaps dflt mg face current_chirality faces_visited rest (i + 1)
          ((StdSet.insert s.1.1 e, s.1.2), r.2)
    else
      edgeForMaps dflt mg face current_chirality faces_visited rest (i + 1) s

/-- The iteration `relateStep` with both maps threaded through. -/
def relateStepMaps (dE : PuncturedEdge) (dF : PuncturedFace) (mg : MeshGraph) (cur : Visit)
    (rest : List Visit) (s : RelateState × StdMap PuncturedEdge × StdMap PuncturedFace) :
    RelateState × StdMap PuncturedEdge × StdMap PuncturedFace :=
  let faces_visited := StdSet.insert s.1.faces_visited cur.face
  let m := matchesAtT1Maps dF s.2.2 cur.face cur.chirality
  let related := if m.1 then s.1.related ++ [cur.face] else s.1.related
  let face := mg.Face cur.face
  let r := edgeForMaps dE mg face cur.chirality faces_visited face.edges 0
    ((s.1.edges_visited, rest), s.2.1)
  (⟨r.1.2, faces_visited, r.1.1, related⟩, r.2, m.2)

/-- The search `relateLoop` of one seed with both maps threaded through. -/
def relateLoopMaps (dE : PuncturedEdge) (dF : PuncturedFace) (mg : MeshGraph) :
    Nat → RelateState × StdMap PuncturedEdge × StdMap PuncturedFace →
      Option (RelateState × StdMap PuncturedEdge × StdMap PuncturedFace)
  | 0, _ => none
  | fuel + 1, s =>
    match s.1.to_visit with
    | [] => some s
    | cur :: rest => relateLoopMaps dE dF mg fuel (relateStepMaps dE dF mg cur rest s)

/-- The loop `relateSeeds` over the faces punctured at t0 with both maps threaded through;
the map of the t0 faces is only iterated. -/
def relateSeedsMaps (dE : PuncturedEdge) (dF : PuncturedFace) (mg : MeshGraph) (fuel : Nat) :
    List (Nat × PuncturedFace) →
      StdMap (List Nat) × StdMap PuncturedEdge × StdMap PuncturedFace →
      Option (StdMap (List Nat) × StdMap PuncturedEdge × StdMap PuncturedFace)
  | [], s => some s
  | (fid, pf) :: rest, s =>
    match relateLoopMaps dE dF mg fuel (⟨[⟨fid, pf.chirality, some 0⟩], [], [], []⟩, s.2) with
    | none => none
    | some r => relateSeedsMaps dE dF mg fuel rest (StdMap.insert s.1 fid r.1.related, r.2)

/-- The operation `RelateOverTime()` with the punctured-edge map and the t1 punctured-face
map threaded through every lookup of the search. -/
def RelateOverTimeMaps (dE : PuncturedEdge) (dF : PuncturedFace) (mg : MeshGraph) (fuel : Nat)
    (st : VortexExtractor) : Option VortexExtractor :=
  match relateSeedsMaps dE dF mg fuel st._punctured_faces
      ([], st._punctured_edges, st._punctured_faces1) with
  | none => none
  | some r =>
    some { st with _related_faces := r.1, _punctured_edges := r.2.1, _punctured_faces1 := r.2.2 }

/-- The state `sharedEdgeState` with its other t0 punctured faces changed: the seed face 0
keeps its chirality (its position differs), and the faces 1 and 5 are punctured at t0 as
well. -/
def crowdedState : VortexExtractor :=
  { sharedEdgeState with
    _punctured_faces := [(0, ⟨1, (some 1, some 2, some 3)⟩), (1, ⟨-1, (none, none, none)⟩),
      (5, ⟨1, (none, none, none)⟩)] }

/-! ## Histories of the extractor -/

/-- The mesh condition of the traces: for every face `F` of the graph and every incident cell
`c` of `F` that is not the boundary sentinel, the local index recorded for `F` in `c` points
back to `F` in the face list of `c`. -/
def PointsBack (mg : MeshGraph) : Prop :=
  ∀ F ∈ List.range mg.faces.length,
    ∀ k ∈ List.range (mg.Face F).contained_cells.length,
      (mg.Face F).contained_cells.getD k 0 ≠ UINT_MAX →
      (mg.Cell ((mg.Face F).contained_cells.getD k 0)).faces[
        (mg.Face F).contained_cells_fid.getD k 0]? = some F

/-- Every nonzero chirality slot `i` of a cell `c` in `pcs` belongs to a face that the cell
lists at index `i` and that is a key of `pfs`. -/
def SlotsBacked (mg : MeshGraph) (pfs : StdMap PuncturedFace) (pcs : StdMap PuncturedCell) :
    Prop :=
  ∀ c i, slotAt pcs c i ≠ 0 → ∃ F, F ∈ StdMap.keys pfs ∧ (mg.Cell c).faces[i]? = some F

/-- A call that records punctures or rotates the time steps. -/
inductive ExtractorOp where
  | addFace (id : Nat) (slot : Int) (chirality : ChiralityType) (pos : Double × Double × Double)
  | addEdge (id : Nat) (chirality : ChiralityType) (t : Double)
  | rotate

/-- The effect of one call. -/
def runOp (mg : MeshGraph) : ExtractorOp → VortexExtractor → VortexExtractor
  | ExtractorOp.addFace id slot chirality pos, st => AddPuncturedFace mg id slot chirality pos st
  | ExtractorOp.addEdge id chirality t, st => AddPuncturedEdge mg id chirality t st
  | ExtractorOp.rotate, st => RotateTimeSteps st

/-- The effect of a sequence of calls, first call first. -/
def runOps (mg : MeshGraph) (ops : List ExtractorOp) (st : VortexExtractor) : VortexExtractor :=
  ops.foldl (fun st op => runOp mg op st) st

/-- Two cells 0 and 1 between the faces 0, 1 and 2, with the incidences of the faces: face 1
lies between the two cells, the faces 0 and 2 lie on the boundary. -/
def facedChain : MeshGraph :=
  ⟨[], [⟨[], [], [], [UINT_MAX, 0], [-1, 1], [0, 0]⟩, ⟨[], [], [], [0, 1], [-1, 1], [1, 0]⟩,
      ⟨[], [], [], [1, UINT_MAX], [-1, 1], [1, 0]⟩],
    [⟨[], [0, 1], [], [UINT_MAX, 1]⟩, ⟨[], [1, 2], [], [0, UINT_MAX]⟩]⟩

/-- The three faces of `facedChain` are recorded as punctured for slot 1, then the time steps
are rotated. -/
def facedChainOps : List ExtractorOp :=
  [ExtractorOp.addFace 0 1 (-1) (some 0, some 0, some 0),
    ExtractorOp.addFace 1 1 (-1) (some 1, some 0, some 0),
    ExtractorOp.addFace 2 1 (-1) (some 2, some 0, some 0), ExtractorOp.rotate]

/-- A closed loop of `N >= 2` punctured cells `c 0, ..., c (N-1)`: the punctured cells are
exactly the cells of the loop, none is special, and the line passes straight through each,
entering cell `k` through face `f k` from the previous cell and leaving it through the face
`f (k+1)` to the next cell, where the indices are taken modulo `N`; the faces `f 0, ...,
f (N-1)` are distinct. -/
structure ClosedLoop (isSpecial : PuncturedCell → Bool) (mg : MeshGraph)
    (pcs : StdMap PuncturedCell) (N : Nat) (c f : Nat → Nat) : Prop where
  two : 2 ≤ N
  inj : ∀ i j, i < N → j < N → c i = c j → i = j
  keys : ∀ x, x ∈ StdMap.keys pcs ↔ ∃ k, k < N ∧ x = c k
  valid : ∀ k, k < N → c k ≠ UINT_MAX
  face_inj : ∀ i j, i < N → j < N → f i = f j → i = j
  link : ∀ k, k < N → ∃ pcell, StdMap.find pcs (c k) = some pcell ∧ isSpecial pcell = false ∧
    PassThrough (mg.Cell (c k)) pcell (c ((k + N - 1) % N)) (c ((k + 1) % N)) (f k)
      (f ((k + 1) % N))

/-! ## Predicates and example data of the traces and of the reordered inputs -/

/-- Face `f` is pushed by a walk over the component with the maps `ordinary` and `special`:
it is the face at a local index `i` of an ordinary cell `c` whose chirality slot `i` holds +1
or -1, and the neighbour `n` across it passes the test
`special_pcells.find(cell.neighbor_cells[i]) == special_pcells.end()`. -/
def TracedIn (mg : MeshGraph) (ordinary special : StdMap PuncturedCell) (f : Nat) : Prop :=
  ∃ c pcell i n, StdMap.find ordinary c = some pcell ∧
    (pcell.Chirality i = 1 ∨ pcell.Chirality i = -1) ∧
    (mg.Cell c).neighbor_cells[i]? = some n ∧ f = (mg.Cell c).faces.getD i 0 ∧
    StdMap.find special n = none

/-- Face `f` is a face of a punctured cell `c` of `pcs0` that is not special, at a local index
`i` whose chirality slot holds +1 or -1, and it does not lead into a special cell: when the
neighbour `n` across it is punctured and marks a face towards `c` (both ids valid), `n` is
not special either. -/
def TracedAcross (isSpecial : PuncturedCell → Bool) (mg : MeshGraph)
    (pcs0 : StdMap PuncturedCell) (f : Nat) : Prop :=
  ∃ c pcell i, StdMap.find pcs0 c = some pcell ∧ isSpecial pcell = false ∧
    (pcell.Chirality i = 1 ∨ pcell.Chirality i = -1) ∧
    i < (mg.Cell c).neighbor_cells.length ∧ f = (mg.Cell c).faces.getD i 0 ∧
    ∀ n pn, (mg.Cell c).neighbor_cells[i]? = some n → c ≠ UINT_MAX → n ≠ UINT_MAX →
      StdMap.find pcs0 n = some pn →
      (∃ j, (mg.Cell n).neighbor_cells[j]? = some c ∧ pn.Chirality j ≠ 0) →
      isSpecial pn = false

/-- The cells already consumed from `pcs0` (those no longer in `rest`) have no step of the
component search into a cell that is still in `rest`. -/
def ConsumedClosed (mg : MeshGraph) (pcs0 rest : StdMap PuncturedCell) : Prop :=
  ∀ x y, x ∉ StdMap.keys rest → Adjacent mg pcs0 x y → y ∉ StdMap.keys rest

/-- The inputs of the relation and of the transition build held by `st2` are those of `st`
with the entries of every keyed container stored, hence iterated, in another order: the
punctured-edge map and the two punctured-face maps are permutations of those of `st` (whose
keys are distinct, as in a `std::map`), and the objects of both lists have, position by
position, the same member faces in another order. -/
def Reordered (st st2 : VortexExtractor) : Prop :=
  st2._punctured_edges.Perm st._punctured_edges ∧ (StdMap.keys st._punctured_edges).Nodup ∧
  st2._punctured_faces.Perm st._punctured_faces ∧ (StdMap.keys st._punctured_faces).Nodup ∧
  st2._punctured_faces1.Perm st._punctured_faces1 ∧
  (StdMap.keys st._punctured_faces1).Nodup ∧
  List.Forall₂ (fun v v2 => v2.faces.Perm v.faces) st._vortex_objects st2._vortex_objects ∧
  List.Forall₂ (fun v v2 => v2.faces.Perm v.faces) st._vortex_objects1 st2._vortex_objects1

/-- Over `sharedEdgeMesh`: faces 0 (chirality 1) and 1 (chirality -1) are punctured at t0,
both faces with chirality 1 at t1, edge 0 is punctured in between, and one object at each
time step holds both faces. -/
def relayState : VortexExtractor :=
  { emptyState with
    _punctured_edges := [(0, ⟨1, some 0⟩)],
    _punctured_faces := [(0, ⟨1, (none, none, none)⟩), (1, ⟨-1, (none, none, none)⟩)],
    _punctured_faces1 := [(0, ⟨1, (none, none, none)⟩), (1, ⟨1, (none, none, none)⟩)],
    _vortex_objects := [⟨0, 0, 0, [0, 1], [[0, 1]]⟩],
    _vortex_objects1 := [⟨0, 0, 0, [0, 1], [[0, 1]]⟩] }

/-- The state `relayState` with everything `RelateOverTime` and the transition build do not
read replaced: stale related faces, punctured cells and virtual cells, and the gauge flag
set. -/
def staleRelayState : VortexExtractor :=
  { relayState with
    _gauge := true, _related_faces := [(7, [8, 9])], _punctured_cells := [(0, ⟨[1, -1]⟩)],
    _punctured_vcells := [(3, ⟨[1]⟩)] }

/-- The state `relayState` with the entries of both punctured-face maps and the member faces
of both objects stored in descending order. -/
def shuffledRelayState : VortexExtractor :=
  { emptyState with
    _punctured_edges := [(0, ⟨1, some 0⟩)],
    _punctured_faces := [(1, ⟨-1, (none, none, none)⟩), (0, ⟨1, (none, none, none)⟩)],
    _punctured_faces1 := [(1, ⟨1, (none, none, none)⟩), (0, ⟨1, (none, none, none)⟩)],
    _vortex_objects := [⟨0, 0, 0, [1, 0], [[0, 1]]⟩],
    _vortex_objects1 := [⟨0, 0, 0, [1, 0], [[0, 1]]⟩] }

/-- Two cells whose records do not agree on the face between them: cell 1 has the faces 10
and 20 and lists cell 0 as its neighbour across face 20, while cell 0 (faces 20, 21, 22)
lists no neighbour at all. -/
def oneWayMesh : MeshGraph :=
  ⟨[], [], [⟨[], [20, 21, 22], [], [UINT_MAX, UINT_MAX, UINT_MAX]⟩,
    ⟨[], [10, 20], [], [UINT_MAX, 0]⟩]⟩

/-- Cell 0 of `oneWayMesh` has three punctured faces; cell 1 is passed through (slots -1,
+1). -/
def oneWayState : VortexExtractor :=
  { emptyState with _punctured_cells := [(0, ⟨[-1, 1, 1]⟩), (1, ⟨[-1, 1]⟩)] }

/-! ## Container lemmas -/

theorem StdSet.mem_insert (s : StdSet) (x y : Nat) :
    y ∈ StdSet.insert s x ↔ y = x ∨ y ∈ s := by
  induction s with
  | nil => simp [StdSet.insert]
  | cons a r ih =>
    unfold StdSet.insert
    split_ifs with h1 h2
    · simp
    · subst h2; simp
    · simp only [List.mem_cons, ih]; tauto

theorem StdSet.mem_erase (s : StdSet) (x y : Nat) :
    y ∈ StdSet.erase s x ↔ y ∈ s ∧ y ≠ x := by
  simp [StdSet.erase]

/-! ## Faces and traces of a vortex object -/

theorem walkFor_facesMatch (special : StdMap PuncturedCell) (pcell : PuncturedCell) (cell : CCell)
    (chi : Int) (traces : List (List Nat)) (nbrs : List Nat) :
    ∀ (i : Nat) (s : WalkState), FacesMatch s.faces traces s.trace →
      FacesMatch (walkFor special pcell cell chi nbrs i s).faces traces
        (walkFor special pcell cell chi nbrs i s).trace := by
  induction nbrs with
  | nil => intro i s h; simpa [walkFor] using h
  | cons n rest ih =>
    intro i s h
    unfold walkFor
    by_cases h1 : pcell.Chirality i = chi
    · rw [if_pos h1]
      by_cases h2 : (StdMap.find special n).isNone = true
      · simp only [h2, if_true]
        apply ih
        intro f
        have hf := h f
        by_cases hc : chi = 1
        · simp only [hc, if_true, StdSet.mem_insert, List.mem_append, List.mem_singleton]
          rw [hf]
          generalize (∃ t ∈ traces, f ∈ t) = E
          tauto
        · simp only [hc, if_false, StdSet.mem_insert, List.mem_cons]
          rw [hf]
          generalize (∃ t ∈ traces, f ∈ t) = E
          tauto
      · simp only [h2]
        exact ih _ _ h
    · rw [if_neg h1]
      exact ih _ _ h

theorem walkLoop_facesMatch (mg : MeshGraph) (ordinary special : StdMap PuncturedCell) (chi : Int)
    (traces : List (List Nat)) :
    ∀ (fuel : Nat) (s r : WalkState), walkLoop mg ordinary special chi fuel s = some r →
      FacesMatch s.faces traces s.trace → FacesMatch r.faces traces r.trace := by
  intro fuel
  induction fuel with
  | zero => intro s r h; simp [walkLoop] at h
  | succ fuel ih =>
    intro s r h hs
    unfold walkLoop at h
    split at h
    · cases h; exact hs
    · rename_i pcell _
      by_cases h1 : s.c ∈ s.visited
      · rw [if_pos h1] at h
        cases h; exact hs
      · rw [if_neg h1] at h
        have hw := walkFor_facesMatch special pcell (mg.Cell s.c) chi traces
          (mg.Cell s.c).neighbor_cells 0 ⟨s.c, s.visited, s.faces, s.trace, false⟩ hs
        simp only at h
        split at h
        · exact ih _ _ h hw
        · cases h; exact hw

theorem traceOnce_facesMatch (mg : MeshGraph) (special : StdMap PuncturedCell) (fuel seed : Nat)
    (t r : TraceState) (h : traceOnce mg special fuel seed t = some r)
    (ht : FacesMatch t.vobj.faces t.vobj.traces []) :
    FacesMatch r.vobj.faces r.vobj.traces [] := by
  unfold traceOnce at h
  split at h
  · cases h
  · rename_i fw hfw
    split at h
    · cases h
    · rename_i bw hbw
      cases h
      have h1 := walkLoop_facesMatch mg _ special 1 t.vobj.traces fuel _ _ hfw ht
      have h2 := walkLoop_facesMatch mg _ special (-1) t.vobj.traces fuel _ _ hbw h1
      intro f
      simp only [h2 f, List.mem_append, List.mem_singleton, List.not_mem_nil, or_false]
      constructor
      · rintro (⟨t0, ht0, hf⟩ | hf)
        · exact ⟨t0, Or.inl ht0, hf⟩
        · exact ⟨_, Or.inr rfl, hf⟩
      · rintro ⟨t0, ht0 | rfl, hf⟩
        · exact Or.inl ⟨t0, ht0, hf⟩
        · exact Or.inr hf

theorem traceLoop_facesMatch (mg : MeshGraph) (special : StdMap PuncturedCell) :
    ∀ (fuel : Nat) (t r : TraceState), traceLoop mg special fuel t = some r →
      FacesMatch t.vobj.faces t.vobj.traces [] → FacesMatch r.vobj.faces r.vobj.traces [] := by
  intro fuel
  induction fuel with
  | zero => intro t r h; simp [traceLoop] at h
  | succ fuel ih =>
    intro t r h ht
    unfold traceLoop at h
    split at h
    · cases h; exact ht
    · split at h
      · cases h
      · rename_i t1 ht1
        exact ih _ _ h (traceOnce_facesMatch mg special _ _ _ _ ht1 ht)

theorem spaceOnce_vobjs (isSpecial : PuncturedCell → Bool) (mg : MeshGraph) (fuel first : Nat)
    (s r : SpaceState) (h : spaceOnce isSpecial mg fuel first s = some r) :
    ∃ v, r.vobjs = s.vobjs ++ [v] ∧ v.id = s.vobjs.length ∧ FacesMatch v.faces v.traces [] := by
  unfold spaceOnce at h
  split at h
  · cases h
  · split at h
    · cases h
    · rename_i t ht
      cases h
      refine ⟨_, rfl, rfl, ?_⟩
      apply traceLoop_facesMatch mg _ _ _ _ ht
      intro f
      simp [VortexObject.empty]

theorem AllAt_append (P : Nat → VortexObject → Prop) (vobjs : List VortexObject)
    (v : VortexObject) (h : AllAt P vobjs) (hv : P vobjs.length v) : AllAt P (vobjs ++ [v]) := by
  intro k hk
  by_cases hlt : k < vobjs.length
  · simpa [List.getElem_append_left hlt] using h k hlt
  · have hk2 : k = vobjs.length := by
      simp only [List.length_append, List.length_singleton] at hk
      omega
    subst hk2
    simpa using hv

theorem spaceLoop_allAt (isSpecial : PuncturedCell → Bool) (mg : MeshGraph) :
    ∀ (fuel : Nat) (s r : SpaceState), spaceLoop isSpecial mg fuel s = some r →
      AllAt (fun k v => v.id = k ∧ FacesMatch v.faces v.traces []) s.vobjs →
      AllAt (fun k v => v.id = k ∧ FacesMatch v.faces v.traces []) r.vobjs := by
  intro fuel
  induction fuel with
  | zero => intro s r h; simp [spaceLoop] at h
  | succ fuel ih =>
    intro s r h hs
    unfold spaceLoop at h
    split at h
    · cases h; exact hs
    · split at h
      · cases h
      · rename_i s1 hs1
        obtain ⟨v, hv, hid, hf⟩ := spaceOnce_vobjs isSpecial mg _ _ _ _ hs1
        apply ih _ _ h
        rw [hv]
        exact AllAt_append _ _ _ hs ⟨hid, hf⟩

/-! ## Termination of `TraceOverSpace` -/

theorem unvisited_le (keys : List Nat) (v w : StdSet) (h : ∀ k, k ∈ v → k ∈ w) :
    unvisited keys w ≤ unvisited keys v := by
  unfold unvisited
  apply List.countP_mono_left
  intro x _ hx
  simp only [decide_eq_true_eq] at hx ⊢
  exact fun hv => hx (h x hv)

theorem unvisited_lt (keys : List Nat) (v w : StdSet) (c : Nat) (h : ∀ k, k ∈ v → k ∈ w)
    (hc : c ∈ keys) (hv : c ∉ v) (hw : c ∈ w) : unvisited keys w < unvisited keys v := by
  induction keys with
  | nil => simp at hc
  | cons a r ih =>
    have hle := unvisited_le r v w h
    unfold unvisited at hle ih ⊢
    rw [List.countP_cons, List.countP_cons]
    by_cases hac : a = c
    · subst hac
      simp only [hv, hw, not_false_eq_true, not_true_eq_false, decide_True, decide_False,
        if_true]
      simp only [Bool.false_eq_true, if_false]
      omega
    · have hcr : c ∈ r := by
        rcases List.mem_cons.mp hc with h1 | h1
        · exact absurd h1.symm hac
        · exact h1
      have := ih hcr
      by_cases haw : a ∈ w
      · simp only [haw, not_true_eq_false, decide_False, Bool.false_eq_true, if_false]
        split <;> omega
      · have hav : a ∉ v := fun h1 => haw (h a h1)
        simp only [haw, hav, not_false_eq_true, decide_True, if_true]
        omega

theorem walkFor_visited_mono (special : StdMap PuncturedCell) (pcell : PuncturedCell) (cell : CCell)
    (chi : Int) (nbrs : List Nat) :
    ∀ (i : Nat) (s : WalkState) (k : Nat), k ∈ s.visited →
      k ∈ (walkFor special pcell cell chi nbrs i s).visited := by
  induction nbrs with
  | nil => intro i s k h; simpa [walkFor] using h
  | cons n rest ih =>
    intro i s k h
    unfold walkFor
    by_cases h1 : pcell.Chirality i = chi
    · rw [if_pos h1]
      by_cases h2 : (StdMap.find special n).isNone = true
      · simp only [h2, if_true]
        exact ih _ _ _ ((StdSet.mem_insert _ _ _).mpr (Or.inr h))
      · simp only [h2]
        exact ih _ _ _ ((StdSet.mem_insert _ _ _).mpr (Or.inr h))
    · rw [if_neg h1]
      exact ih _ _ _ h

theorem walkFor_traced (special : StdMap PuncturedCell) (pcell : PuncturedCell) (cell : CCell)
    (chi : Int) (nbrs : List Nat) :
    ∀ (i : Nat) (s : WalkState), (walkFor special pcell cell chi nbrs i s).traced = true →
      s.traced = true ∨ s.c ∈ (walkFor special pcell cell chi nbrs i s).visited := by
  induction nbrs with
  | nil => intro i s h; left; simpa [walkFor] using h
  | cons n rest ih =>
    intro i s h
    unfold walkFor at h ⊢
    by_cases h1 : pcell.Chirality i = chi
    · rw [if_pos h1] at h ⊢
      right
      by_cases h2 : (StdMap.find special n).isNone = true
      · simp only [h2, if_true] at h ⊢
        exact walkFor_visited_mono _ _ _ _ _ _ _ _ ((StdSet.mem_insert _ _ _).mpr (Or.inl rfl))
      · simp only [h2] at h ⊢
        exact walkFor_visited_mono _ _ _ _ _ _ _ _ ((StdSet.mem_insert _ _ _).mpr (Or.inl rfl))
    · rw [if_neg h1] at h ⊢
      exact ih _ _ h

theorem StdMap.find_isSome_mem_keys {V : Type} (m : StdMap V) (x : Nat) :
    (StdMap.find m x).isSome = true ↔ x ∈ StdMap.keys m := by
  induction m with
  | nil => simp [StdMap.find, StdMap.keys]
  | cons a r ih =>
    obtain ⟨k, v⟩ := a
    unfold StdMap.find
    by_cases h : x = k
    · simp [h, StdMap.keys]
    · simp only [h, if_false, ih]
      simp [StdMap.keys, h]

theorem walkLoop_fuel_mono (mg : MeshGraph) (ordinary special : StdMap PuncturedCell) (chi : Int) :
    ∀ (fuel fuel1 : Nat) (s r : WalkState), fuel ≤ fuel1 →
      walkLoop mg ordinary special chi fuel s = some r →
      walkLoop mg ordinary special chi fuel1 s = some r := by
  intro fuel
  induction fuel with
  | zero => intro fuel1 s r _ h; simp [walkLoop] at h
  | succ fuel ih =>
    intro fuel1 s r hle h
    obtain ⟨m, rfl⟩ : ∃ m, fuel1 = m + 1 := ⟨fuel1 - 1, by omega⟩
    unfold walkLoop at h ⊢
    cases hf : StdMap.find ordinary s.c with
    | none => simp only [hf] at h ⊢; exact h
    | some pcell =>
      simp only [hf] at h ⊢
      by_cases h1 : s.c ∈ s.visited
      · rw [if_pos h1] at h ⊢; exact h
      · rw [if_neg h1] at h ⊢
        split
        · rename_i ht; rw [if_pos ht] at h; exact ih _ _ _ (by omega) h
        · rename_i ht; rw [if_neg ht] at h; exact h

theorem walkLoop_terminates (mg : MeshGraph) (ordinary special : StdMap PuncturedCell) (chi : Int) :
    ∀ (n : Nat) (s : WalkState), unvisited (StdMap.keys ordinary) s.visited ≤ n →
      ∃ r, walkLoop mg ordinary special chi (n + 1) s = some r := by
  intro n
  induction n with
  | zero =>
    intro s hs
    unfold walkLoop
    split
    · exact ⟨_, rfl⟩
    · rename_i pcell heq
      by_cases h1 : s.c ∈ s.visited
      · rw [if_pos h1]; exact ⟨_, rfl⟩
      · exfalso
        have hk : s.c ∈ StdMap.keys ordinary :=
          (StdMap.find_isSome_mem_keys _ _).mp (by rw [heq]; rfl)
        have hpos : 0 < unvisited (StdMap.keys ordinary) s.visited := by
          unfold unvisited
          rw [List.countP_pos_iff]
          exact ⟨s.c, hk, by simpa using h1⟩
        omega
  | succ n ih =>
    intro s hs
    unfold walkLoop
    split
    · exact ⟨_, rfl⟩
    · rename_i pcell heq
      by_cases h1 : s.c ∈ s.visited
      · rw [if_pos h1]; exact ⟨_, rfl⟩
      · rw [if_neg h1]
        simp only
        split
        · rename_i ht
          apply ih
          have hk : s.c ∈ StdMap.keys ordinary :=
            (StdMap.find_isSome_mem_keys _ _).mp (by rw [heq]; rfl)
          have hin := walkFor_traced special pcell (mg.Cell s.c) chi (mg.Cell s.c).neighbor_cells 0
            ⟨s.c, s.visited, s.faces, s.trace, false⟩ ht
          simp only [Bool.false_eq_true, false_or] at hin
          have hlt := unvisited_lt (StdMap.keys ordinary) s.visited _ s.c
            (fun k hk => walkFor_visited_mono special pcell (mg.Cell s.c) chi
              (mg.Cell s.c).neighbor_cells 0 ⟨s.c, s.visited, s.faces, s.trace, false⟩ k hk)
            hk h1 hin
          omega
        · exact ⟨_, rfl⟩

theorem StdMap.mem_keys_erase {V : Type} (m : StdMap V) (x y : Nat) :
    y ∈ StdMap.keys (StdMap.erase m x) ↔ y ∈ StdMap.keys m ∧ y ≠ x := by
  simp only [StdMap.keys, StdMap.erase, List.mem_map, List.mem_filter, decide_eq_true_eq]
  constructor
  · rintro ⟨a, ⟨ha, hne⟩, rfl⟩; exact ⟨⟨a, ha, rfl⟩, hne⟩
  · rintro ⟨⟨a, ha, rfl⟩, hne⟩; exact ⟨a, ⟨ha, hne⟩, rfl⟩

theorem StdMap.erase_length_le {V : Type} (m : StdMap V) (x : Nat) :
    (StdMap.erase m x).length ≤ m.length := List.length_filter_le _ _

theorem StdMap.erase_length_lt {V : Type} (m : StdMap V) (x : Nat) (h : x ∈ StdMap.keys m) :
    (StdMap.erase m x).length < m.length := by
  induction m with
  | nil => simp [StdMap.keys] at h
  | cons a r ih =>
    have hle := StdMap.erase_length_le r x
    unfold StdMap.erase at hle ih ⊢
    by_cases hax : a.1 = x
    · rw [List.filter_cons_of_neg (by simpa using hax)]
      simp only [List.length_cons]
      omega
    · rw [List.filter_cons_of_pos (by simpa using hax)]
      simp only [List.length_cons]
      have hxr : x ∈ StdMap.keys r := by
        simp only [StdMap.keys, List.map_cons, List.mem_cons] at h
        rcases h with h | h
        · exact absurd h.symm hax
        · exact h
      have := ih hxr
      omega

theorem StdMap.eraseAll_length_le {V : Type} (s : StdSet) :
    ∀ m : StdMap V, (StdMap.eraseAll m s).length ≤ m.length := by
  induction s with
  | nil => intro m; simp [StdMap.eraseAll]
  | cons a r ih =>
    intro m
    have h1 := ih (StdMap.erase m a)
    have h2 := StdMap.erase_length_le m a
    simp only [StdMap.eraseAll, List.foldl_cons] at h1 ⊢
    omega

theorem StdMap.eraseAll_length_lt {V : Type} (s : StdSet) (x : Nat) :
    ∀ m : StdMap V, x ∈ s → x ∈ StdMap.keys m → (StdMap.eraseAll m s).length < m.length := by
  induction s with
  | nil => intro m h; simp at h
  | cons a r ih =>
    intro m hs hk
    have h2 := StdMap.erase_length_le m a
    have h3 := StdMap.eraseAll_length_le r (StdMap.erase m a)
    simp only [StdMap.eraseAll, List.foldl_cons] at h3 ih ⊢
    by_cases hxa : x = a
    · subst hxa
      have := StdMap.erase_length_lt m x hk
      omega
    · have hr : x ∈ r := by
        rcases List.mem_cons.mp hs with h | h
        · exact absurd h hxa
        · exact h
      have := ih (StdMap.erase m a) hr ((StdMap.mem_keys_erase m a x).mpr ⟨hk, hxa⟩)
      omega

theorem unvisited_le_length (keys : List Nat) (v : StdSet) : unvisited keys v ≤ keys.length :=
  List.countP_le_length _

theorem StdMap.keys_length {V : Type} (m : StdMap V) : (StdMap.keys m).length = m.length := by
  simp [StdMap.keys]

theorem traceOnce_fuel_mono (mg : MeshGraph) (special : StdMap PuncturedCell) (fuel fuel1 seed : Nat)
    (t r : TraceState) (hle : fuel ≤ fuel1) (h : traceOnce mg special fuel seed t = some r) :
    traceOnce mg special fuel1 seed t = some r := by
  unfold traceOnce at h ⊢
  cases hfw : walkLoop mg t.ordinary_pcells special 1 fuel ⟨seed, [], t.vobj.faces, [], false⟩ with
  | none => simp [hfw] at h
  | some fw =>
    rw [walkLoop_fuel_mono mg _ special 1 fuel fuel1 _ _ hle hfw]
    simp only [hfw] at h ⊢
    cases hbw : walkLoop mg t.ordinary_pcells special (-1) fuel
        ⟨seed, StdSet.erase fw.visited seed, fw.faces, fw.trace, fw.traced⟩ with
    | none => simp [hbw] at h
    | some bw =>
      rw [walkLoop_fuel_mono mg _ special (-1) fuel fuel1 _ _ hle hbw]
      simp only [hbw] at h ⊢
      exact h

theorem traceOnce_terminates (mg : MeshGraph) (special : StdMap PuncturedCell) (seed : Nat)
    (t : TraceState) :
    ∃ r, traceOnce mg special (t.ordinary_pcells.length + 1) seed t = some r := by
  unfold traceOnce
  obtain ⟨fw, hfw⟩ := walkLoop_terminates mg t.ordinary_pcells special 1 t.ordinary_pcells.length
    ⟨seed, [], t.vobj.faces, [], false⟩
    (by rw [← StdMap.keys_length]; exact unvisited_le_length _ _)
  rw [hfw]
  obtain ⟨bw, hbw⟩ := walkLoop_terminates mg t.ordinary_pcells special (-1)
    t.ordinary_pcells.length
    ⟨seed, StdSet.erase fw.visited seed, fw.faces, fw.trace, fw.traced⟩
    (by rw [← StdMap.keys_length]; exact unvisited_le_length _ _)
  simp only [hbw]
  exact ⟨_, rfl⟩

theorem traceOnce_length_lt (mg : MeshGraph) (special : StdMap PuncturedCell) (fuel seed : Nat)
    (t r : TraceState) (h : traceOnce mg special fuel seed t = some r)
    (hseed : seed ∈ StdMap.keys t.ordinary_pcells) :
    r.ordinary_pcells.length < t.ordinary_pcells.length := by
  unfold traceOnce at h
  split at h
  · cases h
  · split at h
    · cases h
    · cases h
      exact StdMap.eraseAll_length_lt _ seed _ ((StdSet.mem_insert _ _ _).mpr (Or.inl rfl)) hseed

theorem traceLoop_fuel_mono (mg : MeshGraph) (special : StdMap PuncturedCell) :
    ∀ (fuel fuel1 : Nat) (t r : TraceState), fuel ≤ fuel1 →
      traceLoop mg special fuel t = some r → traceLoop mg special fuel1 t = some r := by
  intro fuel
  induction fuel with
  | zero => intro fuel1 t r _ h; simp [traceLoop] at h
  | succ fuel ih =>
    intro fuel1 t r hle h
    obtain ⟨m, rfl⟩ : ∃ m, fuel1 = m + 1 := ⟨fuel1 - 1, by omega⟩
    unfold traceLoop at h ⊢
    cases ho : t.ordinary_pcells with
    | nil => simp only [ho] at h ⊢; exact h
    | cons a rest =>
      obtain ⟨seed, pc⟩ := a
      simp only [ho] at h ⊢
      cases h1 : traceOnce mg special (fuel + 1) seed t with
      | none => simp [h1] at h
      | some t1 =>
        rw [traceOnce_fuel_mono mg special (fuel + 1) (m + 1) seed t t1 hle h1]
        simp only [h1] at h ⊢
        exact ih _ _ _ (by omega) h

theorem traceLoop_terminates (mg : MeshGraph) (special : StdMap PuncturedCell) :
    ∀ (n : Nat) (t : TraceState), t.ordinary_pcells.length ≤ n →
      ∃ fuel r, traceLoop mg special fuel t = some r := by
  intro n
  induction n with
  | zero =>
    intro t ht
    refine ⟨1, t, ?_⟩
    unfold traceLoop
    have : t.ordinary_pcells = [] := List.eq_nil_of_length_eq_zero (by omega)
    simp [this]
  | succ n ih =>
    intro t ht
    cases ho : t.ordinary_pcells with
    | nil => exact ⟨1, t, by unfold traceLoop; simp [ho]⟩
    | cons a rest =>
      obtain ⟨seed, pc⟩ := a
      obtain ⟨t1, h1⟩ := traceOnce_terminates mg special seed t
      have hlt := traceOnce_length_lt mg special _ seed t t1 h1 (by simp [ho, StdMap.keys])
      obtain ⟨f2, r, h2⟩ := ih t1 (by omega)
      refine ⟨max (t.ordinary_pcells.length + 1) (f2 + 1), r, ?_⟩
      obtain ⟨m, hm⟩ : ∃ m, max (t.ordinary_pcells.length + 1) (f2 + 1) = m + 1 :=
        ⟨max (t.ordinary_pcells.length + 1) (f2 + 1) - 1, by omega⟩
      rw [hm]
      unfold traceLoop
      simp only [ho]
      rw [traceOnce_fuel_mono mg special _ (m + 1) seed t t1 (by omega) h1]
      exact traceLoop_fuel_mono mg special f2 m t1 r (by omega) h2

theorem pushNeighbors_spec (pcs : StdMap PuncturedCell) (pcell : PuncturedCell) (visited : StdSet)
    (nbrs : List Nat) :
    ∀ (i : Nat) (q : List Nat), ∃ l, pushNeighbors pcs pcell visited nbrs i q = q ++ l ∧
      ∀ x ∈ l, (StdMap.find pcs x).isSome = true ∧ x ∉ visited := by
  induction nbrs with
  | nil => intro i q; exact ⟨[], by simp [pushNeighbors], by simp⟩
  | cons c1 rest ih =>
    intro i q
    unfold pushNeighbors
    split
    · rename_i hc
      obtain ⟨l, hl, hx⟩ := ih (i + 1) (q ++ [c1])
      refine ⟨c1 :: l, by rw [hl]; simp, ?_⟩
      intro x hxm
      rcases List.mem_cons.mp hxm with rfl | h
      · exact ⟨hc.2.2.1, hc.2.2.2⟩
      · exact hx x h
    · exact ih (i + 1) q

theorem StdMap.index_snd_of_isSome {V : Type} (m : StdMap V) (d : V) (x : Nat)
    (h : (StdMap.find m x).isSome = true) : (StdMap.index m d x).2 = m := by
  unfold StdMap.index
  cases hf : StdMap.find m x with
  | none => simp [hf] at h
  | some v => rfl

theorem searchStep_spec (isSpecial : PuncturedCell → Bool) (mg : MeshGraph) (c : Nat)
    (rest : List Nat) (s : SearchState) (hc : (StdMap.find s.pcs c).isSome = true) :
    (searchStep isSpecial mg c rest s).pcs = s.pcs ∧
    (searchStep isSpecial mg c rest s).visited = StdSet.insert s.visited c ∧
    ∃ l, (searchStep isSpecial mg c rest s).to_visit = rest ++ l ∧
      ∀ x ∈ l, (StdMap.find s.pcs x).isSome = true ∧ x ∉ StdSet.insert s.visited c := by
  have hp := StdMap.index_snd_of_isSome s.pcs PuncturedCell.empty c hc
  refine ⟨hp, rfl, ?_⟩
  obtain ⟨l, hl, hx⟩ := pushNeighbors_spec (StdMap.index s.pcs PuncturedCell.empty c).2
    (StdMap.index s.pcs PuncturedCell.empty c).1 (StdSet.insert s.visited c)
    (mg.Cell c).neighbor_cells 0 rest
  refine ⟨l, hl, ?_⟩
  rw [hp] at hx
  exact hx

theorem prefixLen_congr (v w : StdSet) (h : ∀ k, k ∈ v ↔ k ∈ w) (q : List Nat) :
    prefixLen v q = prefixLen w q := by
  induction q with
  | nil => rfl
  | cons c r ih => simp only [prefixLen, h c, ih]

theorem prefixLen_append (v : StdSet) (l : List Nat) (hl : ∀ x ∈ l, x ∉ v) (q : List Nat) :
    prefixLen v (q ++ l) = prefixLen v q := by
  induction q with
  | nil =>
    cases l with
    | nil => rfl
    | cons a r => simp [prefixLen, hl a (List.mem_cons_self a r)]
  | cons c r ih =>
    show (if c ∈ v then prefixLen v (r ++ l) + 1 else 0) = _
    rw [ih]
    rfl

theorem componentSearch_fuel_mono (isSpecial : PuncturedCell → Bool) (mg : MeshGraph) :
    ∀ (fuel fuel1 : Nat) (s r : SearchState), fuel ≤ fuel1 →
      componentSearch isSpecial mg fuel s = some r →
      componentSearch isSpecial mg fuel1 s = some r := by
  intro fuel
  induction fuel with
  | zero => intro fuel1 s r _ h; simp [componentSearch] at h
  | succ fuel ih =>
    intro fuel1 s r hle h
    obtain ⟨m, rfl⟩ : ∃ m, fuel1 = m + 1 := ⟨fuel1 - 1, by omega⟩
    unfold componentSearch at h ⊢
    cases hq : s.to_visit with
    | nil => simp only [hq] at h ⊢; exact h
    | cons c rest =>
      simp only [hq] at h ⊢
      exact ih _ _ _ (by omega) h

theorem componentSearch_terminates (isSpecial : PuncturedCell → Bool) (mg : MeshGraph) :
    ∀ (n p : Nat) (s : SearchState), SearchInv s →
      unvisited (StdMap.keys s.pcs) s.visited ≤ n → prefixLen s.visited s.to_visit ≤ p →
      ∃ fuel r, componentSearch isSpecial mg fuel s = some r := by
  intro n
  induction n using Nat.strong_induction_on with
  | _ n ihn =>
    intro p
    induction p with
    | zero =>
      intro s hinv hn hp
      cases hq : s.to_visit with
      | nil => exact ⟨1, s, by unfold componentSearch; simp [hq]⟩
      | cons c rest =>
        have hck : (StdMap.find s.pcs c).isSome = true := hinv c (by simp [hq])
        obtain ⟨hpcs, hvis, l, hl, hlx⟩ := searchStep_spec isSpecial mg c rest s hck
        have hcv : c ∉ s.visited := by
          intro hcv
          rw [hq] at hp
          simp [prefixLen, hcv] at hp
        have hlt : unvisited (StdMap.keys s.pcs) (StdSet.insert s.visited c)
            < unvisited (StdMap.keys s.pcs) s.visited :=
          unvisited_lt _ _ _ c (fun k hk => (StdSet.mem_insert _ _ _).mpr (Or.inr hk))
            ((StdMap.find_isSome_mem_keys _ _).mp hck) hcv
            ((StdSet.mem_insert _ _ _).mpr (Or.inl rfl))
        have hinv1 : SearchInv (searchStep isSpecial mg c rest s) := by
          intro x hx
          rw [hpcs]
          rw [hl] at hx
          rcases List.mem_append.mp hx with h | h
          · exact hinv x (by simp [hq, h])
          · exact (hlx x h).1
        obtain ⟨fuel, r, hr⟩ := ihn (unvisited (StdMap.keys s.pcs) (StdSet.insert s.visited c))
          (by omega) (prefixLen (searchStep isSpecial mg c rest s).visited
            (searchStep isSpecial mg c rest s).to_visit)
          (searchStep isSpecial mg c rest s) hinv1 (by rw [hpcs, hvis]) (le_refl _)
        exact ⟨fuel + 1, r, by unfold componentSearch; simp only [hq]; exact hr⟩
    | succ p ihp =>
      intro s hinv hn hp
      cases hq : s.to_visit with
      | nil => exact ⟨1, s, by unfold componentSearch; simp [hq]⟩
      | cons c rest =>
        have hck : (StdMap.find s.pcs c).isSome = true := hinv c (by simp [hq])
        obtain ⟨hpcs, hvis, l, hl, hlx⟩ := searchStep_spec isSpecial mg c rest s hck
        have hinv1 : SearchInv (searchStep isSpecial mg c rest s) := by
          intro x hx
          rw [hpcs]
          rw [hl] at hx
          rcases List.mem_append.mp hx with h | h
          · exact hinv x (by simp [hq, h])
          · exact (hlx x h).1
        by_cases hcv : c ∈ s.visited
        · have hmem : ∀ k, k ∈ StdSet.insert s.visited c ↔ k ∈ s.visited := by
            intro k
            rw [StdSet.mem_insert]
            constructor
            · rintro (rfl | h)
              · exact hcv
              · exact h
            · exact Or.inr
          have hP : prefixLen (searchStep isSpecial mg c rest s).visited
              (searchStep isSpecial mg c rest s).to_visit ≤ p := by
            rw [hvis, hl, prefixLen_append _ _ (fun x hx => (hlx x hx).2),
              prefixLen_congr _ _ hmem]
            rw [hq] at hp
            simp only [prefixLen, hcv, if_true] at hp
            omega
          have hU : unvisited (StdMap.keys (searchStep isSpecial mg c rest s).pcs)
              (searchStep isSpecial mg c rest s).visited ≤ n := by
            rw [hpcs, hvis]
            exact le_trans (unvisited_le _ _ _ (fun k hk => (hmem k).mpr hk)) hn
          obtain ⟨fuel, r, hr⟩ := ihp (searchStep isSpecial mg c rest s) hinv1 hU hP
          exact ⟨fuel + 1, r, by unfold componentSearch; simp only [hq]; exact hr⟩
        · have hlt : unvisited (StdMap.keys s.pcs) (StdSet.insert s.visited c)
              < unvisited (StdMap.keys s.pcs) s.visited :=
            unvisited_lt _ _ _ c (fun k hk => (StdSet.mem_insert _ _ _).mpr (Or.inr hk))
              ((StdMap.find_isSome_mem_keys _ _).mp hck) hcv
              ((StdSet.mem_insert _ _ _).mpr (Or.inl rfl))
          obtain ⟨fuel, r, hr⟩ := ihn (unvisited (StdMap.keys s.pcs) (StdSet.insert s.visited c))
            (by omega) (prefixLen (searchStep isSpecial mg c rest s).visited
              (searchStep isSpecial mg c rest s).to_visit)
            (searchStep isSpecial mg c rest s) hinv1 (by rw [hpcs, hvis]) (le_refl _)
          exact ⟨fuel + 1, r, by unfold componentSearch; simp only [hq]; exact hr⟩

theorem componentSearch_post (isSpecial : PuncturedCell → Bool) (mg : MeshGraph) :
    ∀ (fuel : Nat) (s r : SearchState), componentSearch isSpecial mg fuel s = some r →
      SearchInv s →
      r.pcs = s.pcs ∧ (∀ x ∈ s.visited, x ∈ r.visited) ∧ (∀ x ∈ s.to_visit, x ∈ r.visited) := by
  intro fuel
  induction fuel with
  | zero => intro s r h; simp [componentSearch] at h
  | succ fuel ih =>
    intro s r h hinv
    unfold componentSearch at h
    cases hq : s.to_visit with
    | nil =>
      simp only [hq] at h
      cases h
      exact ⟨rfl, fun x hx => hx, by simp⟩
    | cons c rest =>
      simp only [hq] at h
      have hck : (StdMap.find s.pcs c).isSome = true := hinv c (by simp [hq])
      obtain ⟨hpcs, hvis, l, hl, hlx⟩ := searchStep_spec isSpecial mg c rest s hck
      have hinv1 : SearchInv (searchStep isSpecial mg c rest s) := by
        intro x hx
        rw [hpcs]
        rw [hl] at hx
        rcases List.mem_append.mp hx with h | h
        · exact hinv x (by simp [hq, h])
        · exact (hlx x h).1
      obtain ⟨h1, h2, h3⟩ := ih _ _ h hinv1
      refine ⟨by rw [h1, hpcs], ?_, ?_⟩
      · intro x hx
        exact h2 x (by rw [hvis]; exact (StdSet.mem_insert _ _ _).mpr (Or.inr hx))
      · intro x hx
        rcases List.mem_cons.mp hx with rfl | hx
        · exact h2 x (by rw [hvis]; exact (StdSet.mem_insert _ _ _).mpr (Or.inl rfl))
        · exact h3 x (by rw [hl]; exact List.mem_append.mpr (Or.inl hx))

theorem spaceOnce_fuel_mono (isSpecial : PuncturedCell → Bool) (mg : MeshGraph)
    (fuel fuel1 first : Nat) (s r : SpaceState) (hle : fuel ≤ fuel1)
    (h : spaceOnce isSpecial mg fuel first s = some r) :
    spaceOnce isSpecial mg fuel1 first s = some r := by
  unfold spaceOnce at h ⊢
  cases hc : componentSearch isSpecial mg fuel ⟨[first], [], [], [], s.pcs⟩ with
  | none => simp [hc] at h
  | some c =>
    rw [componentSearch_fuel_mono isSpecial mg fuel fuel1 _ _ hle hc]
    simp only [hc] at h ⊢
    cases ht : traceLoop mg c.special_pcells fuel ⟨c.ordinary_pcells, VortexObject.empty⟩ with
    | none => simp [ht] at h
    | some t =>
      rw [traceLoop_fuel_mono mg _ fuel fuel1 _ _ hle ht]
      simp only [ht] at h ⊢
      exact h

theorem searchInv_init (first : Nat) (pcs : StdMap PuncturedCell)
    (h : first ∈ StdMap.keys pcs) : SearchInv ⟨[first], [], [], [], pcs⟩ := by
  intro c hc
  simp only [List.mem_singleton] at hc
  subst hc
  exact (StdMap.find_isSome_mem_keys _ _).mpr h

theorem spaceOnce_terminates (isSpecial : PuncturedCell → Bool) (mg : MeshGraph) (first : Nat)
    (s : SpaceState) (hfirst : first ∈ StdMap.keys s.pcs) :
    ∃ fuel r, spaceOnce isSpecial mg fuel first s = some r := by
  obtain ⟨f1, c, hc⟩ := componentSearch_terminates isSpecial mg _ _ ⟨[first], [], [], [], s.pcs⟩
    (searchInv_init first s.pcs hfirst) (le_refl _) (le_refl _)
  obtain ⟨f2, t, ht⟩ := traceLoop_terminates mg c.special_pcells _
    ⟨c.ordinary_pcells, VortexObject.empty⟩ (le_refl _)
  have e1 := componentSearch_fuel_mono isSpecial mg f1 (max f1 f2) _ _ (le_max_left _ _) hc
  have e2 := traceLoop_fuel_mono mg _ f2 (max f1 f2) _ _ (le_max_right _ _) ht
  refine ⟨max f1 f2, ?_⟩
  unfold spaceOnce
  simp only [e1, e2]
  exact ⟨_, rfl⟩

theorem spaceOnce_length_lt (isSpecial : PuncturedCell → Bool) (mg : MeshGraph) (fuel first : Nat)
    (s r : SpaceState) (hfirst : first ∈ StdMap.keys s.pcs)
    (h : spaceOnce isSpecial mg fuel first s = some r) : r.pcs.length < s.pcs.length := by
  unfold spaceOnce at h
  cases hc : componentSearch isSpecial mg fuel ⟨[first], [], [], [], s.pcs⟩ with
  | none => simp [hc] at h
  | some c =>
    simp only [hc] at h
    cases ht : traceLoop mg c.special_pcells fuel ⟨c.ordinary_pcells, VortexObject.empty⟩ with
    | none => simp [ht] at h
    | some t =>
      simp only [ht, Option.some.injEq] at h
      obtain ⟨hp, _, hv⟩ := componentSearch_post isSpecial mg fuel _ _ hc
        (searchInv_init first s.pcs hfirst)
      rw [← h]
      simp only at hp hv ⊢
      rw [hp]
      exact StdMap.eraseAll_length_lt _ first _ (hv first (by simp)) hfirst

theorem spaceLoop_fuel_mono (isSpecial : PuncturedCell → Bool) (mg : MeshGraph) :
    ∀ (fuel fuel1 : Nat) (s r : SpaceState), fuel ≤ fuel1 →
      spaceLoop isSpecial mg fuel s = some r → spaceLoop isSpecial mg fuel1 s = some r := by
  intro fuel
  induction fuel with
  | zero => intro fuel1 s r _ h; simp [spaceLoop] at h
  | succ fuel ih =>
    intro fuel1 s r hle h
    obtain ⟨m, rfl⟩ : ∃ m, fuel1 = m + 1 := ⟨fuel1 - 1, by omega⟩
    unfold spaceLoop at h ⊢
    cases hp : s.pcs with
    | nil => simp only [hp] at h ⊢; exact h
    | cons a rest =>
      obtain ⟨first, pc⟩ := a
      simp only [hp] at h ⊢
      cases h1 : spaceOnce isSpecial mg (fuel + 1) first s with
      | none => simp [h1] at h
      | some s1 =>
        rw [spaceOnce_fuel_mono isSpecial mg (fuel + 1) (m + 1) first s s1 hle h1]
        simp only [h1] at h ⊢
        exact ih _ _ _ (by omega) h

theorem spaceLoop_terminates (isSpecial : PuncturedCell → Bool) (mg : MeshGraph) :
    ∀ (n : Nat) (s : SpaceState), s.pcs.length ≤ n →
      ∃ fuel r, spaceLoop isSpecial mg fuel s = some r := by
  intro n
  induction n with
  | zero =>
    intro s hs
    have : s.pcs = [] := List.eq_nil_of_length_eq_zero (by omega)
    exact ⟨1, s, by unfold spaceLoop; simp [this]⟩
  | succ n ih =>
    intro s hs
    cases hp : s.pcs with
    | nil => exact ⟨1, s, by unfold spaceLoop; simp [hp]⟩
    | cons a rest =>
      obtain ⟨first, pc⟩ := a
      have hfirst : first ∈ StdMap.keys s.pcs := by simp [hp, StdMap.keys]
      obtain ⟨f1, s1, h1⟩ := spaceOnce_terminates isSpecial mg first s hfirst
      have hlt := spaceOnce_length_lt isSpecial mg f1 first s s1 hfirst h1
      obtain ⟨f2, r, h2⟩ := ih s1 (by omega)
      refine ⟨max f1 f2 + 1, r, ?_⟩
      unfold spaceLoop
      simp only [hp]
      rw [spaceOnce_fuel_mono isSpecial mg f1 (max f1 f2 + 1) first s s1
        (le_trans (le_max_left _ _) (Nat.le_succ _)) h1]
      exact spaceLoop_fuel_mono isSpecial mg f2 (max f1 f2) s1 r (le_max_right _ _) h2

theorem TraceOverSpace_terminates (isSpecial : PuncturedCell → Bool) (mg : MeshGraph) (slot : Int)
    (st : VortexExtractor) : ∃ fuel st1, TraceOverSpace isSpecial mg fuel slot st = some st1 := by
  obtain ⟨fuel, r, hr⟩ := spaceLoop_terminates isSpecial mg _
    ⟨if slot = 0 then st._punctured_cells else st._punctured_cells1, []⟩ (le_refl _)
  refine ⟨fuel, ?_⟩
  unfold TraceOverSpace
  rw [hr]
  by_cases hs : slot = 0
  · simp [hs]
  · simp [hs]

theorem TraceOverSpace_vobjs (isSpecial : PuncturedCell → Bool) (mg : MeshGraph) (fuel : Nat)
    (slot : Int) (st st1 : VortexExtractor)
    (h : TraceOverSpace isSpecial mg fuel slot st = some st1) :
    AllAt (fun k v => v.id = k ∧ FacesMatch v.faces v.traces []) (st1.vobjs slot) := by
  unfold TraceOverSpace at h
  split at h
  · cases h
  · rename_i r hr
    have hall := spaceLoop_allAt isSpecial mg fuel _ r hr (fun k hk => by simp at hk)
    by_cases hs : slot = 0
    · simp only [hs, if_true, Option.some.injEq] at h
      subst h
      simpa [VortexExtractor.vobjs, hs] using hall
    · simp only [hs, if_false, Option.some.injEq] at h
      subst h
      simpa [VortexExtractor.vobjs, hs] using hall

/-- C1: `TraceOverSpace` returns for every slot, punctured-cell map and mesh graph, and in
every vortex object it produces the member-face set `faces` holds exactly the face ids that
occur in its `traces` lists. -/
theorem TraceOverSpace_faces_eq_trace_faces (isSpecial : PuncturedCell → Bool) (mg : MeshGraph)
    (slot : Int) (st : VortexExtractor) :
    (∃ fuel st1, TraceOverSpace isSpecial mg fuel slot st = some st1) ∧
    ∀ fuel st1, TraceOverSpace isSpecial mg fuel slot st = some st1 →
      ∀ v ∈ st1.vobjs slot, ∀ f, f ∈ v.faces ↔ ∃ t ∈ v.traces, f ∈ t := by
  refine ⟨TraceOverSpace_terminates isSpecial mg slot st, ?_⟩
  intro fuel st1 h v hv f
  obtain ⟨k, hk, rfl⟩ := List.mem_iff_get.mp hv
  have := (TraceOverSpace_vobjs isSpecial mg fuel slot st st1 h k.1 k.2).2 f
  simpa using this

/-- C1 (witness): on `chainState` the call returns with fuel 6; the single object has the
member faces 10, 11, 12, 13, the faces of its trace. -/
theorem TraceOverSpace_faces_eq_trace_faces_witness :
    ∃ st1, TraceOverSpace PuncturedCell.IsSpecial chainMesh 6 0 chainState = some st1 ∧
      st1.vobjs 0 = [⟨0, 0, 0, [10, 11, 12, 13], [[10, 11, 12, 13]]⟩] ∧
      ∀ v ∈ st1.vobjs 0, ∀ f, f ∈ v.faces ↔ ∃ t ∈ v.traces, f ∈ t :=
  ⟨_, rfl, rfl,
    (TraceOverSpace_faces_eq_trace_faces PuncturedCell.IsSpecial chainMesh 0 chainState).2 6 _ rfl⟩

/-- C10: `TraceOverSpace` returns, and afterwards the object stored at position `k` of the
object list of the slot has local id `k`, for every `k` below the number of objects. -/
theorem TraceOverSpace_id_eq_index (isSpecial : PuncturedCell → Bool) (mg : MeshGraph)
    (slot : Int) (st : VortexExtractor) :
    (∃ fuel st1, TraceOverSpace isSpecial mg fuel slot st = some st1) ∧
    ∀ fuel st1, TraceOverSpace isSpecial mg fuel slot st = some st1 →
      ∀ k (hk : k < (st1.vobjs slot).length), ((st1.vobjs slot).get ⟨k, hk⟩).id = k := by
  refine ⟨TraceOverSpace_terminates isSpecial mg slot st, ?_⟩
  intro fuel st1 h k hk
  exact (TraceOverSpace_vobjs isSpecial mg fuel slot st st1 h k hk).1

/-- C10 (witness): on `twoCellState` the call for slot 1 returns with fuel 4 and yields two
objects, stored at positions 0 and 1 with ids 0 and 1. -/
theorem TraceOverSpace_id_eq_index_witness :
    ∃ st1, TraceOverSpace PuncturedCell.IsSpecial twoCellMesh 4 1 twoCellState = some st1 ∧
      (st1.vobjs 1).map (fun v => (v.id, v.traces)) = [(0, [[20, 21]]), (1, [[31, 30]])] ∧
      ∀ k (hk : k < (st1.vobjs 1).length), ((st1.vobjs 1).get ⟨k, hk⟩).id = k :=
  ⟨_, rfl, rfl,
    (TraceOverSpace_id_eq_index PuncturedCell.IsSpecial twoCellMesh 1 twoCellState).2 4 _ rfl⟩

/-! ## Termination of `RelateOverTime` -/

theorem edgeFor_spec (mg : MeshGraph) (pes : StdMap PuncturedEdge) (face : CFace) (chi : Int)
    (fv : StdSet) (edges : List Nat) :
    ∀ (i : Nat) (s : StdSet × List Visit),
      (∀ k ∈ s.1, k ∈ (edgeFor mg pes face chi fv edges i s).1) ∧
      (edgeFor mg pes face chi fv edges i s = s ∨
        ∃ e, e ∈ StdMap.keys pes ∧ e ∉ s.1 ∧ e ∈ (edgeFor mg pes face chi fv edges i s).1) := by
  induction edges with
  | nil => intro i s; exact ⟨fun k hk => hk, Or.inl rfl⟩
  | cons e rest ih =>
    intro i s
    unfold edgeFor
    cases hf : StdMap.find pes e with
    | none => simp only; exact ih (i + 1) s
    | some pe =>
      simp only
      by_cases he : e ∉ s.1
      · rw [if_pos he]
        have hk : e ∈ StdMap.keys pes := (StdMap.find_isSome_mem_keys _ _).mp (by rw [hf]; rfl)
        split
        · obtain ⟨h1, _⟩ := ih (i + 1) (StdSet.insert s.1 e,
            pushFaces fv (mg.Edge e) pe (mg.Edge e).contained_faces 0 s.2)
          exact ⟨fun k hk => h1 k ((StdSet.mem_insert _ _ _).mpr (Or.inr hk)),
            Or.inr ⟨e, hk, he, h1 e ((StdSet.mem_insert _ _ _).mpr (Or.inl rfl))⟩⟩
        · obtain ⟨h1, _⟩ := ih (i + 1) (StdSet.insert s.1 e, s.2)
          exact ⟨fun k hk => h1 k ((StdSet.mem_insert _ _ _).mpr (Or.inr hk)),
            Or.inr ⟨e, hk, he, h1 e ((StdSet.mem_insert _ _ _).mpr (Or.inl rfl))⟩⟩
      · rw [if_neg he]
        exact ih (i + 1) s

theorem relateLoop_fuel_mono (mg : MeshGraph) (pes : StdMap PuncturedEdge)
    (pfs1 : StdMap PuncturedFace) :
    ∀ (fuel fuel1 : Nat) (s r : RelateState), fuel ≤ fuel1 →
      relateLoop mg pes pfs1 fuel s = some r → relateLoop mg pes pfs1 fuel1 s = some r := by
  intro fuel
  induction fuel with
  | zero => intro fuel1 s r _ h; simp [relateLoop] at h
  | succ fuel ih =>
    intro fuel1 s r hle h
    obtain ⟨m, rfl⟩ : ∃ m, fuel1 = m + 1 := ⟨fuel1 - 1, by omega⟩
    unfold relateLoop at h ⊢
    cases hq : s.to_visit with
    | nil => simp only [hq] at h ⊢; exact h
    | cons c rest =>
      simp only [hq] at h ⊢
      exact ih _ _ _ (by omega) h

theorem relateLoop_terminates (mg : MeshGraph) (pes : StdMap PuncturedEdge)
    (pfs1 : StdMap PuncturedFace) :
    ∀ (n p : Nat) (s : RelateState),
      unvisited (StdMap.keys pes) s.edges_visited ≤ n → s.to_visit.length ≤ p →
      ∃ fuel r, relateLoop mg pes pfs1 fuel s = some r := by
  intro n
  induction n using Nat.strong_induction_on with
  | _ n ihn =>
    intro p
    induction p with
    | zero =>
      intro s _ hp
      have : s.to_visit = [] := List.eq_nil_of_length_eq_zero (by omega)
      exact ⟨1, s, by unfold relateLoop; simp [this]⟩
    | succ p ihp =>
      intro s hn hp
      cases hq : s.to_visit with
      | nil => exact ⟨1, s, by unfold relateLoop; simp [hq]⟩
      | cons cur rest =>
        obtain ⟨hmono, hcase⟩ := edgeFor_spec mg pes (mg.Face cur.face) cur.chirality
          (StdSet.insert s.faces_visited cur.face) (mg.Face cur.face).edges 0
          (s.edges_visited, rest)
        have hstep : ∃ fuel r, relateLoop mg pes pfs1 fuel (relateStep mg pes pfs1 cur rest s)
            = some r := by
          rcases hcase with heq | ⟨e, hek, hev, her⟩
          · apply ihp
            · show unvisited (StdMap.keys pes) (edgeFor mg pes (mg.Face cur.face) cur.chirality
                (StdSet.insert s.faces_visited cur.face) (mg.Face cur.face).edges 0
                (s.edges_visited, rest)).1 ≤ n
              rw [heq]; exact hn
            · show (edgeFor mg pes (mg.Face cur.face) cur.chirality
                (StdSet.insert s.faces_visited cur.face) (mg.Face cur.face).edges 0
                (s.edges_visited, rest)).2.length ≤ p
              rw [heq]
              rw [hq] at hp
              simp only [List.length_cons] at hp
              show rest.length ≤ p
              omega
          · have hlt := unvisited_lt (StdMap.keys pes) s.edges_visited _ e hmono hek hev her
            exact ihn _ (lt_of_lt_of_le hlt hn) _ (relateStep mg pes pfs1 cur rest s)
              (le_refl _) (le_refl _)
        obtain ⟨fuel, r, hr⟩ := hstep
        exact ⟨fuel + 1, r, by unfold relateLoop; simp only [hq]; exact hr⟩

theorem relateSeed_fuel_mono (mg : MeshGraph) (pes : StdMap PuncturedEdge)
    (pfs1 : StdMap PuncturedFace) (fuel fuel1 fid : Nat) (chi : Int) (r : List Nat)
    (hle : fuel ≤ fuel1) (h : relateSeed mg pes pfs1 fuel fid chi = some r) :
    relateSeed mg pes pfs1 fuel1 fid chi = some r := by
  unfold relateSeed at h ⊢
  cases hl : relateLoop mg pes pfs1 fuel ⟨[⟨fid, chi, some 0⟩], [], [], []⟩ with
  | none => simp [hl] at h
  | some x =>
    rw [relateLoop_fuel_mono mg pes pfs1 fuel fuel1 _ _ hle hl]
    simp only [hl] at h ⊢
    exact h

theorem relateSeed_terminates (mg : MeshGraph) (pes : StdMap PuncturedEdge)
    (pfs1 : StdMap PuncturedFace) (fid : Nat) (chi : Int) :
    ∃ fuel r, relateSeed mg pes pfs1 fuel fid chi = some r := by
  obtain ⟨fuel, x, hx⟩ := relateLoop_terminates mg pes pfs1 _ _
    ⟨[⟨fid, chi, some 0⟩], [], [], []⟩ (le_refl _) (le_refl _)
  exact ⟨fuel, x.related, by unfold relateSeed; rw [hx]⟩

theorem relateSeeds_fuel_mono (mg : MeshGraph) (pes : StdMap PuncturedEdge)
    (pfs1 : StdMap PuncturedFace) (fuel fuel1 : Nat) (hle : fuel ≤ fuel1)
    (seeds : List (Nat × PuncturedFace)) :
    ∀ (rel r : StdMap (List Nat)), relateSeeds mg pes pfs1 fuel seeds rel = some r →
      relateSeeds mg pes pfs1 fuel1 seeds rel = some r := by
  induction seeds with
  | nil => intro rel r h; simpa [relateSeeds] using h
  | cons a rest ih =>
    intro rel r h
    obtain ⟨fid, pf⟩ := a
    unfold relateSeeds at h ⊢
    cases hs : relateSeed mg pes pfs1 fuel fid pf.chirality with
    | none => simp [hs] at h
    | some x =>
      rw [relateSeed_fuel_mono mg pes pfs1 fuel fuel1 fid pf.chirality x hle hs]
      simp only [hs] at h ⊢
      exact ih _ _ h

theorem relateSeeds_terminates (mg : MeshGraph) (pes : StdMap PuncturedEdge)
    (pfs1 : StdMap PuncturedFace) (seeds : List (Nat × PuncturedFace)) :
    ∀ rel : StdMap (List Nat), ∃ fuel r, relateSeeds mg pes pfs1 fuel seeds rel = some r := by
  induction seeds with
  | nil => intro rel; exact ⟨0, rel, rfl⟩
  | cons a rest ih =>
    intro rel
    obtain ⟨fid, pf⟩ := a
    obtain ⟨f1, x, hx⟩ := relateSeed_terminates mg pes pfs1 fid pf.chirality
    obtain ⟨f2, r, hr⟩ := ih (StdMap.insert rel fid x)
    refine ⟨max f1 f2, r, ?_⟩
    unfold relateSeeds
    rw [relateSeed_fuel_mono mg pes pfs1 f1 (max f1 f2) fid pf.chirality x (le_max_left _ _) hx]
    exact relateSeeds_fuel_mono mg pes pfs1 f2 (max f1 f2) (le_max_right _ _) rest _ _ hr

theorem RelateOverTime_terminates (mg : MeshGraph) (st : VortexExtractor) :
    ∃ fuel st1, RelateOverTime mg fuel st = some st1 := by
  obtain ⟨fuel, r, hr⟩ := relateSeeds_terminates mg st._punctured_edges st._punctured_faces1
    st._punctured_faces []
  exact ⟨fuel, _, by unfold RelateOverTime; rw [hr]⟩

theorem TraceOverTime_terminates (mg : MeshGraph) (st : VortexExtractor) :
    ∃ fuel st1, TraceOverTime mg fuel st = some st1 := by
  obtain ⟨fuel, st1, h⟩ := RelateOverTime_terminates mg st
  exact ⟨fuel, _, by unfold TraceOverTime; rw [h]⟩

/-! ## The transition matrix -/

theorem StdMap.find_insert {V : Type} (m : StdMap V) (x y : Nat) (v : V) :
    StdMap.find (StdMap.insert m x v) y = if y = x then some v else StdMap.find m y := by
  induction m with
  | nil => simp [StdMap.insert, StdMap.find]
  | cons a r ih =>
    obtain ⟨k, w⟩ := a
    unfold StdMap.insert
    by_cases h1 : x < k
    · rw [if_pos h1]
      simp only [StdMap.find]
    · rw [if_neg h1]
      by_cases h2 : x = k
      · rw [if_pos h2]
        subst h2
        simp only [StdMap.find]
        split <;> rfl
      · rw [if_neg h2]
        simp only [StdMap.find, ih]
        by_cases h3 : y = k
        · have : y ≠ x := fun h => h2 (h ▸ h3)
          simp [h3, Ne.symm h2]
        · simp [h3]

theorem index_fst_eq_relatedOf (rel : StdMap (List Nat)) (f : Nat) :
    (StdMap.index rel [] f).1 = relatedOf rel f := by
  unfold StdMap.index relatedOf
  cases StdMap.find rel f <;> rfl

theorem relatedOf_index (rel : StdMap (List Nat)) (f g : Nat) :
    relatedOf (StdMap.index rel [] f).2 g = relatedOf rel g := by
  unfold StdMap.index
  cases hf : StdMap.find rel f with
  | some v => rfl
  | none =>
    simp only [relatedOf, StdMap.find_insert]
    by_cases hg : g = f
    · subst hg; simp [hf]
    · simp [hg]

theorem relatedHit_iff (faces1 : StdSet) (l : List Nat) :
    relatedHit faces1 l = true ↔ ∃ g ∈ l, g ∈ faces1 := by
  induction l with
  | nil => simp [relatedHit]
  | cons g r ih =>
    unfold relatedHit
    by_cases h : g ∈ faces1
    · simp [h]
    · simp [h, ih]

theorem overlaps_iff (R : Nat → List Nat) (faces0 faces1 : List Nat) :
    overlaps R faces0 faces1 = true ↔ ∃ f ∈ faces0, ∃ g ∈ R f, g ∈ faces1 := by
  simp [overlaps, List.any_eq_true, relatedHit_iff]

theorem scanFaces_spec (faces1 : StdSet) (fs : List Nat) :
    ∀ rel : StdMap (List Nat),
      (scanFaces faces1 fs rel).1 = overlaps (relatedOf rel) fs faces1 ∧
      ∀ g, relatedOf (scanFaces faces1 fs rel).2 g = relatedOf rel g := by
  induction fs with
  | nil => intro rel; exact ⟨rfl, fun g => rfl⟩
  | cons f rest ih =>
    intro rel
    unfold scanFaces
    simp only [index_fst_eq_relatedOf]
    by_cases hh : relatedHit faces1 (relatedOf rel f) = true
    · rw [if_pos hh]
      exact ⟨by simp [overlaps, hh], fun g => relatedOf_index rel f g⟩
    · rw [if_neg hh]
      obtain ⟨h1, h2⟩ := ih (StdMap.index rel [] f).2
      have hfun : relatedOf (StdMap.index rel [] f).2 = relatedOf rel :=
        funext (fun g => relatedOf_index rel f g)
      refine ⟨?_, fun g => by rw [h2 g, relatedOf_index]⟩
      rw [h1, hfun]
      simp only [overlaps, List.any_cons]
      simp [hh]

theorem transitionCell_spec (vobjs0 vobjs1 : List VortexObject) (i j : Nat)
    (s : VortexTransitionMatrix × StdMap (List Nat)) :
    (∀ a b, (transitionCell vobjs0 vobjs1 i j s).1.entry a b = s.1.entry a b +
      (if a = i ∧ b = j ∧
        overlaps (relatedOf s.2) (facesAt vobjs0 i) (facesAt vobjs1 j) = true then 1 else 0)) ∧
    (∀ g, relatedOf (transitionCell vobjs0 vobjs1 i j s).2 g = relatedOf s.2 g) ∧
    (transitionCell vobjs0 vobjs1 i j s).1.n0 = s.1.n0 ∧
    (transitionCell vobjs0 vobjs1 i j s).1.n1 = s.1.n1 := by
  obtain ⟨h1, h2⟩ := scanFaces_spec (facesAt vobjs1 j) (facesAt vobjs0 i) s.2
  unfold transitionCell
  refine ⟨?_, h2, ?_, ?_⟩
  · intro a b
    simp only
    change (if (scanFaces (facesAt vobjs1 j) (facesAt vobjs0 i) s.2).1 = true
      then s.1.incr i j else s.1).entry a b = _
    rw [h1]
    by_cases ho : overlaps (relatedOf s.2) (facesAt vobjs0 i) (facesAt vobjs1 j) = true
    · simp only [ho, if_true, VortexTransitionMatrix.incr, and_true]
      split <;> simp
    · simp [ho]
  · simp only
    split <;> rfl
  · simp only
    split <;> rfl

theorem colLoop_spec (vobjs0 vobjs1 : List VortexObject) (i : Nat) (js : List Nat) :
    ∀ s : VortexTransitionMatrix × StdMap (List Nat), js.Nodup →
      (∀ a b, (js.foldl (fun s j => transitionCell vobjs0 vobjs1 i j s) s).1.entry a b =
        s.1.entry a b + (if a = i ∧ b ∈ js ∧
          overlaps (relatedOf s.2) (facesAt vobjs0 i) (facesAt vobjs1 b) = true then 1 else 0)) ∧
      (∀ g, relatedOf (js.foldl (fun s j => transitionCell vobjs0 vobjs1 i j s) s).2 g
        = relatedOf s.2 g) ∧
      (js.foldl (fun s j => transitionCell vobjs0 vobjs1 i j s) s).1.n0 = s.1.n0 ∧
      (js.foldl (fun s j => transitionCell vobjs0 vobjs1 i j s) s).1.n1 = s.1.n1 := by
  induction js with
  | nil => intro s _; simp
  | cons j rest ih =>
    intro s hnd
    obtain ⟨hj, hrest⟩ := List.nodup_cons.mp hnd
    obtain ⟨c1, c2, c3, c4⟩ := transitionCell_spec vobjs0 vobjs1 i j s
    obtain ⟨r1, r2, r3, r4⟩ := ih (transitionCell vobjs0 vobjs1 i j s) hrest
    have hfun : relatedOf (transitionCell vobjs0 vobjs1 i j s).2 = relatedOf s.2 := funext c2
    simp only [List.foldl_cons]
    refine ⟨?_, fun g => by rw [r2 g, c2 g], by rw [r3, c3], by rw [r4, c4]⟩
    intro a b
    rw [r1 a b, c1 a b, hfun]
    by_cases hb : b = j
    · subst hb
      simp [hj]
    · simp [hb]

theorem transitionLoops_spec (vobjs0 vobjs1 : List VortexObject) (is : List Nat) :
    ∀ s : VortexTransitionMatrix × StdMap (List Nat), is.Nodup →
      (∀ a b, (is.foldl (fun s i => (List.range vobjs1.length).foldl
          (fun s j => transitionCell vobjs0 vobjs1 i j s) s) s).1.entry a b =
        s.1.entry a b + (if a ∈ is ∧ b < vobjs1.length ∧
          overlaps (relatedOf s.2) (facesAt vobjs0 a) (facesAt vobjs1 b) = true then 1 else 0)) ∧
      (∀ g, relatedOf (is.foldl (fun s i => (List.range vobjs1.length).foldl
          (fun s j => transitionCell vobjs0 vobjs1 i j s) s) s).2 g = relatedOf s.2 g) ∧
      (is.foldl (fun s i => (List.range vobjs1.length).foldl
          (fun s j => transitionCell vobjs0 vobjs1 i j s) s) s).1.n0 = s.1.n0 ∧
      (is.foldl (fun s i => (List.range vobjs1.length).foldl
          (fun s j => transitionCell vobjs0 vobjs1 i j s) s) s).1.n1 = s.1.n1 := by
  induction is with
  | nil => intro s _; simp
  | cons i rest ih =>
    intro s hnd
    obtain ⟨hi, hrest⟩ := List.nodup_cons.mp hnd
    obtain ⟨c1, c2, c3, c4⟩ := colLoop_spec vobjs0 vobjs1 i (List.range vobjs1.length) s
      (List.nodup_range _)
    obtain ⟨r1, r2, r3, r4⟩ := ih ((List.range vobjs1.length).foldl
      (fun s j => transitionCell vobjs0 vobjs1 i j s) s) hrest
    have hfun : relatedOf ((List.range vobjs1.length).foldl
      (fun s j => transitionCell vobjs0 vobjs1 i j s) s).2 = relatedOf s.2 := funext c2
    simp only [List.foldl_cons]
    refine ⟨?_, fun g => by rw [r2 g, c2 g], by rw [r3, c3], by rw [r4, c4]⟩
    intro a b
    rw [r1 a b, c1 a b, hfun]
    by_cases ha : a = i
    · subst ha
      simp [hi, List.mem_range]
    · simp [ha]

theorem TraceOverTime_matrix (mg : MeshGraph) (fuel : Nat) (st st2 : VortexExtractor)
    (h : TraceOverTime mg fuel st = some st2) :
    ∃ st1 tm, RelateOverTime mg fuel st = some st1 ∧
      st2._vortex_transition = st._vortex_transition ++ [tm] ∧
      tm.n0 = st._vortex_objects.length ∧ tm.n1 = st._vortex_objects1.length ∧
      ∀ i j, tm.entry i j =
        if i < st._vortex_objects.length ∧ j < st._vortex_objects1.length ∧
          overlaps (relatedOf st1._related_faces) (facesAt st._vortex_objects i)
            (facesAt st._vortex_objects1 j) = true then 1 else 0 := by
  unfold TraceOverTime at h
  cases h1 : RelateOverTime mg fuel st with
  | none => simp [h1] at h
  | some st1 =>
    simp only [h1, Option.some.injEq] at h
    have hst1 : st1._vortex_objects = st._vortex_objects ∧
        st1._vortex_objects1 = st._vortex_objects1 ∧
        st1._vortex_transition = st._vortex_transition := by
      unfold RelateOverTime at h1
      split at h1
      · cases h1
      · cases h1; exact ⟨rfl, rfl, rfl⟩
    obtain ⟨e0, e1, e2⟩ := hst1
    obtain ⟨t1, _, t3, t4⟩ := transitionLoops_spec st1._vortex_objects st1._vortex_objects1
      (List.range st1._vortex_objects.length)
      (VortexTransitionMatrix.zero st1._vortex_objects.length st1._vortex_objects1.length,
        st1._related_faces) (List.nodup_range _)
    refine ⟨st1, (transitionLoops st1._vortex_objects st1._vortex_objects1
      (VortexTransitionMatrix.zero st1._vortex_objects.length st1._vortex_objects1.length,
        st1._related_faces)).1, rfl, ?_, ?_, ?_, ?_⟩
    · rw [← h, ← e2]
    · rw [← e0]; exact t3
    · rw [← e1]; exact t4
    · intro i j
      rw [← e0, ← e1]
      have := t1 i j
      simp only [VortexTransitionMatrix.zero, zero_add, List.mem_range] at this
      exact this

/-- C3: `TraceOverTime` returns, and the matrix it adds has one row per object at t0 and one
column per object at t1; entry `(i, j)` is 1 if some member face of object `i` has a related
face (in the map `RelateOverTime` recorded) that is a member face of object `j`, and 0
otherwise. -/
theorem TraceOverTime_entry_is_indicator (mg : MeshGraph) (st : VortexExtractor) :
    (∃ fuel st2, TraceOverTime mg fuel st = some st2) ∧
    ∀ fuel st2, TraceOverTime mg fuel st = some st2 →
      ∃ st1 tm, RelateOverTime mg fuel st = some st1 ∧
        st2._vortex_transition = st._vortex_transition ++ [tm] ∧
        tm.n0 = st._vortex_objects.length ∧ tm.n1 = st._vortex_objects1.length ∧
        ∀ i j, i < st._vortex_objects.length → j < st._vortex_objects1.length →
          ((∃ f ∈ facesAt st._vortex_objects i, ∃ g ∈ relatedOf st1._related_faces f,
              g ∈ facesAt st._vortex_objects1 j) → tm.entry i j = 1) ∧
          ((¬ ∃ f ∈ facesAt st._vortex_objects i, ∃ g ∈ relatedOf st1._related_faces f,
              g ∈ facesAt st._vortex_objects1 j) → tm.entry i j = 0) := by
  refine ⟨TraceOverTime_terminates mg st, ?_⟩
  intro fuel st2 h
  obtain ⟨st1, tm, h1, h2, h3, h4, h5⟩ := TraceOverTime_matrix mg fuel st st2 h
  refine ⟨st1, tm, h1, h2, h3, h4, ?_⟩
  intro i j hi hj
  rw [h5 i j, ← overlaps_iff]
  constructor
  · intro ho; simp [hi, hj, ho]
  · intro ho; simp [ho]

/-- C3 (witness): on `pairState` the matrix added by `TraceOverTime` has the single entry
`(0, 0)`, and it is 1: face 1 of object 0 is related to face 1 of object 0 at t1. -/
theorem TraceOverTime_entry_is_indicator_witness :
    ∃ st2 tm, TraceOverTime pairMesh 2 pairState = some st2 ∧
      st2._vortex_transition = [tm] ∧ tm.n0 = 1 ∧ tm.n1 = 1 ∧ tm.entry 0 0 = 1 := by
  obtain ⟨st1, tm, h1, h2, h3, h4, h5⟩ :=
    (TraceOverTime_entry_is_indicator pairMesh pairState).2 2 _ rfl
  refine ⟨_, tm, rfl, h2, h3, h4, ?_⟩
  have e : (RelateOverTime pairMesh 2 pairState).map (fun s => s._related_faces)
      = some [(1, [1]), (2, [2])] := by decide
  rw [h1] at e
  simp only [Option.map_some', Option.some.injEq] at e
  refine (h5 0 0 (by decide) (by decide)).1 ⟨1, by decide, 1, ?_, by decide⟩
  rw [e]
  decide

theorem overlapPairs_pos_iff (R : Nat → List Nat) (faces0 faces1 : List Nat) :
    0 < (overlapPairs R faces0 faces1).length ↔ overlaps R faces0 faces1 = true := by
  rw [overlaps_iff, List.length_pos_iff_exists_mem]
  constructor
  · rintro ⟨⟨f, g⟩, hm⟩
    simp only [overlapPairs, List.mem_flatMap, List.mem_dedup, List.mem_map, List.mem_filter,
      decide_eq_true_eq, Prod.mk.injEq] at hm
    obtain ⟨f1, hf1, g1, ⟨hg1, hg2⟩, rfl, rfl⟩ := hm
    exact ⟨f1, hf1, g1, hg1, hg2⟩
  · rintro ⟨f, hf, g, hg, hg1⟩
    refine ⟨(f, g), ?_⟩
    simp only [overlapPairs, List.mem_flatMap, List.mem_dedup, List.mem_map, List.mem_filter,
      decide_eq_true_eq, Prod.mk.injEq]
    exact ⟨f, hf, g, ⟨hg, hg1⟩, rfl, rfl⟩

/-- C4 (amended): `TraceOverTime` returns, and entry `(i, j)` of the matrix it adds is 1 when
the number of pairs `(f, g)` (`f` a member face of object `i`, `g` a member face of object
`j`, `g` recorded as related to `f`) is positive and 0 when there is no such pair; it is not
the number of pairs. -/
theorem TraceOverTime_entry_caps_pair_count (mg : MeshGraph) (st : VortexExtractor) :
    (∃ fuel st2, TraceOverTime mg fuel st = some st2) ∧
    ∀ fuel st2, TraceOverTime mg fuel st = some st2 →
      ∃ st1 tm, RelateOverTime mg fuel st = some st1 ∧
        st2._vortex_transition = st._vortex_transition ++ [tm] ∧
        ∀ i j, i < st._vortex_objects.length → j < st._vortex_objects1.length →
          tm.entry i j = min 1 ((overlapPairs (relatedOf st1._related_faces)
            (facesAt st._vortex_objects i) (facesAt st._vortex_objects1 j)).length : Int) := by
  refine ⟨TraceOverTime_terminates mg st, ?_⟩
  intro fuel st2 h
  obtain ⟨st1, tm, h1, h2, _, _, h5⟩ := TraceOverTime_matrix mg fuel st st2 h
  refine ⟨st1, tm, h1, h2, ?_⟩
  intro i j hi hj
  rw [h5 i j]
  have hp := overlapPairs_pos_iff (relatedOf st1._related_faces) (facesAt st._vortex_objects i)
    (facesAt st._vortex_objects1 j)
  by_cases ho : overlaps (relatedOf st1._related_faces) (facesAt st._vortex_objects i)
      (facesAt st._vortex_objects1 j) = true
  · have := hp.mpr ho
    simp only [hi, hj, ho, and_self, if_true]
    omega
  · have hz : (overlapPairs (relatedOf st1._related_faces) (facesAt st._vortex_objects i)
        (facesAt st._vortex_objects1 j)).length = 0 := by
      by_contra hne
      exact ho (hp.mp (Nat.pos_of_ne_zero hne))
    simp [ho, hz]

/-- C4 (counterexample): in `pairState` face 1 is related to face 1 and face 2 to face 2, so
two pairs link object 0 to object 0, yet `TraceOverTime` leaves entry `(0, 0)` at 1. -/
theorem TraceOverTime_entry_not_pair_count :
    (TraceOverTime pairMesh 2 pairState).map
        (fun s => s._vortex_transition.map (fun tm => tm.entry 0 0)) = some [1] ∧
    (RelateOverTime pairMesh 2 pairState).map (fun s => s._related_faces)
        = some [(1, [1]), (2, [2])] ∧
    (overlapPairs (relatedOf [(1, [1]), (2, [2])]) (facesAt pairState._vortex_objects 0)
        (facesAt pairState._vortex_objects1 0)).length = 2 := by
  refine ⟨by decide, by decide, by decide⟩

/-! ## What `RelateOverTime` records -/

theorem pushFaces_spec (fv : StdSet) (edge : CEdge) (pe : PuncturedEdge) (P : Visit → Prop)
    (faces : List Nat) :
    ∀ (j : Nat) (q : List Visit), (∀ k, faces[k]? = edge.contained_faces[j + k]?) →
      (∀ v ∈ q, P v) →
      (∀ k f, edge.contained_faces[k]? = some f → f ∉ fv →
        P ⟨f, -(edge.contained_faces_chirality.getD k 0) * pe.chirality, pe.t⟩) →
      ∀ v ∈ pushFaces fv edge pe faces j q, P v := by
  induction faces with
  | nil => intro j q _ hq _ v hv; exact hq v (by simpa [pushFaces] using hv)
  | cons f rest ih =>
    intro j q hsuf hq hP v hv
    have hrest : ∀ k, rest[k]? = edge.contained_faces[j + 1 + k]? := by
      intro k
      have := hsuf (k + 1)
      simp only [List.getElem?_cons_succ] at this
      rw [this]
      congr 1
      omega
    have hf : edge.contained_faces[j]? = some f := by
      have := hsuf 0
      simpa using this.symm
    unfold pushFaces at hv
    by_cases hfv : f ∉ fv
    · rw [if_pos hfv] at hv
      refine ih (j + 1) _ hrest ?_ hP v hv
      intro w hw
      rcases List.mem_cons.mp hw with rfl | hw
      · exact hP j f hf hfv
      · exact hq w hw
    · rw [if_neg hfv] at hv
      exact ih (j + 1) q hrest hq hP v hv

theorem edgeFor_queue (mg : MeshGraph) (pes : StdMap PuncturedEdge) (face : CFace) (chi : Int)
    (fv : StdSet) (P : Visit → Prop)
    (hP : ∀ e pe k f, StdMap.find pes e = some pe → (mg.Edge e).contained_faces[k]? = some f →
      f ∉ fv → P ⟨f, -((mg.Edge e).contained_faces_chirality.getD k 0) * pe.chirality, pe.t⟩)
    (edges : List Nat) :
    ∀ (i : Nat) (s : StdSet × List Visit), (∀ v ∈ s.2, P v) →
      ∀ v ∈ (edgeFor mg pes face chi fv edges i s).2, P v := by
  induction edges with
  | nil => intro i s hs v hv; exact hs v (by simpa [edgeFor] using hv)
  | cons e rest ih =>
    intro i s hs v hv
    unfold edgeFor at hv
    cases hf : StdMap.find pes e with
    | none => simp only [hf] at hv; exact ih (i + 1) s hs v hv
    | some pe =>
      simp only [hf] at hv
      by_cases he : e ∉ s.1
      · rw [if_pos he] at hv
        split at hv
        · refine ih (i + 1) _ ?_ v hv
          exact pushFaces_spec fv (mg.Edge e) pe P (mg.Edge e).contained_faces 0 s.2
            (fun k => by simp) hs (fun k f hk hfv => hP e pe k f hf hk hfv)
        · exact ih (i + 1) (StdSet.insert s.1 e, s.2) hs v hv
      · rw [if_neg he] at hv
        exact ih (i + 1) s hs v hv

theorem matchesAtT1_iff (pfs1 : StdMap PuncturedFace) (g : Nat) (chi : Int) :
    matchesAtT1 pfs1 g chi = true ↔ ∃ pf1, StdMap.find pfs1 g = some pf1 ∧ pf1.chirality = chi := by
  unfold matchesAtT1
  cases StdMap.find pfs1 g with
  | none => simp
  | some pf => simp

theorem relateStep_queue (mg : MeshGraph) (pes : StdMap PuncturedEdge)
    (pfs1 : StdMap PuncturedFace) (s : Nat) (cur : Visit) (rest : List Visit) (st : RelateState)
    (hs : s ∈ StdSet.insert st.faces_visited cur.face)
    (hrest : ∀ v ∈ rest, v.face ≠ s ∧ CarriedThroughEdge mg pes v.face v.chirality) :
    ∀ v ∈ (relateStep mg pes pfs1 cur rest st).to_visit,
      v.face ≠ s ∧ CarriedThroughEdge mg pes v.face v.chirality := by
  apply edgeFor_queue mg pes (mg.Face cur.face) cur.chirality
    (StdSet.insert st.faces_visited cur.face)
    (fun v => v.face ≠ s ∧ CarriedThroughEdge mg pes v.face v.chirality)
  · intro e pe k f hf hk hfv
    exact ⟨fun h => hfv (by rw [show f = s from h]; exact hs), e, pe, k, hf, hk, rfl⟩
  · exact hrest

theorem relateStep_inv (mg : MeshGraph) (pes : StdMap PuncturedEdge)
    (pfs1 : StdMap PuncturedFace) (s : Nat) (chi0 : Int) (cur : Visit) (rest : List Visit)
    (st : RelateState) (hq : st.to_visit = cur :: rest)
    (h : RelateInv mg pes pfs1 s chi0 st) :
    RelateInv mg pes pfs1 s chi0 (relateStep mg pes pfs1 cur rest st) := by
  obtain ⟨h1, h2, h3, h4⟩ := h
  have hcur := h2 cur (by simp [hq])
  have hs : s ∈ StdSet.insert st.faces_visited cur.face :=
    (StdSet.mem_insert _ _ _).mpr (Or.inr h1)
  refine ⟨hs, relateStep_queue mg pes pfs1 s cur rest st hs
    (fun v hv => h2 v (by simp [hq, hv])), ?_, ?_⟩
  · intro g hg
    change g ∈ (if matchesAtT1 pfs1 cur.face cur.chirality = true then st.related ++ [cur.face]
      else st.related) at hg
    by_cases hm : matchesAtT1 pfs1 cur.face cur.chirality = true
    · rw [if_pos hm] at hg
      rcases List.mem_append.mp hg with hg | hg
      · exact h3 g hg
      · simp only [List.mem_singleton] at hg
        subst hg
        obtain ⟨pf1, hf, hc⟩ := (matchesAtT1_iff _ _ _).mp hm
        exact ⟨pf1, hf, Or.inr ⟨hcur.1, hc ▸ hcur.2⟩⟩
    · rw [if_neg hm] at hg
      exact h3 g hg
  · change s ∈ (if matchesAtT1 pfs1 cur.face cur.chirality = true then st.related ++ [cur.face]
      else st.related) ↔ _
    rw [← h4]
    by_cases hm : matchesAtT1 pfs1 cur.face cur.chirality = true
    · rw [if_pos hm]
      simp only [List.mem_append, List.mem_singleton]
      constructor
      · rintro (h | h)
        · exact h
        · exact absurd h.symm hcur.1
      · exact Or.inl
    · rw [if_neg hm]

theorem relateLoop_inv (mg : MeshGraph) (pes : StdMap PuncturedEdge)
    (pfs1 : StdMap PuncturedFace) (s : Nat) (chi0 : Int) :
    ∀ (fuel : Nat) (st r : RelateState), relateLoop mg pes pfs1 fuel st = some r →
      RelateInv mg pes pfs1 s chi0 st → RelateInv mg pes pfs1 s chi0 r := by
  intro fuel
  induction fuel with
  | zero => intro st r h; simp [relateLoop] at h
  | succ fuel ih =>
    intro st r h hinv
    unfold relateLoop at h
    cases hq : st.to_visit with
    | nil => simp only [hq] at h; cases h; exact hinv
    | cons cur rest =>
      simp only [hq] at h
      exact ih _ _ h (relateStep_inv mg pes pfs1 s chi0 cur rest st hq hinv)

theorem relateSeed_spec (mg : MeshGraph) (pes : StdMap PuncturedEdge)
    (pfs1 : StdMap PuncturedFace) (fuel s : Nat) (chi0 : Int) (related : List Nat)
    (h : relateSeed mg pes pfs1 fuel s chi0 = some related) :
    (∀ g ∈ related, RelatedOk mg pes pfs1 s chi0 g) ∧
    (s ∈ related ↔ matchesAtT1 pfs1 s chi0 = true) := by
  unfold relateSeed at h
  cases hl : relateLoop mg pes pfs1 fuel ⟨[⟨s, chi0, some 0⟩], [], [], []⟩ with
  | none => simp [hl] at h
  | some r =>
    simp only [hl, Option.some.injEq] at h
    subst h
    cases fuel with
    | zero => simp [relateLoop] at hl
    | succ fuel =>
      unfold relateLoop at hl
      simp only at hl
      have hinv : RelateInv mg pes pfs1 s chi0
          (relateStep mg pes pfs1 ⟨s, chi0, some 0⟩ [] ⟨[⟨s, chi0, some 0⟩], [], [], []⟩) := by
        have hs : s ∈ StdSet.insert [] s := (StdSet.mem_insert _ _ _).mpr (Or.inl rfl)
        refine ⟨hs, relateStep_queue mg pes pfs1 s ⟨s, chi0, some 0⟩ [] _ hs
          (fun v hv => by simp at hv), ?_, ?_⟩
        · intro g hg
          change g ∈ (if matchesAtT1 pfs1 s chi0 = true then [] ++ [s] else []) at hg
          by_cases hm : matchesAtT1 pfs1 s chi0 = true
          · rw [if_pos hm] at hg
            simp only [List.nil_append, List.mem_singleton] at hg
            subst hg
            obtain ⟨pf1, hf, hc⟩ := (matchesAtT1_iff _ _ _).mp hm
            exact ⟨pf1, hf, Or.inl ⟨rfl, hc⟩⟩
          · rw [if_neg hm] at hg
            simp at hg
        · change s ∈ (if matchesAtT1 pfs1 s chi0 = true then [] ++ [s] else []) ↔ _
          by_cases hm : matchesAtT1 pfs1 s chi0 = true
          · simp [hm]
          · simp [hm]
      obtain ⟨_, _, h3, h4⟩ := relateLoop_inv mg pes pfs1 s chi0 fuel _ r hl hinv
      exact ⟨h3, h4⟩

theorem StdMap.mem_keys_insert {V : Type} (m : StdMap V) (x y : Nat) (v : V) :
    y ∈ StdMap.keys (StdMap.insert m x v) ↔ y = x ∨ y ∈ StdMap.keys m := by
  rw [← StdMap.find_isSome_mem_keys, ← StdMap.find_isSome_mem_keys, StdMap.find_insert]
  by_cases h : y = x
  · simp [h]
  · simp [h]

theorem StdMap.insert_keys_sorted {V : Type} (m : StdMap V) (x : Nat) (v : V)
    (h : (StdMap.keys m).Pairwise (fun a b => a < b)) :
    (StdMap.keys (StdMap.insert m x v)).Pairwise (fun a b => a < b) := by
  induction m with
  | nil => simp [StdMap.insert, StdMap.keys]
  | cons a r ih =>
    obtain ⟨k, w⟩ := a
    have hk : ∀ b ∈ StdMap.keys r, k < b := by
      simp only [StdMap.keys, List.map_cons, List.pairwise_cons] at h
      exact h.1
    have hr : (StdMap.keys r).Pairwise (fun a b => a < b) := by
      simp only [StdMap.keys, List.map_cons, List.pairwise_cons] at h
      exact h.2
    unfold StdMap.insert
    by_cases h1 : x < k
    · rw [if_pos h1]
      simp only [StdMap.keys, List.map_cons, List.pairwise_cons, List.mem_cons]
      refine ⟨?_, hk, hr⟩
      rintro b (rfl | hb)
      · exact h1
      · exact lt_trans h1 (hk b hb)
    · rw [if_neg h1]
      by_cases h2 : x = k
      · rw [if_pos h2]
        exact h
      · rw [if_neg h2]
        have hkx : k < x := by omega
        show (k :: StdMap.keys (StdMap.insert r x v)).Pairwise (fun a b => a < b)
        rw [List.pairwise_cons]
        refine ⟨?_, ih hr⟩
        intro b hb
        rcases (StdMap.mem_keys_insert r x b v).mp hb with rfl | hb
        · exact hkx
        · exact hk b hb

theorem StdMap.find_of_mem_nodup {V : Type} (m : StdMap V) (x : Nat) (v : V)
    (hnd : (StdMap.keys m).Nodup) (h : (x, v) ∈ m) : StdMap.find m x = some v := by
  induction m with
  | nil => simp at h
  | cons a r ih =>
    obtain ⟨k, w⟩ := a
    simp only [StdMap.keys, List.map_cons, List.nodup_cons] at hnd
    unfold StdMap.find
    rcases List.mem_cons.mp h with heq | hr
    · cases heq; simp
    · have hne : x ≠ k := by
        intro hxk
        apply hnd.1
        rw [← hxk]
        exact List.mem_map.mpr ⟨(x, v), hr, rfl⟩
      rw [if_neg hne]
      exact ih hnd.2 hr

theorem StdMap.mem_of_find {V : Type} (m : StdMap V) (x : Nat) (v : V)
    (h : StdMap.find m x = some v) : (x, v) ∈ m := by
  induction m with
  | nil => simp [StdMap.find] at h
  | cons a r ih =>
    obtain ⟨k, w⟩ := a
    unfold StdMap.find at h
    by_cases hxk : x = k
    · rw [if_pos hxk] at h
      cases h
      subst hxk
      exact List.mem_cons_self _ _
    · rw [if_neg hxk] at h
      exact List.mem_cons_of_mem _ (ih h)

theorem relateSeeds_spec (mg : MeshGraph) (pes : StdMap PuncturedEdge)
    (pfs1 : StdMap PuncturedFace) (fuel : Nat) (seeds : List (Nat × PuncturedFace)) :
    ∀ (rel r : StdMap (List Nat)), relateSeeds mg pes pfs1 fuel seeds rel = some r →
      (StdMap.keys seeds).Nodup →
      (∀ x, x ∈ StdMap.keys r ↔ x ∈ StdMap.keys rel ∨ x ∈ StdMap.keys seeds) ∧
      ((StdMap.keys rel).Pairwise (fun a b => a < b) →
        (StdMap.keys r).Pairwise (fun a b => a < b)) ∧
      (∀ x, x ∉ StdMap.keys seeds → StdMap.find r x = StdMap.find rel x) ∧
      (∀ fid pf, (fid, pf) ∈ seeds → ∃ related,
        relateSeed mg pes pfs1 fuel fid pf.chirality = some related ∧
        StdMap.find r fid = some related) := by
  induction seeds with
  | nil =>
    intro rel r h _
    simp only [relateSeeds, Option.some.injEq] at h
    subst h
    simp [StdMap.keys]
  | cons a rest ih =>
    intro rel r h hnd
    obtain ⟨fid0, pf0⟩ := a
    simp only [StdMap.keys, List.map_cons, List.nodup_cons] at hnd
    unfold relateSeeds at h
    cases hs : relateSeed mg pes pfs1 fuel fid0 pf0.chirality with
    | none => simp [hs] at h
    | some related0 =>
      simp only [hs] at h
      obtain ⟨i1, i2, i3, i4⟩ := ih _ _ h hnd.2
      refine ⟨?_, ?_, ?_, ?_⟩
      · intro x
        rw [i1 x, StdMap.mem_keys_insert]
        simp only [StdMap.keys, List.map_cons, List.mem_cons]
        tauto
      · intro hsorted
        exact i2 (StdMap.insert_keys_sorted _ _ _ hsorted)
      · intro x hx
        simp only [StdMap.keys, List.map_cons, List.mem_cons, not_or] at hx
        rw [i3 x hx.2, StdMap.find_insert, if_neg hx.1]
      · intro fid pf hmem
        rcases List.mem_cons.mp hmem with heq | hmem
        · cases heq
          refine ⟨related0, hs, ?_⟩
          rw [i3 _ hnd.1, StdMap.find_insert, if_pos rfl]
        · exact i4 fid pf hmem

/-- C5: `RelateOverTime` returns; afterwards the related-face map has exactly one entry per
face punctured at t0, and a face `g` stands in the list of seed `s` only if `g` is punctured at
t1 with the chirality the search carried to `g` (for `g = s` the chirality of `s` at t0, for
another face the chirality propagated through a punctured edge); `s` is related to itself
exactly when it is punctured at t1 with its t0 chirality. -/
theorem RelateOverTime_related_faces (mg : MeshGraph) (st : VortexExtractor)
    (hwf : (StdMap.keys st._punctured_faces).Nodup) :
    (∃ fuel st1, RelateOverTime mg fuel st = some st1) ∧
    ∀ fuel st1, RelateOverTime mg fuel st = some st1 →
      (StdMap.keys st1._related_faces).Nodup ∧
      (∀ s, s ∈ StdMap.keys st1._related_faces ↔ s ∈ StdMap.keys st._punctured_faces) ∧
      ∀ s pf0, StdMap.find st._punctured_faces s = some pf0 →
        ∃ related, StdMap.find st1._related_faces s = some related ∧
          (∀ g ∈ related, ∃ pf1, StdMap.find st._punctured_faces1 g = some pf1 ∧
            ((g = s ∧ pf1.chirality = pf0.chirality) ∨
              (g ≠ s ∧ CarriedThroughEdge mg st._punctured_edges g pf1.chirality))) ∧
          (s ∈ related ↔
            ∃ pf1, StdMap.find st._punctured_faces1 s = some pf1 ∧
              pf1.chirality = pf0.chirality) := by
  refine ⟨RelateOverTime_terminates mg st, ?_⟩
  intro fuel st1 h
  unfold RelateOverTime at h
  cases hr : relateSeeds mg st._punctured_edges st._punctured_faces1 fuel st._punctured_faces []
    with
  | none => simp [hr] at h
  | some rel =>
    simp only [hr, Option.some.injEq] at h
    subst h
    obtain ⟨i1, i2, _, i4⟩ := relateSeeds_spec mg _ _ fuel _ _ _ hr hwf
    refine ⟨?_, ?_, ?_⟩
    · have hs := i2 (by simp [StdMap.keys])
      exact hs.imp (fun hab => ne_of_lt hab)
    · intro s
      rw [i1 s]
      simp [StdMap.keys]
    · intro s pf0 hf
      obtain ⟨related, hrel, hfind⟩ := i4 s pf0 (StdMap.mem_of_find _ _ _ hf)
      obtain ⟨h3, h4⟩ := relateSeed_spec mg _ _ fuel s pf0.chirality related hrel
      exact ⟨related, hfind, h3, by rw [h4, matchesAtT1_iff]⟩

/-- C5 (witness): the statement at `sharedEdgeState`, where the search of seed 0 records the
seed itself and face 1, reached through the punctured edge 0. -/
theorem RelateOverTime_related_faces_witness :
    (StdMap.keys sharedEdgeState._punctured_faces).Nodup ∧
    (∃ fuel st1, RelateOverTime sharedEdgeMesh fuel sharedEdgeState = some st1) ∧
    (RelateOverTime sharedEdgeMesh 3 sharedEdgeState).map (fun s => s._related_faces)
      = some [(0, [0, 1])] :=
  ⟨by decide, (RelateOverTime_related_faces sharedEdgeMesh sharedEdgeState (by decide)).1,
    by decide⟩

/-! ## Rounding to `double` -/

theorem roundEven_intCast (n : ℤ) : roundEven (n : ℚ) = n := by
  unfold roundEven
  simp

theorem roundEven_error (q : ℚ) : |(roundEven q : ℚ) - q| ≤ 1 / 2 := by
  have h1 := Int.floor_le q
  have h2 := Int.lt_floor_add_one q
  unfold roundEven
  rw [abs_le]
  split
  · constructor <;> linarith
  · split
    · push_cast
      constructor <;> linarith
    · split
      · constructor <;> linarith
      · push_cast
        constructor <;> linarith

theorem roundEven_neg (q : ℚ) : roundEven (-q) = -roundEven q := by
  have h1 := Int.floor_le q
  have h2 := Int.lt_floor_add_one q
  by_cases hz : q - ⌊q⌋ = 0
  · have hq : q = ((⌊q⌋ : ℤ) : ℚ) := by linarith
    rw [hq, ← Int.cast_neg, roundEven_intCast, roundEven_intCast]
  · have hpos : 0 < q - ⌊q⌋ := lt_of_le_of_ne (by linarith) (Ne.symm hz)
    have hfl : ⌊-q⌋ = -⌊q⌋ - 1 := by
      rw [Int.floor_eq_iff]
      push_cast
      constructor <;> linarith
    unfold roundEven
    rw [hfl]
    push_cast
    by_cases ha : q - ⌊q⌋ < 1 / 2
    · have hb : ¬ (-q - (-(⌊q⌋ : ℚ) - 1) < 1 / 2) := by linarith
      have hc : 1 / 2 < -q - (-(⌊q⌋ : ℚ) - 1) := by linarith
      rw [if_pos ha, if_neg hb, if_pos hc]
      ring
    · by_cases hb : 1 / 2 < q - ⌊q⌋
      · have hc : -q - (-(⌊q⌋ : ℚ) - 1) < 1 / 2 := by linarith
        rw [if_neg ha, if_pos hb, if_pos hc]
        ring
      · have hc : ¬ (-q - (-(⌊q⌋ : ℚ) - 1) < 1 / 2) := by linarith
        have hd : ¬ (1 / 2 < -q - (-(⌊q⌋ : ℚ) - 1)) := by linarith
        rw [if_neg ha, if_neg hb, if_neg hc, if_neg hd]
        by_cases he : ⌊q⌋ % 2 = 0
        · have hf : ¬ ((-⌊q⌋ - 1) % 2 = 0) := by omega
          rw [if_pos he, if_neg hf]
          ring
        · have hf : (-⌊q⌋ - 1) % 2 = 0 := by omega
          rw [if_neg he, if_pos hf]
          ring

theorem roundDouble_neg (x : ℚ) : roundDouble (-x) = -roundDouble x := by
  unfold roundDouble
  by_cases hx : x = 0
  · simp [hx]
  · have hnx : -x ≠ 0 := neg_ne_zero.mpr hx
    rw [if_neg hx, if_neg hnx, abs_neg, neg_div, roundEven_neg]
    push_cast
    ring

theorem roundDouble_error (x : ℚ) : |roundDouble x - x| ≤ |x| / 2 ^ 53 := by
  unfold roundDouble
  by_cases hx : x = 0
  · simp [hx]
  · rw [if_neg hx]
    have hax : 0 < |x| := abs_pos.mpr hx
    have hlog : (2 : ℚ) ^ Int.log 2 |x| ≤ |x| := by
      have := Int.zpow_log_le_self (b := 2) (r := |x|) (by norm_num) hax
      exact_mod_cast this
    have hu : (0 : ℚ) < 2 ^ (Int.log 2 |x| - 52) := by positivity
    have hr := roundEven_error (x / 2 ^ (Int.log 2 |x| - 52))
    have e : (roundEven (x / 2 ^ (Int.log 2 |x| - 52)) : ℚ) * 2 ^ (Int.log 2 |x| - 52) - x
        = ((roundEven (x / 2 ^ (Int.log 2 |x| - 52)) : ℚ) - x / 2 ^ (Int.log 2 |x| - 52))
          * 2 ^ (Int.log 2 |x| - 52) := by
      field_simp
    rw [e, abs_mul, abs_of_pos hu]
    have hsplit : (2 : ℚ) ^ (Int.log 2 |x| - 52) = 2 ^ Int.log 2 |x| / 2 ^ 52 := by
      rw [zpow_sub₀ (by norm_num)]
      norm_num
    calc |(roundEven (x / 2 ^ (Int.log 2 |x| - 52)) : ℚ) - x / 2 ^ (Int.log 2 |x| - 52)|
          * 2 ^ (Int.log 2 |x| - 52)
        ≤ 1 / 2 * 2 ^ (Int.log 2 |x| - 52) := by
          exact mul_le_mul_of_nonneg_right hr hu.le
      _ = 2 ^ Int.log 2 |x| / 2 ^ 53 := by
          rw [hsplit]
          ring
      _ ≤ |x| / 2 ^ 53 := by
          exact div_le_div_of_nonneg_right hlog (by positivity)

theorem roundDouble_of_isDouble (x : ℚ) (h : IsDouble x) : roundDouble x = x := by
  obtain ⟨m, k, hm, _, _, rfl⟩ := h
  unfold roundDouble
  by_cases hx : (m : ℚ) * 2 ^ k = 0
  · rw [if_pos hx, hx]
  · rw [if_neg hx]
    have hm0 : (m : ℚ) ≠ 0 := fun h0 => hx (by rw [h0, zero_mul])
    have hax : 0 < |(m : ℚ) * 2 ^ k| := abs_pos.mpr hx
    have hlog : (2 : ℚ) ^ Int.log 2 |(m : ℚ) * 2 ^ k| ≤ |(m : ℚ) * 2 ^ k| := by
      have := Int.zpow_log_le_self (b := 2) (r := |(m : ℚ) * 2 ^ k|) (by norm_num) hax
      exact_mod_cast this
    have hmq : |(m : ℚ)| < 2 ^ 53 := by
      have : ((|m| : ℤ) : ℚ) < ((2 ^ 53 : ℤ) : ℚ) := by exact_mod_cast hm
      simpa using this
    have h2k : (0 : ℚ) < 2 ^ k := by positivity
    have hlt : (2 : ℚ) ^ Int.log 2 |(m : ℚ) * 2 ^ k| < 2 ^ (53 + k) := by
      calc (2 : ℚ) ^ Int.log 2 |(m : ℚ) * 2 ^ k| ≤ |(m : ℚ) * 2 ^ k| := hlog
        _ = |(m : ℚ)| * 2 ^ k := by rw [abs_mul, abs_of_pos h2k]
        _ < 2 ^ 53 * 2 ^ k := by exact mul_lt_mul_of_pos_right hmq h2k
        _ = 2 ^ (53 + k) := by
            rw [zpow_add₀ (by norm_num)]
            norm_num
    have hexp : Int.log 2 |(m : ℚ) * 2 ^ k| < 53 + k :=
      (zpow_lt_zpow_iff_right₀ (by norm_num : (1 : ℚ) < 2)).mp hlt
    generalize Int.log 2 |(m : ℚ) * 2 ^ k| = e at hexp ⊢
    obtain ⟨j, hj⟩ : ∃ j : ℕ, (j : ℤ) = k - (e - 52) := ⟨(k - (e - 52)).toNat, by omega⟩
    have hk : k = (e - 52) + j := by omega
    have hu : (2 : ℚ) ^ (e - 52) ≠ 0 := by positivity
    have hq : (m : ℚ) * 2 ^ k / 2 ^ (e - 52) = ((m * 2 ^ j : ℤ) : ℚ) := by
      rw [hk, zpow_add₀ (by norm_num), zpow_natCast]
      push_cast
      field_simp
      ring
    rw [hq, roundEven_intCast]
    rw [hk, zpow_add₀ (by norm_num), zpow_natCast]
    push_cast
    ring

theorem isDouble_zero : IsDouble 0 := ⟨0, 0, by norm_num, by norm_num, by norm_num, by norm_num⟩

theorem isDouble_M_PI_mul (a : ℤ) (k : ℤ)
    (ha : |a * 884279719003555| < 2 ^ 53 ∧ -1026 ≤ k ∧ k ≤ 1019) :
    IsDouble (a * M_PI * 2 ^ k) := by
  refine ⟨a * 884279719003555, k - 48, ha.1, by omega, by omega, ?_⟩
  rw [zpow_sub₀ (by norm_num)]
  unfold M_PI
  push_cast
  norm_num
  ring

/-! ## The puncture decision -/

theorem M_PI_pos : 0 < M_PI := by
  unfold M_PI
  norm_num

theorem M_PI_gt_three : 3 < M_PI := by
  unfold M_PI
  norm_num

theorem M_PI_lt_four : M_PI < 4 := by
  unfold M_PI
  norm_num

theorem mod2pi1_of_mem_range (x : ℚ) (h1 : -M_PI < x) (h2 : x ≤ M_PI) : mod2pi1 x = x := by
  have hpi := M_PI_pos
  have hc : ⌈(x - M_PI) / (2 * M_PI)⌉ = 0 := by
    rw [Int.ceil_eq_iff]
    constructor
    · rw [lt_div_iff₀ (by linarith)]
      push_cast
      linarith
    · rw [div_le_iff₀ (by linarith)]
      push_cast
      linarith
  unfold mod2pi1
  rw [hc]
  simp

theorem mod2pi1_add_turns (x : ℚ) (k : ℤ) : mod2pi1 (x + 2 * M_PI * k) = mod2pi1 x := by
  have hpi := M_PI_pos
  have hne : (2 * M_PI) ≠ 0 := by linarith
  unfold mod2pi1
  have : (x + 2 * M_PI * k - M_PI) / (2 * M_PI) = (x - M_PI) / (2 * M_PI) + k := by
    field_simp
    ring
  rw [this, Int.ceil_add_int]
  push_cast
  ring

theorem mod2pi1_mem_range (x : ℚ) : -M_PI < mod2pi1 x ∧ mod2pi1 x ≤ M_PI := by
  have hpi := M_PI_pos
  have h1 := Int.ceil_lt_add_one ((x - M_PI) / (2 * M_PI))
  have h2 := Int.le_ceil ((x - M_PI) / (2 * M_PI))
  rw [div_le_iff₀ (by linarith)] at h2
  have h3 : ((⌈(x - M_PI) / (2 * M_PI)⌉ : ℤ) : ℚ) - 1 < (x - M_PI) / (2 * M_PI) := by linarith
  rw [lt_div_iff₀ (by linarith)] at h3
  unfold mod2pi1
  constructor <;> linarith

theorem mod2pi1_abs_le (x : ℚ) : |mod2pi1 x| ≤ 4 := by
  have h := mod2pi1_mem_range x
  have h4 := M_PI_lt_four
  rw [abs_le]
  constructor <;> linarith [h.1, h.2]

theorem roundDouble_close (x : ℚ) : |roundDouble x - x| ≤ (|x| + 1) / 1000 := by
  have h := roundDouble_error x
  have hx := abs_nonneg x
  have h2 : |x| / 2 ^ 53 ≤ |x| / 1000 := by
    apply div_le_div_of_nonneg_left hx (by norm_num) (by norm_num)
  linarith

theorem ExtractSpaceTimeEdge_of_decision (fl reduce : ℚ → ℚ) (mg : MeshGraph)
    (smp : EdgeSample) (bilinear barycentric : Option (ℚ × ℚ)) (id : Nat)
    (st : VortexExtractor) :
    ExtractSpaceTimeEdge fl reduce mg true smp bilinear barycentric id st =
      match edgeChirality (edgeCritera fl (edgeDelta fl reduce st._gauge smp)) with
      | none => st
      | some chirality =>
        AddPuncturedEdge mg id chirality (FindSpaceTimeEdgeZero bilinear barycentric) st := by
  unfold ExtractSpaceTimeEdge
  simp only [Bool.not_true, Bool.false_eq_true, if_false]
  cases edgeChirality (edgeCritera fl (edgeDelta fl reduce st._gauge smp)) with
  | none => rfl
  | some chirality =>
    simp only
    cases FindSpaceTimeEdgeZero bilinear barycentric <;> rfl

theorem AddPuncturedEdge_find (mg : MeshGraph) (id : Nat) (chirality : ChiralityType)
    (t : Double) (st : VortexExtractor) :
    StdMap.find (AddPuncturedEdge mg id chirality t st)._punctured_edges id
      = some ⟨chirality, t⟩ := by
  simp [AddPuncturedEdge, StdMap.find_insert]

theorem edgeCritera_eq_neg_winding (fl : ℚ → ℚ) (hodd : ∀ x, fl (-x) = -fl x)
    (delta : ℚ × ℚ × ℚ × ℚ) : edgeCritera fl delta = -edgeWinding fl delta := by
  unfold edgeCritera edgeWinding
  rw [neg_div, hodd]

/-- C6 (amended): for a valid edge, with the winding the sum of the four corrected,
range-reduced phase differences divided by 2 pi as `double` arithmetic yields it (every
addition and the division rounded, by a rounding that commutes with negation; the fourth
phase being what the code reads at index 3 of its three-element arrays),
`ExtractSpaceTimeEdge` records the edge as punctured if and only if the magnitude of the
winding exceeds 1/2 (otherwise the state is unchanged), and the recorded chirality is the
opposite of the sign of that winding: +1 for a negative winding, -1 for a positive one. -/
theorem ExtractSpaceTimeEdge_threshold_and_sign (fl reduce : ℚ → ℚ)
    (hodd : ∀ x, fl (-x) = -fl x) (mg : MeshGraph) (smp : EdgeSample)
    (bilinear barycentric : Option (ℚ × ℚ)) (id : Nat) (st : VortexExtractor) :
    (1 / 2 < |edgeWinding fl (edgeDelta fl reduce st._gauge smp)| →
      StdMap.find (ExtractSpaceTimeEdge fl reduce mg true smp bilinear barycentric id
          st)._punctured_edges id
        = some ⟨if edgeWinding fl (edgeDelta fl reduce st._gauge smp) < 0 then 1 else -1,
            FindSpaceTimeEdgeZero bilinear barycentric⟩) ∧
    (¬ 1 / 2 < |edgeWinding fl (edgeDelta fl reduce st._gauge smp)| →
      ExtractSpaceTimeEdge fl reduce mg true smp bilinear barycentric id st = st) := by
  rw [ExtractSpaceTimeEdge_of_decision, edgeCritera_eq_neg_winding fl hodd]
  generalize edgeWinding fl (edgeDelta fl reduce st._gauge smp) = w
  constructor
  · intro hw
    by_cases hneg : w < 0
    · have h1 : -w > 1 / 2 := by
        rw [abs_of_neg hneg] at hw
        exact hw
      simp only [edgeChirality, h1, if_true, hneg]
      exact AddPuncturedEdge_find mg id 1 _ st
    · have hpos : w > 1 / 2 := by
        rw [abs_of_nonneg (not_lt.mp hneg)] at hw
        exact hw
      have h1 : ¬ -w > 1 / 2 := by linarith
      have h2 : -w < -(1 / 2) := by linarith
      simp only [edgeChirality, h1, h2, if_true, if_false, hneg]
      exact AddPuncturedEdge_find mg id (-1) _ st
  · intro hw
    have hle := not_lt.mp hw
    have h0 := abs_le.mp hle
    have h1 : ¬ -w > 1 / 2 := by linarith [h0.1]
    have h2 : ¬ -w < -(1 / 2) := by linarith [h0.2]
    simp only [edgeChirality, h1, h2, if_false]

theorem fl_M_PI_mul (fl : ℚ → ℚ) (hfl : ∀ x, IsDouble x → fl x = x) (a k : ℤ)
    (ha : |a * 884279719003555| < 2 ^ 53 ∧ -1026 ≤ k ∧ k ≤ 1019) (y : ℚ)
    (hy : y = a * M_PI * 2 ^ k) : fl y = y := by
  rw [hy]
  exact hfl _ (isDouble_M_PI_mul a k ha)

theorem quarterTurnEdge_delta (fl : ℚ → ℚ) (hfl : ∀ x, IsDouble x → fl x = x) :
    edgeDelta fl mod2pi1 false quarterTurnEdge = (M_PI / 2, M_PI / 2, M_PI / 2, M_PI / 2) := by
  have hpi := M_PI_pos
  have h1 : mod2pi1 (M_PI / 2) = M_PI / 2 := mod2pi1_of_mem_range _ (by linarith) (by linarith)
  have h2 : mod2pi1 (-(M_PI / 2) - M_PI) = M_PI / 2 := by
    have e : -(M_PI / 2) - M_PI = M_PI / 2 + 2 * M_PI * ((-1 : ℤ) : ℚ) := by
      push_cast
      ring
    rw [e, mod2pi1_add_turns, h1]
  have f1 : fl (M_PI / 2) = M_PI / 2 :=
    fl_M_PI_mul fl hfl 1 (-1) (by norm_num) _ (by norm_num; ring)
  have f2 : fl (-(M_PI / 2) - M_PI) = -(M_PI / 2) - M_PI :=
    fl_M_PI_mul fl hfl (-3) (-1) (by norm_num) _ (by norm_num; ring)
  simp only [edgeDelta, quarterTurnEdge, EdgeSample.phi, Bool.false_eq_true, if_false, add_zero,
    sub_zero, zero_sub, neg_neg]
  rw [show M_PI - M_PI / 2 = M_PI / 2 by ring, f1, f1, f2, f2, h1, h2]

theorem quarterTurnEdge_winding (fl : ℚ → ℚ) (hfl : ∀ x, IsDouble x → fl x = x) :
    edgeWinding fl (edgeDelta fl mod2pi1 false quarterTurnEdge) = 1 := by
  have hpi := M_PI_pos
  rw [quarterTurnEdge_delta fl hfl]
  have f1 : fl (M_PI / 2 + M_PI / 2) = M_PI :=
    (fl_M_PI_mul fl hfl 1 0 (by norm_num) _ (by norm_num)).trans (by ring)
  have f2 : fl (M_PI + M_PI / 2) = 3 * M_PI / 2 :=
    (fl_M_PI_mul fl hfl 3 (-1) (by norm_num) _ (by norm_num; ring)).trans (by ring)
  have f3 : fl (3 * M_PI / 2 + M_PI / 2) = 2 * M_PI :=
    (fl_M_PI_mul fl hfl 1 1 (by norm_num) _ (by norm_num; ring)).trans (by ring)
  have f4 : fl 1 = 1 := hfl 1 ⟨1, 0, by norm_num, by norm_num, by norm_num, by norm_num⟩
  unfold edgeWinding
  simp only
  rw [f1, f2, f3, div_self (by linarith), f4]

theorem quarterTurnEdge_critera (fl : ℚ → ℚ) (hfl : ∀ x, IsDouble x → fl x = x) :
    edgeCritera fl (edgeDelta fl mod2pi1 false quarterTurnEdge) = -1 := by
  have hpi := M_PI_pos
  rw [quarterTurnEdge_delta fl hfl]
  have f1 : fl (M_PI / 2 + M_PI / 2) = M_PI :=
    (fl_M_PI_mul fl hfl 1 0 (by norm_num) _ (by norm_num)).trans (by ring)
  have f2 : fl (M_PI + M_PI / 2) = 3 * M_PI / 2 :=
    (fl_M_PI_mul fl hfl 3 (-1) (by norm_num) _ (by norm_num; ring)).trans (by ring)
  have f3 : fl (3 * M_PI / 2 + M_PI / 2) = 2 * M_PI :=
    (fl_M_PI_mul fl hfl 1 1 (by norm_num) _ (by norm_num; ring)).trans (by ring)
  have f4 : fl (-1) = -1 := hfl (-1) ⟨-1, 0, by norm_num, by norm_num, by norm_num, by norm_num⟩
  unfold edgeCritera
  simp only
  rw [f1, f2, f3, neg_div, div_self (by linarith), f4]

theorem edgeChirality_neg_one : edgeChirality (-1) = some (-1) := by
  unfold edgeChirality
  norm_num

/-- C6 (witness): the amended statement at `quarterTurnEdge` with the rounding
`roundDouble` and the range reduction `mod2pi1`, for edge 0 of `sharedEdgeMesh`: the winding
exceeds 1/2 in magnitude and the edge is recorded. -/
theorem ExtractSpaceTimeEdge_threshold_and_sign_witness :
    1 / 2 < |edgeWinding roundDouble (edgeDelta roundDouble mod2pi1 emptyState._gauge
      quarterTurnEdge)| ∧
    StdMap.find (ExtractSpaceTimeEdge roundDouble mod2pi1 sharedEdgeMesh true quarterTurnEdge
        (some (0, 1 / 2)) none 0 emptyState)._punctured_edges 0
      = some ⟨if edgeWinding roundDouble (edgeDelta roundDouble mod2pi1 emptyState._gauge
          quarterTurnEdge) < 0 then 1 else -1, FindSpaceTimeEdgeZero (some (0, 1 / 2)) none⟩ :=
  have hw : 1 / 2 < |edgeWinding roundDouble (edgeDelta roundDouble mod2pi1 emptyState._gauge
      quarterTurnEdge)| := by
    show 1 / 2 < |edgeWinding roundDouble (edgeDelta roundDouble mod2pi1 false quarterTurnEdge)|
    rw [quarterTurnEdge_winding roundDouble roundDouble_of_isDouble]
    norm_num
  ⟨hw, (ExtractSpaceTimeEdge_threshold_and_sign roundDouble mod2pi1 roundDouble_neg
    sharedEdgeMesh quarterTurnEdge (some (0, 1 / 2)) none 0 emptyState).1 hw⟩

/-- C6 (counterexample): in `double` arithmetic (`roundDouble`) the four corrected
differences of `quarterTurnEdge` are each pi/2, so the winding is +1, and
`ExtractSpaceTimeEdge` records the edge with chirality -1. -/
theorem ExtractSpaceTimeEdge_positive_winding_negative_chirality :
    edgeWinding roundDouble (edgeDelta roundDouble mod2pi1 emptyState._gauge quarterTurnEdge)
      = 1 ∧
    StdMap.find (ExtractSpaceTimeEdge roundDouble mod2pi1 sharedEdgeMesh true quarterTurnEdge
      (some (0, 1 / 2)) none 0 emptyState)._punctured_edges 0 = some ⟨-1, some (1 / 2)⟩ := by
  refine ⟨quarterTurnEdge_winding roundDouble roundDouble_of_isDouble, ?_⟩
  rw [ExtractSpaceTimeEdge_of_decision]
  have hc : edgeCritera roundDouble (edgeDelta roundDouble mod2pi1 emptyState._gauge
      quarterTurnEdge) = -1 := quarterTurnEdge_critera roundDouble roundDouble_of_isDouble
  rw [hc, edgeChirality_neg_one]
  exact AddPuncturedEdge_find _ 0 (-1) _ emptyState

theorem ExtractFace_of_decision (fl reduce : ℚ → ℚ) (mg : MeshGraph) (smp : FaceSample)
    (zero : Option (ℚ × ℚ × ℚ)) (id : Nat) (slot : Int) (st : VortexExtractor) :
    ExtractFace fl reduce mg true smp zero id slot st =
      match faceChirality (faceCritera fl reduce st._gauge smp) with
      | none => st
      | some chirality => AddPuncturedFace mg id slot chirality (facePos zero) st := by
  unfold ExtractFace
  simp only [Bool.not_true, Bool.false_eq_true, if_false]
  cases faceChirality (faceCritera fl reduce st._gauge smp) with
  | none => rfl
  | some chirality =>
    simp only
    cases zero <;> rfl

theorem AddPuncturedFace_find (mg : MeshGraph) (id : Nat) (slot : Int)
    (chirality : ChiralityType) (pos : Double × Double × Double) (st : VortexExtractor) :
    StdMap.find ((AddPuncturedFace mg id slot chirality pos st).pfs slot) id
      = some ⟨chirality, pos⟩ := by
  unfold AddPuncturedFace VortexExtractor.pfs
  by_cases hs : slot = 0
  · simp [hs, StdMap.find_insert]
  · simp [hs, StdMap.find_insert]

theorem halfTurnFace_phase_shift (fl : ℚ → ℚ) (hfl : ∀ x, IsDouble x → fl x = x) :
    facePhaseShift fl mod2pi1 true halfTurnFace = -M_PI := by
  have hpi := M_PI_pos
  have h1 : mod2pi1 (-M_PI) = M_PI := by
    have e : -M_PI = M_PI + 2 * M_PI * ((-1 : ℤ) : ℚ) := by
      push_cast
      ring
    rw [e, mod2pi1_add_turns]
    exact mod2pi1_of_mem_range _ (by linarith) (le_refl _)
  have h0 : mod2pi1 0 = 0 := mod2pi1_of_mem_range _ (by linarith) (by linarith)
  have f0 : fl 0 = 0 := hfl 0 isDouble_zero
  have f1 : fl (-M_PI) = -M_PI := fl_M_PI_mul fl hfl (-1) 0 (by norm_num) _ (by norm_num)
  have hr : List.range 3 = [0, 1, 2] := rfl
  unfold facePhaseShift
  simp only [halfTurnFace, hr, List.foldl_cons, List.foldl_nil, faceDelta, if_true]
  norm_num [List.getD]
  simp only [f0, f1, h1, h0, sub_zero, add_zero, zero_sub]

/-- C7 (failing input): for `halfTurnFace` with gauge correction on, every operation of the
detector is exact in `double` (for every rounding `fl` that returns the `double` values
unchanged) and `critera` is exactly -1/2; `ExtractFace` records the face as punctured
(chirality -1), while the decision of `ExtractSpaceTimeEdge` on the same `critera` records
nothing. -/
theorem ExtractFace_punctures_at_half_winding (fl : ℚ → ℚ)
    (hfl : ∀ x, IsDouble x → fl x = x) :
    facePhaseShift fl mod2pi1 gaugeState._gauge halfTurnFace / (2 * M_PI) = -(1 / 2) ∧
    faceCritera fl mod2pi1 gaugeState._gauge halfTurnFace = -(1 / 2) ∧
    StdMap.find ((ExtractFace fl mod2pi1 ⟨[], [], []⟩ true halfTurnFace none 3 0
      gaugeState).pfs 0) 3 = some ⟨-1, (none, none, none)⟩ ∧
    edgeChirality (-(1 / 2)) = none := by
  have hpi := M_PI_pos
  have hps : facePhaseShift fl mod2pi1 gaugeState._gauge halfTurnFace = -M_PI :=
    halfTurnFace_phase_shift fl hfl
  have hdiv : facePhaseShift fl mod2pi1 gaugeState._gauge halfTurnFace / (2 * M_PI)
      = -(1 / 2) := by
    rw [hps]
    field_simp
    ring
  have hcr : faceCritera fl mod2pi1 gaugeState._gauge halfTurnFace = -(1 / 2) := by
    unfold faceCritera
    rw [hdiv]
    exact hfl _ ⟨-1, -1, by norm_num, by norm_num, by norm_num, by norm_num⟩
  have habs : |(-(1 / 2) : ℚ)| = 1 / 2 := by
    rw [abs_neg]
    exact abs_of_pos (by norm_num)
  refine ⟨hdiv, hcr, ?_, ?_⟩
  · rw [ExtractFace_of_decision, hcr]
    have hc : faceChirality (-(1 / 2)) = some (-1) := by
      unfold faceChirality
      rw [habs]
      norm_num
    rw [hc]
    exact AddPuncturedFace_find _ 3 0 (-1) _ gaugeState
  · unfold edgeChirality
    norm_num

/-- C7 (witness): the failing input under the rounding `roundDouble`. -/
theorem ExtractFace_punctures_at_half_winding_witness :
    faceCritera roundDouble mod2pi1 gaugeState._gauge halfTurnFace = -(1 / 2) ∧
    StdMap.find ((ExtractFace roundDouble mod2pi1 ⟨[], [], []⟩ true halfTurnFace none 3 0
      gaugeState).pfs 0) 3 = some ⟨-1, (none, none, none)⟩ ∧
    edgeChirality (-(1 / 2)) = none :=
  (ExtractFace_punctures_at_half_winding roundDouble roundDouble_of_isDouble).2

theorem fl_sub_close (fl : ℚ → ℚ) (hfl : ∀ x, |fl x - x| ≤ (|x| + 1) / 1000)
    (P a d E A : ℚ) (hP : |P - a| ≤ E) (ha : |a| ≤ A) (hd : |d| ≤ 4) :
    |fl (P - d) - (a - d)| ≤ E + (A + E + 5) / 1000 := by
  have h := abs_le.mp (hfl (P - d))
  have hP1 := abs_le.mp hP
  have ha1 := abs_le.mp ha
  have hd1 := abs_le.mp hd
  have hx : |P - d| ≤ A + E + 4 := by
    rw [abs_le]
    constructor <;> linarith [hP1.1, hP1.2, ha1.1, ha1.2, hd1.1, hd1.2]
  rw [abs_le]
  constructor <;> linarith [h.1, h.2, hP1.1, hP1.2]

theorem fl_add_close (fl : ℚ → ℚ) (hfl : ∀ x, |fl x - x| ≤ (|x| + 1) / 1000)
    (P a d E A : ℚ) (hP : |P - a| ≤ E) (ha : |a| ≤ A) (hd : |d| ≤ 4) :
    |fl (P + d) - (a + d)| ≤ E + (A + E + 5) / 1000 := by
  have h := fl_sub_close fl hfl P a (-d) E A hP ha (by rwa [abs_neg])
  rwa [sub_neg_eq_add, sub_neg_eq_add] at h

theorem fl_div_close (fl : ℚ → ℚ) (hfl : ∀ x, |fl x - x| ≤ (|x| + 1) / 1000)
    (P a : ℚ) (hP : |P - a| ≤ 6 / 100) (ha : |a| ≤ 16) :
    |fl (P / (2 * M_PI)) - a / (2 * M_PI)| ≤ 1 / 8 := by
  have hpi := M_PI_gt_three
  have hc : (0 : ℚ) < 2 * M_PI := by linarith
  have hP1 := abs_le.mp hP
  have ha1 := abs_le.mp ha
  have h := abs_le.mp (hfl (P / (2 * M_PI)))
  have e : P / (2 * M_PI) - a / (2 * M_PI) = (P - a) / (2 * M_PI) := by ring
  have hy1 : (P - a) / (2 * M_PI) ≤ 1 / 100 := by
    rw [div_le_iff₀ hc]
    linarith [hP1.2]
  have hy2 : -(1 / 100) ≤ (P - a) / (2 * M_PI) := by
    rw [le_div_iff₀ hc]
    linarith [hP1.1]
  have hy3 : |P / (2 * M_PI)| ≤ 3 := by
    rw [abs_le]
    constructor
    · rw [le_div_iff₀ hc]
      linarith [hP1.1, ha1.1]
    · rw [div_le_iff₀ hc]
      linarith [hP1.2, ha1.2]
  rw [abs_le]
  constructor <;> linarith [h.1, h.2]

theorem chain3_close (fl : ℚ → ℚ) (hfl : ∀ x, |fl x - x| ≤ (|x| + 1) / 1000)
    (d0 d1 d2 : ℚ) (h0 : |d0| ≤ 4) (h1 : |d1| ≤ 4) (h2 : |d2| ≤ 4) :
    |fl (fl (fl (0 - d0) - d1) - d2) - (0 - d0 - d1 - d2)| ≤ 6 / 100 ∧
    |0 - d0 - d1 - d2| ≤ 16 := by
  have a0 := abs_le.mp h0
  have a1 := abs_le.mp h1
  have a2 := abs_le.mp h2
  have s1 := fl_sub_close fl hfl 0 0 d0 0 0 (by simp) (by simp) h0
  have s2 := fl_sub_close fl hfl _ _ d1 (1 / 100) 4 (le_trans s1 (by norm_num))
    (by rw [abs_le]; constructor <;> linarith [a0.1, a0.2]) h1
  have s3 := fl_sub_close fl hfl _ _ d2 (2 / 100) 8 (le_trans s2 (by norm_num))
    (by rw [abs_le]; constructor <;> linarith [a0.1, a0.2, a1.1, a1.2]) h2
  refine ⟨le_trans s3 (by norm_num), ?_⟩
  rw [abs_le]
  constructor <;> linarith [a0.1, a0.2, a1.1, a1.2, a2.1, a2.2]

theorem chain4_close (fl : ℚ → ℚ) (hfl : ∀ x, |fl x - x| ≤ (|x| + 1) / 1000)
    (d0 d1 d2 d3 : ℚ) (h0 : |d0| ≤ 4) (h1 : |d1| ≤ 4) (h2 : |d2| ≤ 4) (h3 : |d3| ≤ 4) :
    |fl (fl (fl (fl (0 - d0) - d1) - d2) - d3) - (0 - d0 - d1 - d2 - d3)| ≤ 6 / 100 ∧
    |0 - d0 - d1 - d2 - d3| ≤ 16 := by
  have a0 := abs_le.mp h0
  have a1 := abs_le.mp h1
  have a2 := abs_le.mp h2
  have a3 := abs_le.mp h3
  obtain ⟨s3, b3⟩ := chain3_close fl hfl d0 d1 d2 h0 h1 h2
  have s4 := fl_sub_close fl hfl _ _ d3 (4 / 100) 12
    (by
      have s1 := fl_sub_close fl hfl 0 0 d0 0 0 (by simp) (by simp) h0
      have s2 := fl_sub_close fl hfl _ _ d1 (1 / 100) 4 (le_trans s1 (by norm_num))
        (by rw [abs_le]; constructor <;> linarith [a0.1, a0.2]) h1
      have s3 := fl_sub_close fl hfl _ _ d2 (2 / 100) 8 (le_trans s2 (by norm_num))
        (by rw [abs_le]; constructor <;> linarith [a0.1, a0.2, a1.1, a1.2]) h2
      exact le_trans s3 (by norm_num))
    (by rw [abs_le]; constructor <;> linarith [a0.1, a0.2, a1.1, a1.2, a2.1, a2.2]) h3
  refine ⟨le_trans s4 (by norm_num), ?_⟩
  rw [abs_le]
  constructor <;> linarith [a0.1, a0.2, a1.1, a1.2, a2.1, a2.2, a3.1, a3.2]

theorem sum4_close (fl : ℚ → ℚ) (hfl : ∀ x, |fl x - x| ≤ (|x| + 1) / 1000)
    (d0 d1 d2 d3 : ℚ) (h0 : |d0| ≤ 4) (h1 : |d1| ≤ 4) (h2 : |d2| ≤ 4) (h3 : |d3| ≤ 4) :
    |fl (fl (fl (d0 + d1) + d2) + d3) - (d0 + d1 + d2 + d3)| ≤ 6 / 100 ∧
    |d0 + d1 + d2 + d3| ≤ 16 := by
  have a0 := abs_le.mp h0
  have a1 := abs_le.mp h1
  have a2 := abs_le.mp h2
  have a3 := abs_le.mp h3
  have s1 := fl_add_close fl hfl d0 d0 d1 0 4 (by simp) h0 h1
  have s2 := fl_add_close fl hfl _ _ d2 (1 / 100) 8 (le_trans s1 (by norm_num))
    (by rw [abs_le]; constructor <;> linarith [a0.1, a0.2, a1.1, a1.2]) h2
  have s3 := fl_add_close fl hfl _ _ d3 (3 / 100) 12 (le_trans s2 (by norm_num))
    (by rw [abs_le]; constructor <;> linarith [a0.1, a0.2, a1.1, a1.2, a2.1, a2.2]) h3
  refine ⟨le_trans s3 (by norm_num), ?_⟩
  rw [abs_le]
  constructor <;> linarith [a0.1, a0.2, a1.1, a1.2, a2.1, a2.2, a3.1, a3.2]

theorem faceChirality_near (c : ℚ) (w : ℤ) (h : |c + w| ≤ 3 / 8) :
    (w = 0 → faceChirality c = none) ∧
    (1 ≤ w → faceChirality c = some (-1)) ∧
    (w ≤ -1 → faceChirality c = some 1) := by
  have h1 := abs_le.mp h
  refine ⟨?_, ?_, ?_⟩
  · intro hw
    subst hw
    simp only [Int.cast_zero, add_zero] at h
    have : |c| < 1 / 2 := lt_of_le_of_lt h (by norm_num)
    simp only [faceChirality, this, if_true]
  · intro hw
    have hq : (1 : ℚ) ≤ w := by exact_mod_cast hw
    have hneg : c < 0 := by linarith [h1.2]
    have h2 : ¬ |c| < 1 / 2 := by
      rw [abs_of_neg hneg]
      linarith [h1.2]
    have h3 : ¬ c > 0 := by linarith
    simp only [faceChirality, h2, h3, if_false]
  · intro hw
    have hq : (w : ℚ) ≤ -1 := by exact_mod_cast hw
    have hpos : c > 0 := by linarith [h1.1]
    have h2 : ¬ |c| < 1 / 2 := by
      rw [abs_of_pos hpos]
      linarith [h1.1]
    simp only [faceChirality, h2, hpos, if_false, if_true]

theorem edgeChirality_near (c : ℚ) (w : ℤ) (h : |c + w| ≤ 3 / 8) :
    (w = 0 → edgeChirality c = none) ∧
    (1 ≤ w → edgeChirality c = some (-1)) ∧
    (w ≤ -1 → edgeChirality c = some 1) := by
  have h1 := abs_le.mp h
  refine ⟨?_, ?_, ?_⟩
  · intro hw
    subst hw
    simp only [Int.cast_zero, add_zero] at h1
    have h2 : ¬ c > 1 / 2 := by linarith [h1.2]
    have h3 : ¬ c < -(1 / 2) := by linarith [h1.1]
    simp only [edgeChirality, h2, h3, if_false]
  · intro hw
    have hq : (1 : ℚ) ≤ w := by exact_mod_cast hw
    have h2 : ¬ c > 1 / 2 := by linarith [h1.2]
    have h3 : c < -(1 / 2) := by linarith [h1.2]
    simp only [edgeChirality, h2, h3, if_false, if_true]
  · intro hw
    have hq : (w : ℚ) ≤ -1 := by exact_mod_cast hw
    have h2 : c > 1 / 2 := by linarith [h1.1]
    simp only [edgeChirality, h2, if_true]

theorem faceDelta_abs_le (fl reduce : ℚ → ℚ) (hred : ∀ x, |reduce x| ≤ 4) (gauge : Bool)
    (s : FaceSample) (i : Nat) : |faceDelta fl reduce gauge s i| ≤ 4 := by
  unfold faceDelta
  simp only
  split <;> exact hred _

theorem faceCritera_near_winding (fl reduce : ℚ → ℚ)
    (hfl : ∀ x, |fl x - x| ≤ (|x| + 1) / 1000) (hred : ∀ x, |reduce x| ≤ 4) (gauge : Bool)
    (smp : FaceSample) (hn : smp.nnodes = 3 ∨ smp.nnodes = 4) :
    |faceCritera fl reduce gauge smp + loopWinding (faceDeltas fl reduce gauge smp)| ≤ 1 / 8 := by
  have hd := faceDelta_abs_le fl reduce hred gauge smp
  have hr3 : List.range 3 = [0, 1, 2] := rfl
  have hr4 : List.range 4 = [0, 1, 2, 3] := rfl
  unfold faceCritera loopWinding faceDeltas facePhaseShift
  rcases hn with hn | hn
  · rw [hn, hr3]
    simp only [List.foldl_cons, List.foldl_nil, List.map_cons, List.map_nil, List.sum_cons,
      List.sum_nil]
    obtain ⟨c1, c2⟩ := chain3_close fl hfl _ _ _ (hd 0) (hd 1) (hd 2)
    have h := fl_div_close fl hfl _ _ c1 c2
    have e : (0 - faceDelta fl reduce gauge smp 0 - faceDelta fl reduce gauge smp 1
        - faceDelta fl reduce gauge smp 2) / (2 * M_PI)
        = -((faceDelta fl reduce gauge smp 0 + (faceDelta fl reduce gauge smp 1
          + (faceDelta fl reduce gauge smp 2 + 0))) / (2 * M_PI)) := by ring
    rw [e, sub_neg_eq_add] at h
    exact h
  · rw [hn, hr4]
    simp only [List.foldl_cons, List.foldl_nil, List.map_cons, List.map_nil, List.sum_cons,
      List.sum_nil]
    obtain ⟨c1, c2⟩ := chain4_close fl hfl _ _ _ _ (hd 0) (hd 1) (hd 2) (hd 3)
    have h := fl_div_close fl hfl _ _ c1 c2
    have e : (0 - faceDelta fl reduce gauge smp 0 - faceDelta fl reduce gauge smp 1
        - faceDelta fl reduce gauge smp 2 - faceDelta fl reduce gauge smp 3) / (2 * M_PI)
        = -((faceDelta fl reduce gauge smp 0 + (faceDelta fl reduce gauge smp 1
          + (faceDelta fl reduce gauge smp 2 + (faceDelta fl reduce gauge smp 3 + 0))))
            / (2 * M_PI)) := by ring
    rw [e, sub_neg_eq_add] at h
    exact h

theorem edgeDelta_abs_le (fl reduce : ℚ → ℚ) (hred : ∀ x, |reduce x| ≤ 4) (gauge : Bool)
    (s : EdgeSample) :
    |(edgeDelta fl reduce gauge s).1| ≤ 4 ∧ |(edgeDelta fl reduce gauge s).2.1| ≤ 4 ∧
    |(edgeDelta fl reduce gauge s).2.2.1| ≤ 4 ∧ |(edgeDelta fl reduce gauge s).2.2.2| ≤ 4 := by
  unfold edgeDelta
  simp only
  split <;> exact ⟨hred _, hred _, hred _, hred _⟩

theorem edgeCritera_near_winding (fl reduce : ℚ → ℚ)
    (hfl : ∀ x, |fl x - x| ≤ (|x| + 1) / 1000) (hred : ∀ x, |reduce x| ≤ 4) (gauge : Bool)
    (smp : EdgeSample) :
    |edgeCritera fl (edgeDelta fl reduce gauge smp)
      + loopWinding (edgeDeltas fl reduce gauge smp)| ≤ 1 / 8 := by
  obtain ⟨h0, h1, h2, h3⟩ := edgeDelta_abs_le fl reduce hred gauge smp
  unfold edgeCritera loopWinding edgeDeltas
  generalize edgeDelta fl reduce gauge smp = d at h0 h1 h2 h3 ⊢
  simp only [List.sum_cons, List.sum_nil]
  obtain ⟨c1, c2⟩ := sum4_close fl hfl _ _ _ _ h0 h1 h2 h3
  have c1n : |(-(fl (fl (fl (d.1 + d.2.1) + d.2.2.1) + d.2.2.2)))
      - (-(d.1 + d.2.1 + d.2.2.1 + d.2.2.2))| ≤ 6 / 100 := by
    rw [neg_sub_neg, abs_sub_comm]
    exact c1
  have c2n : |(-(d.1 + d.2.1 + d.2.2.1 + d.2.2.2))| ≤ 16 := by rwa [abs_neg]
  have h := fl_div_close fl hfl _ _ c1n c2n
  have e : -(d.1 + d.2.1 + d.2.2.1 + d.2.2.2) / (2 * M_PI)
      = -((d.1 + (d.2.1 + (d.2.2.1 + (d.2.2.2 + 0)))) / (2 * M_PI)) := by ring
  rw [e, sub_neg_eq_add] at h
  exact h

theorem near_integer (c W : ℚ) (w : ℤ) (h1 : |c + W| ≤ 1 / 8) (h2 : |W - w| ≤ 1 / 4) :
    |c + w| ≤ 3 / 8 := by
  have a1 := abs_le.mp h1
  have a2 := abs_le.mp h2
  rw [abs_le]
  constructor <;> linarith [a1.1, a1.2, a2.1, a2.2]

theorem ExtractFace_near_integer_winding (fl reduce : ℚ → ℚ)
    (hfl : ∀ x, |fl x - x| ≤ (|x| + 1) / 1000) (hred : ∀ x, |reduce x| ≤ 4)
    (mg : MeshGraph) (smp : FaceSample) (zero : Option (ℚ × ℚ × ℚ)) (id : Nat) (slot : Int)
    (st : VortexExtractor) (w : ℤ) (hn : smp.nnodes = 3 ∨ smp.nnodes = 4)
    (hw : |loopWinding (faceDeltas fl reduce st._gauge smp) - w| ≤ 1 / 4) :
    (w = 0 → ExtractFace fl reduce mg true smp zero id slot st = st) ∧
    (1 ≤ w → StdMap.find ((ExtractFace fl reduce mg true smp zero id slot st).pfs slot) id
      = some ⟨-1, facePos zero⟩) ∧
    (w ≤ -1 → StdMap.find ((ExtractFace fl reduce mg true smp zero id slot st).pfs slot) id
      = some ⟨1, facePos zero⟩) := by
  obtain ⟨c0, c1, c2⟩ := faceChirality_near _ w
    (near_integer _ _ w (faceCritera_near_winding fl reduce hfl hred st._gauge smp hn) hw)
  rw [ExtractFace_of_decision]
  refine ⟨fun h => ?_, fun h => ?_, fun h => ?_⟩
  · rw [c0 h]
  · rw [c1 h]; exact AddPuncturedFace_find mg id slot (-1) _ st
  · rw [c2 h]; exact AddPuncturedFace_find mg id slot 1 _ st

theorem ExtractSpaceTimeEdge_near_integer_winding (fl reduce : ℚ → ℚ)
    (hfl : ∀ x, |fl x - x| ≤ (|x| + 1) / 1000) (hred : ∀ x, |reduce x| ≤ 4)
    (mg : MeshGraph) (smp : EdgeSample) (bilinear barycentric : Option (ℚ × ℚ)) (id : Nat)
    (st : VortexExtractor) (w : ℤ)
    (hw : |loopWinding (edgeDeltas fl reduce st._gauge smp) - w| ≤ 1 / 4) :
    (w = 0 → ExtractSpaceTimeEdge fl reduce mg true smp bilinear barycentric id st = st) ∧
    (1 ≤ w →
      StdMap.find (ExtractSpaceTimeEdge fl reduce mg true smp bilinear barycentric id
        st)._punctured_edges id = some ⟨-1, FindSpaceTimeEdgeZero bilinear barycentric⟩) ∧
    (w ≤ -1 →
      StdMap.find (ExtractSpaceTimeEdge fl reduce mg true smp bilinear barycentric id
        st)._punctured_edges id = some ⟨1, FindSpaceTimeEdgeZero bilinear barycentric⟩) := by
  obtain ⟨c0, c1, c2⟩ := edgeChirality_near _ w
    (near_integer _ _ w (edgeCritera_near_winding fl reduce hfl hred st._gauge smp) hw)
  rw [ExtractSpaceTimeEdge_of_decision]
  refine ⟨fun h => ?_, fun h => ?_, fun h => ?_⟩
  · rw [c0 h]
  · rw [c1 h]; exact AddPuncturedEdge_find mg id (-1) _ st
  · rw [c2 h]; exact AddPuncturedEdge_find mg id 1 _ st

/-- C8 (amended): for a rounding `fl` of `double` arithmetic whose error on `x` is at most
`(|x| + 1) / 1000` and a range reduction bounded by 4 in magnitude, whatever the gauge setting
and the periodic-wrap terms (in particular with gauge correction off and no periodic-wrap
term): for phase samples around a 3-node or 4-node face loop, or around the 4-node loop of a
space-time edge, whose winding number (the exact sum of the corrected, range-reduced phase
differences the detector computes, divided by 2 pi) is within 1/4 of the integer `w`: when
`w = 0` the detector records nothing (the state is unchanged), and when `|w| >= 1` the
recorded chirality is the opposite of the sign of `w`: -1 for `w >= 1`, +1 for `w <= -1`. -/
theorem detector_chirality_opposes_integer_winding (fl reduce : ℚ → ℚ)
    (hfl : ∀ x, |fl x - x| ≤ (|x| + 1) / 1000) (hred : ∀ x, |reduce x| ≤ 4) :
    (∀ (mg : MeshGraph) (smp : FaceSample) (zero : Option (ℚ × ℚ × ℚ)) (id : Nat) (slot : Int)
        (st : VortexExtractor) (w : ℤ),
      (smp.nnodes = 3 ∨ smp.nnodes = 4) →
      |loopWinding (faceDeltas fl reduce st._gauge smp) - w| ≤ 1 / 4 →
      (w = 0 → ExtractFace fl reduce mg true smp zero id slot st = st) ∧
      (1 ≤ w → StdMap.find ((ExtractFace fl reduce mg true smp zero id slot st).pfs slot) id
        = some ⟨-1, facePos zero⟩) ∧
      (w ≤ -1 → StdMap.find ((ExtractFace fl reduce mg true smp zero id slot st).pfs slot) id
        = some ⟨1, facePos zero⟩)) ∧
    (∀ (mg : MeshGraph) (smp : EdgeSample) (bilinear barycentric : Option (ℚ × ℚ)) (id : Nat)
        (st : VortexExtractor) (w : ℤ),
      |loopWinding (edgeDeltas fl reduce st._gauge smp) - w| ≤ 1 / 4 →
      (w = 0 → ExtractSpaceTimeEdge fl reduce mg true smp bilinear barycentric id st = st) ∧
      (1 ≤ w →
        StdMap.find (ExtractSpaceTimeEdge fl reduce mg true smp bilinear barycentric id
          st)._punctured_edges id = some ⟨-1, FindSpaceTimeEdgeZero bilinear barycentric⟩) ∧
      (w ≤ -1 →
        StdMap.find (ExtractSpaceTimeEdge fl reduce mg true smp bilinear barycentric id
          st)._punctured_edges id = some ⟨1, FindSpaceTimeEdgeZero bilinear barycentric⟩)) :=
  ⟨fun mg smp zero id slot st w hn hw =>
      ExtractFace_near_integer_winding fl reduce hfl hred mg smp zero id slot st w hn hw,
    fun mg smp bilinear barycentric id st w hw =>
      ExtractSpaceTimeEdge_near_integer_winding fl reduce hfl hred mg smp bilinear barycentric
        id st w hw⟩

theorem threeNodeTurn_winding (fl : ℚ → ℚ) (hfl : ∀ x, IsDouble x → fl x = x) :
    loopWinding (faceDeltas fl mod2pi1 false threeNodeTurn) = 1 := by
  have hpi := M_PI_pos
  have h1 : mod2pi1 (3 * M_PI / 4) = 3 * M_PI / 4 :=
    mod2pi1_of_mem_range _ (by linarith) (by linarith)
  have h2 : mod2pi1 (-(3 * M_PI / 4) - 3 * M_PI / 4) = M_PI / 2 := by
    have e : -(3 * M_PI / 4) - 3 * M_PI / 4 = M_PI / 2 + 2 * M_PI * ((-1 : ℤ) : ℚ) := by
      push_cast
      ring
    rw [e, mod2pi1_add_turns]
    exact mod2pi1_of_mem_range _ (by linarith) (by linarith)
  have f1 : fl (3 * M_PI / 4) = 3 * M_PI / 4 :=
    fl_M_PI_mul fl hfl 3 (-2) (by norm_num) _ (by norm_num; ring)
  have f2 : fl (-(3 * M_PI / 4) - 3 * M_PI / 4) = -(3 * M_PI / 4) - 3 * M_PI / 4 :=
    fl_M_PI_mul fl hfl (-3) (-1) (by norm_num) _ (by norm_num; ring)
  have hr : List.range 3 = [0, 1, 2] := rfl
  unfold loopWinding faceDeltas
  simp only [threeNodeTurn, hr, List.map_cons, List.map_nil, List.sum_cons, List.sum_nil,
    faceDelta, Bool.false_eq_true, if_false]
  norm_num [List.getD]
  simp only [f1, f2, h1, h2]
  field_simp
  ring

theorem quarterTurnEdge_loop_winding (fl : ℚ → ℚ) (hfl : ∀ x, IsDouble x → fl x = x) :
    loopWinding (edgeDeltas fl mod2pi1 false quarterTurnEdge) = 1 := by
  have hpi := M_PI_pos
  unfold loopWinding edgeDeltas
  rw [quarterTurnEdge_delta fl hfl]
  simp only [List.sum_cons, List.sum_nil]
  field_simp
  ring

/-- C8 (counterexample): in `double` arithmetic (`roundDouble`) the phases of `threeNodeTurn`
wind once in the positive sense (winding number +1), and `ExtractFace` records the face with
chirality -1. -/
theorem ExtractFace_positive_winding_negative_chirality :
    loopWinding (faceDeltas roundDouble mod2pi1 emptyState._gauge threeNodeTurn) = 1 ∧
    StdMap.find ((ExtractFace roundDouble mod2pi1 sharedEdgeMesh true threeNodeTurn none 1 0
      emptyState).pfs 0) 1 = some ⟨-1, (none, none, none)⟩ := by
  have hw : loopWinding (faceDeltas roundDouble mod2pi1 emptyState._gauge threeNodeTurn) = 1 :=
    threeNodeTurn_winding roundDouble roundDouble_of_isDouble
  refine ⟨hw, ?_⟩
  exact (ExtractFace_near_integer_winding roundDouble mod2pi1 roundDouble_close mod2pi1_abs_le
    sharedEdgeMesh threeNodeTurn none 1 0 emptyState 1 (Or.inl rfl)
    (by rw [hw]; norm_num)).2.1 (le_refl _)

/-- C8 (witness): the amended statement under the rounding `roundDouble` and the range
reduction `mod2pi1`, at `threeNodeTurn` (face 1 of `sharedEdgeMesh`, winding +1) and at
`quarterTurnEdge` (edge 0 of `sharedEdgeMesh`, winding +1): both are recorded with
chirality -1. -/
theorem detector_chirality_opposes_integer_winding_witness :
    (∀ x, |roundDouble x - x| ≤ (|x| + 1) / 1000) ∧ (∀ x, |mod2pi1 x| ≤ 4) ∧
    StdMap.find ((ExtractFace roundDouble mod2pi1 sharedEdgeMesh true threeNodeTurn none 1 0
      emptyState).pfs 0) 1 = some ⟨-1, facePos none⟩ ∧
    StdMap.find (ExtractSpaceTimeEdge roundDouble mod2pi1 sharedEdgeMesh true quarterTurnEdge
      none none 0 emptyState)._punctured_edges 0 = some ⟨-1, FindSpaceTimeEdgeZero none none⟩ :=
  ⟨roundDouble_close, mod2pi1_abs_le,
    ((detector_chirality_opposes_integer_winding roundDouble mod2pi1 roundDouble_close
      mod2pi1_abs_le).1 sharedEdgeMesh threeNodeTurn none 1 0 emptyState 1 (Or.inl rfl)
      (by
        rw [show emptyState._gauge = false from rfl,
          threeNodeTurn_winding roundDouble roundDouble_of_isDouble]
        norm_num)).2.1 (le_refl _),
    ((detector_chirality_opposes_integer_winding roundDouble mod2pi1 roundDouble_close
      mod2pi1_abs_le).2 sharedEdgeMesh quarterTurnEdge none none 0 emptyState 1
      (by
        rw [show emptyState._gauge = false from rfl,
          quarterTurnEdge_loop_winding roundDouble roundDouble_of_isDouble]
        norm_num)).2.1 (le_refl _)⟩

theorem edgeChirality_isSome_iff (c : ℚ) :
    (∃ chi, edgeChirality c = some chi) ↔ 1 / 2 < |c| := by
  unfold edgeChirality
  constructor
  · rintro ⟨chi, h⟩
    by_cases h1 : c > 1 / 2
    · exact lt_of_lt_of_le h1 (le_abs_self c)
    · rw [if_neg h1] at h
      by_cases h2 : c < -(1 / 2)
      · exact lt_of_lt_of_le (by linarith) (neg_le_abs c)
      · rw [if_neg h2] at h
        cases h
  · intro h
    by_cases h1 : c > 1 / 2
    · exact ⟨1, by rw [if_pos h1]⟩
    · have h2 : c < -(1 / 2) := by
        rcases lt_abs.mp h with h3 | h3
        · exact absurd h3 h1
        · linarith
      exact ⟨-1, by rw [if_neg h1, if_pos h2]⟩

theorem faceChirality_isSome_iff (c : ℚ) :
    (∃ chi, faceChirality c = some chi) ↔ ¬ |c| < 1 / 2 := by
  unfold faceChirality
  constructor
  · rintro ⟨chi, h⟩ hlt
    rw [if_pos hlt] at h
    cases h
  · intro h
    exact ⟨_, by rw [if_neg h]⟩

theorem AddPuncturedEdge_frame (mg : MeshGraph) (id : Nat) (chi : ChiralityType) (t : Double)
    (st : VortexExtractor) :
    AddPuncturedEdge mg id chi t st =
      { AddPuncturedEdge mg id chi none st with
        _punctured_edges := StdMap.insert st._punctured_edges id ⟨chi, t⟩ } := rfl

theorem AddPuncturedFace_frame (mg : MeshGraph) (id : Nat) (slot : Int) (chi : ChiralityType)
    (pos : Double × Double × Double) (st : VortexExtractor) :
    AddPuncturedFace mg id slot chi pos st =
      if slot = 0 then
        { AddPuncturedFace mg id slot chi (none, none, none) st with
          _punctured_faces := StdMap.insert st._punctured_faces id ⟨chi, pos⟩ }
      else
        { AddPuncturedFace mg id slot chi (none, none, none) st with
          _punctured_faces1 := StdMap.insert st._punctured_faces1 id ⟨chi, pos⟩ } := by
  unfold AddPuncturedFace
  by_cases hs : slot = 0
  · simp only [hs, if_true]
  · simp only [hs, if_false]

/-- C9: an edge (resp. face) that passes the winding test of its detector with chirality
`chi` is recorded as punctured with that chirality whatever the zero locator returns: the
recorded crossing time is the located time, and not-a-number when both the bilinear and the
barycentric solver fail (resp. the recorded position is the located zero, and three
not-a-numbers when `FindFaceZero` fails), and the state recorded on success differs from the
state recorded on failure only in the time (resp. position) stored for the element. An element
that is not valid or fails the winding test leaves the state unchanged whatever the locator
returns. The winding test passes exactly when `critera` exceeds 1/2 in magnitude (edge),
resp. when its magnitude is not below 1/2 (face). -/
theorem locator_failure_keeps_puncture_and_chirality (fl reduce : ℚ → ℚ) :
    (∀ (mg : MeshGraph) (smp : EdgeSample) (id : Nat) (st : VortexExtractor)
        (chi : ChiralityType),
      edgeChirality (edgeCritera fl (edgeDelta fl reduce st._gauge smp)) = some chi →
      ∀ bilinear barycentric,
        StdMap.find (ExtractSpaceTimeEdge fl reduce mg true smp bilinear barycentric id
          st)._punctured_edges id = some ⟨chi, FindSpaceTimeEdgeZero bilinear barycentric⟩ ∧
        StdMap.find (ExtractSpaceTimeEdge fl reduce mg true smp none none id
          st)._punctured_edges id = some ⟨chi, none⟩ ∧
        ExtractSpaceTimeEdge fl reduce mg true smp bilinear barycentric id st =
          { ExtractSpaceTimeEdge fl reduce mg true smp none none id st with
            _punctured_edges := StdMap.insert st._punctured_edges id
              ⟨chi, FindSpaceTimeEdgeZero bilinear barycentric⟩ }) ∧
    (∀ (mg : MeshGraph) (valid : Bool) (smp : EdgeSample) (id : Nat) (st : VortexExtractor),
      (valid = false ∨ edgeChirality (edgeCritera fl (edgeDelta fl reduce st._gauge smp)) = none) →
      ∀ bilinear barycentric,
        ExtractSpaceTimeEdge fl reduce mg valid smp bilinear barycentric id st = st) ∧
    (∀ c, (∃ chi, edgeChirality c = some chi) ↔ 1 / 2 < |c|) ∧
    (∀ bilinear barycentric, FindSpaceTimeEdgeZero bilinear barycentric = none ↔
      bilinear = none ∧ barycentric = none) ∧
    (∀ (mg : MeshGraph) (smp : FaceSample) (id : Nat) (slot : Int) (st : VortexExtractor)
        (chi : ChiralityType),
      faceChirality (faceCritera fl reduce st._gauge smp) = some chi →
      ∀ zero,
        StdMap.find ((ExtractFace fl reduce mg true smp zero id slot st).pfs slot) id
          = some ⟨chi, facePos zero⟩ ∧
        StdMap.find ((ExtractFace fl reduce mg true smp none id slot st).pfs slot) id
          = some ⟨chi, (none, none, none)⟩ ∧
        ExtractFace fl reduce mg true smp zero id slot st =
          if slot = 0 then
            { ExtractFace fl reduce mg true smp none id slot st with
              _punctured_faces := StdMap.insert st._punctured_faces id ⟨chi, facePos zero⟩ }
          else
            { ExtractFace fl reduce mg true smp none id slot st with
              _punctured_faces1 := StdMap.insert st._punctured_faces1 id ⟨chi, facePos zero⟩ }) ∧
    (∀ (mg : MeshGraph) (valid : Bool) (smp : FaceSample) (id : Nat) (slot : Int)
        (st : VortexExtractor),
      (valid = false ∨ faceChirality (faceCritera fl reduce st._gauge smp) = none) →
      ∀ zero, ExtractFace fl reduce mg valid smp zero id slot st = st) ∧
    (∀ c, (∃ chi, faceChirality c = some chi) ↔ ¬ |c| < 1 / 2) ∧
    (∀ pos : ℚ × ℚ × ℚ, facePos (some pos) = (some pos.1, some pos.2.1, some pos.2.2)) ∧
    facePos none = (none, none, none) := by
  refine ⟨?_, ?_, edgeChirality_isSome_iff, ?_, ?_, ?_, faceChirality_isSome_iff,
    fun _ => rfl, rfl⟩
  · intro mg smp id st chi hchi b c
    have e : ∀ b c, ExtractSpaceTimeEdge fl reduce mg true smp b c id st
        = AddPuncturedEdge mg id chi (FindSpaceTimeEdgeZero b c) st := by
      intro b c
      rw [ExtractSpaceTimeEdge_of_decision, hchi]
    refine ⟨?_, ?_, ?_⟩
    · rw [e]
      exact AddPuncturedEdge_find mg id chi _ st
    · rw [e]
      exact AddPuncturedEdge_find mg id chi _ st
    · rw [e b c, e none none]
      exact AddPuncturedEdge_frame mg id chi _ st
  · intro mg valid smp id st h b c
    rcases h with h | h
    · subst h
      rfl
    · cases valid with
      | false => rfl
      | true => rw [ExtractSpaceTimeEdge_of_decision, h]
  · intro b c
    cases b <;> cases c <;> simp [FindSpaceTimeEdgeZero]
  · intro mg smp id slot st chi hchi zero
    have e : ∀ zero, ExtractFace fl reduce mg true smp zero id slot st
        = AddPuncturedFace mg id slot chi (facePos zero) st := by
      intro zero
      rw [ExtractFace_of_decision, hchi]
    refine ⟨?_, ?_, ?_⟩
    · rw [e]
      exact AddPuncturedFace_find mg id slot chi _ st
    · rw [e]
      exact AddPuncturedFace_find mg id slot chi _ st
    · rw [e zero, e none]
      exact AddPuncturedFace_frame mg id slot chi _ st
  · intro mg valid smp id slot st h zero
    rcases h with h | h
    · subst h
      rfl
    · cases valid with
      | false => rfl
      | true => rw [ExtractFace_of_decision, h]

theorem threeNodeTurn_chirality :
    faceChirality (faceCritera roundDouble mod2pi1 emptyState._gauge threeNodeTurn)
      = some (-1) := by
  have hw : loopWinding (faceDeltas roundDouble mod2pi1 emptyState._gauge threeNodeTurn) = 1 :=
    threeNodeTurn_winding roundDouble roundDouble_of_isDouble
  exact (faceChirality_near _ 1 (near_integer _ _ 1
    (faceCritera_near_winding roundDouble mod2pi1 roundDouble_close mod2pi1_abs_le
      emptyState._gauge threeNodeTurn (Or.inl rfl)) (by rw [hw]; norm_num))).2.1 (le_refl _)

theorem quarterTurnEdge_chirality :
    edgeChirality (edgeCritera roundDouble
      (edgeDelta roundDouble mod2pi1 emptyState._gauge quarterTurnEdge)) = some (-1) := by
  have hc : edgeCritera roundDouble (edgeDelta roundDouble mod2pi1 emptyState._gauge
      quarterTurnEdge) = -1 := quarterTurnEdge_critera roundDouble roundDouble_of_isDouble
  rw [hc, edgeChirality_neg_one]

/-- C9 (witness): under the rounding `roundDouble` and the range reduction `mod2pi1`, the
edge `quarterTurnEdge` (edge 0 of `sharedEdgeMesh`) passes the winding test with chirality
-1 and both solvers fail: the edge is recorded with chirality -1 and a not-a-number time.
The face `threeNodeTurn` (face 1 of `sharedEdgeMesh`) passes with chirality -1 and
`FindFaceZero` fails: the face is recorded with chirality -1 and three not-a-numbers. -/
theorem locator_failure_keeps_puncture_and_chirality_witness :
    StdMap.find (ExtractSpaceTimeEdge roundDouble mod2pi1 sharedEdgeMesh true quarterTurnEdge
      none none 0 emptyState)._punctured_edges 0 = some ⟨-1, none⟩ ∧
    StdMap.find ((ExtractFace roundDouble mod2pi1 sharedEdgeMesh true threeNodeTurn none 1 0
      emptyState).pfs 0) 1 = some ⟨-1, (none, none, none)⟩ :=
  ⟨((locator_failure_keeps_puncture_and_chirality roundDouble mod2pi1).1 sharedEdgeMesh
      quarterTurnEdge 0 emptyState (-1) quarterTurnEdge_chirality none none).2.1,
    ((locator_failure_keeps_puncture_and_chirality roundDouble mod2pi1).2.2.2.2.1 sharedEdgeMesh
      threeNodeTurn 1 0 emptyState (-1) threeNodeTurn_chirality none).2.1⟩

/-! ## Rounding at the threshold and at the range boundary -/

theorem roundDouble_M_PI_add : roundDouble (M_PI + 1 / 2 ^ 53) = M_PI := by
  have hpos : (0 : ℚ) < M_PI + 1 / 2 ^ 53 := by
    unfold M_PI
    norm_num
  have hlog : Int.log 2 |M_PI + 1 / 2 ^ 53| = 1 := by
    rw [abs_of_pos hpos]
    have h1 : (1 : ℤ) ≤ Int.log 2 (M_PI + 1 / 2 ^ 53) := by
      rw [← Int.zpow_le_iff_le_log (by norm_num) hpos]
      unfold M_PI
      norm_num
    have h2 : Int.log 2 (M_PI + 1 / 2 ^ 53) < 2 := by
      rw [← Int.lt_zpow_iff_log_lt (by norm_num) hpos]
      unfold M_PI
      norm_num
    omega
  have hq : (M_PI + 1 / 2 ^ 53) / 2 ^ ((1 : ℤ) - 52) = 7074237752028440 + 1 / 4 := by
    unfold M_PI
    norm_num
  have hfloor : ⌊(7074237752028440 + 1 / 4 : ℚ)⌋ = 7074237752028440 := by
    rw [Int.floor_eq_iff]
    norm_num
  have hround : roundEven (7074237752028440 + 1 / 4) = 7074237752028440 := by
    unfold roundEven
    rw [hfloor]
    norm_num
  unfold roundDouble
  rw [if_neg (ne_of_gt hpos), hlog, hq, hround]
  unfold M_PI
  norm_num

/-- Rounding decides at the threshold: for `nearHalfEdge` with gauge correction on, the exact
sum of the corrected differences divided by 2 pi exceeds 1/2, but in `double` arithmetic
(`roundDouble`) the running sum pi + 2^-53 rounds to pi, `critera` is exactly -1/2, and
`ExtractSpaceTimeEdge` records nothing. -/
theorem ExtractSpaceTimeEdge_rounds_to_half (bilinear barycentric : Option (ℚ × ℚ)) :
    1 / 2 < loopWinding (edgeDeltas roundDouble mod2pi1 gaugeState._gauge nearHalfEdge) ∧
    edgeCritera roundDouble (edgeDelta roundDouble mod2pi1 gaugeState._gauge nearHalfEdge)
      = -(1 / 2) ∧
    ExtractSpaceTimeEdge roundDouble mod2pi1 sharedEdgeMesh true nearHalfEdge bilinear
      barycentric 0 gaugeState = gaugeState := by
  have hpi := M_PI_pos
  have hfl := roundDouble_of_isDouble
  have h0 : mod2pi1 0 = 0 := mod2pi1_of_mem_range _ (by linarith) (by linarith)
  have h1 : mod2pi1 M_PI = M_PI := mod2pi1_of_mem_range _ (by linarith) (le_refl _)
  have h2 : mod2pi1 (1 / 2 ^ 53) = 1 / 2 ^ 53 := by
    apply mod2pi1_of_mem_range
    · have : (0 : ℚ) < 1 / 2 ^ 53 := by positivity
      linarith
    · unfold M_PI
      norm_num
  have f0 : roundDouble 0 = 0 := hfl 0 isDouble_zero
  have f1 : roundDouble M_PI = M_PI :=
    fl_M_PI_mul roundDouble hfl 1 0 (by norm_num) _ (by norm_num)
  have f2 : roundDouble (1 / 2 ^ 53) = 1 / 2 ^ 53 :=
    hfl _ ⟨1, -53, by norm_num, by norm_num, by norm_num, by norm_num⟩
  have f3 : roundDouble (-(1 / 2)) = -(1 / 2) :=
    hfl _ ⟨-1, -1, by norm_num, by norm_num, by norm_num, by norm_num⟩
  have hd : edgeDelta roundDouble mod2pi1 gaugeState._gauge nearHalfEdge
      = (M_PI, 0, 1 / 2 ^ 53, 0) := by
    show edgeDelta roundDouble mod2pi1 true nearHalfEdge = _
    simp only [edgeDelta, nearHalfEdge, EdgeSample.phi, if_true, sub_zero, add_zero, sub_neg_eq_add,
      zero_add, f0, f1, f2, h0, h1, h2]
  have hc : edgeCritera roundDouble (edgeDelta roundDouble mod2pi1 gaugeState._gauge
      nearHalfEdge) = -(1 / 2) := by
    rw [hd]
    unfold edgeCritera
    simp only [add_zero, f1, roundDouble_M_PI_add]
    rw [show -M_PI / (2 * M_PI) = -(1 / 2) by field_simp; ring, f3]
  refine ⟨?_, hc, ?_⟩
  · unfold loopWinding edgeDeltas
    rw [hd]
    simp only [List.sum_cons, List.sum_nil]
    rw [lt_div_iff₀ (by linarith)]
    have : (0 : ℚ) < 1 / 2 ^ 53 := by positivity
    linarith
  · rw [ExtractSpaceTimeEdge_of_decision, hc]
    have : edgeChirality (-(1 / 2)) = none := by
      unfold edgeChirality
      norm_num
    rw [this]

theorem roundDouble_M_PI_sub : roundDouble (M_PI - 1 / 2 ^ 53) = M_PI := by
  have hpos : (0 : ℚ) < M_PI - 1 / 2 ^ 53 := by
    unfold M_PI
    norm_num
  have hlog : Int.log 2 |M_PI - 1 / 2 ^ 53| = 1 := by
    rw [abs_of_pos hpos]
    have h1 : (1 : ℤ) ≤ Int.log 2 (M_PI - 1 / 2 ^ 53) := by
      rw [← Int.zpow_le_iff_le_log (by norm_num) hpos]
      unfold M_PI
      norm_num
    have h2 : Int.log 2 (M_PI - 1 / 2 ^ 53) < 2 := by
      rw [← Int.lt_zpow_iff_log_lt (by norm_num) hpos]
      unfold M_PI
      norm_num
    omega
  have hq : (M_PI - 1 / 2 ^ 53) / 2 ^ ((1 : ℤ) - 52) = 7074237752028439 + 3 / 4 := by
    unfold M_PI
    norm_num
  have hfloor : ⌊(7074237752028439 + 3 / 4 : ℚ)⌋ = 7074237752028439 := by
    rw [Int.floor_eq_iff]
    norm_num
  have hround : roundEven (7074237752028439 + 3 / 4) = 7074237752028440 := by
    unfold roundEven
    rw [hfloor]
    norm_num
  unfold roundDouble
  rw [if_neg (ne_of_gt hpos), hlog, hq, hround]
  unfold M_PI
  norm_num

/-- Rounding decides at the threshold: for `nearHalfFace` with gauge correction on, the exact
sum of the corrected differences divided by 2 pi is below 1/2, but in `double` arithmetic
(`roundDouble`) the running sum -pi + 2^-53 rounds to -pi, `critera` is exactly -1/2, and
`ExtractFace` records the face (chirality -1). -/
theorem ExtractFace_rounds_to_half (zero : Option (ℚ × ℚ × ℚ)) :
    |loopWinding (faceDeltas roundDouble mod2pi1 gaugeState._gauge nearHalfFace)| < 1 / 2 ∧
    faceCritera roundDouble mod2pi1 gaugeState._gauge nearHalfFace = -(1 / 2) ∧
    StdMap.find ((ExtractFace roundDouble mod2pi1 sharedEdgeMesh true nearHalfFace zero 1 0
      gaugeState).pfs 0) 1 = some ⟨-1, facePos zero⟩ := by
  have hpi := M_PI_pos
  have hfl := roundDouble_of_isDouble
  have hsmall : (0 : ℚ) < 1 / 2 ^ 53 := by positivity
  have hlt : (1 : ℚ) / 2 ^ 53 < M_PI := by
    unfold M_PI
    norm_num
  have h0 : mod2pi1 0 = 0 := mod2pi1_of_mem_range _ (by linarith) (by linarith)
  have h1 : mod2pi1 M_PI = M_PI := mod2pi1_of_mem_range _ (by linarith) (le_refl _)
  have h2 : mod2pi1 (-(1 / 2 ^ 53)) = -(1 / 2 ^ 53) :=
    mod2pi1_of_mem_range _ (by linarith) (by linarith)
  have f0 : roundDouble 0 = 0 := hfl 0 isDouble_zero
  have f1 : roundDouble M_PI = M_PI :=
    fl_M_PI_mul roundDouble hfl 1 0 (by norm_num) _ (by norm_num)
  have f1n : roundDouble (-M_PI) = -M_PI := by rw [roundDouble_neg, f1]
  have f2 : roundDouble (-(1 / 2 ^ 53)) = -(1 / 2 ^ 53) :=
    hfl _ ⟨-1, -53, by norm_num, by norm_num, by norm_num, by norm_num⟩
  have f3 : roundDouble (-(1 / 2)) = -(1 / 2) :=
    hfl _ ⟨-1, -1, by norm_num, by norm_num, by norm_num, by norm_num⟩
  have f4 : roundDouble (-M_PI + 1 / 2 ^ 53) = -M_PI := by
    rw [show -M_PI + 1 / 2 ^ 53 = -(M_PI - 1 / 2 ^ 53) by ring, roundDouble_neg,
      roundDouble_M_PI_sub]
  have hr : List.range 3 = [0, 1, 2] := rfl
  have hd0 : faceDelta roundDouble mod2pi1 true nearHalfFace 0 = M_PI := by
    simp only [faceDelta, nearHalfFace, if_true]
    norm_num [List.getD]
    simp only [f0, f1, h1, zero_add]
  have hd1 : faceDelta roundDouble mod2pi1 true nearHalfFace 1 = -(1 / 2 ^ 53) := by
    simp only [faceDelta, nearHalfFace, if_true]
    norm_num [List.getD]
    have f2b : roundDouble (-(1 / 9007199254740992)) = -(1 / 9007199254740992) := by
      have := f2
      norm_num at this
      exact this
    have h2b : mod2pi1 (-(1 / 9007199254740992)) = -(1 / 9007199254740992) := by
      have := h2
      norm_num at this
      exact this
    simp only [f0, zero_sub, f2b, h2b]
  have hd2 : faceDelta roundDouble mod2pi1 true nearHalfFace 2 = 0 := by
    simp only [faceDelta, nearHalfFace, if_true]
    norm_num [List.getD]
    simp only [f0, h0]
  have hc : faceCritera roundDouble mod2pi1 gaugeState._gauge nearHalfFace = -(1 / 2) := by
    show faceCritera roundDouble mod2pi1 true nearHalfFace = -(1 / 2)
    unfold faceCritera facePhaseShift
    rw [show nearHalfFace.nnodes = 3 from rfl, hr]
    simp only [List.foldl_cons, List.foldl_nil, hd0, hd1, hd2, zero_sub, sub_zero, f1n,
      sub_neg_eq_add, f4]
    rw [show -M_PI / (2 * M_PI) = -(1 / 2) by field_simp; ring, f3]
  refine ⟨?_, hc, ?_⟩
  · show |loopWinding (faceDeltas roundDouble mod2pi1 true nearHalfFace)| < 1 / 2
    unfold loopWinding faceDeltas
    rw [show nearHalfFace.nnodes = 3 from rfl, hr]
    simp only [List.map_cons, List.map_nil, List.sum_cons, List.sum_nil, hd0, hd1, hd2,
      add_zero]
    rw [abs_of_pos (by apply div_pos <;> linarith), div_lt_iff₀ (by linarith)]
    linarith
  · rw [ExtractFace_of_decision, hc]
    have : faceChirality (-(1 / 2)) = some (-1) := by
      unfold faceChirality
      rw [abs_neg, abs_of_pos (by norm_num : (0 : ℚ) < 1 / 2)]
      norm_num
    rw [this]
    exact AddPuncturedFace_find _ 1 0 (-1) _ gaugeState

theorem roundDouble_M_PI_tie : roundDouble (M_PI + 1 / 2 ^ 52) = M_PI := by
  have hpos : (0 : ℚ) < M_PI + 1 / 2 ^ 52 := by
    unfold M_PI
    norm_num
  have hlog : Int.log 2 |M_PI + 1 / 2 ^ 52| = 1 := by
    rw [abs_of_pos hpos]
    have h1 : (1 : ℤ) ≤ Int.log 2 (M_PI + 1 / 2 ^ 52) := by
      rw [← Int.zpow_le_iff_le_log (by norm_num) hpos]
      unfold M_PI
      norm_num
    have h2 : Int.log 2 (M_PI + 1 / 2 ^ 52) < 2 := by
      rw [← Int.lt_zpow_iff_log_lt (by norm_num) hpos]
      unfold M_PI
      norm_num
    omega
  have hq : (M_PI + 1 / 2 ^ 52) / 2 ^ ((1 : ℤ) - 52) = 7074237752028440 + 1 / 2 := by
    unfold M_PI
    norm_num
  have hfloor : ⌊(7074237752028440 + 1 / 2 : ℚ)⌋ = 7074237752028440 := by
    rw [Int.floor_eq_iff]
    norm_num
  have hround : roundEven (7074237752028440 + 1 / 2) = 7074237752028440 := by
    unfold roundEven
    rw [hfloor]
    norm_num
  unfold roundDouble
  rw [if_neg (ne_of_gt hpos), hlog, hq, hround]
  unfold M_PI
  norm_num

/-- A phase difference that rounds onto the boundary of the range reduction: the exact first
difference of `boundaryFace` is pi + 2^-52, which the range (-pi, pi] would reduce to
-pi + 2^-52 (the exact phases wind once in the negative sense); in `double` arithmetic
(`roundDouble`) the difference is a tie and rounds to pi, which is kept, the corrected
differences sum to -2^-52, and `ExtractFace` records nothing. -/
theorem ExtractFace_boundary_difference (zero : Option (ℚ × ℚ × ℚ)) :
    mod2pi1 (M_PI + 1 / 2 ^ 52) = -M_PI + 1 / 2 ^ 52 ∧
    roundDouble (M_PI + 1 / 2 ^ 52) = M_PI ∧
    faceDeltas roundDouble mod2pi1 emptyState._gauge boundaryFace
      = [M_PI, -(M_PI - 2 + 1 / 2 ^ 52), -2] ∧
    ExtractFace roundDouble mod2pi1 sharedEdgeMesh true boundaryFace zero 1 0 emptyState
      = emptyState := by
  have hpi := M_PI_pos
  have hpi3 := M_PI_gt_three
  have hpi4 := M_PI_lt_four
  have hfl := roundDouble_of_isDouble
  have hsmall : (0 : ℚ) < 1 / 2 ^ 52 := by positivity
  have hs1 : (1 : ℚ) / 2 ^ 52 < 1 := by norm_num
  have hexact : mod2pi1 (M_PI + 1 / 2 ^ 52) = -M_PI + 1 / 2 ^ 52 := by
    have e : M_PI + 1 / 2 ^ 52 = (-M_PI + 1 / 2 ^ 52) + 2 * M_PI * ((1 : ℤ) : ℚ) := by
      push_cast
      ring
    rw [e, mod2pi1_add_turns]
    exact mod2pi1_of_mem_range _ (by linarith) (by linarith)
  have h1 : mod2pi1 M_PI = M_PI := mod2pi1_of_mem_range _ (by linarith) (le_refl _)
  have h2 : mod2pi1 (-(M_PI - 2 + 1 / 2 ^ 52)) = -(M_PI - 2 + 1 / 2 ^ 52) :=
    mod2pi1_of_mem_range _ (by linarith) (by linarith)
  have h3 : mod2pi1 (-2) = -2 := mod2pi1_of_mem_range _ (by linarith) (by linarith)
  have f1 : roundDouble M_PI = M_PI :=
    fl_M_PI_mul roundDouble hfl 1 0 (by norm_num) _ (by norm_num)
  have f2 : roundDouble (-(M_PI - 2 + 1 / 2 ^ 52)) = -(M_PI - 2 + 1 / 2 ^ 52) :=
    hfl _ ⟨-5141276249315889, -52, by norm_num, by norm_num, by norm_num, by
      unfold M_PI
      norm_num⟩
  have f3 : roundDouble (-2) = -2 :=
    hfl _ ⟨-1, 1, by norm_num, by norm_num, by norm_num, by norm_num⟩
  have hr : List.range 3 = [0, 1, 2] := rfl
  have hd0 : faceDelta roundDouble mod2pi1 false boundaryFace 0 = M_PI := by
    have e : (M_PI - 2 + 1 / 2 ^ 52) - (-2) = M_PI + 1 / 2 ^ 52 := by ring
    simp only [faceDelta, boundaryFace, Bool.false_eq_true, if_false, List.getD_cons_zero,
      List.getD_cons_succ, Nat.reduceAdd, Nat.reduceMod, e, roundDouble_M_PI_tie, add_zero, f1,
      h1]
  have hd1 : faceDelta roundDouble mod2pi1 false boundaryFace 1
      = -(M_PI - 2 + 1 / 2 ^ 52) := by
    have e : (0 : ℚ) - (M_PI - 2 + 1 / 2 ^ 52) = -(M_PI - 2 + 1 / 2 ^ 52) := by ring
    simp only [faceDelta, boundaryFace, Bool.false_eq_true, if_false, List.getD_cons_zero,
      List.getD_cons_succ, Nat.reduceAdd, Nat.reduceMod, e, add_zero, f2, h2]
  have hd2 : faceDelta roundDouble mod2pi1 false boundaryFace 2 = -2 := by
    have e : (-2 : ℚ) - 0 = -2 := by ring
    simp only [faceDelta, boundaryFace, Bool.false_eq_true, if_false, List.getD_cons_zero,
      List.getD_cons_succ, Nat.reduceAdd, Nat.reduceMod, e, add_zero, f3, h3]
  have hds : faceDeltas roundDouble mod2pi1 emptyState._gauge boundaryFace
      = [M_PI, -(M_PI - 2 + 1 / 2 ^ 52), -2] := by
    show faceDeltas roundDouble mod2pi1 false boundaryFace = _
    unfold faceDeltas
    rw [show boundaryFace.nnodes = 3 from rfl, hr]
    simp only [List.map_cons, List.map_nil, hd0, hd1, hd2]
  refine ⟨hexact, roundDouble_M_PI_tie, hds, ?_⟩
  refine (ExtractFace_near_integer_winding roundDouble mod2pi1 roundDouble_close mod2pi1_abs_le
    sharedEdgeMesh boundaryFace zero 1 0 emptyState 0 (Or.inl rfl) ?_).1 rfl
  rw [hds]
  unfold loopWinding
  simp only [List.sum_cons, List.sum_nil, Int.cast_zero, sub_zero, add_zero]
  rw [show M_PI + (-(M_PI - 2 + 1 / 2 ^ 52) + -2) = -(1 / 2 ^ 52) by ring, neg_div, abs_neg,
    abs_of_pos (by apply div_pos <;> linarith), div_le_iff₀ (by linarith)]
  linarith

/-! ## Tracing a chain of cells -/

theorem walkFor_no_match (special : StdMap PuncturedCell) (pcell : PuncturedCell) (cell : CCell)
    (chi : Int) (l : List Nat) :
    ∀ (i : Nat) (s : WalkState), (∀ j, j < l.length → pcell.Chirality (i + j) ≠ chi) →
      walkFor special pcell cell chi l i s = s := by
  induction l with
  | nil => intro i s _; rfl
  | cons n rest ih =>
    intro i s h
    unfold walkFor
    have h0 : pcell.Chirality i ≠ chi := by simpa using h 0 (by simp)
    rw [if_neg h0]
    apply ih
    intro j hj
    have := h (j + 1) (by simp only [List.length_cons]; omega)
    rwa [show i + (j + 1) = i + 1 + j by omega] at this

theorem walkFor_cons (special : StdMap PuncturedCell) (pcell : PuncturedCell) (cell : CCell)
    (chi : Int) (n : Nat) (rest : List Nat) (i : Nat) (s : WalkState) :
    walkFor special pcell cell chi (n :: rest) i s =
      if pcell.Chirality i = chi then
        if (StdMap.find special n).isNone then
          walkFor special pcell cell chi rest (i + 1)
            ⟨n, StdSet.insert s.visited s.c, StdSet.insert s.faces (cell.faces.getD i 0),
              if chi = 1 then s.trace ++ [cell.faces.getD i 0] else cell.faces.getD i 0 :: s.trace,
              true⟩
        else
          walkFor special pcell cell chi rest (i + 1)
            ⟨s.c, StdSet.insert s.visited s.c, s.faces, s.trace, s.traced⟩
      else walkFor special pcell cell chi rest (i + 1) s := by
  rw [walkFor]

theorem walkFor_append (special : StdMap PuncturedCell) (pcell : PuncturedCell) (cell : CCell)
    (chi : Int) (l1 l2 : List Nat) :
    ∀ (i : Nat) (s : WalkState), walkFor special pcell cell chi (l1 ++ l2) i s
      = walkFor special pcell cell chi l2 (i + l1.length)
          (walkFor special pcell cell chi l1 i s) := by
  induction l1 with
  | nil => intro i s; simp [walkFor]
  | cons n rest ih =>
    intro i s
    simp only [List.cons_append, List.length_cons, walkFor_cons]
    rw [show i + (rest.length + 1) = i + 1 + rest.length by omega]
    by_cases h1 : pcell.Chirality i = chi
    · rw [if_pos h1, if_pos h1]
      by_cases h2 : (StdMap.find special n).isNone = true
      · rw [if_pos h2, if_pos h2]
        exact ih _ _
      · rw [if_neg h2, if_neg h2]
        exact ih _ _
    · rw [if_neg h1, if_neg h1]
      exact ih _ _

theorem walkFor_single (special : StdMap PuncturedCell) (pcell : PuncturedCell) (cell : CCell)
    (chi : Int) (nbrs : List Nat) (b n : Nat) (s : WalkState)
    (hb : nbrs[b]? = some n) (hchi : pcell.Chirality b = chi)
    (hother : ∀ i, i < nbrs.length → i ≠ b → pcell.Chirality i ≠ chi)
    (hspecial : StdMap.find special n = none) :
    walkFor special pcell cell chi nbrs 0 s =
      ⟨n, StdSet.insert s.visited s.c, StdSet.insert s.faces (cell.faces.getD b 0),
        if chi = 1 then s.trace ++ [cell.faces.getD b 0] else cell.faces.getD b 0 :: s.trace,
        true⟩ := by
  obtain ⟨hlt, hn⟩ := List.getElem?_eq_some_iff.mp hb
  have hsplit : nbrs = nbrs.take b ++ n :: nbrs.drop (b + 1) := by
    rw [← hn, ← List.drop_eq_getElem_cons hlt, List.take_append_drop]
  have hlen : (nbrs.take b).length = b := by
    rw [List.length_take]
    omega
  rw [hsplit, walkFor_append, hlen, zero_add]
  rw [walkFor_no_match special pcell cell chi (nbrs.take b) 0 s (by
    intro j hj
    rw [zero_add]
    rw [hlen] at hj
    exact hother j (by omega) (by omega))]
  rw [walkFor_cons, if_pos hchi]
  simp only [hspecial, Option.isNone_none, if_true]
  apply walkFor_no_match
  intro j hj
  simp only [List.length_drop] at hj
  exact hother (b + 1 + j) (by omega) (by omega)

theorem pushNeighbors_complete (pcs : StdMap PuncturedCell) (pcell : PuncturedCell)
    (visited : StdSet) (l : List Nat) :
    ∀ (i0 : Nat) (q : List Nat),
      (∀ x ∈ q, x ∈ pushNeighbors pcs pcell visited l i0 q) ∧
      (∀ j y, l[j]? = some y → y ≠ UINT_MAX → pcell.Chirality (i0 + j) ≠ 0 →
        (StdMap.find pcs y).isSome = true → y ∉ visited →
        y ∈ pushNeighbors pcs pcell visited l i0 q) := by
  induction l with
  | nil =>
    intro i0 q
    exact ⟨fun x hx => by simpa [pushNeighbors] using hx, fun j y h => by simp at h⟩
  | cons c1 rest ih =>
    intro i0 q
    unfold pushNeighbors
    split
    · rename_i hc
      obtain ⟨h1, h2⟩ := ih (i0 + 1) (q ++ [c1])
      refine ⟨fun x hx => h1 x (List.mem_append.mpr (Or.inl hx)), ?_⟩
      intro j y hj hy hchi hfind hvis
      cases j with
      | zero =>
        simp only [List.getElem?_cons_zero, Option.some.injEq] at hj
        subst hj
        exact h1 _ (by simp)
      | succ j =>
        simp only [List.getElem?_cons_succ] at hj
        exact h2 j y hj hy (by rwa [show i0 + 1 + j = i0 + (j + 1) by omega]) hfind hvis
    · rename_i hc
      obtain ⟨h1, h2⟩ := ih (i0 + 1) q
      refine ⟨h1, ?_⟩
      intro j y hj hy hchi hfind hvis
      cases j with
      | zero =>
        simp only [List.getElem?_cons_zero, Option.some.injEq] at hj
        subst hj
        exact absurd ⟨hy, by simpa using hchi, hfind, hvis⟩ hc
      | succ j =>
        simp only [List.getElem?_cons_succ] at hj
        exact h2 j y hj hy (by rwa [show i0 + 1 + j = i0 + (j + 1) by omega]) hfind hvis

theorem StdMap.index_of_find {V : Type} (m : StdMap V) (d : V) (x : Nat) (v : V)
    (h : StdMap.find m x = some v) : StdMap.index m d x = (v, m) := by
  unfold StdMap.index
  rw [h]

theorem searchStep_componentInv (isSpecial : PuncturedCell → Bool) (mg : MeshGraph)
    (pcs0 : StdMap PuncturedCell)
    (hord : ∀ x pcell, StdMap.find pcs0 x = some pcell → isSpecial pcell = false)
    (c : Nat) (rest : List Nat) (s : SearchState) (hq : s.to_visit = c :: rest)
    (h : ComponentInv mg pcs0 s) : ComponentInv mg pcs0 (searchStep isSpecial mg c rest s) := by
  have hck : c ∈ StdMap.keys pcs0 := h.queue_keys c (by simp [hq])
  obtain ⟨pcell, hpc⟩ : ∃ pcell, StdMap.find pcs0 c = some pcell := by
    have := (StdMap.find_isSome_mem_keys pcs0 c).mpr hck
    exact Option.isSome_iff_exists.mp this
  have hidx : StdMap.index s.pcs PuncturedCell.empty c = (pcell, pcs0) := by
    rw [h.pcs_eq]
    exact StdMap.index_of_find pcs0 _ c pcell hpc
  have hsp : isSpecial pcell = false := hord c pcell hpc
  obtain ⟨hq1, hq2⟩ := pushNeighbors_complete pcs0 pcell (StdSet.insert s.visited c)
    (mg.Cell c).neighbor_cells 0 rest
  obtain ⟨l, hl, hlx⟩ := pushNeighbors_spec pcs0 pcell (StdSet.insert s.visited c)
    (mg.Cell c).neighbor_cells 0 rest
  have hstep : searchStep isSpecial mg c rest s =
      ⟨pushNeighbors pcs0 pcell (StdSet.insert s.visited c) (mg.Cell c).neighbor_cells 0 rest,
        StdSet.insert s.visited c, StdMap.insert s.ordinary_pcells c pcell, s.special_pcells,
        pcs0⟩ := by
    unfold searchStep
    simp only [hidx, hsp, Bool.false_eq_true, if_false]
  rw [hstep]
  refine ⟨rfl, h.special_nil, ?_, ?_, ?_⟩
  · intro x hx
    simp only at hx
    rw [hl] at hx
    rcases List.mem_append.mp hx with hx | hx
    · exact h.queue_keys x (by simp [hq, hx])
    · exact (StdMap.find_isSome_mem_keys _ _).mp (hlx x hx).1
  · intro x
    simp only [StdMap.find_insert, StdSet.mem_insert, h.ordinary_find x]
    by_cases hxc : x = c
    · subst hxc
      simp [hpc]
    · simp [hxc]
  · intro x hx y hadj
    simp only at hx ⊢
    by_cases hyv : y ∈ StdSet.insert s.visited c
    · exact Or.inl hyv
    · right
      rcases (StdSet.mem_insert _ _ _).mp hx with hxc | hxv
      · subst hxc
        obtain ⟨i, pc, hi, hy, hf, hchi, hyk⟩ := hadj
        rw [hpc] at hf
        cases hf
        exact hq2 i y hi hy (by simpa using hchi)
          ((StdMap.find_isSome_mem_keys _ _).mpr hyk) hyv
      · rcases h.closed x hxv y hadj with hy | hy
        · exact absurd ((StdSet.mem_insert _ _ _).mpr (Or.inr hy)) hyv
        · rw [hq] at hy
          rcases List.mem_cons.mp hy with hyc | hyr
          · exact absurd ((StdSet.mem_insert _ _ _).mpr (Or.inl hyc)) hyv
          · exact hq1 y hyr

theorem componentSearch_componentInv (isSpecial : PuncturedCell → Bool) (mg : MeshGraph)
    (pcs0 : StdMap PuncturedCell)
    (hord : ∀ x pcell, StdMap.find pcs0 x = some pcell → isSpecial pcell = false) :
    ∀ (fuel : Nat) (s r : SearchState), componentSearch isSpecial mg fuel s = some r →
      ComponentInv mg pcs0 s → ComponentInv mg pcs0 r ∧ r.to_visit = [] ∧
        (∀ x ∈ s.visited, x ∈ r.visited) ∧ (∀ x ∈ s.to_visit, x ∈ r.visited) := by
  intro fuel
  induction fuel with
  | zero => intro s r h; simp [componentSearch] at h
  | succ fuel ih =>
    intro s r h hinv
    unfold componentSearch at h
    cases hq : s.to_visit with
    | nil =>
      simp only [hq] at h
      cases h
      exact ⟨hinv, hq, fun x hx => hx, by simp⟩
    | cons c rest =>
      simp only [hq] at h
      have hinv1 := searchStep_componentInv isSpecial mg pcs0 hord c rest s hq hinv
      obtain ⟨h1, h2, h3, h4⟩ := ih _ _ h hinv1
      have hck : (StdMap.find s.pcs c).isSome = true := by
        rw [hinv.pcs_eq]
        exact (StdMap.find_isSome_mem_keys _ _).mpr (hinv.queue_keys c (by simp [hq]))
      obtain ⟨_, hvis, l, hl, _⟩ := searchStep_spec isSpecial mg c rest s hck
      refine ⟨h1, h2, ?_, ?_⟩
      · intro x hx
        exact h3 x (by rw [hvis]; exact (StdSet.mem_insert _ _ _).mpr (Or.inr hx))
      · intro x hx
        rcases List.mem_cons.mp hx with rfl | hx
        · exact h3 x (by rw [hvis]; exact (StdSet.mem_insert _ _ _).mpr (Or.inl rfl))
        · exact h4 x (by rw [hl]; exact List.mem_append.mpr (Or.inl hx))

theorem StraightChain.all_ordinary {isSpecial : PuncturedCell → Bool} {mg : MeshGraph}
    {pcs : StdMap PuncturedCell} {N : Nat} {c f : Nat → Nat} {lo hi : Nat}
    (h : StraightChain isSpecial mg pcs N c f lo hi) :
    ∀ x pcell, StdMap.find pcs x = some pcell → isSpecial pcell = false := by
  intro x pcell hx
  have hxk : x ∈ StdMap.keys pcs := (StdMap.find_isSome_mem_keys _ _).mp (by rw [hx]; rfl)
  obtain ⟨k, hk, rfl⟩ := (h.keys x).mp hxk
  obtain ⟨pc, hpc, hsp, _⟩ := h.link k hk
  rw [hx] at hpc
  cases hpc
  exact hsp

theorem StraightChain.mem_keys {isSpecial : PuncturedCell → Bool} {mg : MeshGraph}
    {pcs : StdMap PuncturedCell} {N : Nat} {c f : Nat → Nat} {lo hi : Nat}
    (h : StraightChain isSpecial mg pcs N c f lo hi) (k : Nat) (hk : k < N) :
    c k ∈ StdMap.keys pcs := (h.keys _).mpr ⟨k, hk, rfl⟩

theorem StraightChain.adjacent_up {isSpecial : PuncturedCell → Bool} {mg : MeshGraph}
    {pcs : StdMap PuncturedCell} {N : Nat} {c f : Nat → Nat} {lo hi : Nat}
    (h : StraightChain isSpecial mg pcs N c f lo hi) (k : Nat) (hk : k + 1 < N) :
    Adjacent mg pcs (c k) (c (k + 1)) := by
  obtain ⟨pc, hpc, _, a, b, _, hb, _, _, hnb, _, _⟩ := h.link k (by omega)
  rw [if_neg (by omega)] at hnb
  exact ⟨b, pc, hnb, h.valid _ hk, hpc, by rw [hb]; decide, h.mem_keys _ hk⟩

theorem StraightChain.adjacent_down {isSpecial : PuncturedCell → Bool} {mg : MeshGraph}
    {pcs : StdMap PuncturedCell} {N : Nat} {c f : Nat → Nat} {lo hi : Nat}
    (h : StraightChain isSpecial mg pcs N c f lo hi) (k : Nat) (hk : k + 1 < N) :
    Adjacent mg pcs (c (k + 1)) (c k) := by
  obtain ⟨pc, hpc, _, a, b, ha, _, _, hna, _, _, _⟩ := h.link (k + 1) hk
  rw [if_neg (by omega)] at hna
  simp only [Nat.add_sub_cancel] at hna
  exact ⟨a, pc, hna, h.valid _ (by omega), hpc, by rw [ha]; decide, h.mem_keys _ (by omega)⟩

theorem StraightChain.search_visits_all {isSpecial : PuncturedCell → Bool} {mg : MeshGraph}
    {pcs : StdMap PuncturedCell} {N : Nat} {c f : Nat → Nat} {lo hi : Nat}
    (h : StraightChain isSpecial mg pcs N c f lo hi) (r : SearchState)
    (hinv : ComponentInv mg pcs r) (hq : r.to_visit = []) (m : Nat) (hm : m < N)
    (hseed : c m ∈ r.visited) : ∀ k, k < N → c k ∈ r.visited := by
  have hstep : ∀ x ∈ r.visited, ∀ y, Adjacent mg pcs x y → y ∈ r.visited := by
    intro x hx y hadj
    rcases hinv.closed x hx y hadj with hy | hy
    · exact hy
    · rw [hq] at hy; simp at hy
  have hup : ∀ d, m + d < N → c (m + d) ∈ r.visited := by
    intro d
    induction d with
    | zero => intro _; exact hseed
    | succ d ih =>
      intro hd
      exact hstep _ (ih (by omega)) _ (h.adjacent_up (m + d) (by omega))
  have hdown : ∀ d, d ≤ m → c (m - d) ∈ r.visited := by
    intro d
    induction d with
    | zero => intro _; exact hseed
    | succ d ih =>
      intro hd
      have hadj := h.adjacent_down (m - (d + 1)) (by omega)
      rw [show m - (d + 1) + 1 = m - d by omega] at hadj
      exact hstep _ (ih (by omega)) _ hadj
  intro k hk
  by_cases hkm : m ≤ k
  · have := hup (k - m) (by omega)
    rwa [show m + (k - m) = k by omega] at this
  · have := hdown (m - k) (by omega)
    rwa [show m - (m - k) = k by omega] at this

theorem StdMap.mem_keys_eraseAll {V : Type} (s : StdSet) :
    ∀ (m : StdMap V) (y : Nat),
      y ∈ StdMap.keys (StdMap.eraseAll m s) ↔ y ∈ StdMap.keys m ∧ y ∉ s := by
  induction s with
  | nil => intro m y; simp [StdMap.eraseAll]
  | cons a r ih =>
    intro m y
    have := ih (StdMap.erase m a) y
    simp only [StdMap.eraseAll, List.foldl_cons] at this ⊢
    rw [this, StdMap.mem_keys_erase]
    simp only [List.mem_cons, not_or]
    tauto

theorem StdMap.eraseAll_eq_nil {V : Type} (m : StdMap V) (s : StdSet)
    (h : ∀ x ∈ StdMap.keys m, x ∈ s) : StdMap.eraseAll m s = [] := by
  have hk : StdMap.keys (StdMap.eraseAll m s) = [] := by
    apply List.eq_nil_iff_forall_not_mem.mpr
    intro y hy
    obtain ⟨h1, h2⟩ := (StdMap.mem_keys_eraseAll s m y).mp hy
    exact h2 (h y h1)
  simpa [StdMap.keys] using hk

theorem walkLoop_stop (mg : MeshGraph) (ord special : StdMap PuncturedCell) (chi : Int)
    (fuel : Nat) (s r : WalkState) (hfind : StdMap.find ord s.c = none)
    (h : walkLoop mg ord special chi fuel s = some r) :
    r.trace = s.trace ∧ r.visited = s.visited := by
  cases fuel with
  | zero => simp [walkLoop] at h
  | succ fuel =>
    simp only [walkLoop, hfind, Option.some.injEq] at h
    subst h
    exact ⟨rfl, rfl⟩

theorem walkLoop_move (mg : MeshGraph) (ord : StdMap PuncturedCell) (chi : Int)
    (fuel : Nat) (s r : WalkState) (pcell : PuncturedCell) (b n : Nat)
    (hfind : StdMap.find ord s.c = some pcell) (hvis : s.c ∉ s.visited)
    (hb : (mg.Cell s.c).neighbor_cells[b]? = some n) (hchi : pcell.Chirality b = chi)
    (hother : ∀ i, i < (mg.Cell s.c).neighbor_cells.length → i ≠ b → pcell.Chirality i ≠ chi)
    (h : walkLoop mg ord [] chi fuel s = some r) :
    ∃ fuel1, walkLoop mg ord [] chi fuel1
      ⟨n, StdSet.insert s.visited s.c, StdSet.insert s.faces ((mg.Cell s.c).faces.getD b 0),
        if chi = 1 then s.trace ++ [(mg.Cell s.c).faces.getD b 0]
        else (mg.Cell s.c).faces.getD b 0 :: s.trace, true⟩ = some r := by
  cases fuel with
  | zero => simp [walkLoop] at h
  | succ fuel =>
    have hw := walkFor_single [] pcell (mg.Cell s.c) chi (mg.Cell s.c).neighbor_cells b n
      ⟨s.c, s.visited, s.faces, s.trace, false⟩ hb hchi hother rfl
    simp only [walkLoop, hfind, hvis, if_false, hw, if_true] at h
    exact ⟨fuel, h⟩

theorem StraightChain.forward_walk {isSpecial : PuncturedCell → Bool} {mg : MeshGraph}
    {pcs : StdMap PuncturedCell} {N : Nat} {c f : Nat → Nat} {lo hi : Nat}
    (h : StraightChain isSpecial mg pcs N c f lo hi) (ord : StdMap PuncturedCell)
    (hord : ∀ x, StdMap.find ord x = StdMap.find pcs x) :
    ∀ (d k : Nat), k + d = N → ∀ (fuel : Nat) (s r : WalkState),
      walkLoop mg ord [] 1 fuel s = some r → s.c = (if k < N then c k else hi) →
      (∀ j, k ≤ j → j < N → c j ∉ s.visited) →
      r.trace = s.trace ++ (List.range' (k + 1) d).map f ∧
      (∀ x, x ∈ r.visited ↔ x ∈ s.visited ∨ ∃ j, k ≤ j ∧ j < N ∧ x = c j) := by
  intro d
  induction d with
  | zero =>
    intro k hk fuel s r hrun hc _
    rw [if_neg (by omega)] at hc
    have hnone : StdMap.find ord s.c = none := by
      rw [hc, hord]
      cases hf : StdMap.find pcs hi with
      | none => rfl
      | some v =>
        exact absurd ((StdMap.find_isSome_mem_keys _ _).mp (by rw [hf]; rfl)) h.hi_out
    obtain ⟨h1, h2⟩ := walkLoop_stop mg ord [] 1 fuel s r hnone hrun
    refine ⟨by simp [h1], ?_⟩
    intro x
    rw [h2]
    constructor
    · exact Or.inl
    · rintro (hx | ⟨j, hj1, hj2, _⟩)
      · exact hx
      · omega
  | succ d ih =>
    intro k hk fuel s r hrun hc hvis
    have hkN : k < N := by omega
    rw [if_pos hkN] at hc
    obtain ⟨pcell, hpc, _, a, b, ha, hb, hzero, _, hnb, _, hfb⟩ := h.link k hkN
    have hother : ∀ i, i < (mg.Cell s.c).neighbor_cells.length → i ≠ b →
        pcell.Chirality i ≠ 1 := by
      intro i hi hib
      rw [hc] at hi
      by_cases hia : i = a
      · rw [hia, ha]; decide
      · rw [hzero i hi hia hib]; decide
    obtain ⟨fuel1, hrun1⟩ := walkLoop_move mg ord 1 fuel s r pcell b
      (if k + 1 = N then hi else c (k + 1))
      (by rw [hc, hord]; exact hpc) (by rw [hc]; exact hvis k (le_refl _) hkN)
      (by rw [hc]; exact hnb) hb hother hrun
    rw [hc, hfb] at hrun1
    simp only [if_true] at hrun1
    obtain ⟨h1, h2⟩ := ih (k + 1) (by omega) fuel1 _ r hrun1
      (by
        show (if k + 1 = N then hi else c (k + 1)) = if k + 1 < N then c (k + 1) else hi
        by_cases hN : k + 1 = N
        · rw [if_pos hN, if_neg (by omega)]
        · rw [if_neg hN, if_pos (by omega)])
      (by
        intro j hj1 hj2 hmem
        rcases (StdSet.mem_insert _ _ _).mp hmem with hjk | hjv
        · have := h.inj j k hj2 hkN hjk
          omega
        · exact hvis j (by omega) hj2 hjv)
    refine ⟨?_, ?_⟩
    · rw [h1]
      simp only [List.range'_succ, List.map_cons, List.append_assoc, List.singleton_append]
    · intro x
      rw [h2]
      simp only [StdSet.mem_insert]
      constructor
      · rintro ((hx | hx) | ⟨j, hj1, hj2, hj3⟩)
        · exact Or.inr ⟨k, le_refl _, hkN, hx⟩
        · exact Or.inl hx
        · exact Or.inr ⟨j, by omega, hj2, hj3⟩
      · rintro (hx | ⟨j, hj1, hj2, hj3⟩)
        · exact Or.inl (Or.inr hx)
        · by_cases hjk : j = k
          · subst hjk
            exact Or.inl (Or.inl hj3)
          · exact Or.inr ⟨j, by omega, hj2, hj3⟩

theorem StraightChain.backward_walk {isSpecial : PuncturedCell → Bool} {mg : MeshGraph}
    {pcs : StdMap PuncturedCell} {N : Nat} {c f : Nat → Nat} {lo hi : Nat}
    (h : StraightChain isSpecial mg pcs N c f lo hi) (ord : StdMap PuncturedCell)
    (hord : ∀ x, StdMap.find ord x = StdMap.find pcs x) :
    ∀ (k : Nat), k < N → ∀ (fuel : Nat) (s r : WalkState),
      walkLoop mg ord [] (-1) fuel s = some r → s.c = c k →
      (∀ j, j ≤ k → c j ∉ s.visited) →
      r.trace = (List.range (k + 1)).map f ++ s.trace ∧
      (∀ x, x ∈ r.visited ↔ x ∈ s.visited ∨ ∃ j, j ≤ k ∧ x = c j) := by
  intro k
  induction k with
  | zero =>
    intro hkN fuel s r hrun hc hvis
    obtain ⟨pcell, hpc, _, a, b, ha, hb, hzero, hna, _, hfa, _⟩ := h.link 0 hkN
    have hother : ∀ i, i < (mg.Cell s.c).neighbor_cells.length → i ≠ a →
        pcell.Chirality i ≠ -1 := by
      intro i hi hia
      rw [hc] at hi
      by_cases hib : i = b
      · rw [hib, hb]; decide
      · rw [hzero i hi hia hib]; decide
    obtain ⟨fuel1, hrun1⟩ := walkLoop_move mg ord (-1) fuel s r pcell a lo
      (by rw [hc, hord]; exact hpc) (by rw [hc]; exact hvis 0 (le_refl _))
      (by rw [hc]; simpa using hna) ha hother hrun
    rw [hc, hfa] at hrun1
    simp only [show ((-1 : Int) = 1) = False by decide, if_false] at hrun1
    have hnone : StdMap.find ord lo = none := by
      rw [hord]
      cases hf : StdMap.find pcs lo with
      | none => rfl
      | some v =>
        exact absurd ((StdMap.find_isSome_mem_keys _ _).mp (by rw [hf]; rfl)) h.lo_out
    obtain ⟨h1, h2⟩ := walkLoop_stop mg ord [] (-1) fuel1 _ r hnone hrun1
    refine ⟨by rw [h1]; rfl, ?_⟩
    intro x
    rw [h2]
    simp only [StdSet.mem_insert]
    constructor
    · rintro (hx | hx)
      · exact Or.inr ⟨0, le_refl _, hx⟩
      · exact Or.inl hx
    · rintro (hx | ⟨j, hj1, hj2⟩)
      · exact Or.inr hx
      · have : j = 0 := by omega
        subst this
        exact Or.inl hj2
  | succ k ih =>
    intro hkN fuel s r hrun hc hvis
    obtain ⟨pcell, hpc, _, a, b, ha, hb, hzero, hna, _, hfa, _⟩ := h.link (k + 1) hkN
    have hother : ∀ i, i < (mg.Cell s.c).neighbor_cells.length → i ≠ a →
        pcell.Chirality i ≠ -1 := by
      intro i hi hia
      rw [hc] at hi
      by_cases hib : i = b
      · rw [hib, hb]; decide
      · rw [hzero i hi hia hib]; decide
    obtain ⟨fuel1, hrun1⟩ := walkLoop_move mg ord (-1) fuel s r pcell a (c k)
      (by rw [hc, hord]; exact hpc) (by rw [hc]; exact hvis (k + 1) (le_refl _))
      (by rw [hc]; simpa using hna) ha hother hrun
    rw [hc, hfa] at hrun1
    simp only [show ((-1 : Int) = 1) = False by decide, if_false] at hrun1
    obtain ⟨h1, h2⟩ := ih (by omega) fuel1 _ r hrun1 rfl
      (by
        intro j hj hmem
        rcases (StdSet.mem_insert _ _ _).mp hmem with hjk | hjv
        · have := h.inj j (k + 1) (by omega) hkN hjk
          omega
        · exact hvis j (by omega) hjv)
    refine ⟨?_, ?_⟩
    · rw [h1]
      simp [List.range_succ]
    · intro x
      rw [h2]
      simp only [StdSet.mem_insert]
      constructor
      · rintro ((hx | hx) | ⟨j, hj1, hj2⟩)
        · exact Or.inr ⟨k + 1, le_refl _, hx⟩
        · exact Or.inl hx
        · exact Or.inr ⟨j, by omega, hj2⟩
      · rintro (hx | ⟨j, hj1, hj2⟩)
        · exact Or.inl (Or.inr hx)
        · by_cases hjk : j = k + 1
          · subst hjk
            exact Or.inl (Or.inl hj2)
          · exact Or.inr ⟨j, by omega, hj2⟩

theorem StraightChain.keys_of_agree {isSpecial : PuncturedCell → Bool} {mg : MeshGraph}
    {pcs : StdMap PuncturedCell} {N : Nat} {c f : Nat → Nat} {lo hi : Nat}
    (h : StraightChain isSpecial mg pcs N c f lo hi) (ord : StdMap PuncturedCell)
    (hord : ∀ x, StdMap.find ord x = StdMap.find pcs x) :
    ∀ x, x ∈ StdMap.keys ord ↔ ∃ k, k < N ∧ x = c k := by
  intro x
  rw [← h.keys x, ← StdMap.find_isSome_mem_keys, ← StdMap.find_isSome_mem_keys, hord]

theorem StraightChain.traceOnce_spec {isSpecial : PuncturedCell → Bool} {mg : MeshGraph}
    {pcs : StdMap PuncturedCell} {N : Nat} {c f : Nat → Nat} {lo hi : Nat}
    (h : StraightChain isSpecial mg pcs N c f lo hi) (ord : StdMap PuncturedCell)
    (hord : ∀ x, StdMap.find ord x = StdMap.find pcs x) (vobj : VortexObject)
    (m : Nat) (hm : m < N) (fuel : Nat) (t1 : TraceState)
    (hrun : traceOnce mg [] fuel (c m) ⟨ord, vobj⟩ = some t1) :
    t1.ordinary_pcells = [] ∧ t1.vobj.traces = vobj.traces ++ [(List.range (N + 1)).map f] := by
  unfold traceOnce at hrun
  cases hfw : walkLoop mg ord [] 1 fuel ⟨c m, [], vobj.faces, [], false⟩ with
  | none => simp [hfw] at hrun
  | some fw =>
    simp only [hfw] at hrun
    cases hbw : walkLoop mg ord [] (-1) fuel
        ⟨c m, StdSet.erase fw.visited (c m), fw.faces, fw.trace, fw.traced⟩ with
    | none => simp [hbw] at hrun
    | some bw =>
      simp only [hbw, Option.some.injEq] at hrun
      obtain ⟨f1, f2⟩ := h.forward_walk ord hord (N - m) m (by omega) fuel _ fw hfw
        (by simp [hm]) (by intro j _ _ hj; simp at hj)
      obtain ⟨b1, b2⟩ := h.backward_walk ord hord m hm fuel _ bw hbw rfl
        (by
          intro j hj hmem
          obtain ⟨hin, hne⟩ := (StdSet.mem_erase _ _ _).mp hmem
          rcases (f2 (c j)).mp hin with hx | ⟨j1, hj1, hj2, hj3⟩
          · simp at hx
          · have := h.inj j j1 (by omega) hj2 hj3
            have hjm : j = m := by omega
            exact hne (by rw [hjm]))
      rw [← hrun]
      refine ⟨?_, ?_⟩
      · apply StdMap.eraseAll_eq_nil
        intro x hx
        obtain ⟨k, hk, rfl⟩ := (h.keys_of_agree ord hord x).mp hx
        rw [StdSet.mem_insert, b2]
        by_cases hkm : k ≤ m
        · exact Or.inr (Or.inr ⟨k, hkm, rfl⟩)
        · right; left
          rw [StdSet.mem_erase, f2]
          refine ⟨Or.inr ⟨k, by omega, hk, rfl⟩, ?_⟩
          intro heq
          have := h.inj k m hk hm heq
          omega
      · show vobj.traces ++ [bw.trace] = _
        rw [b1, f1]
        simp only [List.nil_append]
        rw [← List.map_append, List.range_eq_range', List.range_eq_range']
        have hr := List.range'_append_1 0 (m + 1) (N - m)
        rw [zero_add, show N - m + (m + 1) = N + 1 by omega] at hr
        rw [hr]

theorem StraightChain.traceLoop_spec {isSpecial : PuncturedCell → Bool} {mg : MeshGraph}
    {pcs : StdMap PuncturedCell} {N : Nat} {c f : Nat → Nat} {lo hi : Nat}
    (h : StraightChain isSpecial mg pcs N c f lo hi) (ord : StdMap PuncturedCell)
    (hord : ∀ x, StdMap.find ord x = StdMap.find pcs x) (fuel : Nat) (t : TraceState)
    (hrun : traceLoop mg [] fuel ⟨ord, VortexObject.empty⟩ = some t) :
    t.vobj.traces = [(List.range (N + 1)).map f] := by
  cases fuel with
  | zero => simp [traceLoop] at hrun
  | succ fuel =>
    unfold traceLoop at hrun
    cases ho : ord with
    | nil =>
      have : c 0 ∈ StdMap.keys ord := (h.keys_of_agree ord hord _).mpr ⟨0, h.pos, rfl⟩
      rw [ho] at this
      simp [StdMap.keys] at this
    | cons a rest =>
      obtain ⟨seed, pc⟩ := a
      have hseed : seed ∈ StdMap.keys ord := by rw [ho]; simp [StdMap.keys]
      obtain ⟨m, hm, rfl⟩ := (h.keys_of_agree ord hord _).mp hseed
      simp only [ho] at hrun
      rw [← ho] at hrun
      cases h1 : traceOnce mg [] (fuel + 1) (c m) ⟨ord, VortexObject.empty⟩ with
      | none => simp [h1] at hrun
      | some t1 =>
        simp only [h1] at hrun
        obtain ⟨e1, e2⟩ := h.traceOnce_spec ord hord VortexObject.empty m hm _ t1 h1
        cases fuel with
        | zero => simp [traceLoop] at hrun
        | succ fuel =>
          unfold traceLoop at hrun
          simp only [e1, Option.some.injEq] at hrun
          rw [← hrun, e2]
          rfl

theorem StraightChain.spaceLoop_spec {isSpecial : PuncturedCell → Bool} {mg : MeshGraph}
    {pcs : StdMap PuncturedCell} {N : Nat} {c f : Nat → Nat} {lo hi : Nat}
    (h : StraightChain isSpecial mg pcs N c f lo hi) (fuel : Nat) (r : SpaceState)
    (hrun : spaceLoop isSpecial mg fuel ⟨pcs, []⟩ = some r) :
    r.pcs = [] ∧ ∃ v, r.vobjs = [v] ∧ v.id = 0 ∧ v.traces = [(List.range (N + 1)).map f] := by
  cases fuel with
  | zero => simp [spaceLoop] at hrun
  | succ fuel =>
    unfold spaceLoop at hrun
    cases hp : pcs with
    | nil =>
      have : c 0 ∈ StdMap.keys pcs := h.mem_keys 0 h.pos
      rw [hp] at this
      simp [StdMap.keys] at this
    | cons a rest =>
      obtain ⟨first, pc⟩ := a
      have hfirst : first ∈ StdMap.keys pcs := by rw [hp]; simp [StdMap.keys]
      obtain ⟨m, hm, rfl⟩ := (h.keys _).mp hfirst
      simp only [hp] at hrun
      rw [← hp] at hrun
      cases h1 : spaceOnce isSpecial mg (fuel + 1) (c m) ⟨pcs, []⟩ with
      | none => simp [h1] at hrun
      | some s1 =>
        simp only [h1] at hrun
        unfold spaceOnce at h1
        cases hs : componentSearch isSpecial mg (fuel + 1) ⟨[c m], [], [], [], pcs⟩ with
        | none => simp [hs] at h1
        | some sr =>
          simp only [hs] at h1
          have hinit : ComponentInv mg pcs ⟨[c m], [], [], [], pcs⟩ :=
            ⟨rfl, rfl, fun x hx => by simp at hx; rw [hx]; exact hfirst,
              fun x => by simp [StdMap.find], fun x hx => by simp at hx⟩
          obtain ⟨hinv, hq, _, hseed⟩ :=
            componentSearch_componentInv isSpecial mg pcs h.all_ordinary _ _ sr hs hinit
          have hall := h.search_visits_all sr hinv hq m hm (hseed (c m) (by simp))
          have hord : ∀ x, StdMap.find sr.ordinary_pcells x = StdMap.find pcs x := by
            intro x
            rw [hinv.ordinary_find x]
            by_cases hx : x ∈ sr.visited
            · rw [if_pos hx]
            · rw [if_neg hx]
              cases hf : StdMap.find pcs x with
              | none => rfl
              | some v =>
                exfalso
                have hxk := (StdMap.find_isSome_mem_keys pcs x).mp (by rw [hf]; rfl)
                obtain ⟨k, hk, rfl⟩ := (h.keys x).mp hxk
                exact hx (hall k hk)
          rw [hinv.special_nil] at h1
          cases ht : traceLoop mg [] (fuel + 1) ⟨sr.ordinary_pcells, VortexObject.empty⟩ with
          | none => simp [ht] at h1
          | some t =>
            simp only [ht, Option.some.injEq] at h1
            have htr := h.traceLoop_spec sr.ordinary_pcells hord _ t ht
            have hs1 : s1.pcs = [] ∧ ∃ v, s1.vobjs = [v] ∧ v.id = 0 ∧
                v.traces = [(List.range (N + 1)).map f] := by
              rw [← h1]
              refine ⟨?_, _, rfl, rfl, htr⟩
              apply StdMap.eraseAll_eq_nil
              intro x hx
              rw [hinv.pcs_eq] at hx
              obtain ⟨k, hk, rfl⟩ := (h.keys x).mp hx
              exact hall k hk
            cases fuel with
            | zero => simp [spaceLoop] at hrun
            | succ fuel =>
              unfold spaceLoop at hrun
              simp only [hs1.1, Option.some.injEq] at hrun
              rw [← hrun]
              exact hs1

/-- C2 (amended): for every `N >= 1` and every chain of `N` punctured cells with a consistent
forward chirality (the line enters each cell through its -1 slot and leaves through its +1
slot), `TraceOverSpace` returns and yields exactly one vortex object, with id 0 and exactly
one trace; that trace visits the `N + 1` faces `f 0, ..., f N` in chain order: the `N - 1`
faces shared by consecutive cells, preceded by the entry face of the first cell and followed
by the exit face of the last cell. -/
theorem TraceOverSpace_straight_chain (isSpecial : PuncturedCell → Bool) (mg : MeshGraph)
    (slot : Int) (st : VortexExtractor) (N : Nat) (c f : Nat → Nat) (lo hi : Nat)
    (h : StraightChain isSpecial mg (st.pcs slot) N c f lo hi) :
    (∃ fuel st1, TraceOverSpace isSpecial mg fuel slot st = some st1) ∧
    ∀ fuel st1, TraceOverSpace isSpecial mg fuel slot st = some st1 →
      ∃ v, st1.vobjs slot = [v] ∧ v.id = 0 ∧ v.traces = [(List.range (N + 1)).map f] ∧
        ((List.range (N + 1)).map f).length = N + 1 := by
  refine ⟨TraceOverSpace_terminates isSpecial mg slot st, ?_⟩
  intro fuel st1 hrun
  unfold TraceOverSpace at hrun
  cases hs : spaceLoop isSpecial mg fuel
      ⟨if slot = 0 then st._punctured_cells else st._punctured_cells1, []⟩ with
  | none => simp [hs] at hrun
  | some r =>
    simp only [hs] at hrun
    obtain ⟨_, v, hv, hid, htr⟩ := h.spaceLoop_spec fuel r hs
    refine ⟨v, ?_, hid, htr, by simp⟩
    by_cases h0 : slot = 0
    · simp only [h0, if_true, Option.some.injEq] at hrun
      rw [← hrun]
      simpa [VortexExtractor.vobjs, h0] using hv
    · simp only [h0, if_false, Option.some.injEq] at hrun
      rw [← hrun]
      simpa [VortexExtractor.vobjs, h0] using hv

theorem chainState_straightChain :
    StraightChain PuncturedCell.IsSpecial chainMesh (chainState.pcs 0) 3 (fun k => k)
      (fun k => 10 + k) UINT_MAX UINT_MAX where
  pos := by decide
  inj := fun i j _ _ hij => hij
  keys := by
    intro x
    show x ∈ [0, 1, 2] ↔ _
    simp only [List.mem_cons, List.mem_singleton, List.not_mem_nil, or_false]
    constructor
    · rintro (rfl | rfl | rfl)
      · exact ⟨0, by decide, rfl⟩
      · exact ⟨1, by decide, rfl⟩
      · exact ⟨2, by decide, rfl⟩
    · rintro ⟨k, hk, rfl⟩
      omega
  valid := by
    intro k hk
    unfold UINT_MAX
    omega
  lo_out := by decide
  hi_out := by decide
  link := by
    intro k hk
    have hcases : k = 0 ∨ k = 1 ∨ k = 2 := by omega
    rcases hcases with rfl | rfl | rfl
    · exact ⟨⟨[-1, 1]⟩, rfl, rfl, 0, 1, rfl, rfl,
        fun i hi h0 h1 => absurd hi (by simp [chainMesh, MeshGraph.Cell]; omega),
        rfl, rfl, rfl, rfl⟩
    · exact ⟨⟨[-1, 1]⟩, rfl, rfl, 0, 1, rfl, rfl,
        fun i hi h0 h1 => absurd hi (by simp [chainMesh, MeshGraph.Cell]; omega),
        rfl, rfl, rfl, rfl⟩
    · exact ⟨⟨[-1, 1]⟩, rfl, rfl, 0, 1, rfl, rfl,
        fun i hi h0 h1 => absurd hi (by simp [chainMesh, MeshGraph.Cell]; omega),
        rfl, rfl, rfl, rfl⟩

/-- C2 (witness): the amended statement at the chain of three cells of `chainState`; the run
with fuel 6 gives the single trace 10, 11, 12, 13. -/
theorem TraceOverSpace_straight_chain_witness :
    ((∃ fuel st1, TraceOverSpace PuncturedCell.IsSpecial chainMesh fuel 0 chainState = some st1) ∧
      ∀ fuel st1, TraceOverSpace PuncturedCell.IsSpecial chainMesh fuel 0 chainState = some st1 →
        ∃ v, st1.vobjs 0 = [v] ∧ v.id = 0 ∧
          v.traces = [(List.range (3 + 1)).map (fun k => 10 + k)] ∧
          ((List.range (3 + 1)).map (fun k => 10 + k)).length = 3 + 1) ∧
    (TraceOverSpace PuncturedCell.IsSpecial chainMesh 6 0 chainState).map
      (fun s => s._vortex_objects) = some [⟨0, 0, 0, [10, 11, 12, 13], [[10, 11, 12, 13]]⟩] :=
  ⟨TraceOverSpace_straight_chain PuncturedCell.IsSpecial chainMesh 0 chainState 3 (fun k => k)
    (fun k => 10 + k) UINT_MAX UINT_MAX chainState_straightChain, by decide⟩

/-- C2 (counterexample): `chainState` is a chain of N = 3 cells with consistent forward
chirality, and `TraceOverSpace` yields one object whose single trace visits the 4 faces
10, 11, 12, 13, not N - 1 = 2 faces. -/
theorem TraceOverSpace_chain_trace_not_N_minus_one :
    StraightChain PuncturedCell.IsSpecial chainMesh (chainState.pcs 0) 3 (fun k => k)
      (fun k => 10 + k) UINT_MAX UINT_MAX ∧
    (TraceOverSpace PuncturedCell.IsSpecial chainMesh 6 0 chainState).map
      (fun s => s._vortex_objects.map (fun v => v.traces)) = some [[[10, 11, 12, 13]]] ∧
    [10, 11, 12, 13].length ≠ 3 - 1 :=
  ⟨chainState_straightChain, by decide, by decide⟩

/-! ## Rotating the time steps and flattening objects into lines -/

/-- C12: after `RotateTimeSteps` the slot-0 punctured-face map, punctured-cell map,
vortex-object list and vortex-line list are the slot-1 ones from before the call, the slot-1
ones are empty, and the punctured-edge map, the virtual-cell map and the related-face map are
empty. -/
theorem RotateTimeSteps_moves_slot1_to_slot0 (st : VortexExtractor) :
    (RotateTimeSteps st)._punctured_faces = st._punctured_faces1 ∧
    (RotateTimeSteps st)._punctured_cells = st._punctured_cells1 ∧
    (RotateTimeSteps st)._vortex_objects = st._vortex_objects1 ∧
    (RotateTimeSteps st)._vortex_lines = st._vortex_lines1 ∧
    (RotateTimeSteps st)._punctured_faces1 = [] ∧
    (RotateTimeSteps st)._punctured_cells1 = [] ∧
    (RotateTimeSteps st)._vortex_objects1 = [] ∧
    (RotateTimeSteps st)._vortex_lines1 = [] ∧
    (RotateTimeSteps st)._punctured_edges = [] ∧
    (RotateTimeSteps st)._punctured_vcells = [] ∧
    (RotateTimeSteps st)._related_faces = [] := by
  unfold RotateTimeSteps
  exact ⟨rfl, rfl, rfl, rfl, rfl, rfl, rfl, rfl, rfl, rfl, rfl⟩

theorem faceCoords_of_find (pfs : StdMap PuncturedFace) (f : Nat) (pf : PuncturedFace)
    (h : StdMap.find pfs f = some pf) : faceCoords pfs f = [pf.pos.1, pf.pos.2.1, pf.pos.2.2] := by
  unfold faceCoords
  rw [h]

theorem traceCoords_spec (pfs : StdMap PuncturedFace) (trace : List Nat) :
    ∀ line : List Double, (∀ f ∈ trace, f ∈ StdMap.keys pfs) →
      traceCoords pfs trace line = some (line ++ trace.flatMap (faceCoords pfs)) := by
  induction trace with
  | nil => intro line _; simp [traceCoords]
  | cons f rest ih =>
    intro line h
    have hf : (StdMap.find pfs f).isSome = true :=
      (StdMap.find_isSome_mem_keys pfs f).mpr (h f (List.mem_cons_self _ _))
    obtain ⟨pf, hpf⟩ := Option.isSome_iff_exists.mp hf
    unfold traceCoords
    simp only [hpf]
    rw [ih _ (fun g hg => h g (List.mem_cons_of_mem _ hg))]
    simp [List.flatMap_cons, faceCoords_of_find pfs f pf hpf]

theorem traceCoords_none_iff (pfs : StdMap PuncturedFace) (trace : List Nat) :
    ∀ line : List Double, traceCoords pfs trace line = none ↔ ∃ f ∈ trace, f ∉ StdMap.keys pfs := by
  induction trace with
  | nil => intro line; simp [traceCoords]
  | cons f rest ih =>
    intro line
    unfold traceCoords
    cases hf : StdMap.find pfs f with
    | none =>
      have hk : f ∉ StdMap.keys pfs := by
        rw [← StdMap.find_isSome_mem_keys, hf]
        simp
      simp only [true_iff]
      exact ⟨f, List.mem_cons_self _ _, hk⟩
    | some pf =>
      have hk : f ∈ StdMap.keys pfs := (StdMap.find_isSome_mem_keys pfs f).mp (by rw [hf]; rfl)
      simp only [ih, List.mem_cons]
      constructor
      · rintro ⟨g, hg, hgk⟩
        exact ⟨g, Or.inr hg, hgk⟩
      · rintro ⟨g, hg | hg, hgk⟩
        · exact absurd (hg ▸ hk) hgk
        · exact ⟨g, hg, hgk⟩

theorem tracesCoords_spec (pfs : StdMap PuncturedFace) (traces : List (List Nat)) :
    ∀ line : List Double, (∀ trace ∈ traces, ∀ f ∈ trace, f ∈ StdMap.keys pfs) →
      tracesCoords pfs traces line = some (line ++ traces.flatten.flatMap (faceCoords pfs)) := by
  induction traces with
  | nil => intro line _; simp [tracesCoords]
  | cons trace rest ih =>
    intro line h
    unfold tracesCoords
    rw [traceCoords_spec pfs trace line (h trace (List.mem_cons_self _ _))]
    simp only
    rw [ih _ (fun t ht => h t (List.mem_cons_of_mem _ ht))]
    simp [List.flatMap_append]

theorem tracesCoords_none_iff (pfs : StdMap PuncturedFace) (traces : List (List Nat)) :
    ∀ line : List Double, tracesCoords pfs traces line = none ↔
      ∃ trace ∈ traces, ∃ f ∈ trace, f ∉ StdMap.keys pfs := by
  induction traces with
  | nil => intro line; simp [tracesCoords]
  | cons trace rest ih =>
    intro line
    unfold tracesCoords
    cases ht : traceCoords pfs trace line with
    | none =>
      simp only [true_iff]
      obtain ⟨f, hf, hk⟩ := (traceCoords_none_iff pfs trace line).mp ht
      exact ⟨trace, List.mem_cons_self _ _, f, hf, hk⟩
    | some line1 =>
      have hno : ¬ ∃ f ∈ trace, f ∉ StdMap.keys pfs := by
        intro hex
        have := (traceCoords_none_iff pfs trace line).mpr hex
        rw [ht] at this
        cases this
      simp only [ih, List.mem_cons]
      constructor
      · rintro ⟨t, ht1, hx⟩
        exact ⟨t, Or.inr ht1, hx⟩
      · rintro ⟨t, ht1 | ht1, hx⟩
        · exact absurd (ht1 ▸ hx) hno
        · exact ⟨t, ht1, hx⟩

theorem VortexObjectsToVortexLines_spec (pfs : StdMap PuncturedFace)
    (fit : VortexLine → VortexLine) (vobjs : List VortexObject) :
    ∀ vlines : List VortexLine, TracesCovered pfs vobjs →
      VortexObjectsToVortexLines pfs false fit vobjs vlines
        = some (vlines ++ vobjs.map (lineOfObject pfs)) := by
  induction vobjs with
  | nil => intro vlines _; simp [VortexObjectsToVortexLines]
  | cons vobj rest ih =>
    intro vlines h
    unfold VortexObjectsToVortexLines
    rw [tracesCoords_spec pfs vobj.traces [] (h vobj (List.mem_cons_self _ _))]
    simp only [Bool.false_eq_true, if_false, List.nil_append]
    rw [ih _ (fun v hv => h v (List.mem_cons_of_mem _ hv))]
    simp [lineOfObject]

theorem faceCoords_length (pfs : StdMap PuncturedFace) (f : Nat) (h : f ∈ StdMap.keys pfs) :
    (faceCoords pfs f).length = 3 := by
  obtain ⟨pf, hpf⟩ := Option.isSome_iff_exists.mp ((StdMap.find_isSome_mem_keys pfs f).mpr h)
  rw [faceCoords_of_find pfs f pf hpf]
  rfl

theorem flatMap_faceCoords_length (pfs : StdMap PuncturedFace) (l : List Nat)
    (h : ∀ f ∈ l, f ∈ StdMap.keys pfs) : (l.flatMap (faceCoords pfs)).length = 3 * l.length := by
  induction l with
  | nil => rfl
  | cons f rest ih =>
    rw [List.flatMap_cons, List.length_append, faceCoords_length pfs f (h f (List.mem_cons_self _ _)),
      ih (fun g hg => h g (List.mem_cons_of_mem _ hg)), List.length_cons]
    omega

/-- C13: when every face of every trace has an entry in the punctured-face map,
`VortexObjectsToVortexLines` without curve fitting returns and appends exactly one line per
object, in object order; each line copies id, gid and timestep of its object, its
coordinates are the positions of the faces of the traces, trace by trace and face by face,
and their number is 3 times the total number of trace entries. -/
theorem VortexObjectsToVortexLines_one_line_per_object (pfs : StdMap PuncturedFace)
    (fit : VortexLine → VortexLine) (vobjs : List VortexObject) (vlines : List VortexLine)
    (h : TracesCovered pfs vobjs) :
    VortexObjectsToVortexLines pfs false fit vobjs vlines
      = some (vlines ++ vobjs.map (lineOfObject pfs)) ∧
    ∀ vobj ∈ vobjs,
      (lineOfObject pfs vobj).id = vobj.id ∧ (lineOfObject pfs vobj).gid = vobj.gid ∧
      (lineOfObject pfs vobj).timestep = vobj.timestep ∧
      (lineOfObject pfs vobj).coords = (vobj.traces.flatten).flatMap (faceCoords pfs) ∧
      (∀ trace ∈ vobj.traces, ∀ f ∈ trace, ∃ pf, StdMap.find pfs f = some pf ∧
        faceCoords pfs f = [pf.pos.1, pf.pos.2.1, pf.pos.2.2]) ∧
      (lineOfObject pfs vobj).coords.length = 3 * (vobj.traces.flatten).length := by
  refine ⟨VortexObjectsToVortexLines_spec pfs fit vobjs vlines h, ?_⟩
  intro vobj hv
  refine ⟨rfl, rfl, rfl, rfl, ?_, ?_⟩
  · intro trace ht f hf
    obtain ⟨pf, hpf⟩ := Option.isSome_iff_exists.mp
      ((StdMap.find_isSome_mem_keys pfs f).mpr (h vobj hv trace ht f hf))
    exact ⟨pf, hpf, faceCoords_of_find pfs f pf hpf⟩
  · apply flatMap_faceCoords_length
    intro f hf
    obtain ⟨trace, ht, hft⟩ := List.mem_flatten.mp hf
    exact h vobj hv trace ht f hft

theorem VortexObjectsToVortexLines_one_line_per_object_witness :
    TracesCovered lineFaces lineObjects ∧
    VortexObjectsToVortexLines lineFaces false id lineObjects []
      = some [⟨0, 7, 3, [some 1, some 2, some 3, some 4, some 5, some 6,
          some 4, some 5, some 6]⟩] :=
  ⟨by unfold TracesCovered; decide,
   (VortexObjectsToVortexLines_one_line_per_object lineFaces id lineObjects []
      (by unfold TracesCovered; decide)).1⟩

/-- C14: `VortexObjectsToVortexLines` fails (the assertion) if and only if some trace of some
input object holds a face id that is not a key of the punctured-face map. -/
theorem VortexObjectsToVortexLines_fails_iff_missing_face (pfs : StdMap PuncturedFace)
    (bezier : Bool) (fit : VortexLine → VortexLine) (vobjs : List VortexObject) :
    ∀ vlines : List VortexLine,
      VortexObjectsToVortexLines pfs bezier fit vobjs vlines = none ↔
        ∃ vobj ∈ vobjs, ∃ trace ∈ vobj.traces, ∃ f ∈ trace, f ∉ StdMap.keys pfs := by
  induction vobjs with
  | nil => intro vlines; simp [VortexObjectsToVortexLines]
  | cons vobj rest ih =>
    intro vlines
    unfold VortexObjectsToVortexLines
    cases ht : tracesCoords pfs vobj.traces [] with
    | none =>
      simp only [true_iff]
      obtain ⟨trace, h1, f, h2, h3⟩ := (tracesCoords_none_iff pfs vobj.traces []).mp ht
      exact ⟨vobj, List.mem_cons_self _ _, trace, h1, f, h2, h3⟩
    | some coords =>
      have hno : ¬ ∃ trace ∈ vobj.traces, ∃ f ∈ trace, f ∉ StdMap.keys pfs := by
        intro hex
        have := (tracesCoords_none_iff pfs vobj.traces []).mpr hex
        rw [ht] at this
        cases this
      simp only [ih, List.mem_cons]
      constructor
      · rintro ⟨v, hv, hx⟩
        exact ⟨v, Or.inr hv, hx⟩
      · rintro ⟨v, hv | hv, hx⟩
        · exact absurd (hv ▸ hx) hno
        · exact ⟨v, hv, hx⟩

/-! ## Recording punctures in the cell maps -/

theorem PuncturedCell.Chirality_SetChirality (p : PuncturedCell) (i j : Nat) (v : Int) :
    (p.SetChirality i v).Chirality j = if j = i then v else p.Chirality j := by
  unfold PuncturedCell.SetChirality PuncturedCell.Chirality
  simp only [List.getD_eq_getElem?_getD, List.getElem?_set]
  by_cases hji : j = i
  · subst hji
    have hlt : j < p.chiralities.length + (j + 1 - p.chiralities.length) := by omega
    simp [hlt]
  · rw [if_neg hji, if_neg (Ne.symm hji)]
    by_cases hj : j < p.chiralities.length
    · rw [List.getElem?_append_left hj]
    · have hj1 : p.chiralities.length ≤ j := by omega
      rw [List.getElem?_append_right hj1, List.getElem?_eq_none hj1]
      by_cases hr : j - p.chiralities.length < i + 1 - p.chiralities.length
      · rw [List.getElem?_replicate_of_lt hr]
        rfl
      · rw [List.getElem?_eq_none (by simpa using hr)]

theorem find_writeSlot (m : StdMap PuncturedCell) (c k : Nat) (v : Int) (x : Nat) :
    StdMap.find (writeSlot m c k v) x =
      if x = c then some (((StdMap.find m c).getD PuncturedCell.empty).SetChirality k v)
      else StdMap.find m x := by
  unfold writeSlot StdMap.index
  cases hf : StdMap.find m c with
  | some pc => simp [StdMap.find_insert]
  | none =>
    simp only [StdMap.find_insert, Option.getD_none]
    by_cases hx : x = c
    · simp [hx]
    · simp [hx]

theorem slotAt_writeSlot (m : StdMap PuncturedCell) (c k : Nat) (v : Int) (x j : Nat) :
    slotAt (writeSlot m c k v) x j = if x = c ∧ j = k then v else slotAt m x j := by
  unfold slotAt
  rw [find_writeSlot]
  by_cases hx : x = c
  · subst hx
    simp only [if_true, Option.getD_some, PuncturedCell.Chirality_SetChirality, true_and]
  · simp [hx]

theorem mem_keys_writeSlot (m : StdMap PuncturedCell) (c k : Nat) (v : Int) (x : Nat) :
    x ∈ StdMap.keys (writeSlot m c k v) ↔ x = c ∨ x ∈ StdMap.keys m := by
  rw [← StdMap.find_isSome_mem_keys, ← StdMap.find_isSome_mem_keys, find_writeSlot]
  by_cases hx : x = c
  · simp [hx]
  · simp [hx]

theorem cellLoop_cons (face : CFace) (chirality : ChiralityType) (cid : Nat) (rest : List Nat)
    (i : Nat) (cells : StdMap PuncturedCell) :
    cellLoop face chirality (cid :: rest) i cells =
      if cid = UINT_MAX then cellLoop face chirality rest (i + 1) cells
      else cellLoop face chirality rest (i + 1)
        (writeSlot cells cid (face.contained_cells_fid.getD i 0)
          (chirality * face.contained_cells_chirality.getD i 0)) := by
  rw [cellLoop]
  rfl

theorem vfaceLoop_cons (edge : CEdge) (chirality : ChiralityType) (f : Nat) (rest : List Nat)
    (i : Nat) (vcells : StdMap PuncturedCell) :
    vfaceLoop edge chirality (f :: rest) i vcells =
      vfaceLoop edge chirality rest (i + 1)
        (writeSlot vcells f (edge.contained_faces_eid.getD i 0 + 2)
          (chirality * edge.contained_faces_chirality.getD i 0)) := by
  rw [vfaceLoop]
  rfl

theorem cellLoop_spec (face : CFace) (chirality : ChiralityType) (l : List Nat) :
    ∀ (i0 : Nat) (cells : StdMap PuncturedCell),
      (∀ x, x ∈ StdMap.keys (cellLoop face chirality l i0 cells) ↔
        x ∈ StdMap.keys cells ∨ (x ∈ l ∧ x ≠ UINT_MAX)) ∧
      (∀ c j, (∀ k, l[k]? = some c → c ≠ UINT_MAX →
          face.contained_cells_fid.getD (i0 + k) 0 ≠ j) →
        slotAt (cellLoop face chirality l i0 cells) c j = slotAt cells c j) ∧
      (∀ k c, l[k]? = some c → c ≠ UINT_MAX →
        (∀ k1, k < k1 → l[k1]? = some c →
          face.contained_cells_fid.getD (i0 + k1) 0 ≠ face.contained_cells_fid.getD (i0 + k) 0) →
        slotAt (cellLoop face chirality l i0 cells) c (face.contained_cells_fid.getD (i0 + k) 0)
          = chirality * face.contained_cells_chirality.getD (i0 + k) 0) := by
  induction l with
  | nil =>
    intro i0 cells
    refine ⟨fun x => by simp [cellLoop], fun c j _ => by simp [cellLoop], fun k c h => by simp at h⟩
  | cons cid rest ih =>
    intro i0 cells
    rw [cellLoop_cons]
    by_cases hs : cid = UINT_MAX
    · rw [if_pos hs]
      obtain ⟨h1, h2, h3⟩ := ih (i0 + 1) cells
      refine ⟨?_, ?_, ?_⟩
      · intro x
        rw [h1 x]
        simp only [List.mem_cons]
        constructor
        · rintro (h | ⟨h, hx⟩)
          · exact Or.inl h
          · exact Or.inr ⟨Or.inr h, hx⟩
        · rintro (h | ⟨h | h, hx⟩)
          · exact Or.inl h
          · exact absurd (h.trans hs) hx
          · exact Or.inr ⟨h, hx⟩
      · intro c j hc
        apply h2
        intro k hk hne
        have := hc (k + 1) (by simpa using hk) hne
        rwa [show i0 + (k + 1) = i0 + 1 + k by omega] at this
      · intro k c hk hne hlast
        cases k with
        | zero =>
          simp only [List.getElem?_cons_zero, Option.some.injEq] at hk
          exact absurd (hk ▸ hs) hne
        | succ k =>
          simp only [List.getElem?_cons_succ] at hk
          have := h3 k c hk hne (by
            intro k1 hk1 hk1c
            have := hlast (k1 + 1) (by omega) (by simpa using hk1c)
            rwa [show i0 + (k1 + 1) = i0 + 1 + k1 by omega,
              show i0 + (k + 1) = i0 + 1 + k by omega] at this)
          rwa [show i0 + 1 + k = i0 + (k + 1) by omega] at this
    · rw [if_neg hs]
      obtain ⟨h1, h2, h3⟩ := ih (i0 + 1)
        (writeSlot cells cid (face.contained_cells_fid.getD i0 0)
          (chirality * face.contained_cells_chirality.getD i0 0))
      refine ⟨?_, ?_, ?_⟩
      · intro x
        rw [h1 x, mem_keys_writeSlot]
        simp only [List.mem_cons]
        constructor
        · rintro ((h | h) | ⟨h, hx⟩)
          · exact Or.inr ⟨Or.inl h, h ▸ hs⟩
          · exact Or.inl h
          · exact Or.inr ⟨Or.inr h, hx⟩
        · rintro (h | ⟨h | h, hx⟩)
          · exact Or.inl (Or.inr h)
          · exact Or.inl (Or.inl h)
          · exact Or.inr ⟨h, hx⟩
      · intro c j hc
        rw [h2 c j (by
          intro k hk hne
          have := hc (k + 1) (by simpa using hk) hne
          rwa [show i0 + (k + 1) = i0 + 1 + k by omega] at this)]
        rw [slotAt_writeSlot]
        by_cases hcc : c = cid
        · have := hc 0 (by simp [hcc]) (hcc ▸ hs)
          simp only [Nat.add_zero] at this
          rw [if_neg (fun h => this h.2.symm)]
        · rw [if_neg (fun h => hcc h.1)]
      · intro k c hk hne hlast
        cases k with
        | zero =>
          simp only [List.getElem?_cons_zero, Option.some.injEq] at hk
          subst hk
          simp only [Nat.add_zero]
          rw [h2 cid (face.contained_cells_fid.getD i0 0) (by
            intro k1 hk1 _
            have := hlast (k1 + 1) (by omega) (by simpa using hk1)
            simpa [show i0 + (k1 + 1) = i0 + 1 + k1 by omega] using this)]
          rw [slotAt_writeSlot, if_pos ⟨rfl, rfl⟩]
        | succ k =>
          simp only [List.getElem?_cons_succ] at hk
          have := h3 k c hk hne (by
            intro k1 hk1 hk1c
            have := hlast (k1 + 1) (by omega) (by simpa using hk1c)
            rwa [show i0 + (k1 + 1) = i0 + 1 + k1 by omega,
              show i0 + (k + 1) = i0 + 1 + k by omega] at this)
          rwa [show i0 + 1 + k = i0 + (k + 1) by omega] at this

theorem vfaceLoop_spec (edge : CEdge) (chirality : ChiralityType) (l : List Nat) :
    ∀ (i0 : Nat) (vcells : StdMap PuncturedCell),
      (∀ x, x ∈ StdMap.keys (vfaceLoop edge chirality l i0 vcells) ↔
        x ∈ StdMap.keys vcells ∨ x ∈ l) ∧
      (∀ F j, (∀ k, l[k]? = some F → edge.contained_faces_eid.getD (i0 + k) 0 + 2 ≠ j) →
        slotAt (vfaceLoop edge chirality l i0 vcells) F j = slotAt vcells F j) ∧
      (∀ k F, l[k]? = some F →
        (∀ k1, k < k1 → l[k1]? = some F →
          edge.contained_faces_eid.getD (i0 + k1) 0 ≠ edge.contained_faces_eid.getD (i0 + k) 0) →
        slotAt (vfaceLoop edge chirality l i0 vcells) F
            (edge.contained_faces_eid.getD (i0 + k) 0 + 2)
          = chirality * edge.contained_faces_chirality.getD (i0 + k) 0) := by
  induction l with
  | nil =>
    intro i0 vcells
    refine ⟨fun x => by simp [vfaceLoop], fun c j _ => by simp [vfaceLoop],
      fun k c h => by simp at h⟩
  | cons f rest ih =>
    intro i0 vcells
    rw [vfaceLoop_cons]
    obtain ⟨h1, h2, h3⟩ := ih (i0 + 1)
      (writeSlot vcells f (edge.contained_faces_eid.getD i0 0 + 2)
        (chirality * edge.contained_faces_chirality.getD i0 0))
    refine ⟨?_, ?_, ?_⟩
    · intro x
      rw [h1 x, mem_keys_writeSlot]
      simp only [List.mem_cons]
      tauto
    · intro F j hF
      rw [h2 F j (by
        intro k hk
        have := hF (k + 1) (by simpa using hk)
        rwa [show i0 + (k + 1) = i0 + 1 + k by omega] at this)]
      rw [slotAt_writeSlot]
      by_cases hcc : F = f
      · have := hF 0 (by simp [hcc])
        simp only [Nat.add_zero] at this
        rw [if_neg (fun h => this h.2.symm)]
      · rw [if_neg (fun h => hcc h.1)]
    · intro k F hk hlast
      cases k with
      | zero =>
        simp only [List.getElem?_cons_zero, Option.some.injEq] at hk
        subst hk
        simp only [Nat.add_zero]
        rw [h2 f (edge.contained_faces_eid.getD i0 0 + 2) (by
          intro k1 hk1
          have := hlast (k1 + 1) (by omega) (by simpa using hk1)
          simpa [show i0 + (k1 + 1) = i0 + 1 + k1 by omega] using this)]
        rw [slotAt_writeSlot, if_pos ⟨rfl, rfl⟩]
      | succ k =>
        simp only [List.getElem?_cons_succ] at hk
        have := h3 k F hk (by
          intro k1 hk1 hk1c
          have := hlast (k1 + 1) (by omega) (by simpa using hk1c)
          rwa [show i0 + (k1 + 1) = i0 + 1 + k1 by omega,
            show i0 + (k + 1) = i0 + 1 + k by omega] at this)
        rwa [show i0 + 1 + k = i0 + (k + 1) by omega] at this

theorem AddPuncturedFace_vcells (mg : MeshGraph) (id : Nat) (slot : Int)
    (chirality : ChiralityType) (pos : Double × Double × Double) (st : VortexExtractor) :
    (AddPuncturedFace mg id slot chirality pos st)._punctured_vcells =
      writeSlot st._punctured_vcells id (if slot = 0 then 0 else 1)
        (if slot = 0 then -chirality else chirality) := by
  unfold AddPuncturedFace writeSlot
  by_cases hs : slot = 0
  · simp [hs]
  · simp [hs]

theorem AddPuncturedFace_pcs (mg : MeshGraph) (id : Nat) (slot : Int)
    (chirality : ChiralityType) (pos : Double × Double × Double) (st : VortexExtractor) :
    (AddPuncturedFace mg id slot chirality pos st).pcs slot =
      cellLoop (mg.Face id) chirality (mg.Face id).contained_cells 0 (st.pcs slot) := by
  unfold AddPuncturedFace VortexExtractor.pcs
  by_cases hs : slot = 0
  · simp [hs]
  · simp [hs]

theorem AddPuncturedFace_pfs (mg : MeshGraph) (id : Nat) (slot : Int)
    (chirality : ChiralityType) (pos : Double × Double × Double) (st : VortexExtractor) :
    (AddPuncturedFace mg id slot chirality pos st).pfs slot =
      StdMap.insert (st.pfs slot) id ⟨chirality, pos⟩ := by
  unfold AddPuncturedFace VortexExtractor.pfs
  by_cases hs : slot = 0
  · simp [hs]
  · simp [hs]

theorem AddPuncturedFace_other_slot (mg : MeshGraph) (id : Nat) (slot : Int)
    (chirality : ChiralityType) (pos : Double × Double × Double) (st : VortexExtractor) :
    (slot = 0 →
      (AddPuncturedFace mg id slot chirality pos st)._punctured_faces1 = st._punctured_faces1 ∧
      (AddPuncturedFace mg id slot chirality pos st)._punctured_cells1 = st._punctured_cells1) ∧
    (slot ≠ 0 →
      (AddPuncturedFace mg id slot chirality pos st)._punctured_faces = st._punctured_faces ∧
      (AddPuncturedFace mg id slot chirality pos st)._punctured_cells = st._punctured_cells) := by
  unfold AddPuncturedFace
  constructor
  · intro hs
    simp [hs]
  · intro hs
    simp [hs]

/-- C18: `AddPuncturedFace(id, slot, chi, pos)` stores `{chi, pos}` for face `id` in the face
map of the slot and leaves the other faces of that map alone; in the cell map of the slot,
every incident cell that is not the boundary sentinel has its chirality slot at the local
index of the face set to `chi` times the local chirality of the face (read after the call,
for every entry of the incidence list that no later entry repeats), every chirality slot
that no incidence entry addresses keeps its value, and the new keys are exactly the incident
cells other than the sentinel, so the sentinel gets no entry; the face map and the cell map of
the other slot are unchanged. -/
theorem AddPuncturedFace_writes_own_slot (mg : MeshGraph) (id : Nat) (slot : Int)
    (chirality : ChiralityType) (pos : Double × Double × Double) (st : VortexExtractor) :
    StdMap.find ((AddPuncturedFace mg id slot chirality pos st).pfs slot) id
        = some ⟨chirality, pos⟩ ∧
    (∀ x, x ≠ id → StdMap.find ((AddPuncturedFace mg id slot chirality pos st).pfs slot) x
        = StdMap.find (st.pfs slot) x) ∧
    (∀ i cid, (mg.Face id).contained_cells[i]? = some cid → cid ≠ UINT_MAX →
      (∀ i1, i < i1 → (mg.Face id).contained_cells[i1]? = some cid →
        (mg.Face id).contained_cells_fid.getD i1 0 ≠ (mg.Face id).contained_cells_fid.getD i 0) →
      slotAt ((AddPuncturedFace mg id slot chirality pos st).pcs slot) cid
          ((mg.Face id).contained_cells_fid.getD i 0)
        = chirality * (mg.Face id).contained_cells_chirality.getD i 0) ∧
    (∀ c j, (∀ i, (mg.Face id).contained_cells[i]? = some c → c ≠ UINT_MAX →
        (mg.Face id).contained_cells_fid.getD i 0 ≠ j) →
      slotAt ((AddPuncturedFace mg id slot chirality pos st).pcs slot) c j
        = slotAt (st.pcs slot) c j) ∧
    (∀ x, x ∈ StdMap.keys ((AddPuncturedFace mg id slot chirality pos st).pcs slot) ↔
      x ∈ StdMap.keys (st.pcs slot) ∨ (x ∈ (mg.Face id).contained_cells ∧ x ≠ UINT_MAX)) ∧
    (UINT_MAX ∈ StdMap.keys ((AddPuncturedFace mg id slot chirality pos st).pcs slot) →
      UINT_MAX ∈ StdMap.keys (st.pcs slot)) ∧
    (slot = 0 →
      (AddPuncturedFace mg id slot chirality pos st)._punctured_faces1 = st._punctured_faces1 ∧
      (AddPuncturedFace mg id slot chirality pos st)._punctured_cells1 = st._punctured_cells1) ∧
    (slot ≠ 0 →
      (AddPuncturedFace mg id slot chirality pos st)._punctured_faces = st._punctured_faces ∧
      (AddPuncturedFace mg id slot chirality pos st)._punctured_cells = st._punctured_cells) := by
  obtain ⟨h1, h2, h3⟩ :=
    cellLoop_spec (mg.Face id) chirality (mg.Face id).contained_cells 0 (st.pcs slot)
  obtain ⟨ho0, ho1⟩ := AddPuncturedFace_other_slot mg id slot chirality pos st
  rw [AddPuncturedFace_pcs, AddPuncturedFace_pfs]
  refine ⟨by simp [StdMap.find_insert], ?_, ?_, ?_, h1, ?_, ho0, ho1⟩
  · intro x hx
    rw [StdMap.find_insert, if_neg hx]
  · intro i cid hi hne hlast
    have := h3 i cid hi hne (by simpa using hlast)
    simpa using this
  · intro c j hc
    exact h2 c j (by simpa using hc)
  · intro hm
    rcases (h1 UINT_MAX).1 hm with h | ⟨_, h⟩
    · exact h
    · exact absurd rfl h

/-- C19: the slot layout of the virtual cells. A punctured spatial face `id` with chirality
`chi` writes one temporal slot of virtual cell `id` (slot 0 with `-chi` when added for time
slot 0, slot 1 with `chi` otherwise) and no other slot of any virtual cell. A punctured
space-time edge with chirality `chi` writes, for every face `F` that contains it at local
edge index `k` with local chirality `s`, the side slot `2 + k` of virtual cell `F` with
`chi * s` (read after the call, for every entry of the list that no later entry repeats),
and no slot that is not such a side slot: the two temporal slots of every virtual cell keep
their values. -/
theorem virtual_cell_slot_layout (mg : MeshGraph) (id : Nat) (chirality : ChiralityType)
    (st : VortexExtractor) :
    (∀ (slot : Int) (pos : Double × Double × Double),
      slotAt (AddPuncturedFace mg id slot chirality pos st)._punctured_vcells id
          (if slot = 0 then 0 else 1) = (if slot = 0 then -chirality else chirality) ∧
      ∀ F j, ¬ (F = id ∧ j = if slot = 0 then 0 else 1) →
        slotAt (AddPuncturedFace mg id slot chirality pos st)._punctured_vcells F j
          = slotAt st._punctured_vcells F j) ∧
    (∀ (t : Double),
      (∀ i F, (mg.Edge id).contained_faces[i]? = some F →
        (∀ i1, i < i1 → (mg.Edge id).contained_faces[i1]? = some F →
          (mg.Edge id).contained_faces_eid.getD i1 0 ≠ (mg.Edge id).contained_faces_eid.getD i 0) →
        slotAt (AddPuncturedEdge mg id chirality t st)._punctured_vcells F
            (2 + (mg.Edge id).contained_faces_eid.getD i 0)
          = chirality * (mg.Edge id).contained_faces_chirality.getD i 0) ∧
      (∀ F j, (∀ i, (mg.Edge id).contained_faces[i]? = some F →
          2 + (mg.Edge id).contained_faces_eid.getD i 0 ≠ j) →
        slotAt (AddPuncturedEdge mg id chirality t st)._punctured_vcells F j
          = slotAt st._punctured_vcells F j) ∧
      (∀ F, slotAt (AddPuncturedEdge mg id chirality t st)._punctured_vcells F 0
            = slotAt st._punctured_vcells F 0 ∧
          slotAt (AddPuncturedEdge mg id chirality t st)._punctured_vcells F 1
            = slotAt st._punctured_vcells F 1)) := by
  constructor
  · intro slot pos
    rw [AddPuncturedFace_vcells]
    constructor
    · rw [slotAt_writeSlot, if_pos ⟨rfl, rfl⟩]
    · intro F j hFj
      rw [slotAt_writeSlot, if_neg hFj]
  · intro t
    obtain ⟨_, h2, h3⟩ :=
      vfaceLoop_spec (mg.Edge id) chirality (mg.Edge id).contained_faces 0 st._punctured_vcells
    have hv : (AddPuncturedEdge mg id chirality t st)._punctured_vcells =
        vfaceLoop (mg.Edge id) chirality (mg.Edge id).contained_faces 0 st._punctured_vcells := rfl
    rw [hv]
    refine ⟨?_, ?_, ?_⟩
    · intro i F hi hlast
      have := h3 i F hi (by simpa using hlast)
      rw [Nat.add_comm 2]
      simpa using this
    · intro F j hF
      exact h2 F j (by
        intro k hk
        have := hF k hk
        simp only [Nat.zero_add]
        omega)
    · intro F
      exact ⟨h2 F 0 (fun k _ => by omega), h2 F 1 (fun k _ => by omega)⟩

/-! ## Classification of the cells of a component -/

theorem nonzero_count_eq_sum (l : List Int) :
    (l.filter (fun x => decide (x ≠ 0))).length =
      ∑ i ∈ Finset.range l.length, if l.getD i 0 ≠ 0 then 1 else 0 := by
  induction l with
  | nil => simp
  | cons x r ih =>
    rw [List.length_cons, Finset.sum_range_succ']
    simp only [List.getD_cons_succ, List.getD_cons_zero]
    rw [← ih]
    by_cases hx : x = 0
    · simp [List.filter_cons, hx]
    · simp [List.filter_cons, hx]

theorem PuncturedCell.Degree_eq_card (p : PuncturedCell) :
    p.Degree = ((Finset.range p.chiralities.length).filter
      (fun i => p.Chirality i ≠ 0)).card := by
  unfold PuncturedCell.Degree PuncturedCell.Chirality
  rw [nonzero_count_eq_sum, Finset.card_filter]

theorem PuncturedCell.lt_length_of_Chirality_ne (p : PuncturedCell) (i : Nat)
    (h : p.Chirality i ≠ 0) : i < p.chiralities.length := by
  by_contra hlt
  apply h
  unfold PuncturedCell.Chirality
  exact List.getD_eq_default _ _ (by omega)

theorem PuncturedCell.Degree_of_two (p : PuncturedCell) (a b : Nat) (hab : a ≠ b)
    (ha : p.Chirality a ≠ 0) (hb : p.Chirality b ≠ 0)
    (hrest : ∀ i, i ≠ a → i ≠ b → p.Chirality i = 0) : p.Degree = 2 := by
  rw [PuncturedCell.Degree_eq_card]
  have hset : (Finset.range p.chiralities.length).filter (fun i => p.Chirality i ≠ 0)
      = {a, b} := by
    ext i
    simp only [Finset.mem_filter, Finset.mem_range, Finset.mem_insert, Finset.mem_singleton]
    constructor
    · rintro ⟨_, hi⟩
      by_contra hne
      push_neg at hne
      exact hi (hrest i hne.1 hne.2)
    · rintro (rfl | rfl)
      · exact ⟨PuncturedCell.lt_length_of_Chirality_ne p _ ha, ha⟩
      · exact ⟨PuncturedCell.lt_length_of_Chirality_ne p _ hb, hb⟩
  rw [hset, Finset.card_pair hab]

theorem PuncturedCell.Degree_of_three (p : PuncturedCell) (a b c : Nat) (hab : a ≠ b)
    (hac : a ≠ c) (hbc : b ≠ c) (ha : p.Chirality a ≠ 0) (hb : p.Chirality b ≠ 0)
    (hc : p.Chirality c ≠ 0) : 3 ≤ p.Degree := by
  rw [PuncturedCell.Degree_eq_card]
  have hsub : ({a, b, c} : Finset Nat) ⊆
      (Finset.range p.chiralities.length).filter (fun i => p.Chirality i ≠ 0) := by
    intro i hi
    simp only [Finset.mem_insert, Finset.mem_singleton] at hi
    simp only [Finset.mem_filter, Finset.mem_range]
    rcases hi with rfl | rfl | rfl
    · exact ⟨PuncturedCell.lt_length_of_Chirality_ne p _ ha, ha⟩
    · exact ⟨PuncturedCell.lt_length_of_Chirality_ne p _ hb, hb⟩
    · exact ⟨PuncturedCell.lt_length_of_Chirality_ne p _ hc, hc⟩
  have hcard : ({a, b, c} : Finset Nat).card = 3 := Finset.card_eq_three.mpr
    ⟨a, b, c, hab, hac, hbc, rfl⟩
  calc 3 = ({a, b, c} : Finset Nat).card := hcard.symm
    _ ≤ _ := Finset.card_le_card hsub

theorem classInv_init (isSpecial : PuncturedCell → Bool) (first : Nat)
    (pcs : StdMap PuncturedCell) (h : first ∈ StdMap.keys pcs) :
    ClassInv isSpecial pcs ⟨[first], [], [], [], pcs⟩ := by
  refine ⟨rfl, ?_, ?_, ?_, ?_⟩
  · intro x hx
    simp only [List.mem_singleton] at hx
    subst hx
    exact (StdMap.find_isSome_mem_keys _ _).mpr h
  · intro x hx
    simp at hx
  · intro x pcell
    simp [StdMap.find]
  · intro x pcell
    simp [StdMap.find]

theorem searchStep_classInv (isSpecial : PuncturedCell → Bool) (mg : MeshGraph)
    (pcs0 : StdMap PuncturedCell) (c : Nat) (rest : List Nat) (s : SearchState)
    (hq : s.to_visit = c :: rest) (h : ClassInv isSpecial pcs0 s) :
    ClassInv isSpecial pcs0 (searchStep isSpecial mg c rest s) := by
  have hck : (StdMap.find pcs0 c).isSome = true := h.queue_keys c (by simp [hq])
  obtain ⟨pcell, hpc⟩ := Option.isSome_iff_exists.mp hck
  have hidx : StdMap.index s.pcs PuncturedCell.empty c = (pcell, pcs0) := by
    rw [h.pcs_eq]
    exact StdMap.index_of_find pcs0 _ c pcell hpc
  obtain ⟨l, hl, hlx⟩ := pushNeighbors_spec pcs0 pcell (StdSet.insert s.visited c)
    (mg.Cell c).neighbor_cells 0 rest
  have hstep : searchStep isSpecial mg c rest s =
      ⟨pushNeighbors pcs0 pcell (StdSet.insert s.visited c) (mg.Cell c).neighbor_cells 0 rest,
        StdSet.insert s.visited c,
        if isSpecial pcell then s.ordinary_pcells else StdMap.insert s.ordinary_pcells c pcell,
        if isSpecial pcell then StdMap.insert s.special_pcells c pcell else s.special_pcells,
        pcs0⟩ := by
    unfold searchStep
    simp only [hidx]
  rw [hstep]
  refine ⟨rfl, ?_, ?_, ?_, ?_⟩
  · intro x hx
    simp only [hl] at hx
    rcases List.mem_append.mp hx with hx | hx
    · exact h.queue_keys x (by simp [hq, hx])
    · exact (hlx x hx).1
  · intro x hx
    rcases (StdSet.mem_insert _ _ _).mp hx with hx | hx
    · rw [hx]
      exact hck
    · exact h.visited_keys x hx
  · intro x q
    simp only [StdSet.mem_insert]
    by_cases hsp : isSpecial pcell = true
    · simp only [hsp, if_true]
      rw [h.ordinary_find x q]
      constructor
      · rintro ⟨h1, h2, h3⟩
        exact ⟨Or.inr h1, h2, h3⟩
      · rintro ⟨h1 | h1, h2, h3⟩
        · subst h1
          rw [hpc] at h2
          cases h2
          rw [hsp] at h3
          cases h3
        · exact ⟨h1, h2, h3⟩
    · have hsp1 : isSpecial pcell = false := by simpa using hsp
      simp only [hsp1, Bool.false_eq_true, if_false, StdMap.find_insert]
      by_cases hx : x = c
      · subst hx
        simp only [if_true, Option.some.injEq, true_or, true_and, hpc]
        constructor
        · rintro rfl
          exact ⟨rfl, hsp1⟩
        · rintro ⟨h2, _⟩
          exact h2
      · rw [if_neg hx, h.ordinary_find x q]
        simp [hx]
  · intro x q
    simp only [StdSet.mem_insert]
    by_cases hsp : isSpecial pcell = true
    · simp only [hsp, if_true, StdMap.find_insert]
      by_cases hx : x = c
      · subst hx
        simp only [if_true, Option.some.injEq, true_or, true_and, hpc]
        constructor
        · rintro rfl
          exact ⟨rfl, hsp⟩
        · rintro ⟨h2, _⟩
          exact h2
      · rw [if_neg hx, h.special_find x q]
        simp [hx]
    · have hsp1 : isSpecial pcell = false := by simpa using hsp
      simp only [hsp1, Bool.false_eq_true, if_false]
      rw [h.special_find x q]
      constructor
      · rintro ⟨h1, h2, h3⟩
        exact ⟨Or.inr h1, h2, h3⟩
      · rintro ⟨h1 | h1, h2, h3⟩
        · subst h1
          rw [hpc] at h2
          cases h2
          rw [hsp1] at h3
          cases h3
        · exact ⟨h1, h2, h3⟩

theorem componentSearch_classInv (isSpecial : PuncturedCell → Bool) (mg : MeshGraph)
    (pcs0 : StdMap PuncturedCell) :
    ∀ (fuel : Nat) (s r : SearchState), componentSearch isSpecial mg fuel s = some r →
      ClassInv isSpecial pcs0 s → ClassInv isSpecial pcs0 r := by
  intro fuel
  induction fuel with
  | zero => intro s r h; simp [componentSearch] at h
  | succ fuel ih =>
    intro s r h hinv
    unfold componentSearch at h
    cases hq : s.to_visit with
    | nil =>
      simp only [hq] at h
      cases h
      exact hinv
    | cons c rest =>
      simp only [hq] at h
      exact ih _ _ h (searchStep_classInv isSpecial mg pcs0 c rest s hq hinv)

/-- C17: with the classification `IsSpecial` of the punctured-cell record, a record with
exactly two nonzero chirality slots that are opposite (they sum to zero) is ordinary and a
record with three or more nonzero slots is special. For every classification predicate the
component search returns, and afterwards every cell it reached, the seed included, is a
punctured cell stored with its record in exactly one of the two maps of the component: in
the ordinary map and not in the special map when the record is not special, in the special
map and not in the ordinary map when it is. -/
theorem classification_keeps_every_reached_cell (isSpecial : PuncturedCell → Bool)
    (mg : MeshGraph) (pcs : StdMap PuncturedCell) (first : Nat)
    (hfirst : first ∈ StdMap.keys pcs) :
    (∀ (p : PuncturedCell) (a b : Nat), a ≠ b → p.Chirality a ≠ 0 →
      p.Chirality a + p.Chirality b = 0 → (∀ i, i ≠ a → i ≠ b → p.Chirality i = 0) →
      p.IsSpecial = false) ∧
    (∀ (p : PuncturedCell) (a b c : Nat), a ≠ b → a ≠ c → b ≠ c → p.Chirality a ≠ 0 →
      p.Chirality b ≠ 0 → p.Chirality c ≠ 0 → p.IsSpecial = true) ∧
    (∃ fuel r, componentSearch isSpecial mg fuel ⟨[first], [], [], [], pcs⟩ = some r) ∧
    ∀ fuel r, componentSearch isSpecial mg fuel ⟨[first], [], [], [], pcs⟩ = some r →
      first ∈ r.visited ∧
      ∀ c ∈ r.visited, ∃ pcell, StdMap.find pcs c = some pcell ∧
        (isSpecial pcell = false → StdMap.find r.ordinary_pcells c = some pcell ∧
          StdMap.find r.special_pcells c = none) ∧
        (isSpecial pcell = true → StdMap.find r.special_pcells c = some pcell ∧
          StdMap.find r.ordinary_pcells c = none) := by
  refine ⟨?_, ?_, ?_, ?_⟩
  · intro p a b hab ha hsum hrest
    have hb : p.Chirality b ≠ 0 := by
      intro hb
      rw [hb] at hsum
      exact ha (by omega)
    have := PuncturedCell.Degree_of_two p a b hab ha hb hrest
    simp [PuncturedCell.IsSpecial, this]
  · intro p a b c hab hac hbc ha hb hc
    have := PuncturedCell.Degree_of_three p a b c hab hac hbc ha hb hc
    simp only [PuncturedCell.IsSpecial, decide_eq_true_eq]
    omega
  · exact componentSearch_terminates isSpecial mg _ _ ⟨[first], [], [], [], pcs⟩
      (searchInv_init first pcs hfirst) (le_refl _) (le_refl _)
  · intro fuel r h
    have hinv := componentSearch_classInv isSpecial mg pcs fuel _ r h
      (classInv_init isSpecial first pcs hfirst)
    obtain ⟨_, _, hv⟩ := componentSearch_post isSpecial mg fuel _ r h
      (searchInv_init first pcs hfirst)
    refine ⟨hv first (by simp), ?_⟩
    intro c hc
    obtain ⟨pcell, hpc⟩ := Option.isSome_iff_exists.mp (hinv.visited_keys c hc)
    refine ⟨pcell, hpc, ?_, ?_⟩
    · intro hsp
      refine ⟨(hinv.ordinary_find c pcell).mpr ⟨hc, hpc, hsp⟩, ?_⟩
      cases hf : StdMap.find r.special_pcells c with
      | none => rfl
      | some q =>
        obtain ⟨_, h2, h3⟩ := (hinv.special_find c q).mp hf
        rw [hpc] at h2
        cases h2
        rw [hsp] at h3
        cases h3
    · intro hsp
      refine ⟨(hinv.special_find c pcell).mpr ⟨hc, hpc, hsp⟩, ?_⟩
      cases hf : StdMap.find r.ordinary_pcells c with
      | none => rfl
      | some q =>
        obtain ⟨_, h2, h3⟩ := (hinv.ordinary_find c q).mp hf
        rw [hpc] at h2
        cases h2
        rw [hsp] at h3
        cases h3

/-- C17 (witness): in `specialState` the search from cell 0 returns with fuel 3, having
reached the cells 0 and 1; cell 0 is in the ordinary map and cell 1 in the special map. -/
theorem classification_keeps_every_reached_cell_witness :
    (0 ∈ StdMap.keys specialState._punctured_cells) ∧
    ∃ r, componentSearch PuncturedCell.IsSpecial specialMesh 3
        ⟨[0], [], [], [], specialState._punctured_cells⟩ = some r ∧
      r.visited = [0, 1] ∧ r.ordinary_pcells = [(0, ⟨[-1, 1]⟩)] ∧
      r.special_pcells = [(1, ⟨[-1, 1, 1]⟩)] ∧
      ∀ c ∈ r.visited, ∃ pcell, StdMap.find specialState._punctured_cells c = some pcell ∧
        (PuncturedCell.IsSpecial pcell = false →
          StdMap.find r.ordinary_pcells c = some pcell ∧
          StdMap.find r.special_pcells c = none) ∧
        (PuncturedCell.IsSpecial pcell = true →
          StdMap.find r.special_pcells c = some pcell ∧
          StdMap.find r.ordinary_pcells c = none) :=
  ⟨by decide, _, rfl, rfl, rfl, rfl,
    ((classification_keeps_every_reached_cell PuncturedCell.IsSpecial specialMesh
      specialState._punctured_cells 0 (by decide)).2.2.2 3 _ rfl).2⟩

/-! ## Traces are built from ordinary cells -/

theorem StdMap.find_erase {V : Type} (m : StdMap V) (x y : Nat) :
    StdMap.find (StdMap.erase m x) y = if y = x then none else StdMap.find m y := by
  induction m with
  | nil => simp [StdMap.erase, StdMap.find]
  | cons a r ih =>
    obtain ⟨k, v⟩ := a
    unfold StdMap.erase at ih ⊢
    by_cases hk : k = x
    · subst hk
      rw [List.filter_cons_of_neg (by simp), ih]
      by_cases hy : y = k
      · simp [hy]
      · simp [hy, StdMap.find]
    · rw [List.filter_cons_of_pos (by simpa using hk)]
      by_cases hy : y = x
      · subst hy
        have hne : y ≠ k := fun h => hk h.symm
        simp only [StdMap.find, if_neg hne, ih, if_true]
      · by_cases hyk : y = k
        · simp [StdMap.find, hyk, hk]
        · simp only [StdMap.find, if_neg hyk, ih, if_neg hy]

theorem StdMap.find_eraseAll {V : Type} (s : StdSet) :
    ∀ (m : StdMap V) (y : Nat),
      StdMap.find (StdMap.eraseAll m s) y = if y ∈ s then none else StdMap.find m y := by
  induction s with
  | nil => intro m y; simp [StdMap.eraseAll]
  | cons a r ih =>
    intro m y
    have h := ih (StdMap.erase m a) y
    unfold StdMap.eraseAll at h ⊢
    rw [List.foldl_cons, h, StdMap.find_erase]
    by_cases hr : y ∈ r
    · simp [hr]
    · by_cases hy : y = a
      · simp [hy]
      · simp [hr, hy]

theorem walkFor_trace_all (P : Nat → Prop) (special : StdMap PuncturedCell)
    (pcell : PuncturedCell) (cell : CCell) (chi : Int) (nbrs : List Nat) :
    ∀ (i0 : Nat) (s : WalkState), (∀ f ∈ s.trace, P f) →
      (∀ k, k < nbrs.length → pcell.Chirality (i0 + k) = chi →
        P (cell.faces.getD (i0 + k) 0)) →
      ∀ f ∈ (walkFor special pcell cell chi nbrs i0 s).trace, P f := by
  induction nbrs with
  | nil => intro i0 s h _; simpa [walkFor] using h
  | cons n rest ih =>
    intro i0 s h hP
    have hP1 : ∀ k, k < rest.length → pcell.Chirality (i0 + 1 + k) = chi →
        P (cell.faces.getD (i0 + 1 + k) 0) := by
      intro k hk hc
      have := hP (k + 1) (by simp; omega) (by rwa [show i0 + (k + 1) = i0 + 1 + k by omega])
      rwa [show i0 + (k + 1) = i0 + 1 + k by omega] at this
    unfold walkFor
    by_cases h1 : pcell.Chirality i0 = chi
    · rw [if_pos h1]
      have hP0 : P (cell.faces.getD i0 0) := hP 0 (by simp) (by simpa using h1)
      by_cases h2 : (StdMap.find special n).isNone = true
      · simp only [h2, if_true]
        apply ih _ _ _ hP1
        intro f hf
        by_cases hc : chi = 1
        · simp only [hc, if_true, List.mem_append, List.mem_singleton] at hf
          rcases hf with hf | hf
          · exact h f hf
          · rw [hf]; exact hP0
        · simp only [hc, if_false, List.mem_cons] at hf
          rcases hf with hf | hf
          · rw [hf]; exact hP0
          · exact h f hf
      · simp only [h2]
        exact ih _ _ h hP1
    · rw [if_neg h1]
      exact ih _ _ h hP1

theorem walkLoop_trace_from (isSpecial : PuncturedCell → Bool) (mg : MeshGraph)
    (pcs0 ordinary special : StdMap PuncturedCell) (chi : Int) (hchi : chi = 1 ∨ chi = -1)
    (hord : OrdinaryOf isSpecial pcs0 ordinary) :
    ∀ (fuel : Nat) (s r : WalkState), walkLoop mg ordinary special chi fuel s = some r →
      (∀ f ∈ s.trace, FromOrdinary isSpecial mg pcs0 f) →
      ∀ f ∈ r.trace, FromOrdinary isSpecial mg pcs0 f := by
  intro fuel
  induction fuel with
  | zero => intro s r h; simp [walkLoop] at h
  | succ fuel ih =>
    intro s r h hs
    unfold walkLoop at h
    cases hf : StdMap.find ordinary s.c with
    | none =>
      simp only [hf] at h
      cases h
      exact hs
    | some pcell =>
      simp only [hf] at h
      by_cases h1 : s.c ∈ s.visited
      · rw [if_pos h1] at h
        cases h
        exact hs
      · rw [if_neg h1] at h
        obtain ⟨hp0, hsp⟩ := hord s.c pcell hf
        have hw := walkFor_trace_all (FromOrdinary isSpecial mg pcs0) special pcell
          (mg.Cell s.c) chi (mg.Cell s.c).neighbor_cells 0
          ⟨s.c, s.visited, s.faces, s.trace, false⟩ hs (by
            intro k hk hc
            simp only [Nat.zero_add] at hc ⊢
            refine ⟨s.c, pcell, k, hp0, hsp, ?_, hk, rfl⟩
            rw [hc]
            exact hchi)
        split at h
        · exact ih _ _ h hw
        · cases h
          exact hw

theorem traceOnce_trace_from (isSpecial : PuncturedCell → Bool) (mg : MeshGraph)
    (pcs0 special : StdMap PuncturedCell) (fuel seed : Nat) (t r : TraceState)
    (h : traceOnce mg special fuel seed t = some r)
    (hord : OrdinaryOf isSpecial pcs0 t.ordinary_pcells)
    (ht : ∀ tr ∈ t.vobj.traces, ∀ f ∈ tr, FromOrdinary isSpecial mg pcs0 f) :
    OrdinaryOf isSpecial pcs0 r.ordinary_pcells ∧
    ∀ tr ∈ r.vobj.traces, ∀ f ∈ tr, FromOrdinary isSpecial mg pcs0 f := by
  unfold traceOnce at h
  split at h
  · cases h
  · rename_i fw hfw
    split at h
    · cases h
    · rename_i bw hbw
      cases h
      have h1 := walkLoop_trace_from isSpecial mg pcs0 _ special 1 (Or.inl rfl) hord fuel _ _ hfw
        (by intro f hf; simp at hf)
      have h2 := walkLoop_trace_from isSpecial mg pcs0 _ special (-1) (Or.inr rfl) hord fuel _ _
        hbw h1
      constructor
      · intro c pcell hc
        simp only [StdMap.find_eraseAll] at hc
        split at hc
        · cases hc
        · exact hord c pcell hc
      · intro tr htr f hf
        simp only [List.mem_append, List.mem_singleton] at htr
        rcases htr with htr | htr
        · exact ht tr htr f hf
        · subst htr
          exact h2 f hf

theorem traceLoop_trace_from (isSpecial : PuncturedCell → Bool) (mg : MeshGraph)
    (pcs0 special : StdMap PuncturedCell) :
    ∀ (fuel : Nat) (t r : TraceState), traceLoop mg special fuel t = some r →
      OrdinaryOf isSpecial pcs0 t.ordinary_pcells →
      (∀ tr ∈ t.vobj.traces, ∀ f ∈ tr, FromOrdinary isSpecial mg pcs0 f) →
      ∀ tr ∈ r.vobj.traces, ∀ f ∈ tr, FromOrdinary isSpecial mg pcs0 f := by
  intro fuel
  induction fuel with
  | zero => intro t r h; simp [traceLoop] at h
  | succ fuel ih =>
    intro t r h hord ht
    unfold traceLoop at h
    split at h
    · cases h; exact ht
    · split at h
      · cases h
      · rename_i t1 ht1
        obtain ⟨ho1, htr1⟩ := traceOnce_trace_from isSpecial mg pcs0 special _ _ _ _ ht1 hord ht
        exact ih _ _ h ho1 htr1

theorem spaceOnce_trace_from (isSpecial : PuncturedCell → Bool) (mg : MeshGraph)
    (pcs0 : StdMap PuncturedCell) (fuel first : Nat) (s r : SpaceState)
    (hfirst : first ∈ StdMap.keys s.pcs)
    (h : spaceOnce isSpecial mg fuel first s = some r) (hsub : SubmapOf pcs0 s.pcs)
    (hs : TraceFaces (FromOrdinary isSpecial mg pcs0) s.vobjs) :
    SubmapOf pcs0 r.pcs ∧ TraceFaces (FromOrdinary isSpecial mg pcs0) r.vobjs := by
  unfold spaceOnce at h
  cases hc : componentSearch isSpecial mg fuel ⟨[first], [], [], [], s.pcs⟩ with
  | none => simp [hc] at h
  | some c =>
    simp only [hc] at h
    cases ht : traceLoop mg c.special_pcells fuel ⟨c.ordinary_pcells, VortexObject.empty⟩ with
    | none => simp [ht] at h
    | some t =>
      simp only [ht, Option.some.injEq] at h
      have hinv := componentSearch_classInv isSpecial mg s.pcs fuel _ c hc
        (classInv_init isSpecial first s.pcs hfirst)
      have hord : OrdinaryOf isSpecial pcs0 c.ordinary_pcells := by
        intro x pcell hx
        obtain ⟨_, h2, h3⟩ := (hinv.ordinary_find x pcell).mp hx
        exact ⟨hsub x pcell h2, h3⟩
      have htr := traceLoop_trace_from isSpecial mg pcs0 c.special_pcells fuel _ t ht hord
        (by intro tr htr; simp [VortexObject.empty] at htr)
      rw [← h]
      constructor
      · intro x pcell hx
        simp only [StdMap.find_eraseAll] at hx
        split at hx
        · cases hx
        · rw [hinv.pcs_eq] at hx
          exact hsub x pcell hx
      · intro v hv
        simp only [List.mem_append, List.mem_singleton] at hv
        rcases hv with hv | hv
        · exact hs v hv
        · subst hv
          exact htr

theorem spaceLoop_trace_from (isSpecial : PuncturedCell → Bool) (mg : MeshGraph)
    (pcs0 : StdMap PuncturedCell) :
    ∀ (fuel : Nat) (s r : SpaceState), spaceLoop isSpecial mg fuel s = some r →
      SubmapOf pcs0 s.pcs → TraceFaces (FromOrdinary isSpecial mg pcs0) s.vobjs →
      TraceFaces (FromOrdinary isSpecial mg pcs0) r.vobjs := by
  intro fuel
  induction fuel with
  | zero => intro s r h; simp [spaceLoop] at h
  | succ fuel ih =>
    intro s r h hsub hs
    unfold spaceLoop at h
    cases hp : s.pcs with
    | nil =>
      simp only [hp] at h
      cases h
      exact hs
    | cons a rest =>
      simp only [hp] at h
      cases h1 : spaceOnce isSpecial mg (fuel + 1) a.1 s with
      | none => simp [h1] at h
      | some s1 =>
        simp only [h1] at h
        obtain ⟨hsub1, hs1⟩ := spaceOnce_trace_from isSpecial mg pcs0 _ a.1 s s1
          (by simp [hp, StdMap.keys]) h1 hsub hs
        exact ih _ _ h hsub1 hs1

theorem TraceOverSpace_trace_from (isSpecial : PuncturedCell → Bool) (mg : MeshGraph)
    (fuel : Nat) (slot : Int) (st st1 : VortexExtractor)
    (h : TraceOverSpace isSpecial mg fuel slot st = some st1) :
    TraceFaces (FromOrdinary isSpecial mg (st.pcs slot)) (st1.vobjs slot) := by
  unfold TraceOverSpace at h
  cases hr : spaceLoop isSpecial mg fuel
      ⟨if slot = 0 then st._punctured_cells else st._punctured_cells1, []⟩ with
  | none => simp [hr] at h
  | some r =>
    simp only [hr] at h
    have hall := spaceLoop_trace_from isSpecial mg (st.pcs slot) fuel _ r hr
      (fun c pcell hc => hc) (fun v hv => by simp at hv)
    by_cases hs : slot = 0
    · simp only [hs, if_true, Option.some.injEq] at h
      subst h
      simpa [VortexExtractor.vobjs, VortexExtractor.pcs, hs] using hall
    · simp only [hs, if_false, Option.some.injEq] at h
      subst h
      simpa [VortexExtractor.vobjs, VortexExtractor.pcs, hs] using hall

/-! ## Traces do not step into special cells -/

theorem walkFor_trace_pushed (P : Nat → Prop) (special : StdMap PuncturedCell)
    (pcell : PuncturedCell) (cell : CCell) (chi : Int) (nbrs : List Nat) :
    ∀ (i0 : Nat) (s : WalkState), (∀ f ∈ s.trace, P f) →
      (∀ k n, nbrs[k]? = some n → pcell.Chirality (i0 + k) = chi →
        StdMap.find special n = none → P (cell.faces.getD (i0 + k) 0)) →
      ∀ f ∈ (walkFor special pcell cell chi nbrs i0 s).trace, P f := by
  induction nbrs with
  | nil => intro i0 s h _; simpa [walkFor] using h
  | cons n rest ih =>
    intro i0 s h hP
    have hP1 : ∀ k m, rest[k]? = some m → pcell.Chirality (i0 + 1 + k) = chi →
        StdMap.find special m = none → P (cell.faces.getD (i0 + 1 + k) 0) := by
      intro k m hk hc hm
      have := hP (k + 1) m (by simpa using hk)
        (by rwa [show i0 + (k + 1) = i0 + 1 + k by omega]) hm
      rwa [show i0 + (k + 1) = i0 + 1 + k by omega] at this
    unfold walkFor
    by_cases h1 : pcell.Chirality i0 = chi
    · rw [if_pos h1]
      by_cases h2 : (StdMap.find special n).isNone = true
      · simp only [h2, if_true]
        have hP0 : P (cell.faces.getD i0 0) :=
          hP 0 n (by simp) (by simpa using h1) (Option.isNone_iff_eq_none.mp h2)
        apply ih _ _ _ hP1
        intro f hf
        by_cases hc : chi = 1
        · simp only [hc, if_true, List.mem_append, List.mem_singleton] at hf
          rcases hf with hf | hf
          · exact h f hf
          · rw [hf]; exact hP0
        · simp only [hc, if_false, List.mem_cons] at hf
          rcases hf with hf | hf
          · rw [hf]; exact hP0
          · exact h f hf
      · simp only [h2]
        exact ih _ _ h hP1
    · rw [if_neg h1]
      exact ih _ _ h hP1

theorem walkLoop_traced_in (mg : MeshGraph) (ord0 ordinary special : StdMap PuncturedCell)
    (chi : Int) (hchi : chi = 1 ∨ chi = -1) (hord : SubmapOf ord0 ordinary) :
    ∀ (fuel : Nat) (s r : WalkState), walkLoop mg ordinary special chi fuel s = some r →
      (∀ f ∈ s.trace, TracedIn mg ord0 special f) →
      ∀ f ∈ r.trace, TracedIn mg ord0 special f := by
  intro fuel
  induction fuel with
  | zero => intro s r h; simp [walkLoop] at h
  | succ fuel ih =>
    intro s r h hs
    unfold walkLoop at h
    cases hf : StdMap.find ordinary s.c with
    | none =>
      simp only [hf] at h
      cases h
      exact hs
    | some pcell =>
      simp only [hf] at h
      by_cases h1 : s.c ∈ s.visited
      · rw [if_pos h1] at h
        cases h
        exact hs
      · rw [if_neg h1] at h
        have hp0 := hord s.c pcell hf
        have hw := walkFor_trace_pushed (TracedIn mg ord0 special) special pcell
          (mg.Cell s.c) chi (mg.Cell s.c).neighbor_cells 0
          ⟨s.c, s.visited, s.faces, s.trace, false⟩ hs (by
            intro k n hk hc hn
            simp only [Nat.zero_add] at hc ⊢
            refine ⟨s.c, pcell, k, n, hp0, ?_, hk, rfl, hn⟩
            rw [hc]
            exact hchi)
        split at h
        · exact ih _ _ h hw
        · cases h
          exact hw

theorem traceOnce_traced_in (mg : MeshGraph) (ord0 special : StdMap PuncturedCell)
    (fuel seed : Nat) (t r : TraceState)
    (h : traceOnce mg special fuel seed t = some r)
    (hord : SubmapOf ord0 t.ordinary_pcells)
    (ht : ∀ tr ∈ t.vobj.traces, ∀ f ∈ tr, TracedIn mg ord0 special f) :
    SubmapOf ord0 r.ordinary_pcells ∧
    ∀ tr ∈ r.vobj.traces, ∀ f ∈ tr, TracedIn mg ord0 special f := by
  unfold traceOnce at h
  split at h
  · cases h
  · rename_i fw hfw
    split at h
    · cases h
    · rename_i bw hbw
      cases h
      have h1 := walkLoop_traced_in mg ord0 _ special 1 (Or.inl rfl) hord fuel _ _ hfw
        (by intro f hf; simp at hf)
      have h2 := walkLoop_traced_in mg ord0 _ special (-1) (Or.inr rfl) hord fuel _ _
        hbw h1
      constructor
      · intro c pcell hc
        simp only [StdMap.find_eraseAll] at hc
        split at hc
        · cases hc
        · exact hord c pcell hc
      · intro tr htr f hf
        simp only [List.mem_append, List.mem_singleton] at htr
        rcases htr with htr | htr
        · exact ht tr htr f hf
        · subst htr
          exact h2 f hf

theorem traceLoop_traced_in (mg : MeshGraph) (ord0 special : StdMap PuncturedCell) :
    ∀ (fuel : Nat) (t r : TraceState), traceLoop mg special fuel t = some r →
      SubmapOf ord0 t.ordinary_pcells →
      (∀ tr ∈ t.vobj.traces, ∀ f ∈ tr, TracedIn mg ord0 special f) →
      ∀ tr ∈ r.vobj.traces, ∀ f ∈ tr, TracedIn mg ord0 special f := by
  intro fuel
  induction fuel with
  | zero => intro t r h; simp [traceLoop] at h
  | succ fuel ih =>
    intro t r h hord ht
    unfold traceLoop at h
    split at h
    · cases h; exact ht
    · split at h
      · cases h
      · rename_i t1 ht1
        obtain ⟨ho1, htr1⟩ := traceOnce_traced_in mg ord0 special _ _ _ _ ht1 hord ht
        exact ih _ _ h ho1 htr1

theorem searchStep_closed (isSpecial : PuncturedCell → Bool) (mg : MeshGraph)
    (pcs0 : StdMap PuncturedCell) (c : Nat) (rest : List Nat) (s : SearchState)
    (hq : s.to_visit = c :: rest) (h : ClassInv isSpecial pcs0 s)
    (hcl : ∀ x ∈ s.visited, ∀ y, Adjacent mg pcs0 x y → y ∈ s.visited ∨ y ∈ s.to_visit) :
    ∀ x ∈ (searchStep isSpecial mg c rest s).visited, ∀ y, Adjacent mg pcs0 x y →
      y ∈ (searchStep isSpecial mg c rest s).visited ∨
      y ∈ (searchStep isSpecial mg c rest s).to_visit := by
  have hck : (StdMap.find pcs0 c).isSome = true := h.queue_keys c (by simp [hq])
  obtain ⟨pcell, hpc⟩ := Option.isSome_iff_exists.mp hck
  have hidx : StdMap.index s.pcs PuncturedCell.empty c = (pcell, pcs0) := by
    rw [h.pcs_eq]
    exact StdMap.index_of_find pcs0 _ c pcell hpc
  obtain ⟨hq1, hq2⟩ := pushNeighbors_complete pcs0 pcell (StdSet.insert s.visited c)
    (mg.Cell c).neighbor_cells 0 rest
  have hstep : searchStep isSpecial mg c rest s =
      ⟨pushNeighbors pcs0 pcell (StdSet.insert s.visited c) (mg.Cell c).neighbor_cells 0 rest,
        StdSet.insert s.visited c,
        if isSpecial pcell then s.ordinary_pcells else StdMap.insert s.ordinary_pcells c pcell,
        if isSpecial pcell then StdMap.insert s.special_pcells c pcell else s.special_pcells,
        pcs0⟩ := by
    unfold searchStep
    simp only [hidx]
  rw [hstep]
  intro x hx y hadj
  simp only at hx ⊢
  by_cases hyv : y ∈ StdSet.insert s.visited c
  · exact Or.inl hyv
  · right
    rcases (StdSet.mem_insert _ _ _).mp hx with hxc | hxv
    · subst hxc
      obtain ⟨i, pc, hi, hy, hf, hchi, hyk⟩ := hadj
      rw [hpc] at hf
      cases hf
      exact hq2 i y hi hy (by simpa using hchi)
        ((StdMap.find_isSome_mem_keys _ _).mpr hyk) hyv
    · rcases hcl x hxv y hadj with hy | hy
      · exact absurd ((StdSet.mem_insert _ _ _).mpr (Or.inr hy)) hyv
      · rw [hq] at hy
        rcases List.mem_cons.mp hy with hyc | hyr
        · exact absurd ((StdSet.mem_insert _ _ _).mpr (Or.inl hyc)) hyv
        · exact hq1 y hyr

theorem componentSearch_closed (isSpecial : PuncturedCell → Bool) (mg : MeshGraph)
    (pcs0 : StdMap PuncturedCell) :
    ∀ (fuel : Nat) (s r : SearchState), componentSearch isSpecial mg fuel s = some r →
      ClassInv isSpecial pcs0 s →
      (∀ x ∈ s.visited, ∀ y, Adjacent mg pcs0 x y → y ∈ s.visited ∨ y ∈ s.to_visit) →
      ∀ x ∈ r.visited, ∀ y, Adjacent mg pcs0 x y → y ∈ r.visited := by
  intro fuel
  induction fuel with
  | zero => intro s r h; simp [componentSearch] at h
  | succ fuel ih =>
    intro s r h hinv hcl
    unfold componentSearch at h
    cases hq : s.to_visit with
    | nil =>
      simp only [hq] at h
      cases h
      intro x hx y hadj
      rcases hcl x hx y hadj with hy | hy
      · exact hy
      · rw [hq] at hy
        cases hy
    | cons c rest =>
      simp only [hq] at h
      exact ih _ _ h (searchStep_classInv isSpecial mg pcs0 c rest s hq hinv)
        (searchStep_closed isSpecial mg pcs0 c rest s hq hinv hcl)

theorem spaceOnce_traced_across (isSpecial : PuncturedCell → Bool) (mg : MeshGraph)
    (pcs0 : StdMap PuncturedCell) (fuel first : Nat) (s r : SpaceState)
    (hfirst : first ∈ StdMap.keys s.pcs)
    (h : spaceOnce isSpecial mg fuel first s = some r) (hsub : SubmapOf pcs0 s.pcs)
    (hcons : ConsumedClosed mg pcs0 s.pcs)
    (hs : TraceFaces (TracedAcross isSpecial mg pcs0) s.vobjs) :
    SubmapOf pcs0 r.pcs ∧ ConsumedClosed mg pcs0 r.pcs ∧
    TraceFaces (TracedAcross isSpecial mg pcs0) r.vobjs := by
  unfold spaceOnce at h
  cases hc : componentSearch isSpecial mg fuel ⟨[first], [], [], [], s.pcs⟩ with
  | none => simp [hc] at h
  | some c =>
    simp only [hc] at h
    cases ht : traceLoop mg c.special_pcells fuel ⟨c.ordinary_pcells, VortexObject.empty⟩ with
    | none => simp [ht] at h
    | some t =>
      simp only [ht, Option.some.injEq] at h
      have hinv := componentSearch_classInv isSpecial mg s.pcs fuel _ c hc
        (classInv_init isSpecial first s.pcs hfirst)
      have hclosed := componentSearch_closed isSpecial mg s.pcs fuel _ c hc
        (classInv_init isSpecial first s.pcs hfirst) (by intro x hx; simp at hx)
      have htr := traceLoop_traced_in mg c.ordinary_pcells c.special_pcells fuel _ t ht
        (fun _ _ hx => hx) (by intro tr htr; simp [VortexObject.empty] at htr)
      have hkeys : ∀ x, x ∈ StdMap.keys s.pcs → ∃ p, StdMap.find s.pcs x = some p ∧
          StdMap.find pcs0 x = some p := by
        intro x hx
        obtain ⟨p, hp⟩ := Option.isSome_iff_exists.mp
          ((StdMap.find_isSome_mem_keys _ _).mpr hx)
        exact ⟨p, hp, hsub x p hp⟩
      have hadj : ∀ x y, x ∈ StdMap.keys s.pcs → y ∈ StdMap.keys s.pcs →
          Adjacent mg pcs0 x y → Adjacent mg s.pcs x y := by
        intro x y hx hy ⟨i, pc, hi, hyv, hf, hchi, _⟩
        obtain ⟨p, hp, hp0⟩ := hkeys x hx
        rw [hf] at hp0
        cases hp0
        exact ⟨i, pc, hi, hyv, hp, hchi, hy⟩
      have hrkeys : ∀ x, x ∈ StdMap.keys (StdMap.eraseAll c.pcs c.visited) ↔
          x ∈ StdMap.keys s.pcs ∧ x ∉ c.visited := by
        intro x
        rw [← StdMap.find_isSome_mem_keys, ← StdMap.find_isSome_mem_keys,
          StdMap.find_eraseAll, hinv.pcs_eq]
        by_cases hx : x ∈ c.visited
        · simp [hx]
        · simp [hx]
      rw [← h]
      refine ⟨?_, ?_, ?_⟩
      · intro x pcell hx
        simp only [StdMap.find_eraseAll] at hx
        split at hx
        · cases hx
        · rw [hinv.pcs_eq] at hx
          exact hsub x pcell hx
      · intro x y hx hxy hy
        simp only at hx hy
        rw [hrkeys] at hx hy
        by_cases hxk : x ∈ StdMap.keys s.pcs
        · have hxv : x ∈ c.visited := by
            by_contra hxv
            exact hx ⟨hxk, hxv⟩
          exact hy.2 (hclosed x hxv y (hadj x y hxk hy.1 hxy))
        · exact hcons x y hxk hxy hy.1
      · intro v hv
        simp only [List.mem_append, List.mem_singleton] at hv
        rcases hv with hv | hv
        · exact hs v hv
        · subst hv
          intro tr htr0 f hf
          obtain ⟨x, pcell, i, n, hx, hchi, hn, hface, hspec⟩ := htr tr htr0 f hf
          obtain ⟨hxv, hxp, hxs⟩ := (hinv.ordinary_find x pcell).mp hx
          have hxk : x ∈ StdMap.keys s.pcs :=
            (StdMap.find_isSome_mem_keys _ _).mp (by rw [hxp]; rfl)
          have hilt : i < (mg.Cell x).neighbor_cells.length := by
            by_contra hlt
            rw [List.getElem?_eq_none (by omega)] at hn
            cases hn
          have hchi0 : pcell.Chirality i ≠ 0 := by
            rcases hchi with e | e <;> rw [e] <;> decide
          refine ⟨x, pcell, i, hsub x pcell hxp, hxs, hchi, hilt, hface, ?_⟩
          intro n1 pn hn1 hxne hnne hpn hback
          rw [hn] at hn1
          cases hn1
          by_cases hnk : n ∈ StdMap.keys s.pcs
          · obtain ⟨p, hp, hp0⟩ := hkeys n hnk
            rw [hpn] at hp0
            cases hp0
            have hnv : n ∈ c.visited :=
              hclosed x hxv n ⟨i, pcell, hn, hnne, hxp, hchi0, hnk⟩
            by_contra hsp
            have hsp1 : isSpecial pn = true := by simpa using hsp
            have := (hinv.special_find n pn).mpr ⟨hnv, hp, hsp1⟩
            rw [hspec] at this
            cases this
          · obtain ⟨j, hj, hcj⟩ := hback
            have hxk0 : x ∈ StdMap.keys pcs0 :=
              (StdMap.find_isSome_mem_keys _ _).mp (by rw [hsub x pcell hxp]; rfl)
            exact absurd hxk (hcons n x hnk ⟨j, pn, hj, hxne, hpn, hcj, hxk0⟩)

theorem spaceLoop_traced_across (isSpecial : PuncturedCell → Bool) (mg : MeshGraph)
    (pcs0 : StdMap PuncturedCell) :
    ∀ (fuel : Nat) (s r : SpaceState), spaceLoop isSpecial mg fuel s = some r →
      SubmapOf pcs0 s.pcs → ConsumedClosed mg pcs0 s.pcs →
      TraceFaces (TracedAcross isSpecial mg pcs0) s.vobjs →
      TraceFaces (TracedAcross isSpecial mg pcs0) r.vobjs := by
  intro fuel
  induction fuel with
  | zero => intro s r h; simp [spaceLoop] at h
  | succ fuel ih =>
    intro s r h hsub hcons hs
    unfold spaceLoop at h
    cases hp : s.pcs with
    | nil =>
      simp only [hp] at h
      cases h
      exact hs
    | cons a rest =>
      simp only [hp] at h
      cases h1 : spaceOnce isSpecial mg (fuel + 1) a.1 s with
      | none => simp [h1] at h
      | some s1 =>
        simp only [h1] at h
        obtain ⟨hsub1, hcons1, hs1⟩ := spaceOnce_traced_across isSpecial mg pcs0 _ a.1 s s1
          (by simp [hp, StdMap.keys]) h1 hsub hcons hs
        exact ih _ _ h hsub1 hcons1 hs1

theorem TraceOverSpace_traced_across (isSpecial : PuncturedCell → Bool) (mg : MeshGraph)
    (fuel : Nat) (slot : Int) (st st1 : VortexExtractor)
    (h : TraceOverSpace isSpecial mg fuel slot st = some st1) :
    TraceFaces (TracedAcross isSpecial mg (st.pcs slot)) (st1.vobjs slot) := by
  unfold TraceOverSpace at h
  cases hr : spaceLoop isSpecial mg fuel
      ⟨if slot = 0 then st._punctured_cells else st._punctured_cells1, []⟩ with
  | none => simp [hr] at h
  | some r =>
    simp only [hr] at h
    have hall := spaceLoop_traced_across isSpecial mg (st.pcs slot) fuel _ r hr
      (fun c pcell hc => hc)
      (by
        intro x y hx hxy
        obtain ⟨i, pc, _, _, hf, _, _⟩ := hxy
        exact absurd ((StdMap.find_isSome_mem_keys _ _).mp (by
          show (StdMap.find (st.pcs slot) x).isSome = true
          rw [hf]; rfl)) hx)
      (fun v hv => by simp at hv)
    by_cases hs : slot = 0
    · simp only [hs, if_true, Option.some.injEq] at h
      subst h
      simpa [VortexExtractor.vobjs, VortexExtractor.pcs, hs] using hall
    · simp only [hs, if_false, Option.some.injEq] at h
      subst h
      simpa [VortexExtractor.vobjs, VortexExtractor.pcs, hs] using hall

/-- C11 (amended): `TraceOverSpace` returns, and every face of every trace of every vortex
object it produces is a face of a punctured cell `c` of the slot whose record is not special,
at a local index `i` whose chirality slot holds +1 or -1, and the trace does not step into a
special cell there: when the neighbour `n` of `c` across that face is punctured and marks a
face towards `c` (both cell ids valid), `n` is not special. Traces are built from ordinary
cells only, whether or not the component of those cells also contains special cells, and
special cells are kept out of them. -/
theorem TraceOverSpace_traces_from_ordinary_cells (isSpecial : PuncturedCell → Bool)
    (mg : MeshGraph) (slot : Int) (st : VortexExtractor) :
    (∃ fuel st1, TraceOverSpace isSpecial mg fuel slot st = some st1) ∧
    ∀ fuel st1, TraceOverSpace isSpecial mg fuel slot st = some st1 →
      ∀ v ∈ st1.vobjs slot, ∀ t ∈ v.traces, ∀ f ∈ t,
        ∃ c pcell i, StdMap.find (st.pcs slot) c = some pcell ∧ isSpecial pcell = false ∧
          (pcell.Chirality i = 1 ∨ pcell.Chirality i = -1) ∧
          i < (mg.Cell c).neighbor_cells.length ∧ f = (mg.Cell c).faces.getD i 0 ∧
          ∀ n pn, (mg.Cell c).neighbor_cells[i]? = some n → c ≠ UINT_MAX → n ≠ UINT_MAX →
            StdMap.find (st.pcs slot) n = some pn →
            (∃ j, (mg.Cell n).neighbor_cells[j]? = some c ∧ pn.Chirality j ≠ 0) →
            isSpecial pn = false := by
  refine ⟨TraceOverSpace_terminates isSpecial mg slot st, ?_⟩
  intro fuel st1 h v hv t ht f hf
  exact TraceOverSpace_traced_across isSpecial mg fuel slot st st1 h v hv t ht f hf

/-- C11 (counterexample): in `specialState` the component of cell 0 consists of the cells 0
and 1, and cell 1 is special (three nonzero slots); `TraceOverSpace` still emits the trace
`[10]`, built from the ordinary cell 0 of that component. -/
theorem TraceOverSpace_traces_component_with_special_cell :
    (∃ r, componentSearch PuncturedCell.IsSpecial specialMesh 4
        ⟨[0], [], [], [], specialState.pcs 0⟩ = some r ∧
      r.visited = [0, 1] ∧ r.special_pcells = [(1, ⟨[-1, 1, 1]⟩)] ∧
      PuncturedCell.IsSpecial ⟨[-1, 1, 1]⟩ = true) ∧
    ∃ st1, TraceOverSpace PuncturedCell.IsSpecial specialMesh 4 0 specialState = some st1 ∧
      st1.vobjs 0 = [⟨0, 0, 0, [10], [[10]]⟩] :=
  ⟨⟨_, rfl, rfl, rfl, rfl⟩, _, rfl, rfl⟩

/-- In `oneWayState` the special cell 0 forms a component of its own (it lists no
neighbour) and is consumed first; the walk from the ordinary cell 1 then finds no special
cell recorded for its component and pushes face 20, which leads into cell 0. A punctured
neighbour that marks no face back can therefore lie behind a trace face even when it is
special. -/
theorem TraceOverSpace_steps_into_consumed_cell :
    PuncturedCell.IsSpecial ⟨[-1, 1, 1]⟩ = true ∧
    (oneWayMesh.Cell 1).neighbor_cells[1]? = some 0 ∧
    (oneWayMesh.Cell 1).faces.getD 1 0 = 20 ∧
    ∃ st1, TraceOverSpace PuncturedCell.IsSpecial oneWayMesh 4 0 oneWayState = some st1 ∧
      st1.vobjs 0 = [⟨0, 0, 0, [], []⟩, ⟨1, 0, 0, [10, 20], [[10, 20]]⟩] :=
  ⟨rfl, rfl, rfl, _, rfl, rfl⟩

/-! ## The relation and the transition matrix depend on their inputs only -/

theorem RelateOverTime_eq (mg : MeshGraph) (fuel : Nat) (st r : VortexExtractor)
    (h : RelateOverTime mg fuel st = some r) :
    ∃ rel, relateSeeds mg st._punctured_edges st._punctured_faces1 fuel st._punctured_faces []
        = some rel ∧ r = { st with _related_faces := rel } := by
  unfold RelateOverTime at h
  cases hr : relateSeeds mg st._punctured_edges st._punctured_faces1 fuel
      st._punctured_faces [] with
  | none => simp [hr] at h
  | some rel =>
    simp only [hr, Option.some.injEq] at h
    exact ⟨rel, rfl, h.symm⟩

theorem TraceOverTime_eq (mg : MeshGraph) (fuel : Nat) (st r : VortexExtractor)
    (h : TraceOverTime mg fuel st = some r) :
    ∃ rel, relateSeeds mg st._punctured_edges st._punctured_faces1 fuel st._punctured_faces []
        = some rel ∧
      r._related_faces = (transitionLoops st._vortex_objects st._vortex_objects1
        (VortexTransitionMatrix.zero st._vortex_objects.length st._vortex_objects1.length,
          rel)).2 ∧
      r._vortex_transition = st._vortex_transition ++
        [(transitionLoops st._vortex_objects st._vortex_objects1
          (VortexTransitionMatrix.zero st._vortex_objects.length st._vortex_objects1.length,
            rel)).1] := by
  unfold TraceOverTime at h
  cases hr : RelateOverTime mg fuel st with
  | none => simp [hr] at h
  | some st1 =>
    simp only [hr, Option.some.injEq] at h
    obtain ⟨rel, hrel, hst1⟩ := RelateOverTime_eq mg fuel st st1 hr
    subst hst1
    subst h
    exact ⟨rel, hrel, rfl, rfl⟩

theorem relateSeeds_fuel_irrelevant (mg : MeshGraph) (pes : StdMap PuncturedEdge)
    (pfs1 : StdMap PuncturedFace) (seeds : List (Nat × PuncturedFace)) (fuel fuel1 : Nat)
    (rel r r1 : StdMap (List Nat)) (h : relateSeeds mg pes pfs1 fuel seeds rel = some r)
    (h1 : relateSeeds mg pes pfs1 fuel1 seeds rel = some r1) : r = r1 := by
  have e := relateSeeds_fuel_mono mg pes pfs1 fuel (max fuel fuel1) (le_max_left _ _) seeds _ _ h
  have e1 := relateSeeds_fuel_mono mg pes pfs1 fuel1 (max fuel fuel1) (le_max_right _ _)
    seeds _ _ h1
  rw [e] at e1
  exact Option.some.inj e1

/-! ## The relation and the transition matrix do not depend on the iteration order -/

theorem StdMap.find_perm {V : Type} (m m2 : StdMap V) (hp : m2.Perm m)
    (hk : (StdMap.keys m).Nodup) (x : Nat) : StdMap.find m2 x = StdMap.find m x := by
  have hk2 : (StdMap.keys m2).Nodup := (hp.map Prod.fst).nodup_iff.mpr hk
  cases h : StdMap.find m x with
  | some v =>
    exact StdMap.find_of_mem_nodup m2 x v hk2 (hp.mem_iff.mpr (StdMap.mem_of_find m x v h))
  | none =>
    cases h2 : StdMap.find m2 x with
    | none => rfl
    | some v =>
      have := StdMap.find_of_mem_nodup m x v hk (hp.mem_iff.mp (StdMap.mem_of_find m2 x v h2))
      rw [h] at this
      cases this

theorem StdMap.find_none_of_not_mem {V : Type} (m : StdMap V) (x : Nat)
    (h : x ∉ StdMap.keys m) : StdMap.find m x = none := by
  cases hf : StdMap.find m x with
  | none => rfl
  | some v =>
    exact absurd ((StdMap.find_isSome_mem_keys m x).mp (by rw [hf]; rfl)) h

theorem StdMap.eq_of_sorted {V : Type} :
    ∀ (m m2 : StdMap V), (StdMap.keys m).Pairwise (fun a b => a < b) →
      (StdMap.keys m2).Pairwise (fun a b => a < b) →
      (∀ x, StdMap.find m x = StdMap.find m2 x) → m = m2 := by
  intro m
  induction m with
  | nil =>
    intro m2 _ _ h
    cases m2 with
    | nil => rfl
    | cons a r =>
      have := h a.1
      simp [StdMap.find] at this
  | cons a r ih =>
    intro m2 hs hs2 h
    obtain ⟨k, v⟩ := a
    cases m2 with
    | nil =>
      have := h k
      simp [StdMap.find] at this
    | cons a2 r2 =>
      obtain ⟨k2, v2⟩ := a2
      simp only [StdMap.keys, List.map_cons, List.pairwise_cons] at hs hs2
      have hkr : k ∉ StdMap.keys r := fun hm => lt_irrefl k (hs.1 k hm)
      have hkr2 : k2 ∉ StdMap.keys r2 := fun hm => lt_irrefl k2 (hs2.1 k2 hm)
      have hkk : k = k2 := by
        by_contra hne
        have h1 := h k
        simp only [StdMap.find, if_true, if_neg hne] at h1
        have hk_in : k ∈ StdMap.keys r2 :=
          (StdMap.find_isSome_mem_keys r2 k).mp (by rw [← h1]; rfl)
        have h2 := h k2
        simp only [StdMap.find, if_true, if_neg (Ne.symm hne)] at h2
        have hk2_in : k2 ∈ StdMap.keys r :=
          (StdMap.find_isSome_mem_keys r k2).mp (by rw [h2]; rfl)
        exact lt_asymm (hs.1 k2 hk2_in) (hs2.1 k hk_in)
      subst hkk
      have hv : v = v2 := by
        have h1 := h k
        simp only [StdMap.find, if_true, Option.some.injEq] at h1
        exact h1
      subst hv
      have hrest : r = r2 := by
        apply ih r2 hs.2 hs2.2
        intro x
        by_cases hx : x = k
        · subst hx
          rw [StdMap.find_none_of_not_mem r x hkr, StdMap.find_none_of_not_mem r2 x hkr2]
        · have h1 := h x
          simp only [StdMap.find, if_neg hx] at h1
          exact h1
      rw [hrest]

theorem edgeFor_congr (mg : MeshGraph) (pes pes2 : StdMap PuncturedEdge)
    (he : ∀ x, StdMap.find pes2 x = StdMap.find pes x) (face : CFace) (chi : Int)
    (fv : StdSet) (l : List Nat) :
    ∀ (i : Nat) (s : StdSet × List Visit),
      edgeFor mg pes2 face chi fv l i s = edgeFor mg pes face chi fv l i s := by
  induction l with
  | nil => intro i s; rfl
  | cons e rest ih =>
    intro i s
    unfold edgeFor
    rw [he e]
    cases StdMap.find pes e with
    | none => exact ih _ _
    | some pe =>
      simp only
      split
      · split
        · exact ih _ _
        · exact ih _ _
      · exact ih _ _

theorem relateLoop_congr (mg : MeshGraph) (pes pes2 : StdMap PuncturedEdge)
    (pfs1 pfs2 : StdMap PuncturedFace)
    (he : ∀ x, StdMap.find pes2 x = StdMap.find pes x)
    (hf : ∀ x, StdMap.find pfs2 x = StdMap.find pfs1 x) :
    ∀ (fuel : Nat) (s : RelateState),
      relateLoop mg pes2 pfs2 fuel s = relateLoop mg pes pfs1 fuel s := by
  intro fuel
  induction fuel with
  | zero => intro s; rfl
  | succ fuel ih =>
    intro s
    unfold relateLoop
    cases s.to_visit with
    | nil => rfl
    | cons cur rest =>
      simp only
      have hstep : relateStep mg pes2 pfs2 cur rest s = relateStep mg pes pfs1 cur rest s := by
        unfold relateStep matchesAtT1
        simp only [hf, edgeFor_congr mg pes pes2 he]
      rw [hstep]
      exact ih _

theorem relateSeed_congr (mg : MeshGraph) (pes pes2 : StdMap PuncturedEdge)
    (pfs1 pfs2 : StdMap PuncturedFace)
    (he : ∀ x, StdMap.find pes2 x = StdMap.find pes x)
    (hf : ∀ x, StdMap.find pfs2 x = StdMap.find pfs1 x) (fuel fid : Nat) (chi : Int) :
    relateSeed mg pes2 pfs2 fuel fid chi = relateSeed mg pes pfs1 fuel fid chi := by
  unfold relateSeed
  rw [relateLoop_congr mg pes pes2 pfs1 pfs2 he hf]

theorem relateSeeds_reordered (mg : MeshGraph) (pes pes2 : StdMap PuncturedEdge)
    (pfs1 pfs2 : StdMap PuncturedFace) (seeds seeds2 : List (Nat × PuncturedFace))
    (he : ∀ x, StdMap.find pes2 x = StdMap.find pes x)
    (hf : ∀ x, StdMap.find pfs2 x = StdMap.find pfs1 x)
    (hp : seeds2.Perm seeds) (hk : (StdMap.keys seeds).Nodup) (fuel fuel2 : Nat)
    (r r2 : StdMap (List Nat)) (h : relateSeeds mg pes pfs1 fuel seeds [] = some r)
    (h2 : relateSeeds mg pes2 pfs2 fuel2 seeds2 [] = some r2) : r = r2 := by
  have hk2 : (StdMap.keys seeds2).Nodup := (hp.map Prod.fst).nodup_iff.mpr hk
  obtain ⟨a1, a2, a3, a4⟩ := relateSeeds_spec mg pes pfs1 fuel seeds [] r h hk
  obtain ⟨b1, b2, b3, b4⟩ := relateSeeds_spec mg pes2 pfs2 fuel2 seeds2 [] r2 h2 hk2
  have hkeys : ∀ x, x ∈ StdMap.keys seeds2 ↔ x ∈ StdMap.keys seeds :=
    fun x => (hp.map Prod.fst).mem_iff
  apply StdMap.eq_of_sorted r r2 (a2 (by simp [StdMap.keys])) (b2 (by simp [StdMap.keys]))
  intro x
  by_cases hx : x ∈ StdMap.keys seeds
  · obtain ⟨⟨y, pf⟩, hmem, hy⟩ := List.mem_map.mp hx
    simp only at hy
    subst hy
    obtain ⟨rel, c1, c2⟩ := a4 y pf hmem
    obtain ⟨rel2, d1, d2⟩ := b4 y pf (hp.mem_iff.mpr hmem)
    rw [relateSeed_congr mg pes pes2 pfs1 pfs2 he hf] at d1
    have e1 := relateSeed_fuel_mono mg pes pfs1 fuel (max fuel fuel2) y pf.chirality rel
      (le_max_left _ _) c1
    have e2 := relateSeed_fuel_mono mg pes pfs1 fuel2 (max fuel fuel2) y pf.chirality rel2
      (le_max_right _ _) d1
    rw [e1] at e2
    rw [c2, d2, Option.some.inj e2]
  · rw [a3 x hx, b3 x (fun hx2 => hx ((hkeys x).mp hx2))]

theorem facesAt_reordered (vobjs vobjs2 : List VortexObject)
    (h : List.Forall₂ (fun v v2 => v2.faces.Perm v.faces) vobjs vobjs2) (i : Nat) :
    (facesAt vobjs2 i).Perm (facesAt vobjs i) := by
  induction h generalizing i with
  | nil => simp [facesAt]
  | cons hab _ ih =>
    cases i with
    | zero => simpa [facesAt] using hab
    | succ i => simpa [facesAt] using ih i

theorem overlaps_reordered (R : Nat → List Nat) (faces0 faces1 faces0b faces1b : List Nat)
    (h0 : faces0b.Perm faces0) (h1 : faces1b.Perm faces1) :
    overlaps R faces0b faces1b = overlaps R faces0 faces1 := by
  rw [Bool.eq_iff_iff, overlaps_iff, overlaps_iff]
  constructor
  · rintro ⟨f, hf, g, hg, hg1⟩
    exact ⟨f, h0.mem_iff.mp hf, g, hg, h1.mem_iff.mp hg1⟩
  · rintro ⟨f, hf, g, hg, hg1⟩
    exact ⟨f, h0.mem_iff.mpr hf, g, hg, h1.mem_iff.mpr hg1⟩

theorem RelateOverTime_reordered (mg : MeshGraph) (st st2 : VortexExtractor)
    (h : Reordered st st2) (fuel fuel2 : Nat) (r r2 : VortexExtractor)
    (hr : RelateOverTime mg fuel st = some r) (hr2 : RelateOverTime mg fuel2 st2 = some r2) :
    r._related_faces = r2._related_faces := by
  obtain ⟨he, hke, hf0, hk0, hf1, hk1, _, _⟩ := h
  obtain ⟨rel, hrel, e⟩ := RelateOverTime_eq mg fuel st r hr
  obtain ⟨rel2, hrel2, e2⟩ := RelateOverTime_eq mg fuel2 st2 r2 hr2
  have := relateSeeds_reordered mg st._punctured_edges st2._punctured_edges
    st._punctured_faces1 st2._punctured_faces1 st._punctured_faces st2._punctured_faces
    (StdMap.find_perm _ _ he hke) (StdMap.find_perm _ _ hf1 hk1) hf0 hk0 fuel fuel2 rel rel2
    hrel hrel2
  rw [e, e2, this]

theorem TraceOverTime_relatedOf (mg : MeshGraph) (fuel : Nat) (st r : VortexExtractor)
    (h : TraceOverTime mg fuel st = some r) :
    ∃ st1, RelateOverTime mg fuel st = some st1 ∧
      ∀ g, relatedOf r._related_faces g = relatedOf st1._related_faces g := by
  unfold TraceOverTime at h
  cases h1 : RelateOverTime mg fuel st with
  | none => simp [h1] at h
  | some st1 =>
    simp only [h1, Option.some.injEq] at h
    refine ⟨st1, rfl, ?_⟩
    obtain ⟨_, t2, _, _⟩ := transitionLoops_spec st1._vortex_objects st1._vortex_objects1
      (List.range st1._vortex_objects.length)
      (VortexTransitionMatrix.zero st1._vortex_objects.length st1._vortex_objects1.length,
        st1._related_faces) (List.nodup_range _)
    intro g
    rw [← h]
    exact t2 g

theorem TraceOverTime_reordered (mg : MeshGraph) (st st2 : VortexExtractor)
    (h : Reordered st st2) (fuel fuel2 : Nat) (r r2 : VortexExtractor)
    (hr : TraceOverTime mg fuel st = some r) (hr2 : TraceOverTime mg fuel2 st2 = some r2) :
    (∀ f, relatedOf r._related_faces f = relatedOf r2._related_faces f) ∧
    ∃ tm, r._vortex_transition = st._vortex_transition ++ [tm] ∧
      r2._vortex_transition = st2._vortex_transition ++ [tm] := by
  obtain ⟨s1, tm, a1, a2, a3, a4, a5⟩ := TraceOverTime_matrix mg fuel st r hr
  obtain ⟨s2, tm2, b1, b2, b3, b4, b5⟩ := TraceOverTime_matrix mg fuel2 st2 r2 hr2
  obtain ⟨s1b, c1, c2⟩ := TraceOverTime_relatedOf mg fuel st r hr
  obtain ⟨s2b, d1, d2⟩ := TraceOverTime_relatedOf mg fuel2 st2 r2 hr2
  rw [a1] at c1
  cases c1
  rw [b1] at d1
  cases d1
  have hrel := RelateOverTime_reordered mg st st2 h fuel fuel2 s1 s2 a1 b1
  obtain ⟨_, _, _, _, _, _, hv0, hv1⟩ := h
  have hl0 : st2._vortex_objects.length = st._vortex_objects.length := hv0.length_eq.symm
  have hl1 : st2._vortex_objects1.length = st._vortex_objects1.length := hv1.length_eq.symm
  have htm : tm2 = tm := by
    obtain ⟨n0, n1, entry⟩ := tm
    obtain ⟨m0, m1, entry2⟩ := tm2
    simp only at a3 a4 a5 b3 b4 b5
    subst a3 a4 b3 b4
    have hentry : entry2 = entry := by
      funext i j
      rw [a5 i j, b5 i j, hl0, hl1, ← hrel,
        overlaps_reordered _ _ _ _ _ (facesAt_reordered _ _ hv0 i)
          (facesAt_reordered _ _ hv1 j)]
    rw [hentry, hl0, hl1]
  refine ⟨fun f => ?_, tm, a2, ?_⟩
  · rw [c2 f, d2 f, hrel]
  · rw [b2, htm]

/-- C15: for every state `RelateOverTime` and `TraceOverTime` (the relation followed by the
transition build) return. Two runs on states that agree on the punctured-face maps of both
slots, the punctured-edge map and the vortex-object lists of both slots, over the same mesh
graph, leave identical related-face maps and append identical transition matrices, whatever
else the two states hold and whatever fuel the two runs are given. And the results do not
depend on the order in which the keyed containers are iterated: when the inputs of the
second state are those of the first with the entries of the three puncture maps and the
member faces of the objects stored in any other order, `RelateOverTime` leaves the identical
related-face map, and `TraceOverTime` appends the identical matrix and leaves a related-face
map with the same list for every face. -/
theorem relation_and_transition_depend_on_inputs_only (mg : MeshGraph) :
    (∀ st : VortexExtractor, (∃ fuel r, RelateOverTime mg fuel st = some r) ∧
      (∃ fuel r, TraceOverTime mg fuel st = some r)) ∧
    (∀ st st2 : VortexExtractor,
      st._punctured_edges = st2._punctured_edges →
      st._punctured_faces = st2._punctured_faces →
      st._punctured_faces1 = st2._punctured_faces1 →
      st._vortex_objects = st2._vortex_objects →
      st._vortex_objects1 = st2._vortex_objects1 →
      (∀ fuel fuel2 r r2, RelateOverTime mg fuel st = some r →
        RelateOverTime mg fuel2 st2 = some r2 → r._related_faces = r2._related_faces) ∧
      (∀ fuel fuel2 r r2, TraceOverTime mg fuel st = some r →
        TraceOverTime mg fuel2 st2 = some r2 →
        r._related_faces = r2._related_faces ∧
        ∃ tm, r._vortex_transition = st._vortex_transition ++ [tm] ∧
          r2._vortex_transition = st2._vortex_transition ++ [tm])) ∧
    (∀ st st2 : VortexExtractor, Reordered st st2 →
      (∀ fuel fuel2 r r2, RelateOverTime mg fuel st = some r →
        RelateOverTime mg fuel2 st2 = some r2 → r._related_faces = r2._related_faces) ∧
      (∀ fuel fuel2 r r2, TraceOverTime mg fuel st = some r →
        TraceOverTime mg fuel2 st2 = some r2 →
        (∀ f, relatedOf r._related_faces f = relatedOf r2._related_faces f) ∧
        ∃ tm, r._vortex_transition = st._vortex_transition ++ [tm] ∧
          r2._vortex_transition = st2._vortex_transition ++ [tm])) := by
  refine ⟨fun st => ⟨RelateOverTime_terminates mg st, TraceOverTime_terminates mg st⟩, ?_, ?_⟩
  · intro st st2 he hf0 hf1 hv0 hv1
    constructor
    · intro fuel fuel2 r r2 h h2
      obtain ⟨rel, hrel, hr⟩ := RelateOverTime_eq mg fuel st r h
      obtain ⟨rel2, hrel2, hr2⟩ := RelateOverTime_eq mg fuel2 st2 r2 h2
      rw [← he, ← hf0, ← hf1] at hrel2
      have := relateSeeds_fuel_irrelevant mg _ _ _ fuel fuel2 _ _ _ hrel hrel2
      rw [hr, hr2, this]
    · intro fuel fuel2 r r2 h h2
      obtain ⟨rel, hrel, hr, ht⟩ := TraceOverTime_eq mg fuel st r h
      obtain ⟨rel2, hrel2, hr2, ht2⟩ := TraceOverTime_eq mg fuel2 st2 r2 h2
      rw [← he, ← hf0, ← hf1] at hrel2
      have := relateSeeds_fuel_irrelevant mg _ _ _ fuel fuel2 _ _ _ hrel hrel2
      subst this
      rw [← hv0, ← hv1] at hr2 ht2
      exact ⟨hr.trans hr2.symm, _, ht, ht2⟩
  · intro st st2 h
    exact ⟨fun fuel fuel2 r r2 hr hr2 => RelateOverTime_reordered mg st st2 h fuel fuel2 r r2 hr hr2,
      fun fuel fuel2 r r2 hr hr2 => TraceOverTime_reordered mg st st2 h fuel fuel2 r r2 hr hr2⟩

theorem relayState_reordered : Reordered relayState shuffledRelayState := by
  refine ⟨List.Perm.refl _, by decide, ?_, by decide, ?_, by decide, ?_, ?_⟩
  · exact List.Perm.swap _ _ _
  · exact List.Perm.swap _ _ _
  · exact List.Forall₂.cons (List.Perm.swap _ _ _) List.Forall₂.nil
  · exact List.Forall₂.cons (List.Perm.swap _ _ _) List.Forall₂.nil

/-- C15 (witness): over `sharedEdgeMesh`, `relayState` run with fuel 3, `staleRelayState`
(same inputs, different leftovers) run with fuel 5 and `shuffledRelayState` (the same inputs
stored in descending order) run with fuel 4 end with the related-face map
`[(0, [0, 1]), (1, [])]` and append the same 1 by 1 matrix, whose entry is 1. -/
theorem relation_and_transition_depend_on_inputs_only_witness :
    ∃ r r1 r2 tm, TraceOverTime sharedEdgeMesh 3 relayState = some r ∧
      TraceOverTime sharedEdgeMesh 5 staleRelayState = some r1 ∧
      TraceOverTime sharedEdgeMesh 4 shuffledRelayState = some r2 ∧
      r._related_faces = [(0, [0, 1]), (1, [])] ∧
      r1._related_faces = r._related_faces ∧
      (∀ f, relatedOf r2._related_faces f = relatedOf r._related_faces f) ∧
      r._vortex_transition = [tm] ∧ r1._vortex_transition = [tm] ∧
      r2._vortex_transition = [tm] ∧ tm.n0 = 1 ∧ tm.n1 = 1 ∧ tm.entry 0 0 = 1 := by
  obtain ⟨ha, tm, hb, hc⟩ :=
    ((relation_and_transition_depend_on_inputs_only sharedEdgeMesh).2.1 relayState
      staleRelayState rfl rfl rfl rfl rfl).2 3 5 _ _ rfl rfl
  obtain ⟨hd, tm2, he, hf⟩ :=
    ((relation_and_transition_depend_on_inputs_only sharedEdgeMesh).2.2 relayState
      shuffledRelayState relayState_reordered).2 3 4 _ _ rfl rfl
  have htm : tm2 = tm := by
    rw [hb] at he
    simpa using he.symm
  subst htm
  obtain ⟨st1, tm3, g1, g2, g3, g4, g5⟩ :=
    TraceOverTime_matrix sharedEdgeMesh 3 relayState _ rfl
  have htm3 : tm3 = tm2 := by
    rw [hb] at g2
    simpa using g2.symm
  subst htm3
  refine ⟨_, _, _, tm3, rfl, rfl, rfl, by decide, ha.symm, fun f => (hd f).symm, hb, hc, hf,
    g3, g4, ?_⟩
  have e : (RelateOverTime sharedEdgeMesh 3 relayState).map (fun s => s._related_faces)
      = some [(0, [0, 1]), (1, [])] := by decide
  rw [g1] at e
  simp only [Option.map_some', Option.some.injEq] at e
  rw [g5 0 0, e]
  decide

/-! ## Edges contribute to the search of a seed at most once -/

theorem pushFaces_cons (fv : StdSet) (edge : CEdge) (pe : PuncturedEdge) (f : Nat)
    (rest : List Nat) (j : Nat) (q : List Visit) :
    pushFaces fv edge pe (f :: rest) j q =
      if f ∉ fv then
        pushFaces fv edge pe rest (j + 1)
          (⟨f, -(edge.contained_faces_chirality.getD j 0) * pe.chirality, pe.t⟩ :: q)
      else pushFaces fv edge pe rest (j + 1) q := by
  rw [pushFaces]

theorem pushFaces_append (fv : StdSet) (edge : CEdge) (pe : PuncturedEdge) (faces : List Nat) :
    ∀ (j : Nat) (q : List Visit),
      pushFaces fv edge pe faces j q = pushFaces fv edge pe faces j [] ++ q := by
  induction faces with
  | nil => intro j q; simp [pushFaces]
  | cons f rest ih =>
    intro j q
    simp only [pushFaces_cons]
    by_cases hf : f ∉ fv
    · rw [if_pos hf, if_pos hf, ih (j + 1) (_ :: q), ih (j + 1) [_]]
      simp
    · rw [if_neg hf, if_neg hf]
      exact ih (j + 1) q

theorem edgeForLog_spec (mg : MeshGraph) (pes : StdMap PuncturedEdge) (face : CFace)
    (cur : Visit) (fv : StdSet) (l : List Nat) :
    ∀ (i : Nat) (s : StdSet × List Visit) (L : List PushEvent),
      (edgeForLog mg pes face cur fv l i (s, L)).1 = edgeFor mg pes face cur.chirality fv l i s ∧
      ∃ evs, (edgeForLog mg pes face cur fv l i (s, L)).2 = L ++ evs ∧
        (edgeFor mg pes face cur.chirality fv l i s).2
          = (evs.reverse.flatMap (fun ev => ev.pushed)) ++ s.2 ∧
        (evs.map (fun ev => ev.edge)).Nodup ∧
        ∀ ev ∈ evs, ev.current = cur ∧ ev.edge ∉ s.1 ∧
          ev.edge ∈ (edgeFor mg pes face cur.chirality fv l i s).1 ∧
          ∃ pe k, StdMap.find pes ev.edge = some pe ∧ l[k]? = some ev.edge ∧
            ev.index = i + k ∧
            cur.chirality = face.edges_chirality.getD ev.index 0 * pe.chirality ∧
            ev.pushed = pushFaces fv (mg.Edge ev.edge) pe (mg.Edge ev.edge).contained_faces 0 [] := by
  induction l with
  | nil =>
    intro i s L
    exact ⟨rfl, [], by simp [edgeForLog], by simp [edgeFor], by simp, by simp⟩
  | cons e rest ih =>
    intro i s L
    have shift : ∀ (s1 : StdSet × List Visit) (ev : PushEvent),
        (∃ pe k, StdMap.find pes ev.edge = some pe ∧ rest[k]? = some ev.edge ∧
          ev.index = i + 1 + k ∧
          cur.chirality = face.edges_chirality.getD ev.index 0 * pe.chirality ∧
          ev.pushed = pushFaces fv (mg.Edge ev.edge) pe (mg.Edge ev.edge).contained_faces 0 []) →
        ∃ pe k, StdMap.find pes ev.edge = some pe ∧ (e :: rest)[k]? = some ev.edge ∧
          ev.index = i + k ∧
          cur.chirality = face.edges_chirality.getD ev.index 0 * pe.chirality ∧
          ev.pushed = pushFaces fv (mg.Edge ev.edge) pe (mg.Edge ev.edge).contained_faces 0 [] := by
      rintro _ ev ⟨pe, k, h1, h2, h3, h4, h5⟩
      exact ⟨pe, k + 1, h1, by simpa using h2, by omega, h4, h5⟩
    unfold edgeForLog edgeFor
    cases hf : StdMap.find pes e with
    | none =>
      simp only
      obtain ⟨h1, evs, h2, h3, h4, h5⟩ := ih (i + 1) s L
      refine ⟨h1, evs, h2, h3, h4, ?_⟩
      intro ev hev
      obtain ⟨a, b, c, d⟩ := h5 ev hev
      exact ⟨a, b, c, shift s ev d⟩
    | some pe =>
      simp only
      by_cases he : e ∉ s.1
      · rw [if_pos he, if_pos he]
        by_cases hc : cur.chirality = face.edges_chirality.getD i 0 * pe.chirality
        · rw [if_pos hc, if_pos hc]
          obtain ⟨h1, evs, h2, h3, h4, h5⟩ := ih (i + 1)
            (StdSet.insert s.1 e, pushFaces fv (mg.Edge e) pe (mg.Edge e).contained_faces 0 s.2)
            (L ++ [⟨e, cur, i, pushFaces fv (mg.Edge e) pe (mg.Edge e).contained_faces 0 []⟩])
          have hmono := (edgeFor_spec mg pes face cur.chirality fv rest (i + 1)
            (StdSet.insert s.1 e,
              pushFaces fv (mg.Edge e) pe (mg.Edge e).contained_faces 0 s.2)).1
          refine ⟨h1, ⟨e, cur, i, pushFaces fv (mg.Edge e) pe (mg.Edge e).contained_faces 0 []⟩
            :: evs, ?_, ?_, ?_, ?_⟩
          · rw [h2]
            simp
          · rw [h3]
            simp only [List.reverse_cons, List.flatMap_append, List.flatMap_cons,
              List.flatMap_nil, List.append_nil, List.append_assoc]
            rw [pushFaces_append fv (mg.Edge e) pe (mg.Edge e).contained_faces 0 s.2]
          · simp only [List.map_cons, List.nodup_cons]
            refine ⟨?_, h4⟩
            intro hmem
            obtain ⟨ev, hev, heq⟩ := List.mem_map.mp hmem
            have := (h5 ev hev).2.1
            apply this
            rw [heq]
            exact (StdSet.mem_insert _ _ _).mpr (Or.inl rfl)
          · intro ev hev
            rcases List.mem_cons.mp hev with rfl | hev
            · exact ⟨rfl, he, hmono e ((StdSet.mem_insert _ _ _).mpr (Or.inl rfl)),
                pe, 0, hf, by simp, by simp, hc, rfl⟩
            · obtain ⟨a, b, c, d⟩ := h5 ev hev
              exact ⟨a, fun hin => b ((StdSet.mem_insert _ _ _).mpr (Or.inr hin)), c,
                shift s ev d⟩
        · rw [if_neg hc, if_neg hc]
          obtain ⟨h1, evs, h2, h3, h4, h5⟩ := ih (i + 1) (StdSet.insert s.1 e, s.2) L
          refine ⟨h1, evs, h2, h3, h4, ?_⟩
          intro ev hev
          obtain ⟨a, b, c, d⟩ := h5 ev hev
          exact ⟨a, fun hin => b ((StdSet.mem_insert _ _ _).mpr (Or.inr hin)), c, shift s ev d⟩
      · rw [if_neg he, if_neg he]
        obtain ⟨h1, evs, h2, h3, h4, h5⟩ := ih (i + 1) s L
        refine ⟨h1, evs, h2, h3, h4, ?_⟩
        intro ev hev
        obtain ⟨a, b, c, d⟩ := h5 ev hev
        exact ⟨a, b, c, shift s ev d⟩

theorem relateStepLog_spec (mg : MeshGraph) (pes : StdMap PuncturedEdge)
    (pfs1 : StdMap PuncturedFace) (cur : Visit) (rest : List Visit) (s : RelateState)
    (L : List PushEvent) :
    (relateStepLog mg pes pfs1 cur rest (s, L)).1 = relateStep mg pes pfs1 cur rest s ∧
    (∀ k ∈ s.edges_visited, k ∈ (relateStep mg pes pfs1 cur rest s).edges_visited) ∧
    ∃ evs, (relateStepLog mg pes pfs1 cur rest (s, L)).2 = L ++ evs ∧
      (relateStep mg pes pfs1 cur rest s).to_visit
        = (evs.reverse.flatMap (fun ev => ev.pushed)) ++ rest ∧
      (evs.map (fun ev => ev.edge)).Nodup ∧
      ∀ ev ∈ evs, ev.current = cur ∧ ev.edge ∉ s.edges_visited ∧
        ev.edge ∈ (relateStep mg pes pfs1 cur rest s).edges_visited ∧
        PushEvent.Good mg pes ev := by
  obtain ⟨h1, evs, h2, h3, h4, h5⟩ := edgeForLog_spec mg pes (mg.Face cur.face) cur
    (StdSet.insert s.faces_visited cur.face) (mg.Face cur.face).edges 0
    (s.edges_visited, rest) L
  have hmono := (edgeFor_spec mg pes (mg.Face cur.face) cur.chirality
    (StdSet.insert s.faces_visited cur.face) (mg.Face cur.face).edges 0
    (s.edges_visited, rest)).1
  refine ⟨?_, hmono, evs, h2, h3, h4, ?_⟩
  · unfold relateStepLog relateStep
    simp only [h1]
  · intro ev hev
    obtain ⟨a, b, c, pe, k, d1, d2, d3, d4, d5⟩ := h5 ev hev
    refine ⟨a, b, c, pe, ?_, ?_, ?_⟩
    · exact d1
    · rw [a, d3, Nat.zero_add]
      exact d2
    · rw [a]
      refine ⟨d4, ?_⟩
      rw [d5]
      apply pushFaces_spec (StdSet.insert s.faces_visited cur.face) (mg.Edge ev.edge) pe
        (fun v => ∃ j, (mg.Edge ev.edge).contained_faces[j]? = some v.face ∧
          v.chirality = -((mg.Edge ev.edge).contained_faces_chirality.getD j 0) * pe.chirality ∧
          v.time = pe.t)
        (mg.Edge ev.edge).contained_faces 0 []
      · intro k
        rw [Nat.zero_add]
      · intro v hv
        simp at hv
      · intro k f hk _
        exact ⟨k, hk, rfl, rfl⟩

theorem relateLoopLog_erase (mg : MeshGraph) (pes : StdMap PuncturedEdge)
    (pfs1 : StdMap PuncturedFace) :
    ∀ (fuel : Nat) (s r : RelateState) (L L1 : List PushEvent),
      relateLoopLog mg pes pfs1 fuel (s, L) = some (r, L1) →
      relateLoop mg pes pfs1 fuel s = some r ∧ (LogInv mg pes s L → LogInv mg pes r L1) := by
  intro fuel
  induction fuel with
  | zero => intro s r L L1 h; simp [relateLoopLog] at h
  | succ fuel ih =>
    intro s r L L1 h
    unfold relateLoopLog at h
    unfold relateLoop
    cases hq : s.to_visit with
    | nil =>
      simp only [hq, Option.some.injEq, Prod.mk.injEq] at h ⊢
      obtain ⟨rfl, rfl⟩ := h
      exact ⟨rfl, fun hinv => hinv⟩
    | cons cur rest =>
      simp only [hq] at h ⊢
      obtain ⟨h1, hmono, evs, h2, _, h4, h5⟩ := relateStepLog_spec mg pes pfs1 cur rest s L
      have hpair : relateStepLog mg pes pfs1 cur rest (s, L)
          = (relateStep mg pes pfs1 cur rest s, L ++ evs) := Prod.ext h1 h2
      rw [hpair] at h
      obtain ⟨e1, e2⟩ := ih _ _ _ _ h
      refine ⟨e1, ?_⟩
      intro hinv
      apply e2
      refine ⟨?_, ?_⟩
      · rw [List.map_append, List.nodup_append]
        refine ⟨hinv.1, h4, ?_⟩
        intro x hx hx1
        obtain ⟨ev, hev, rfl⟩ := List.mem_map.mp hx
        obtain ⟨ev1, hev1, heq⟩ := List.mem_map.mp hx1
        apply (h5 ev1 hev1).2.1
        rw [heq]
        exact (hinv.2 ev hev).1
      · intro ev hev
        rcases List.mem_append.mp hev with hev | hev
        · exact ⟨hmono _ (hinv.2 ev hev).1, (hinv.2 ev hev).2⟩
        · exact ⟨(h5 ev hev).2.2.1, (h5 ev hev).2.2.2⟩

theorem relateLoopLog_of_relateLoop (mg : MeshGraph) (pes : StdMap PuncturedEdge)
    (pfs1 : StdMap PuncturedFace) :
    ∀ (fuel : Nat) (s r : RelateState) (L : List PushEvent),
      relateLoop mg pes pfs1 fuel s = some r →
      ∃ L1, relateLoopLog mg pes pfs1 fuel (s, L) = some (r, L1) := by
  intro fuel
  induction fuel with
  | zero => intro s r L h; simp [relateLoop] at h
  | succ fuel ih =>
    intro s r L h
    unfold relateLoop at h
    unfold relateLoopLog
    cases hq : s.to_visit with
    | nil =>
      simp only [hq, Option.some.injEq] at h ⊢
      subst h
      exact ⟨L, rfl⟩
    | cons cur rest =>
      simp only [hq] at h ⊢
      obtain ⟨h1, _, evs, h2, _⟩ := relateStepLog_spec mg pes pfs1 cur rest s L
      have hpair : relateStepLog mg pes pfs1 cur rest (s, L)
          = (relateStep mg pes pfs1 cur rest s, L ++ evs) := Prod.ext h1 h2
      rw [hpair]
      exact ih _ _ _ h

/-- C20: the search of one seed in `RelateOverTime`, followed with a log of the runs of its
push loop. In every iteration the faces added to the front of the frontier are exactly the
entries pushed by the logged runs of that iteration, and each run was for an edge `e` of the
current face that is punctured, was not marked traversed before the iteration, is marked
traversed after it, and for which the chirality of the current entry equals the face-local
edge chirality times the puncture chirality of `e`; each pushed entry is a face containing
`e`. The search of a seed returns with the log changing nothing in it, and over the whole
search no edge is logged twice: each punctured edge contributes neighbour faces at most
once per seed. -/
theorem relate_search_edge_contributes_once (mg : MeshGraph) (pes : StdMap PuncturedEdge)
    (pfs1 : StdMap PuncturedFace) :
    (∀ (cur : Visit) (rest : List Visit) (s : RelateState) (L : List PushEvent),
      (relateStepLog mg pes pfs1 cur rest (s, L)).1 = relateStep mg pes pfs1 cur rest s ∧
      ∃ evs, (relateStepLog mg pes pfs1 cur rest (s, L)).2 = L ++ evs ∧
        (relateStep mg pes pfs1 cur rest s).to_visit
          = (evs.reverse.flatMap (fun ev => ev.pushed)) ++ rest ∧
        ∀ ev ∈ evs, ev.current = cur ∧ ev.edge ∉ s.edges_visited ∧
          ev.edge ∈ (relateStep mg pes pfs1 cur rest s).edges_visited ∧
          PushEvent.Good mg pes ev) ∧
    (∀ (fid : Nat) (chi : Int),
      (∃ fuel r L, relateLoopLog mg pes pfs1 fuel (⟨[⟨fid, chi, some 0⟩], [], [], []⟩, [])
        = some (r, L)) ∧
      ∀ fuel r L, relateLoopLog mg pes pfs1 fuel (⟨[⟨fid, chi, some 0⟩], [], [], []⟩, [])
          = some (r, L) →
        relateLoop mg pes pfs1 fuel ⟨[⟨fid, chi, some 0⟩], [], [], []⟩ = some r ∧
        (L.map (fun ev => ev.edge)).Nodup ∧
        ∀ ev ∈ L, ev.edge ∈ r.edges_visited ∧ PushEvent.Good mg pes ev) := by
  constructor
  · intro cur rest s L
    obtain ⟨h1, _, evs, h2, h3, _, h5⟩ := relateStepLog_spec mg pes pfs1 cur rest s L
    exact ⟨h1, evs, h2, h3, h5⟩
  · intro fid chi
    constructor
    · obtain ⟨fuel, r, hr⟩ := relateLoop_terminates mg pes pfs1 _ _
        ⟨[⟨fid, chi, some 0⟩], [], [], []⟩ (le_refl _) (le_refl _)
      obtain ⟨L1, hL⟩ := relateLoopLog_of_relateLoop mg pes pfs1 fuel _ r [] hr
      exact ⟨fuel, r, L1, hL⟩
    · intro fuel r L h
      obtain ⟨e1, e2⟩ := relateLoopLog_erase mg pes pfs1 fuel _ r [] L h
      have hinv := e2 ⟨by simp, by simp⟩
      exact ⟨e1, hinv.1, hinv.2⟩

/-! ## The invariant of the graph builder -/

theorem getElem?_append_of_some {α : Type} (l l1 : List α) (i : Nat) (a : α)
    (h : l[i]? = some a) : (l ++ l1)[i]? = some a := by
  have hi : i < l.length := by
    by_contra hlt
    rw [List.getElem?_eq_none (by omega)] at h
    cases h
  rw [List.getElem?_append_left hi]
  exact h

theorem getElem?_append_singleton_eq_some {α : Type} (l : List α) (x E : α) (e : Nat) :
    (l ++ [x])[e]? = some E ↔ l[e]? = some E ∨ (e = l.length ∧ E = x) := by
  by_cases he : e < l.length
  · rw [List.getElem?_append_left he]
    constructor
    · intro h; exact Or.inl h
    · rintro (h | ⟨h, _⟩)
      · exact h
      · omega
  · by_cases he1 : e = l.length
    · subst he1
      simp [eq_comm]
    · rw [List.getElem?_eq_none (by simp; omega), List.getElem?_eq_none (by omega)]
      simp [he1]

theorem getElem?_set_eq_some {α : Type} (l : List α) (x E : α) (i e : Nat) :
    (l.set i x)[e]? = some E ↔ (e = i ∧ i < l.length ∧ E = x) ∨ (e ≠ i ∧ l[e]? = some E) := by
  rw [List.getElem?_set]
  by_cases hie : i = e
  · subst hie
    by_cases hi : i < l.length
    · simp [hi, eq_comm]
    · simp [hi]
  · have : e ≠ i := fun h => hie h.symm
    simp [hie, this]

theorem MeshGraph.Edge_getElem? (mg : MeshGraph) (id : Nat) (h : id < mg.edges.length) :
    mg.edges[id]? = some (mg.Edge id) := by
  unfold MeshGraph.Edge
  rw [List.getD_eq_getElem?_getD, List.getElem?_eq_getElem h]
  rfl

theorem MeshGraph.Face_getElem? (mg : MeshGraph) (id : Nat) (h : id < mg.faces.length) :
    mg.faces[id]? = some (mg.Face id) := by
  unfold MeshGraph.Face
  rw [List.getD_eq_getElem?_getD, List.getElem?_eq_getElem h]
  rfl

theorem BuildInv.weaken (n : Nat) (pending l : List Nat) (b : MeshGraphBuilder_Tet)
    (h : BuildInv n pending b) : BuildInv n (pending ++ l) b := by
  refine ⟨h.faces_ok, h.edges_len, ?_⟩
  intro e E hE p hp
  rcases h.edges_ok e E hE p hp with h1 | ⟨h1, h2⟩
  · exact Or.inl h1
  · exact Or.inr ⟨h1, getElem?_append_of_some _ _ _ _ h2⟩

theorem BuildInv.edge_len (n : Nat) (pending : List Nat) (b : MeshGraphBuilder_Tet)
    (h : BuildInv n pending b) (id : Nat) :
    (b._mg.Edge id).contained_faces.length = (b._mg.Edge id).contained_faces_eid.length := by
  by_cases hid : id < b._mg.edges.length
  · exact h.edges_len _ (List.mem_iff_getElem?.mpr ⟨id, MeshGraph.Edge_getElem? _ _ hid⟩)
  · unfold MeshGraph.Edge
    rw [List.getD_eq_getElem?_getD, List.getElem?_eq_none (by omega)]
    rfl

theorem AddEdge_some (canonEdge : Nat × Nat → (Nat × Nat) × Int) (e2 : Nat × Nat) (f eid : Nat)
    (b : MeshGraphBuilder_Tet) (id : Nat)
    (hl : b._edge_map.lookup (canonEdge e2).1 = some id) :
    AddEdge canonEdge e2 f eid b =
      ((id, (canonEdge e2).2),
        { b with
          _mg := { b._mg with
            edges := b._mg.edges.set id
              { b._mg.Edge id with
                contained_faces := (b._mg.Edge id).contained_faces ++ [f],
                contained_faces_chirality :=
                  (b._mg.Edge id).contained_faces_chirality ++ [(canonEdge e2).2],
                contained_faces_eid := (b._mg.Edge id).contained_faces_eid ++ [eid] } } }) := by
  unfold AddEdge
  simp only [hl]

theorem AddEdge_none (canonEdge : Nat × Nat → (Nat × Nat) × Int) (e2 : Nat × Nat) (f eid : Nat)
    (b : MeshGraphBuilder_Tet) (hl : b._edge_map.lookup (canonEdge e2).1 = none) :
    AddEdge canonEdge e2 f eid b =
      ((b._mg.edges.length, (canonEdge e2).2),
        { b with
          _mg := { b._mg with
            edges := b._mg.edges ++
              [⟨(canonEdge e2).1.1, (canonEdge e2).1.2, [f], [(canonEdge e2).2], [eid]⟩] },
          _edge_map := ((canonEdge e2).1, b._mg.edges.length) :: b._edge_map }) := by
  unfold AddEdge
  simp only [hl]

theorem AddEdge_inv (canonEdge : Nat × Nat → (Nat × Nat) × Int) (e2 : Nat × Nat) (n : Nat)
    (pending : List Nat) (b : MeshGraphBuilder_Tet) (h : BuildInv n pending b) :
    BuildInv n (pending ++ [(AddEdge canonEdge e2 b._mg.faces.length pending.length b).1.1])
      (AddEdge canonEdge e2 b._mg.faces.length pending.length b).2 ∧
    (AddEdge canonEdge e2 b._mg.faces.length pending.length b).2._mg.faces = b._mg.faces ∧
    (AddEdge canonEdge e2 b._mg.faces.length pending.length b).2._mg.cells = b._mg.cells := by
  have hw := BuildInv.weaken n pending
  cases hl : b._edge_map.lookup (canonEdge e2).1 with
  | none =>
    rw [AddEdge_none canonEdge e2 _ _ b hl]
    refine ⟨⟨h.faces_ok, ?_, ?_⟩, rfl, rfl⟩
    · intro E hE
      rcases List.mem_append.mp hE with hE | hE
      · exact h.edges_len E hE
      · simp only [List.mem_singleton] at hE
        subst hE
        rfl
    · intro e E hE p hp
      rcases (getElem?_append_singleton_eq_some _ _ _ _).mp hE with hE | ⟨he, hE⟩
      · exact (hw [b._mg.edges.length] b h).edges_ok e E hE p hp
      · subst hE
        simp only [List.zip_cons_cons, List.zip_nil_right, List.mem_singleton] at hp
        subst hp
        refine Or.inr ⟨rfl, ?_⟩
        rw [he]
        simp
  | some id =>
    rw [AddEdge_some canonEdge e2 _ _ b id hl]
    have hlen := BuildInv.edge_len n pending b h id
    refine ⟨⟨h.faces_ok, ?_, ?_⟩, rfl, rfl⟩
    · intro E hE
      rcases List.mem_or_eq_of_mem_set hE with hE | hE
      · exact h.edges_len E hE
      · subst hE
        simp only [List.length_append, List.length_singleton]
        rw [hlen]
    · intro e E hE p hp
      rcases (getElem?_set_eq_some _ _ _ _ _).mp hE with ⟨he, hid, hE⟩ | ⟨_, hE⟩
      · subst hE
        simp only at hp
        rw [List.zip_append hlen] at hp
        rcases List.mem_append.mp hp with hp | hp
        · rw [he]
          exact (hw [id] b h).edges_ok id _ (MeshGraph.Edge_getElem? _ _ hid) p hp
        · simp only [List.zip_cons_cons, List.zip_nil_right, List.mem_singleton] at hp
          subst hp
          refine Or.inr ⟨rfl, ?_⟩
          rw [he]
          simp
      · exact (hw [id] b h).edges_ok e E hE p hp

theorem addEdges_inv (canonEdge : Nat × Nat → (Nat × Nat) × Int) (n : Nat)
    (es : List (Nat × Nat)) :
    ∀ (acc : List Nat × List Int) (b : MeshGraphBuilder_Tet), BuildInv n acc.1 b →
      BuildInv n (addEdges canonEdge b._mg.faces.length es acc.1.length acc b).1.1
        (addEdges canonEdge b._mg.faces.length es acc.1.length acc b).2 ∧
      (addEdges canonEdge b._mg.faces.length es acc.1.length acc b).2._mg.faces = b._mg.faces ∧
      (addEdges canonEdge b._mg.faces.length es acc.1.length acc b).2._mg.cells
        = b._mg.cells := by
  induction es with
  | nil =>
    intro acc b h
    exact ⟨h, rfl, rfl⟩
  | cons e2 rest ih =>
    intro acc b h
    obtain ⟨h1, h2, h3⟩ := AddEdge_inv canonEdge e2 n acc.1 b h
    have := ih (acc.1 ++ [(AddEdge canonEdge e2 b._mg.faces.length acc.1.length b).1.1],
      acc.2 ++ [(AddEdge canonEdge e2 b._mg.faces.length acc.1.length b).1.2])
      (AddEdge canonEdge e2 b._mg.faces.length acc.1.length b).2 h1
    simp only [h2, List.length_append, List.length_singleton] at this
    rw [addEdges]
    exact ⟨this.1, this.2.1, this.2.2.trans h3⟩

theorem FaceRefs.mono (n m : Nat) (hnm : n ≤ m) (face : CFace) (h : FaceRefs n face) :
    FaceRefs m face := by
  obtain ⟨c0, c1, f0, f1, h1, h2, h3, h4, h5⟩ := h
  refine ⟨c0, c1, f0, f1, h1, h2, h3, by omega, ?_⟩
  rcases h5 with h5 | h5
  · exact Or.inl h5
  · exact Or.inr (by omega)

theorem AddFace_some (canonEdge : Nat × Nat → (Nat × Nat) × Int)
    (canonFace : Nat × Nat × Nat → (Nat × Nat × Nat) × Int) (f3 : Nat × Nat × Nat) (c fid : Nat)
    (b : MeshGraphBuilder_Tet) (id : Nat)
    (hl : b._face_map.lookup (canonFace f3).1 = some id) :
    AddFace canonEdge canonFace f3 c fid b =
      ((id, (canonFace f3).2),
        { b with
          _mg := { b._mg with
            faces := b._mg.faces.set id
              (if (b._mg.Face id).contained_cells.getD 1 UINT_MAX = UINT_MAX then
                { b._mg.Face id with
                  contained_cells := (b._mg.Face id).contained_cells.set 1 c,
                  contained_cells_fid := (b._mg.Face id).contained_cells_fid.set 1 fid }
              else b._mg.Face id) } }) := by
  unfold AddFace
  simp only [hl]

theorem AddFace_none (canonEdge : Nat × Nat → (Nat × Nat) × Int)
    (canonFace : Nat × Nat × Nat → (Nat × Nat × Nat) × Int) (f3 : Nat × Nat × Nat) (c fid : Nat)
    (b : MeshGraphBuilder_Tet) (hl : b._face_map.lookup (canonFace f3).1 = none) :
    AddFace canonEdge canonFace f3 c fid b =
      ((b._mg.faces.length, (canonFace f3).2),
        { (addEdges canonEdge b._mg.faces.length (faceEdges (canonFace f3).1) 0 ([], []) b).2 with
          _mg :=
            { (addEdges canonEdge b._mg.faces.length (faceEdges (canonFace f3).1) 0
                ([], []) b).2._mg with
              faces :=
                (addEdges canonEdge b._mg.faces.length (faceEdges (canonFace f3).1) 0
                  ([], []) b).2._mg.faces ++
                [⟨[(canonFace f3).1.1, (canonFace f3).1.2.1, (canonFace f3).1.2.2],
                  (addEdges canonEdge b._mg.faces.length (faceEdges (canonFace f3).1) 0
                    ([], []) b).1.1,
                  (addEdges canonEdge b._mg.faces.length (faceEdges (canonFace f3).1) 0
                    ([], []) b).1.2,
                  [c, UINT_MAX], [-1, 1], [fid, 0]⟩] },
          _face_map := ((canonFace f3).1, b._mg.faces.length) ::
            (addEdges canonEdge b._mg.faces.length (faceEdges (canonFace f3).1) 0
              ([], []) b).2._face_map }) := by
  unfold AddFace
  simp only [hl]

theorem AddFace_inv (canonEdge : Nat × Nat → (Nat × Nat) × Int)
    (canonFace : Nat × Nat × Nat → (Nat × Nat × Nat) × Int) (f3 : Nat × Nat × Nat) (c fid n : Nat)
    (b : MeshGraphBuilder_Tet) (hc : c < n) (h : BuildInv n [] b) :
    BuildInv n [] (AddFace canonEdge canonFace f3 c fid b).2 ∧
    (AddFace canonEdge canonFace f3 c fid b).2._mg.cells = b._mg.cells := by
  cases hl : b._face_map.lookup (canonFace f3).1 with
  | none =>
    rw [AddFace_none canonEdge canonFace f3 c fid b hl]
    obtain ⟨h1, h2, h3⟩ := addEdges_inv canonEdge n (faceEdges (canonFace f3).1) ([], []) b h
    refine ⟨⟨?_, h1.edges_len, ?_⟩, h3⟩
    · intro face hface
      rcases List.mem_append.mp hface with hface | hface
      · exact h1.faces_ok face hface
      · simp only [List.mem_singleton] at hface
        subst hface
        exact ⟨c, UINT_MAX, fid, 0, rfl, rfl, rfl, hc, Or.inl rfl⟩
    · intro e E hE p hp
      rcases h1.edges_ok e E hE p hp with ⟨face, hf1, hf2⟩ | ⟨hp1, hp2⟩
      · exact Or.inl ⟨face, getElem?_append_of_some _ _ _ _ hf1, hf2⟩
      · exact Or.inl ⟨_, (getElem?_append_singleton_eq_some _ _ _ _).mpr (Or.inr ⟨hp1, rfl⟩),
          hp2⟩
  | some id =>
    rw [AddFace_some canonEdge canonFace f3 c fid b id hl]
    by_cases hid : id < b._mg.faces.length
    · have hget := MeshGraph.Face_getElem? b._mg id hid
      have hrefs : FaceRefs n (b._mg.Face id) :=
        h.faces_ok _ (List.mem_iff_getElem?.mpr ⟨id, hget⟩)
      have hface1 : FaceRefs n
          (if (b._mg.Face id).contained_cells.getD 1 UINT_MAX = UINT_MAX then
            { b._mg.Face id with
              contained_cells := (b._mg.Face id).contained_cells.set 1 c,
              contained_cells_fid := (b._mg.Face id).contained_cells_fid.set 1 fid }
          else b._mg.Face id) := by
        split
        · obtain ⟨c0, c1, f0, f1, e1, e2, e3, e4, _⟩ := hrefs
          refine ⟨c0, c, f0, fid, ?_, e2, ?_, e4, Or.inr hc⟩
          · simp only [e1]
            rfl
          · simp only [e3]
            rfl
        · exact hrefs
      have hedges : (if (b._mg.Face id).contained_cells.getD 1 UINT_MAX = UINT_MAX then
            { b._mg.Face id with
              contained_cells := (b._mg.Face id).contained_cells.set 1 c,
              contained_cells_fid := (b._mg.Face id).contained_cells_fid.set 1 fid }
          else b._mg.Face id).edges = (b._mg.Face id).edges := by
        split
        · rfl
        · rfl
      refine ⟨⟨?_, h.edges_len, ?_⟩, rfl⟩
      · intro face hface
        rcases List.mem_or_eq_of_mem_set hface with hface | hface
        · exact h.faces_ok face hface
        · rw [hface]
          exact hface1
      · intro e E hE p hp
        rcases h.edges_ok e E hE p hp with ⟨face, hf1, hf2⟩ | ⟨_, hp2⟩
        · by_cases hpid : p.1 = id
          · refine Or.inl ⟨_, (getElem?_set_eq_some _ _ _ _ _).mpr (Or.inl ⟨hpid, hid, rfl⟩), ?_⟩
            rw [hedges]
            rw [hpid, hget] at hf1
            cases hf1
            exact hf2
          · exact Or.inl ⟨face, (getElem?_set_eq_some _ _ _ _ _).mpr (Or.inr ⟨hpid, hf1⟩), hf2⟩
        · simp at hp2
    · have hset : ∀ x : CFace, b._mg.faces.set id x = b._mg.faces :=
        fun x => List.set_eq_of_length_le (by omega)
      simp only [hset]
      exact ⟨⟨h.faces_ok, h.edges_len, h.edges_ok⟩, trivial⟩

theorem addFaces_inv (canonEdge : Nat × Nat → (Nat × Nat) × Int)
    (canonFace : Nat × Nat × Nat → (Nat × Nat × Nat) × Int) (c n : Nat) (hc : c < n)
    (fs : List (Nat × Nat × Nat)) :
    ∀ (i : Nat) (acc : List Nat × List Int) (b : MeshGraphBuilder_Tet), BuildInv n [] b →
      BuildInv n [] (addFaces canonEdge canonFace c fs i acc b).2 ∧
      (addFaces canonEdge canonFace c fs i acc b).2._mg.cells = b._mg.cells := by
  induction fs with
  | nil =>
    intro i acc b h
    exact ⟨h, rfl⟩
  | cons f3 rest ih =>
    intro i acc b h
    obtain ⟨h1, h2⟩ := AddFace_inv canonEdge canonFace f3 c i n b hc h
    rw [addFaces]
    obtain ⟨h3, h4⟩ := ih (i + 1)
      (acc.1 ++ [(AddFace canonEdge canonFace f3 c i b).1.1],
        acc.2 ++ [(AddFace canonEdge canonFace f3 c i b).1.2])
      (AddFace canonEdge canonFace f3 c i b).2 h1
    exact ⟨h3, h4.trans h2⟩

theorem AddCell_inv (canonEdge : Nat × Nat → (Nat × Nat) × Int)
    (canonFace : Nat × Nat × Nat → (Nat × Nat × Nat) × Int) (nodes neighbors : List Nat)
    (faces : List (Nat × Nat × Nat)) (b : MeshGraphBuilder_Tet)
    (h : BuildInv b._mg.cells.length [] b) :
    BuildInv (AddCell canonEdge canonFace nodes neighbors faces b).2._mg.cells.length []
      (AddCell canonEdge canonFace nodes neighbors faces b).2 ∧
    (AddCell canonEdge canonFace nodes neighbors faces b).2._mg.cells.length
      = b._mg.cells.length + 1 := by
  have h0 : BuildInv (b._mg.cells.length + 1) [] b :=
    ⟨fun face hf => FaceRefs.mono _ _ (by omega) face (h.faces_ok face hf), h.edges_len,
      h.edges_ok⟩
  obtain ⟨h1, h2⟩ := addFaces_inv canonEdge canonFace b._mg.cells.length
    (b._mg.cells.length + 1) (by omega) faces 0 ([], []) b h0
  have hlen : (AddCell canonEdge canonFace nodes neighbors faces b).2._mg.cells.length
      = b._mg.cells.length + 1 := by
    unfold AddCell
    simp only [List.length_append, List.length_singleton, h2]
  rw [hlen]
  exact ⟨⟨h1.faces_ok, h1.edges_len, h1.edges_ok⟩, rfl⟩

theorem foldl_AddCell_inv (canonEdge : Nat × Nat → (Nat × Nat) × Int)
    (canonFace : Nat × Nat × Nat → (Nat × Nat × Nat) × Int) (cs : List CellInput) :
    ∀ b : MeshGraphBuilder_Tet, BuildInv b._mg.cells.length [] b →
      BuildInv
        (cs.foldl (fun b ci => (AddCell canonEdge canonFace ci.nodes ci.neighbors ci.faces b).2)
          b)._mg.cells.length []
        (cs.foldl (fun b ci => (AddCell canonEdge canonFace ci.nodes ci.neighbors ci.faces b).2)
          b) ∧
      (cs.foldl (fun b ci => (AddCell canonEdge canonFace ci.nodes ci.neighbors ci.faces b).2)
        b)._mg.cells.length = b._mg.cells.length + cs.length := by
  induction cs with
  | nil =>
    intro b h
    exact ⟨h, rfl⟩
  | cons ci rest ih =>
    intro b h
    obtain ⟨h1, h2⟩ := AddCell_inv canonEdge canonFace ci.nodes ci.neighbors ci.faces b h
    obtain ⟨h3, h4⟩ := ih _ h1
    rw [List.foldl_cons]
    refine ⟨h3, ?_⟩
    rw [h4, h2, List.length_cons]
    omega

theorem buildInv_empty : BuildInv 0 [] MeshGraphBuilder_Tet.empty := by
  refine ⟨?_, ?_, ?_⟩
  · intro face hf
    simp [MeshGraphBuilder_Tet.empty] at hf
  · intro E hE
    simp [MeshGraphBuilder_Tet.empty] at hE
  · intro e E hE
    simp [MeshGraphBuilder_Tet.empty] at hE

/-- C16: in every graph the modelled builder produces (`AddCell` applied cell by cell from
the empty builder, for any canonicalization of edges and faces, with at most `UINT_MAX`
cells), each face has two cell references with the orientations -1 (cell0) and +1 (cell1),
the first a cell of the graph and the second a cell of the graph or the boundary sentinel
(both valid, or one valid and one sentinel); and for every edge `e` and every index `k` of
its contained-face list, the face `contained_faces[k]` is a face of the graph that lists `e`
in its own edge list at the local index `contained_faces_eid[k]`. -/
theorem buildGraph_invariant (canonEdge : Nat × Nat → (Nat × Nat) × Int)
    (canonFace : Nat × Nat × Nat → (Nat × Nat × Nat) × Int) (cs : List CellInput)
    (hn : cs.length ≤ UINT_MAX) :
    (buildGraph canonEdge canonFace cs).cells.length = cs.length ∧
    (∀ (F : Nat) (face : CFace), (buildGraph canonEdge canonFace cs).faces[F]? = some face →
      ∃ c0 c1, face.contained_cells = [c0, c1] ∧ face.contained_cells_chirality = [-1, 1] ∧
        (c0 < (buildGraph canonEdge canonFace cs).cells.length ∧ c0 ≠ UINT_MAX) ∧
        (c1 = UINT_MAX ∨
          (c1 < (buildGraph canonEdge canonFace cs).cells.length ∧ c1 ≠ UINT_MAX))) ∧
    (∀ (e : Nat) (E : CEdge) (k F : Nat),
      (buildGraph canonEdge canonFace cs).edges[e]? = some E →
      E.contained_faces[k]? = some F →
      ∃ i face, E.contained_faces_eid[k]? = some i ∧
        (buildGraph canonEdge canonFace cs).faces[F]? = some face ∧
        face.edges[i]? = some e) := by
  obtain ⟨hinv, hlen⟩ := foldl_AddCell_inv canonEdge canonFace cs MeshGraphBuilder_Tet.empty
    buildInv_empty
  have hlen1 : (buildGraph canonEdge canonFace cs).cells.length = cs.length := by
    unfold buildGraph
    rw [hlen]
    simp [MeshGraphBuilder_Tet.empty]
  refine ⟨hlen1, ?_, ?_⟩
  · intro F face hF
    obtain ⟨c0, c1, f0, f1, h1, h2, _, h4, h5⟩ :=
      hinv.faces_ok face (List.mem_iff_getElem?.mpr ⟨F, hF⟩)
    have hlen2 : (cs.foldl
        (fun b ci => (AddCell canonEdge canonFace ci.nodes ci.neighbors ci.faces b).2)
        MeshGraphBuilder_Tet.empty)._mg.cells.length = cs.length := hlen1
    rw [hlen2] at h4 h5
    rw [hlen1]
    refine ⟨c0, c1, h1, h2, ⟨h4, by omega⟩, ?_⟩
    rcases h5 with h5 | h5
    · exact Or.inl h5
    · exact Or.inr ⟨h5, by omega⟩
  · intro e E k F hE hF
    have hEmem : E ∈ (cs.foldl
        (fun b ci => (AddCell canonEdge canonFace ci.nodes ci.neighbors ci.faces b).2)
        MeshGraphBuilder_Tet.empty)._mg.edges := List.mem_iff_getElem?.mpr ⟨e, hE⟩
    have hl := hinv.edges_len E hEmem
    have hk : k < E.contained_faces_eid.length := by
      rw [← hl]
      by_contra hlt
      rw [List.getElem?_eq_none (by omega)] at hF
      cases hF
    have hi : E.contained_faces_eid[k]? = some (E.contained_faces_eid[k]) :=
      List.getElem?_eq_getElem hk
    have hp : (F, E.contained_faces_eid[k]) ∈ E.contained_faces.zip E.contained_faces_eid :=
      List.mem_iff_getElem?.mpr ⟨k, List.getElem?_zip_eq_some.mpr ⟨hF, hi⟩⟩
    rcases hinv.edges_ok e E hE _ hp with ⟨face, hf1, hf2⟩ | ⟨_, hp2⟩
    · exact ⟨_, face, hi, hf1, hf2⟩
    · simp at hp2

/-- C16 (witness): the graph built for the two tetrahedra of `twoTets` has seven faces; the
shared face 3 refers to both cells, and edge 5 lists face 6 with local index 0, where face 6
lists edge 5. -/
theorem buildGraph_invariant_witness :
    twoTets.length ≤ UINT_MAX ∧
    (buildGraph ascendingEdge smallestFace twoTets).faces.map (fun f => f.contained_cells)
      = [[0, UINT_MAX], [0, UINT_MAX], [0, UINT_MAX], [0, 1], [1, UINT_MAX], [1, UINT_MAX],
          [1, UINT_MAX]] ∧
    ∃ i face,
      ((buildGraph ascendingEdge smallestFace twoTets).Edge 5).contained_faces_eid[2]? = some i ∧
      (buildGraph ascendingEdge smallestFace twoTets).faces[6]? = some face ∧
      face.edges[i]? = some 5 :=
  ⟨by decide, by decide,
    (buildGraph_invariant ascendingEdge smallestFace twoTets (by decide)).2.2 5
      ((buildGraph ascendingEdge smallestFace twoTets).Edge 5) 2 6 (by decide) (by decide)⟩

/-! ## `TraceOverSpace` consumes the punctured cells -/

theorem spaceLoop_pcs_nil (isSpecial : PuncturedCell → Bool) (mg : MeshGraph) :
    ∀ (fuel : Nat) (s r : SpaceState), spaceLoop isSpecial mg fuel s = some r → r.pcs = [] := by
  intro fuel
  induction fuel with
  | zero => intro s r h; simp [spaceLoop] at h
  | succ fuel ih =>
    intro s r h
    unfold spaceLoop at h
    cases hp : s.pcs with
    | nil =>
      simp only [hp] at h
      cases h
      exact hp
    | cons a rest =>
      simp only [hp] at h
      cases h1 : spaceOnce isSpecial mg (fuel + 1) a.1 s with
      | none => simp [h1] at h
      | some s1 =>
        simp only [h1] at h
        exact ih _ _ h

theorem spaceLoop_of_nil (isSpecial : PuncturedCell → Bool) (mg : MeshGraph) (fuel : Nat)
    (vobjs : List VortexObject) (r : SpaceState)
    (h : spaceLoop isSpecial mg fuel ⟨[], vobjs⟩ = some r) : r = ⟨[], vobjs⟩ := by
  cases fuel with
  | zero => simp [spaceLoop] at h
  | succ fuel =>
    unfold spaceLoop at h
    simp only [Option.some.injEq] at h
    exact h.symm

theorem TraceOverSpace_pcs_nil (isSpecial : PuncturedCell → Bool) (mg : MeshGraph)
    (fuel : Nat) (slot : Int) (st st1 : VortexExtractor)
    (h : TraceOverSpace isSpecial mg fuel slot st = some st1) : st1.pcs slot = [] := by
  unfold TraceOverSpace at h
  cases hr : spaceLoop isSpecial mg fuel
      ⟨if slot = 0 then st._punctured_cells else st._punctured_cells1, []⟩ with
  | none => simp [hr] at h
  | some r =>
    simp only [hr] at h
    have hnil := spaceLoop_pcs_nil isSpecial mg fuel _ r hr
    by_cases hs : slot = 0
    · simp only [hs, if_true, Option.some.injEq] at h
      subst h
      simpa [VortexExtractor.pcs, hs] using hnil
    · simp only [hs, if_false, Option.some.injEq] at h
      subst h
      simpa [VortexExtractor.pcs, hs] using hnil

theorem TraceOverSpace_of_pcs_nil (isSpecial : PuncturedCell → Bool) (mg : MeshGraph)
    (fuel : Nat) (slot : Int) (st st1 : VortexExtractor) (hnil : st.pcs slot = [])
    (h : TraceOverSpace isSpecial mg fuel slot st = some st1) :
    st1.vobjs slot = [] ∧ st1.pcs slot = [] := by
  unfold TraceOverSpace at h
  unfold VortexExtractor.pcs at hnil
  rw [hnil] at h
  cases hr : spaceLoop isSpecial mg fuel ⟨[], []⟩ with
  | none => simp [hr] at h
  | some r =>
    simp only [hr] at h
    have := spaceLoop_of_nil isSpecial mg fuel [] r hr
    subst this
    by_cases hs : slot = 0
    · simp only [hs, if_true, Option.some.injEq] at h
      subst h
      simp [VortexExtractor.vobjs, VortexExtractor.pcs, hs]
    · simp only [hs, if_false, Option.some.injEq] at h
      subst h
      simp [VortexExtractor.vobjs, VortexExtractor.pcs, hs]

/-- C24: `TraceOverSpace` consumes its input. The call returns, and when it returns the
punctured-cell map of the traced slot is empty. A second call for the same slot on the state
the first call left returns as well and leaves an empty vortex-object list for the slot,
whatever the first call produced; on `chainState` the first call yields one object and the
second call none, so the operation is not idempotent. -/
theorem TraceOverSpace_consumes_punctured_cells (isSpecial : PuncturedCell → Bool)
    (mg : MeshGraph) (slot : Int) (st : VortexExtractor) :
    (∃ fuel st1, TraceOverSpace isSpecial mg fuel slot st = some st1) ∧
    (∀ fuel st1, TraceOverSpace isSpecial mg fuel slot st = some st1 →
      st1.pcs slot = [] ∧
      (∃ fuel2 st2, TraceOverSpace isSpecial mg fuel2 slot st1 = some st2) ∧
      ∀ fuel2 st2, TraceOverSpace isSpecial mg fuel2 slot st1 = some st2 →
        st2.vobjs slot = [] ∧ st2.pcs slot = []) ∧
    (∃ st1 st2, TraceOverSpace PuncturedCell.IsSpecial chainMesh 6 0 chainState = some st1 ∧
      TraceOverSpace PuncturedCell.IsSpecial chainMesh 6 0 st1 = some st2 ∧
      st1.vobjs 0 = [⟨0, 0, 0, [10, 11, 12, 13], [[10, 11, 12, 13]]⟩] ∧
      st2.vobjs 0 = [] ∧ st2.vobjs 0 ≠ st1.vobjs 0) := by
  refine ⟨TraceOverSpace_terminates isSpecial mg slot st, ?_, ?_⟩
  · intro fuel st1 h
    have hnil := TraceOverSpace_pcs_nil isSpecial mg fuel slot st st1 h
    refine ⟨hnil, TraceOverSpace_terminates isSpecial mg slot st1, ?_⟩
    intro fuel2 st2 h2
    exact TraceOverSpace_of_pcs_nil isSpecial mg fuel2 slot st1 st2 hnil h2
  · exact ⟨_, _, rfl, rfl, rfl, rfl, by decide⟩

/-! ## Termination of `TraceOverSpace` and of its loops -/

theorem TraceOverSpace_fuel_mono (isSpecial : PuncturedCell → Bool) (mg : MeshGraph)
    (fuel fuel1 : Nat) (slot : Int) (st st1 : VortexExtractor) (hle : fuel ≤ fuel1)
    (h : TraceOverSpace isSpecial mg fuel slot st = some st1) :
    TraceOverSpace isSpecial mg fuel1 slot st = some st1 := by
  unfold TraceOverSpace at h ⊢
  cases hr : spaceLoop isSpecial mg fuel
      ⟨if slot = 0 then st._punctured_cells else st._punctured_cells1, []⟩ with
  | none => simp [hr] at h
  | some r =>
    rw [spaceLoop_fuel_mono isSpecial mg fuel fuel1 _ r hle hr]
    simp only [hr] at h
    exact h

theorem componentSearch_queue_nil (isSpecial : PuncturedCell → Bool) (mg : MeshGraph) :
    ∀ (fuel : Nat) (s r : SearchState), componentSearch isSpecial mg fuel s = some r →
      r.to_visit = [] := by
  intro fuel
  induction fuel with
  | zero => intro s r h; simp [componentSearch] at h
  | succ fuel ih =>
    intro s r h
    unfold componentSearch at h
    cases hq : s.to_visit with
    | nil =>
      simp only [hq] at h
      cases h
      exact hq
    | cons c rest =>
      simp only [hq] at h
      exact ih _ _ h

/-- C22: `TraceOverSpace` terminates for every slot, state and mesh graph: some amount of
fuel makes the call return, and every larger amount gives the same result. So do its loops:
the component search from any queue of punctured cells (a queue may hold the same cell
several times) returns with an empty queue, every forward or backward walk returns, the
loop over the ordinary cells returns and the outer loop returns. On `diamondState` the
queue of the search holds cell 3 twice before cell 3 is first visited, and the call
returns; on the closed loop `loopState` the call returns. -/
theorem TraceOverSpace_and_its_loops_terminate (isSpecial : PuncturedCell → Bool)
    (mg : MeshGraph) :
    (∀ (slot : Int) (st : VortexExtractor), ∃ fuel st1,
      ∀ fuel1, fuel ≤ fuel1 → TraceOverSpace isSpecial mg fuel1 slot st = some st1) ∧
    (∀ s : SearchState, SearchInv s →
      ∃ fuel r, componentSearch isSpecial mg fuel s = some r ∧ r.to_visit = []) ∧
    (∀ (ordinary special : StdMap PuncturedCell) (chi : Int) (s : WalkState),
      ∃ fuel r, walkLoop mg ordinary special chi fuel s = some r) ∧
    (∀ (special : StdMap PuncturedCell) (t : TraceState),
      ∃ fuel r, traceLoop mg special fuel t = some r) ∧
    (∀ s : SpaceState, ∃ fuel r, spaceLoop isSpecial mg fuel s = some r) ∧
    ((searchStep PuncturedCell.IsSpecial diamondMesh 2 [3]
        (searchStep PuncturedCell.IsSpecial diamondMesh 1 [2]
          (searchStep PuncturedCell.IsSpecial diamondMesh 0 []
            ⟨[0], [], [], [], diamondState._punctured_cells⟩))).to_visit = [3, 3] ∧
      (∃ st1, TraceOverSpace PuncturedCell.IsSpecial diamondMesh 6 0 diamondState = some st1) ∧
      ∃ st1, TraceOverSpace PuncturedCell.IsSpecial loopMesh 5 0 loopState = some st1) := by
  refine ⟨?_, ?_, ?_, ?_, ?_, ?_⟩
  · intro slot st
    obtain ⟨fuel, st1, h⟩ := TraceOverSpace_terminates isSpecial mg slot st
    exact ⟨fuel, st1, fun fuel1 hle =>
      TraceOverSpace_fuel_mono isSpecial mg fuel fuel1 slot st st1 hle h⟩
  · intro s hs
    obtain ⟨fuel, r, h⟩ := componentSearch_terminates isSpecial mg _ _ s hs (le_refl _)
      (le_refl _)
    exact ⟨fuel, r, h, componentSearch_queue_nil isSpecial mg fuel s r h⟩
  · intro ordinary special chi s
    obtain ⟨r, h⟩ := walkLoop_terminates mg ordinary special chi _ s (le_refl _)
    exact ⟨_, r, h⟩
  · intro special t
    exact traceLoop_terminates mg special _ t (le_refl _)
  · intro s
    exact spaceLoop_terminates isSpecial mg _ s (le_refl _)
  · exact ⟨by decide, ⟨_, rfl⟩, ⟨_, rfl⟩⟩

/-! ## `RelateOverTime` changes the related faces only -/

theorem matchesAtT1Maps_eq (dflt : PuncturedFace) (pfs1 : StdMap PuncturedFace) (current : Nat)
    (chi : Int) :
    matchesAtT1Maps dflt pfs1 current chi = (matchesAtT1 pfs1 current chi, pfs1) := by
  unfold matchesAtT1Maps matchesAtT1
  cases hf : StdMap.find pfs1 current with
  | none => rfl
  | some pf =>
    simp only [StdMap.index_of_find pfs1 dflt current pf hf]

theorem edgeForMaps_eq (dflt : PuncturedEdge) (mg : MeshGraph) (pes : StdMap PuncturedEdge)
    (face : CFace) (chi : Int) (fv : StdSet) (l : List Nat) :
    ∀ (i : Nat) (s : StdSet × List Visit),
      edgeForMaps dflt mg face chi fv l i (s, pes) = (edgeFor mg pes face chi fv l i s, pes) := by
  induction l with
  | nil => intro i s; rfl
  | cons e rest ih =>
    intro i s
    unfold edgeForMaps edgeFor
    cases hf : StdMap.find pes e with
    | none =>
      simp only [hf, Option.isSome_none, Bool.false_eq_true, false_and, if_false]
      exact ih (i + 1) s
    | some pe =>
      simp only [hf, Option.isSome_some, true_and, StdMap.index_of_find pes dflt e pe hf]
      by_cases he : e ∉ s.1
      · rw [if_pos he, if_pos he]
        by_cases hc : chi = face.edges_chirality.getD i 0 * pe.chirality
        · rw [if_pos hc, if_pos hc]
          exact ih (i + 1) _
        · rw [if_neg hc, if_neg hc]
          exact ih (i + 1) _
      · rw [if_neg he, if_neg he]
        exact ih (i + 1) s

theorem relateStepMaps_eq (dE : PuncturedEdge) (dF : PuncturedFace) (mg : MeshGraph)
    (pes : StdMap PuncturedEdge) (pfs1 : StdMap PuncturedFace) (cur : Visit) (rest : List Visit)
    (s : RelateState) :
    relateStepMaps dE dF mg cur rest (s, pes, pfs1)
      = (relateStep mg pes pfs1 cur rest s, pes, pfs1) := by
  unfold relateStepMaps relateStep
  simp only [matchesAtT1Maps_eq, edgeForMaps_eq]

theorem relateLoopMaps_eq (dE : PuncturedEdge) (dF : PuncturedFace) (mg : MeshGraph)
    (pes : StdMap PuncturedEdge) (pfs1 : StdMap PuncturedFace) :
    ∀ (fuel : Nat) (s : RelateState),
      relateLoopMaps dE dF mg fuel (s, pes, pfs1)
        = (relateLoop mg pes pfs1 fuel s).map (fun r => (r, pes, pfs1)) := by
  intro fuel
  induction fuel with
  | zero => intro s; rfl
  | succ fuel ih =>
    intro s
    unfold relateLoopMaps relateLoop
    cases hq : s.to_visit with
    | nil => simp only [hq, Option.map_some']
    | cons cur rest =>
      simp only [hq, relateStepMaps_eq]
      exact ih _

theorem relateSeedsMaps_eq (dE : PuncturedEdge) (dF : PuncturedFace) (mg : MeshGraph)
    (pes : StdMap PuncturedEdge) (pfs1 : StdMap PuncturedFace) (fuel : Nat)
    (seeds : List (Nat × PuncturedFace)) :
    ∀ rel : StdMap (List Nat),
      relateSeedsMaps dE dF mg fuel seeds (rel, pes, pfs1)
        = (relateSeeds mg pes pfs1 fuel seeds rel).map (fun r => (r, pes, pfs1)) := by
  induction seeds with
  | nil => intro rel; rfl
  | cons a rest ih =>
    intro rel
    obtain ⟨fid, pf⟩ := a
    unfold relateSeedsMaps relateSeeds relateSeed
    simp only [relateLoopMaps_eq]
    cases hl : relateLoop mg pes pfs1 fuel ⟨[⟨fid, pf.chirality, some 0⟩], [], [], []⟩ with
    | none => simp
    | some r =>
      simp only [Option.map_some']
      exact ih _

theorem RelateOverTimeMaps_eq (dE : PuncturedEdge) (dF : PuncturedFace) (mg : MeshGraph)
    (fuel : Nat) (st : VortexExtractor) :
    RelateOverTimeMaps dE dF mg fuel st = RelateOverTime mg fuel st := by
  unfold RelateOverTimeMaps RelateOverTime
  rw [relateSeedsMaps_eq]
  cases hr : relateSeeds mg st._punctured_edges st._punctured_faces1 fuel
      st._punctured_faces [] with
  | none => simp
  | some rel => simp

/-- C26: `RelateOverTime` modifies only the related-face map. With the punctured-edge map
and the t1 punctured-face map threaded through every lookup of the search (reads through
`operator[]` included, for any default constructed records), the call returns, and the state
it returns is the input state with a new related-face map: the punctured-edge map and both
punctured-face maps are the same lists of keys and values as before, and so is every other
member. Threading the maps gives the same result as the search that only reads them. -/
theorem RelateOverTime_changes_related_faces_only (dE : PuncturedEdge) (dF : PuncturedFace)
    (mg : MeshGraph) (st : VortexExtractor) :
    (∃ fuel st1, RelateOverTimeMaps dE dF mg fuel st = some st1) ∧
    ∀ fuel st1, RelateOverTimeMaps dE dF mg fuel st = some st1 →
      st1._punctured_edges = st._punctured_edges ∧
      st1._punctured_faces = st._punctured_faces ∧
      st1._punctured_faces1 = st._punctured_faces1 ∧
      st1 = { st with _related_faces := st1._related_faces } ∧
      RelateOverTime mg fuel st = some st1 := by
  constructor
  · obtain ⟨fuel, st1, h⟩ := RelateOverTime_terminates mg st
    exact ⟨fuel, st1, by rw [RelateOverTimeMaps_eq]; exact h⟩
  · intro fuel st1 h
    rw [RelateOverTimeMaps_eq] at h
    obtain ⟨rel, _, hst1⟩ := RelateOverTime_eq mg fuel st st1 h
    subst hst1
    exact ⟨rfl, rfl, rfl, rfl, h⟩

/-! ## The related list of a seed does not depend on the other seeds -/

theorem RelateOverTime_find_seed (mg : MeshGraph) (fuel : Nat) (st r : VortexExtractor)
    (fid : Nat) (pf : PuncturedFace) (hk : (StdMap.keys st._punctured_faces).Nodup)
    (hf : StdMap.find st._punctured_faces fid = some pf)
    (h : RelateOverTime mg fuel st = some r) :
    ∃ related, relateSeed mg st._punctured_edges st._punctured_faces1 fuel fid pf.chirality
        = some related ∧ StdMap.find r._related_faces fid = some related := by
  obtain ⟨rel, hrel, hr⟩ := RelateOverTime_eq mg fuel st r h
  obtain ⟨_, _, _, hseed⟩ := relateSeeds_spec mg _ _ fuel _ [] rel hrel hk
  obtain ⟨related, h1, h2⟩ := hseed fid pf (StdMap.mem_of_find _ _ _ hf)
  refine ⟨related, h1, ?_⟩
  rw [hr]
  exact h2

/-- C21: the related list `RelateOverTime` records for a t0 seed face depends only on the id
and the t0 chirality of the seed, the mesh graph, the punctured-edge map and the t1
punctured-face map. For two states with the same punctured-edge map and the same t1
punctured-face map, whose t0 punctured-face maps (with distinct keys) both hold the seed
with the same chirality and differ in any other way, both calls return and record the same
list for the seed: the list the search of that seed alone yields. -/
theorem RelateOverTime_related_list_of_seed_only (mg : MeshGraph) (st st' : VortexExtractor)
    (fid : Nat) (pf pf' : PuncturedFace)
    (he : st._punctured_edges = st'._punctured_edges)
    (hf1 : st._punctured_faces1 = st'._punctured_faces1)
    (hk : (StdMap.keys st._punctured_faces).Nodup)
    (hk' : (StdMap.keys st'._punctured_faces).Nodup)
    (hf : StdMap.find st._punctured_faces fid = some pf)
    (hf' : StdMap.find st'._punctured_faces fid = some pf')
    (hchi : pf.chirality = pf'.chirality) :
    (∃ fuel r, RelateOverTime mg fuel st = some r) ∧
    (∃ fuel r', RelateOverTime mg fuel st' = some r') ∧
    ∀ fuel fuel' r r', RelateOverTime mg fuel st = some r →
      RelateOverTime mg fuel' st' = some r' →
      StdMap.find r._related_faces fid = StdMap.find r'._related_faces fid ∧
      ∃ related,
        relateSeed mg st._punctured_edges st._punctured_faces1 fuel fid pf.chirality
          = some related ∧
        StdMap.find r._related_faces fid = some related := by
  refine ⟨RelateOverTime_terminates mg st, RelateOverTime_terminates mg st', ?_⟩
  intro fuel fuel' r r' h h'
  obtain ⟨related, h1, h2⟩ := RelateOverTime_find_seed mg fuel st r fid pf hk hf h
  obtain ⟨related', h1', h2'⟩ := RelateOverTime_find_seed mg fuel' st' r' fid pf' hk' hf' h'
  rw [← he, ← hf1, ← hchi] at h1'
  have e := relateSeed_fuel_mono mg _ _ fuel (max fuel fuel') fid pf.chirality related
    (le_max_left _ _) h1
  have e' := relateSeed_fuel_mono mg _ _ fuel' (max fuel fuel') fid pf.chirality related'
    (le_max_right _ _) h1'
  rw [e] at e'
  have hrr : related = related' := Option.some.inj e'
  refine ⟨?_, related, h1, h2⟩
  rw [h2, h2', hrr]

/-- C21 (witness): the seed face 0 gets the related list `[0, 1]` both in `sharedEdgeState`,
where it is the only t0 punctured face, and in `crowdedState`. -/
theorem RelateOverTime_related_list_of_seed_only_witness :
    ∃ r r', RelateOverTime sharedEdgeMesh 3 sharedEdgeState = some r ∧
      RelateOverTime sharedEdgeMesh 4 crowdedState = some r' ∧
      StdMap.find r._related_faces 0 = some [0, 1] ∧
      StdMap.find r._related_faces 0 = StdMap.find r'._related_faces 0 :=
  ⟨_, _, rfl, rfl, rfl,
    ((RelateOverTime_related_list_of_seed_only sharedEdgeMesh sharedEdgeState crowdedState 0
      ⟨1, (none, none, none)⟩ ⟨1, (some 1, some 2, some 3)⟩ rfl rfl (by decide) (by decide)
      rfl rfl rfl).2.2 3 4 _ _ rfl rfl).1⟩

/-! ## Trace faces are keys of the punctured-face map -/

theorem PointsBack.at (mg : MeshGraph) (h : PointsBack mg) (F k c : Nat)
    (hk : (mg.Face F).contained_cells[k]? = some c) (hc : c ≠ UINT_MAX) :
    (mg.Cell c).faces[(mg.Face F).contained_cells_fid.getD k 0]? = some F := by
  have hklt : k < (mg.Face F).contained_cells.length := by
    by_contra hlt
    rw [List.getElem?_eq_none (by omega)] at hk
    cases hk
  have hF : F < mg.faces.length := by
    by_contra hlt
    have hd : mg.Face F = ⟨[], [], [], [], [], []⟩ := by
      unfold MeshGraph.Face
      rw [List.getD_eq_getElem?_getD, List.getElem?_eq_none (by omega)]
      rfl
    rw [hd] at hklt
    simp at hklt
  have hget : (mg.Face F).contained_cells.getD k 0 = c := by
    rw [List.getD_eq_getElem?_getD, hk]
    rfl
  have := h F (List.mem_range.mpr hF) k (List.mem_range.mpr hklt) (by rw [hget]; exact hc)
  rw [hget] at this
  exact this

theorem slotAt_nil (c i : Nat) : slotAt [] c i = 0 := by
  unfold slotAt PuncturedCell.Chirality
  simp [StdMap.find, PuncturedCell.empty]

theorem SlotsBacked.nil (mg : MeshGraph) (pfs : StdMap PuncturedFace) :
    SlotsBacked mg pfs [] := by
  intro c i h
  exact absurd (slotAt_nil c i) h

theorem SlotsBacked.addFace (mg : MeshGraph) (hmesh : PointsBack mg) (id : Nat)
    (chirality : ChiralityType) (pf : PuncturedFace) (pfs : StdMap PuncturedFace)
    (pcs : StdMap PuncturedCell) (h : SlotsBacked mg pfs pcs) :
    SlotsBacked mg (StdMap.insert pfs id pf)
      (cellLoop (mg.Face id) chirality (mg.Face id).contained_cells 0 pcs) := by
  intro c i hne
  obtain ⟨_, hframe, _⟩ :=
    cellLoop_spec (mg.Face id) chirality (mg.Face id).contained_cells 0 pcs
  by_cases hex : ∃ k, (mg.Face id).contained_cells[k]? = some c ∧ c ≠ UINT_MAX ∧
      (mg.Face id).contained_cells_fid.getD k 0 = i
  · obtain ⟨k, hk, hc, hi⟩ := hex
    refine ⟨id, (StdMap.mem_keys_insert _ _ _ _).mpr (Or.inl rfl), ?_⟩
    rw [← hi]
    exact PointsBack.at mg hmesh id k c hk hc
  · have hsame := hframe c i (by
      intro k hk hc hi
      apply hex
      refine ⟨k, hk, hc, ?_⟩
      simpa using hi)
    rw [hsame] at hne
    obtain ⟨F, hF, hFi⟩ := h c i hne
    exact ⟨F, (StdMap.mem_keys_insert _ _ _ _).mpr (Or.inr hF), hFi⟩

theorem runOp_backed (mg : MeshGraph) (hmesh : PointsBack mg) (op : ExtractorOp)
    (st : VortexExtractor)
    (h : SlotsBacked mg st._punctured_faces st._punctured_cells ∧
      SlotsBacked mg st._punctured_faces1 st._punctured_cells1) :
    SlotsBacked mg (runOp mg op st)._punctured_faces (runOp mg op st)._punctured_cells ∧
    SlotsBacked mg (runOp mg op st)._punctured_faces1 (runOp mg op st)._punctured_cells1 := by
  cases op with
  | addFace id slot chirality pos =>
    unfold runOp AddPuncturedFace
    by_cases hs : slot = 0
    · simp only [hs, if_true]
      exact ⟨SlotsBacked.addFace mg hmesh id chirality _ _ _ h.1, h.2⟩
    · simp only [hs, if_false]
      exact ⟨h.1, SlotsBacked.addFace mg hmesh id chirality _ _ _ h.2⟩
  | addEdge id chirality t => exact h
  | rotate =>
    unfold runOp RotateTimeSteps
    exact ⟨h.2, SlotsBacked.nil mg _⟩

theorem runOps_backed (mg : MeshGraph) (hmesh : PointsBack mg) (ops : List ExtractorOp) :
    ∀ st : VortexExtractor,
      SlotsBacked mg st._punctured_faces st._punctured_cells ∧
        SlotsBacked mg st._punctured_faces1 st._punctured_cells1 →
      SlotsBacked mg (runOps mg ops st)._punctured_faces (runOps mg ops st)._punctured_cells ∧
      SlotsBacked mg (runOps mg ops st)._punctured_faces1
        (runOps mg ops st)._punctured_cells1 := by
  induction ops with
  | nil => intro st h; exact h
  | cons op rest ih =>
    intro st h
    unfold runOps
    rw [List.foldl_cons]
    exact ih _ (runOp_backed mg hmesh op st h)

theorem TraceOverSpace_pfs (isSpecial : PuncturedCell → Bool) (mg : MeshGraph) (fuel : Nat)
    (slot : Int) (st st1 : VortexExtractor)
    (h : TraceOverSpace isSpecial mg fuel slot st = some st1) : st1.pfs slot = st.pfs slot := by
  unfold TraceOverSpace at h
  cases hr : spaceLoop isSpecial mg fuel
      ⟨if slot = 0 then st._punctured_cells else st._punctured_cells1, []⟩ with
  | none => simp [hr] at h
  | some r =>
    simp only [hr] at h
    by_cases hs : slot = 0
    · simp only [hs, if_true, Option.some.injEq] at h
      subst h
      rfl
    · simp only [hs, if_false, Option.some.injEq] at h
      subst h
      rfl

theorem VortexObjectsToVortexLines_returns (pfs : StdMap PuncturedFace) (bezier : Bool)
    (fit : VortexLine → VortexLine) (vobjs : List VortexObject) :
    ∀ vlines : List VortexLine, TracesCovered pfs vobjs →
      (VortexObjectsToVortexLines pfs bezier fit vobjs vlines).isSome = true := by
  induction vobjs with
  | nil => intro vlines _; simp [VortexObjectsToVortexLines]
  | cons vobj rest ih =>
    intro vlines h
    unfold VortexObjectsToVortexLines
    rw [tracesCoords_spec pfs vobj.traces [] (h vobj (List.mem_cons_self _ _))]
    exact ih _ (fun v hv => h v (List.mem_cons_of_mem _ hv))

theorem trace_faces_backed (isSpecial : PuncturedCell → Bool) (mg : MeshGraph)
    (pfs : StdMap PuncturedFace) (pcs : StdMap PuncturedCell) (h : SlotsBacked mg pfs pcs)
    (f : Nat) (hf : FromOrdinary isSpecial mg pcs f) : f ∈ StdMap.keys pfs := by
  obtain ⟨c, pcell, i, hfind, _, hchi, _, rfl⟩ := hf
  have hslot : slotAt pcs c i ≠ 0 := by
    unfold slotAt
    rw [hfind]
    simp only [Option.getD_some]
    rcases hchi with hchi | hchi
    · rw [hchi]; decide
    · rw [hchi]; decide
  obtain ⟨F, hF, hFi⟩ := h c i hslot
  rw [List.getD_eq_getElem?_getD, hFi]
  exact hF

/-- C23: over a mesh graph in which the local index recorded for a face in an incident cell
points back to that face, start from a state without punctured cells and record punctures
only through `AddPuncturedFace` and `AddPuncturedEdge` calls (for either slot) and
`RotateTimeSteps`, in any order. Then `TraceOverSpace` for a slot returns, it leaves the
punctured-face map of the slot as it was, every face id in every trace it produces is a key
of that map, and `VortexObjectsToVortexLines` on that map and those objects returns (its
assertion does not fail), with or without curve fitting. -/
theorem trace_faces_are_punctured_faces (isSpecial : PuncturedCell → Bool) (mg : MeshGraph)
    (st0 : VortexExtractor) (ops : List ExtractorOp) (slot : Int) (hmesh : PointsBack mg)
    (h0 : st0._punctured_cells = []) (h1 : st0._punctured_cells1 = []) :
    (∃ fuel st1, TraceOverSpace isSpecial mg fuel slot (runOps mg ops st0) = some st1) ∧
    ∀ fuel st1, TraceOverSpace isSpecial mg fuel slot (runOps mg ops st0) = some st1 →
      st1.pfs slot = (runOps mg ops st0).pfs slot ∧
      (∀ v ∈ st1.vobjs slot, ∀ t ∈ v.traces, ∀ f ∈ t, f ∈ StdMap.keys (st1.pfs slot)) ∧
      ∀ (bezier : Bool) (fit : VortexLine → VortexLine) (vlines : List VortexLine),
        (VortexObjectsToVortexLines (st1.pfs slot) bezier fit (st1.vobjs slot) vlines).isSome
          = true := by
  refine ⟨TraceOverSpace_terminates isSpecial mg slot _, ?_⟩
  intro fuel st1 h
  have hpfs := TraceOverSpace_pfs isSpecial mg fuel slot _ st1 h
  have hback := runOps_backed mg hmesh ops st0
    ⟨by rw [h0]; exact SlotsBacked.nil mg _, by rw [h1]; exact SlotsBacked.nil mg _⟩
  have hslot : SlotsBacked mg ((runOps mg ops st0).pfs slot) ((runOps mg ops st0).pcs slot) := by
    unfold VortexExtractor.pfs VortexExtractor.pcs
    by_cases hs : slot = 0
    · simp only [hs, if_true]
      exact hback.1
    · simp only [hs, if_false]
      exact hback.2
  have hfrom := TraceOverSpace_trace_from isSpecial mg fuel slot _ st1 h
  have hkeys : ∀ v ∈ st1.vobjs slot, ∀ t ∈ v.traces, ∀ f ∈ t,
      f ∈ StdMap.keys (st1.pfs slot) := by
    intro v hv t ht f hf
    rw [hpfs]
    exact trace_faces_backed isSpecial mg _ _ hslot f (hfrom v hv t ht f hf)
  exact ⟨hpfs, hkeys, fun bezier fit vlines =>
    VortexObjectsToVortexLines_returns _ bezier fit _ vlines hkeys⟩

/-- C23 (witness): on `facedChain` the three faces are recorded for slot 1 and the time steps
are rotated; the call for slot 0 then yields the trace `[0, 1, 2]`, whose faces are the keys
of the punctured-face map of slot 0, and the conversion to lines returns. -/
theorem trace_faces_are_punctured_faces_witness :
    PointsBack facedChain ∧
    ∃ st1, TraceOverSpace PuncturedCell.IsSpecial facedChain 5 0
        (runOps facedChain facedChainOps emptyState) = some st1 ∧
      (st1.vobjs 0).map (fun v => v.traces) = [[[0, 1, 2]]] ∧
      StdMap.keys (st1.pfs 0) = [0, 1, 2] ∧
      (VortexObjectsToVortexLines (st1.pfs 0) false id (st1.vobjs 0) []).isSome = true :=
  ⟨by unfold PointsBack; decide, _, rfl, rfl, rfl,
    ((trace_faces_are_punctured_faces PuncturedCell.IsSpecial facedChain emptyState
      facedChainOps 0 (by unfold PointsBack; decide) rfl rfl).2 5 _ rfl).2.2 false id []⟩

/-! ## A closed loop of punctured cells -/

theorem StdSet.insert_sorted (s : StdSet) (x : Nat) (h : s.Pairwise (fun a b => a < b)) :
    (StdSet.insert s x).Pairwise (fun a b => a < b) := by
  induction s with
  | nil => simp [StdSet.insert]
  | cons y r ih =>
    unfold StdSet.insert
    have hr := (List.pairwise_cons.mp h).2
    have hy := (List.pairwise_cons.mp h).1
    by_cases h1 : x < y
    · rw [if_pos h1]
      refine List.pairwise_cons.mpr ⟨?_, h⟩
      intro z hz
      rcases List.mem_cons.mp hz with hz | hz
      · rw [hz]; exact h1
      · exact lt_trans h1 (hy z hz)
    · rw [if_neg h1]
      by_cases h2 : x = y
      · rw [if_pos h2]
        exact h
      · rw [if_neg h2]
        refine List.pairwise_cons.mpr ⟨?_, ih hr⟩
        intro z hz
        rcases (StdSet.mem_insert r x z).mp hz with hz | hz
        · rw [hz]; omega
        · exact hy z hz

theorem walkFor_faces_sorted (special : StdMap PuncturedCell) (pcell : PuncturedCell)
    (cell : CCell) (chi : Int) (nbrs : List Nat) :
    ∀ (i : Nat) (s : WalkState), s.faces.Pairwise (fun a b => a < b) →
      (walkFor special pcell cell chi nbrs i s).faces.Pairwise (fun a b => a < b) := by
  induction nbrs with
  | nil => intro i s h; simpa [walkFor] using h
  | cons n rest ih =>
    intro i s h
    rw [walkFor_cons]
    by_cases h1 : pcell.Chirality i = chi
    · rw [if_pos h1]
      by_cases h2 : (StdMap.find special n).isNone = true
      · rw [if_pos h2]
        exact ih _ _ (StdSet.insert_sorted _ _ h)
      · rw [if_neg h2]
        exact ih _ _ h
    · rw [if_neg h1]
      exact ih _ _ h

theorem walkLoop_faces_sorted (mg : MeshGraph) (ordinary special : StdMap PuncturedCell)
    (chi : Int) :
    ∀ (fuel : Nat) (s r : WalkState), walkLoop mg ordinary special chi fuel s = some r →
      s.faces.Pairwise (fun a b => a < b) → r.faces.Pairwise (fun a b => a < b) := by
  intro fuel
  induction fuel with
  | zero => intro s r h; simp [walkLoop] at h
  | succ fuel ih =>
    intro s r h hs
    unfold walkLoop at h
    split at h
    · cases h; exact hs
    · rename_i pcell _
      by_cases h1 : s.c ∈ s.visited
      · rw [if_pos h1] at h
        cases h; exact hs
      · rw [if_neg h1] at h
        have hw := walkFor_faces_sorted special pcell (mg.Cell s.c) chi
          (mg.Cell s.c).neighbor_cells 0 ⟨s.c, s.visited, s.faces, s.trace, false⟩ hs
        simp only at h
        split at h
        · exact ih _ _ h hw
        · cases h; exact hw

theorem traceOnce_faces_sorted (mg : MeshGraph) (special : StdMap PuncturedCell)
    (fuel seed : Nat) (t r : TraceState) (h : traceOnce mg special fuel seed t = some r)
    (ht : t.vobj.faces.Pairwise (fun a b => a < b)) :
    r.vobj.faces.Pairwise (fun a b => a < b) := by
  unfold traceOnce at h
  split at h
  · cases h
  · rename_i fw hfw
    split at h
    · cases h
    · rename_i bw hbw
      cases h
      have h1 := walkLoop_faces_sorted mg _ special 1 fuel _ _ hfw ht
      exact walkLoop_faces_sorted mg _ special (-1) fuel _ _ hbw h1

theorem traceLoop_faces_sorted (mg : MeshGraph) (special : StdMap PuncturedCell) :
    ∀ (fuel : Nat) (t r : TraceState), traceLoop mg special fuel t = some r →
      t.vobj.faces.Pairwise (fun a b => a < b) → r.vobj.faces.Pairwise (fun a b => a < b) := by
  intro fuel
  induction fuel with
  | zero => intro t r h; simp [traceLoop] at h
  | succ fuel ih =>
    intro t r h ht
    unfold traceLoop at h
    split at h
    · cases h; exact ht
    · split at h
      · cases h
      · rename_i t1 ht1
        exact ih _ _ h (traceOnce_faces_sorted mg special _ _ _ _ ht1 ht)

theorem walkLoop_stop_visited (mg : MeshGraph) (ord special : StdMap PuncturedCell) (chi : Int)
    (fuel : Nat) (s r : WalkState) (hvis : s.c ∈ s.visited)
    (h : walkLoop mg ord special chi fuel s = some r) :
    r.trace = s.trace ∧ r.visited = s.visited := by
  cases fuel with
  | zero => simp [walkLoop] at h
  | succ fuel =>
    unfold walkLoop at h
    cases hf : StdMap.find ord s.c with
    | none =>
      simp only [hf, Option.some.injEq] at h
      subst h
      exact ⟨rfl, rfl⟩
    | some pcell =>
      simp only [hf, hvis, if_true, Option.some.injEq] at h
      subst h
      exact ⟨rfl, rfl⟩

theorem add_mod_inj (N m i j : Nat) (hi : i < N) (hj : j < N)
    (h : (m + i) % N = (m + j) % N) : i = j := by
  have h1 : m + i ≡ m + j [MOD N] := h
  exact Nat.ModEq.eq_of_lt_of_lt (Nat.ModEq.add_left_cancel' m h1) hi hj

theorem add_mod_surj (N m k : Nat) (hk : k < N) : ∃ j, j < N ∧ (m + j) % N = k := by
  have hN : 0 < N := by omega
  have hr : m % N < N := Nat.mod_lt _ hN
  by_cases hrk : m % N ≤ k
  · refine ⟨k - m % N, by omega, ?_⟩
    rw [← Nat.mod_add_mod, show m % N + (k - m % N) = k by omega, Nat.mod_eq_of_lt hk]
  · refine ⟨k + N - m % N, by omega, ?_⟩
    rw [← Nat.mod_add_mod, show m % N + (k + N - m % N) = k + N by omega, Nat.add_mod_right,
      Nat.mod_eq_of_lt hk]

theorem ClosedLoop.rotate {isSpecial : PuncturedCell → Bool} {mg : MeshGraph}
    {pcs : StdMap PuncturedCell} {N : Nat} {c f : Nat → Nat}
    (h : ClosedLoop isSpecial mg pcs N c f) (m : Nat) :
    ClosedLoop isSpecial mg pcs N (fun j => c ((m + j) % N)) (fun j => f ((m + j) % N)) := by
  have hN : 0 < N := by have := h.two; omega
  refine ⟨h.two, ?_, ?_, ?_, ?_, ?_⟩
  · intro i j hi hj heq
    exact add_mod_inj N m i j hi hj
      (h.inj _ _ (Nat.mod_lt _ hN) (Nat.mod_lt _ hN) heq)
  · intro x
    rw [h.keys x]
    constructor
    · rintro ⟨k, hk, rfl⟩
      obtain ⟨j, hj, hjk⟩ := add_mod_surj N m k hk
      exact ⟨j, hj, by rw [hjk]⟩
    · rintro ⟨j, _, rfl⟩
      exact ⟨(m + j) % N, Nat.mod_lt _ hN, rfl⟩
  · intro k _
    exact h.valid _ (Nat.mod_lt _ hN)
  · intro i j hi hj heq
    exact add_mod_inj N m i j hi hj
      (h.face_inj _ _ (Nat.mod_lt _ hN) (Nat.mod_lt _ hN) heq)
  · intro k _
    obtain ⟨pcell, h1, h2, h3⟩ := h.link ((m + k) % N) (Nat.mod_lt _ hN)
    refine ⟨pcell, h1, h2, ?_⟩
    have e1 : ((m + k) % N + N - 1) % N = (m + (k + N - 1) % N) % N := by
      rw [Nat.add_mod_mod, show (m + k) % N + N - 1 = (m + k) % N + (N - 1) by omega,
        Nat.mod_add_mod]
      congr 1
      omega
    have e2 : ((m + k) % N + 1) % N = (m + (k + 1) % N) % N := by
      rw [Nat.add_mod_mod, Nat.mod_add_mod]
      rfl
    simp only [e1, e2] at h3
    exact h3

theorem ClosedLoop.none_special {isSpecial : PuncturedCell → Bool} {mg : MeshGraph}
    {pcs : StdMap PuncturedCell} {N : Nat} {c f : Nat → Nat}
    (h : ClosedLoop isSpecial mg pcs N c f) :
    ∀ x pcell, StdMap.find pcs x = some pcell → isSpecial pcell = false := by
  intro x pcell hx
  have hxk : x ∈ StdMap.keys pcs := (StdMap.find_isSome_mem_keys _ _).mp (by rw [hx]; rfl)
  obtain ⟨k, hk, rfl⟩ := (h.keys x).mp hxk
  obtain ⟨pc, hpc, hsp, _⟩ := h.link k hk
  rw [hx] at hpc
  cases hpc
  exact hsp

theorem ClosedLoop.cell_mem_keys {isSpecial : PuncturedCell → Bool} {mg : MeshGraph}
    {pcs : StdMap PuncturedCell} {N : Nat} {c f : Nat → Nat}
    (h : ClosedLoop isSpecial mg pcs N c f) (k : Nat) (hk : k < N) :
    c k ∈ StdMap.keys pcs := (h.keys _).mpr ⟨k, hk, rfl⟩

theorem ClosedLoop.next_adjacent {isSpecial : PuncturedCell → Bool} {mg : MeshGraph}
    {pcs : StdMap PuncturedCell} {N : Nat} {c f : Nat → Nat}
    (h : ClosedLoop isSpecial mg pcs N c f) (k : Nat) (hk : k + 1 < N) :
    Adjacent mg pcs (c k) (c (k + 1)) := by
  obtain ⟨pc, hpc, _, a, b, _, hb, _, _, hnb, _, _⟩ := h.link k (by omega)
  rw [Nat.mod_eq_of_lt hk] at hnb
  exact ⟨b, pc, hnb, h.valid _ hk, hpc, by rw [hb]; decide, h.cell_mem_keys _ hk⟩

theorem ClosedLoop.search_visits_loop {isSpecial : PuncturedCell → Bool} {mg : MeshGraph}
    {pcs : StdMap PuncturedCell} {N : Nat} {c f : Nat → Nat}
    (h : ClosedLoop isSpecial mg pcs N c f) (r : SearchState)
    (hinv : ComponentInv mg pcs r) (hq : r.to_visit = []) (hseed : c 0 ∈ r.visited) :
    ∀ k, k < N → c k ∈ r.visited := by
  have hstep : ∀ x ∈ r.visited, ∀ y, Adjacent mg pcs x y → y ∈ r.visited := by
    intro x hx y hadj
    rcases hinv.closed x hx y hadj with hy | hy
    · exact hy
    · rw [hq] at hy; simp at hy
  intro k
  induction k with
  | zero => intro _; exact hseed
  | succ k ih =>
    intro hk
    exact hstep _ (ih (by omega)) _ (h.next_adjacent k hk)

theorem ClosedLoop.forward_round {isSpecial : PuncturedCell → Bool} {mg : MeshGraph}
    {pcs : StdMap PuncturedCell} {N : Nat} {c f : Nat → Nat}
    (h : ClosedLoop isSpecial mg pcs N c f) (ord : StdMap PuncturedCell)
    (hord : ∀ x, StdMap.find ord x = StdMap.find pcs x) :
    ∀ (d k : Nat), k + d = N → ∀ (fuel : Nat) (s r : WalkState),
      walkLoop mg ord [] 1 fuel s = some r → s.c = c (k % N) →
      (∀ j, k ≤ j → j < N → c j ∉ s.visited) → (0 < k → c 0 ∈ s.visited) →
      r.trace = s.trace ++ (List.range' (k + 1) d).map (fun j => f (j % N)) ∧
      (∀ x, x ∈ r.visited ↔ x ∈ s.visited ∨ ∃ j, k ≤ j ∧ j < N ∧ x = c j) := by
  have hN := h.two
  intro d
  induction d with
  | zero =>
    intro k hk fuel s r hrun hc _ h0
    have hkN : k = N := by omega
    rw [hkN, Nat.mod_self] at hc
    obtain ⟨h1, h2⟩ := walkLoop_stop_visited mg ord [] 1 fuel s r
      (by rw [hc]; exact h0 (by omega)) hrun
    refine ⟨by simp [h1], ?_⟩
    intro x
    rw [h2]
    constructor
    · exact Or.inl
    · rintro (hx | ⟨j, hj1, hj2, _⟩)
      · exact hx
      · omega
  | succ d ih =>
    intro k hk fuel s r hrun hc hvis h0
    have hkN : k < N := by omega
    rw [Nat.mod_eq_of_lt hkN] at hc
    obtain ⟨pcell, hpc, _, a, b, ha, hb, hzero, _, hnb, _, hfb⟩ := h.link k hkN
    have hother : ∀ i, i < (mg.Cell s.c).neighbor_cells.length → i ≠ b →
        pcell.Chirality i ≠ 1 := by
      intro i hi hib
      rw [hc] at hi
      by_cases hia : i = a
      · rw [hia, ha]; decide
      · rw [hzero i hi hia hib]; decide
    obtain ⟨fuel1, hrun1⟩ := walkLoop_move mg ord 1 fuel s r pcell b (c ((k + 1) % N))
      (by rw [hc, hord]; exact hpc) (by rw [hc]; exact hvis k (le_refl _) hkN)
      (by rw [hc]; exact hnb) hb hother hrun
    rw [hc, hfb] at hrun1
    simp only [if_true] at hrun1
    obtain ⟨h1, h2⟩ := ih (k + 1) (by omega) fuel1 _ r hrun1 rfl
      (by
        intro j hj1 hj2 hmem
        rcases (StdSet.mem_insert _ _ _).mp hmem with hjk | hjv
        · have := h.inj j k hj2 hkN hjk
          omega
        · exact hvis j (by omega) hj2 hjv)
      (by
        intro _
        by_cases hk0 : k = 0
        · rw [hk0]
          exact (StdSet.mem_insert _ _ _).mpr (Or.inl rfl)
        · exact (StdSet.mem_insert _ _ _).mpr (Or.inr (h0 (by omega))))
    refine ⟨?_, ?_⟩
    · rw [h1]
      simp only [List.range'_succ, List.map_cons, List.append_assoc, List.singleton_append]
    · intro x
      rw [h2]
      simp only [StdSet.mem_insert]
      constructor
      · rintro ((hx | hx) | ⟨j, hj1, hj2, hj3⟩)
        · exact Or.inr ⟨k, le_refl _, hkN, hx⟩
        · exact Or.inl hx
        · exact Or.inr ⟨j, by omega, hj2, hj3⟩
      · rintro (hx | ⟨j, hj1, hj2, hj3⟩)
        · exact Or.inl (Or.inr hx)
        · by_cases hjk : j = k
          · subst hjk
            exact Or.inl (Or.inl hj3)
          · exact Or.inr ⟨j, by omega, hj2, hj3⟩

theorem ClosedLoop.backward_step {isSpecial : PuncturedCell → Bool} {mg : MeshGraph}
    {pcs : StdMap PuncturedCell} {N : Nat} {c f : Nat → Nat}
    (h : ClosedLoop isSpecial mg pcs N c f) (ord : StdMap PuncturedCell)
    (hord : ∀ x, StdMap.find ord x = StdMap.find pcs x) (fuel : Nat) (s r : WalkState)
    (hrun : walkLoop mg ord [] (-1) fuel s = some r) (hc : s.c = c 0)
    (hvis : c 0 ∉ s.visited) (hlast : c (N - 1) ∈ s.visited) :
    r.trace = f 0 :: s.trace ∧ r.visited = StdSet.insert s.visited (c 0) := by
  have hN := h.two
  obtain ⟨pcell, hpc, _, a, b, ha, hb, hzero, hna, _, hfa, _⟩ := h.link 0 (by omega)
  rw [show (0 + N - 1) % N = N - 1 by rw [Nat.zero_add]; exact Nat.mod_eq_of_lt (by omega)]
    at hna
  have hother : ∀ i, i < (mg.Cell s.c).neighbor_cells.length → i ≠ a →
      pcell.Chirality i ≠ -1 := by
    intro i hi hia
    rw [hc] at hi
    by_cases hib : i = b
    · rw [hib, hb]; decide
    · rw [hzero i hi hia hib]; decide
  obtain ⟨fuel1, hrun1⟩ := walkLoop_move mg ord (-1) fuel s r pcell a (c (N - 1))
    (by rw [hc, hord]; exact hpc) (by rw [hc]; exact hvis)
    (by rw [hc]; exact hna) ha hother hrun
  rw [hc, hfa] at hrun1
  simp only [show ((-1 : Int) = 1) = False by decide, if_false] at hrun1
  obtain ⟨h1, h2⟩ := walkLoop_stop_visited mg ord [] (-1) fuel1 _ r
    ((StdSet.mem_insert _ _ _).mpr (Or.inr hlast)) hrun1
  exact ⟨h1, h2⟩

theorem ClosedLoop.keys_of_ordinary {isSpecial : PuncturedCell → Bool} {mg : MeshGraph}
    {pcs : StdMap PuncturedCell} {N : Nat} {c f : Nat → Nat}
    (h : ClosedLoop isSpecial mg pcs N c f) (ord : StdMap PuncturedCell)
    (hord : ∀ x, StdMap.find ord x = StdMap.find pcs x) :
    ∀ x, x ∈ StdMap.keys ord ↔ ∃ k, k < N ∧ x = c k := by
  intro x
  rw [← h.keys x, ← StdMap.find_isSome_mem_keys, ← StdMap.find_isSome_mem_keys, hord]

theorem ClosedLoop.traceOnce_round {isSpecial : PuncturedCell → Bool} {mg : MeshGraph}
    {pcs : StdMap PuncturedCell} {N : Nat} {c f : Nat → Nat}
    (h : ClosedLoop isSpecial mg pcs N c f) (ord : StdMap PuncturedCell)
    (hord : ∀ x, StdMap.find ord x = StdMap.find pcs x) (vobj : VortexObject)
    (fuel : Nat) (t1 : TraceState)
    (hrun : traceOnce mg [] fuel (c 0) ⟨ord, vobj⟩ = some t1) :
    t1.ordinary_pcells = [] ∧
    t1.vobj.traces = vobj.traces ++ [(List.range (N + 1)).map (fun j => f (j % N))] := by
  have hN := h.two
  unfold traceOnce at hrun
  cases hfw : walkLoop mg ord [] 1 fuel ⟨c 0, [], vobj.faces, [], false⟩ with
  | none => simp [hfw] at hrun
  | some fw =>
    simp only [hfw] at hrun
    cases hbw : walkLoop mg ord [] (-1) fuel
        ⟨c 0, StdSet.erase fw.visited (c 0), fw.faces, fw.trace, fw.traced⟩ with
    | none => simp [hbw] at hrun
    | some bw =>
      simp only [hbw, Option.some.injEq] at hrun
      obtain ⟨f1, f2⟩ := h.forward_round ord hord N 0 (by omega) fuel _ fw hfw
        (by simp) (by intro j _ _ hj; simp at hj) (by intro h0; omega)
      obtain ⟨b1, b2⟩ := h.backward_step ord hord fuel _ bw hbw rfl
        (by
          intro hmem
          exact ((StdSet.mem_erase _ _ _).mp hmem).2 rfl)
        (by
          rw [StdSet.mem_erase, f2]
          refine ⟨Or.inr ⟨N - 1, by omega, by omega, rfl⟩, ?_⟩
          intro heq
          have := h.inj (N - 1) 0 (by omega) (by omega) heq
          omega)
      rw [← hrun]
      refine ⟨?_, ?_⟩
      · apply StdMap.eraseAll_eq_nil
        intro x hx
        obtain ⟨k, hk, rfl⟩ := (h.keys_of_ordinary ord hord x).mp hx
        rw [StdSet.mem_insert, b2, StdSet.mem_insert]
        by_cases hk0 : k = 0
        · exact Or.inl (by rw [hk0])
        · right; right
          rw [StdSet.mem_erase, f2]
          refine ⟨Or.inr ⟨k, by omega, hk, rfl⟩, ?_⟩
          intro heq
          exact hk0 (h.inj k 0 hk (by omega) heq)
      · show vobj.traces ++ [bw.trace] = _
        rw [b1, f1]
        simp only [List.nil_append]
        rw [List.range_eq_range', List.range'_succ]
        simp

theorem ClosedLoop.traceLoop_round {isSpecial : PuncturedCell → Bool} {mg : MeshGraph}
    {pcs : StdMap PuncturedCell} {N : Nat} {c f : Nat → Nat}
    (h : ClosedLoop isSpecial mg pcs N c f) (ord : StdMap PuncturedCell)
    (hord : ∀ x, StdMap.find ord x = StdMap.find pcs x) (fuel : Nat) (t : TraceState)
    (hrun : traceLoop mg [] fuel ⟨ord, VortexObject.empty⟩ = some t) :
    ∃ m, m < N ∧ t.vobj.traces = [(List.range (N + 1)).map (fun j => f ((m + j) % N))] := by
  have hN := h.two
  cases fuel with
  | zero => simp [traceLoop] at hrun
  | succ fuel =>
    unfold traceLoop at hrun
    cases ho : ord with
    | nil =>
      have : c 0 ∈ StdMap.keys ord := (h.keys_of_ordinary ord hord _).mpr ⟨0, by omega, rfl⟩
      rw [ho] at this
      simp [StdMap.keys] at this
    | cons a rest =>
      obtain ⟨seed, pc⟩ := a
      have hseed : seed ∈ StdMap.keys ord := by rw [ho]; simp [StdMap.keys]
      obtain ⟨m, hm, rfl⟩ := (h.keys_of_ordinary ord hord _).mp hseed
      simp only [ho] at hrun
      rw [← ho] at hrun
      cases h1 : traceOnce mg [] (fuel + 1) (c m) ⟨ord, VortexObject.empty⟩ with
      | none => simp [h1] at hrun
      | some t1 =>
        simp only [h1] at hrun
        have hcm : c m = (fun j => c ((m + j) % N)) 0 := by
          simp only [Nat.add_zero]
          rw [Nat.mod_eq_of_lt hm]
        rw [hcm] at h1
        obtain ⟨e1, e2⟩ := (h.rotate m).traceOnce_round ord hord VortexObject.empty _ t1 h1
        cases fuel with
        | zero => simp [traceLoop] at hrun
        | succ fuel =>
          unfold traceLoop at hrun
          simp only [e1, Option.some.injEq] at hrun
          refine ⟨m, hm, ?_⟩
          rw [← hrun, e2]
          simp only [VortexObject.empty, List.nil_append, Nat.add_mod_mod]

theorem ClosedLoop.spaceLoop_round {isSpecial : PuncturedCell → Bool} {mg : MeshGraph}
    {pcs : StdMap PuncturedCell} {N : Nat} {c f : Nat → Nat}
    (h : ClosedLoop isSpecial mg pcs N c f) (fuel : Nat) (r : SpaceState)
    (hrun : spaceLoop isSpecial mg fuel ⟨pcs, []⟩ = some r) :
    r.pcs = [] ∧ ∃ v m, m < N ∧ r.vobjs = [v] ∧ v.id = 0 ∧
      v.traces = [(List.range (N + 1)).map (fun j => f ((m + j) % N))] ∧
      FacesMatch v.faces v.traces [] ∧ v.faces.Pairwise (fun a b => a < b) := by
  have hN := h.two
  cases fuel with
  | zero => simp [spaceLoop] at hrun
  | succ fuel =>
    unfold spaceLoop at hrun
    cases hp : pcs with
    | nil =>
      have : c 0 ∈ StdMap.keys pcs := h.cell_mem_keys 0 (by omega)
      rw [hp] at this
      simp [StdMap.keys] at this
    | cons a rest =>
      obtain ⟨first, pc⟩ := a
      have hfirst : first ∈ StdMap.keys pcs := by rw [hp]; simp [StdMap.keys]
      obtain ⟨m0, hm0, rfl⟩ := (h.keys _).mp hfirst
      simp only [hp] at hrun
      rw [← hp] at hrun
      cases h1 : spaceOnce isSpecial mg (fuel + 1) (c m0) ⟨pcs, []⟩ with
      | none => simp [h1] at hrun
      | some s1 =>
        simp only [h1] at hrun
        unfold spaceOnce at h1
        cases hs : componentSearch isSpecial mg (fuel + 1) ⟨[c m0], [], [], [], pcs⟩ with
        | none => simp [hs] at h1
        | some sr =>
          simp only [hs] at h1
          have hinit : ComponentInv mg pcs ⟨[c m0], [], [], [], pcs⟩ :=
            ⟨rfl, rfl, fun x hx => by simp at hx; rw [hx]; exact hfirst,
              fun x => by simp [StdMap.find], fun x hx => by simp at hx⟩
          obtain ⟨hinv, hq, _, hseed⟩ :=
            componentSearch_componentInv isSpecial mg pcs h.none_special _ _ sr hs hinit
          have hall : ∀ k, k < N → c k ∈ sr.visited := by
            have hrot := (h.rotate m0).search_visits_loop sr hinv hq (by
              simp only [Nat.add_zero]
              rw [Nat.mod_eq_of_lt hm0]
              exact hseed (c m0) (by simp))
            intro k hk
            obtain ⟨j, hj, hjk⟩ := add_mod_surj N m0 k hk
            have := hrot j hj
            simp only [hjk] at this
            exact this
          have hord : ∀ x, StdMap.find sr.ordinary_pcells x = StdMap.find pcs x := by
            intro x
            rw [hinv.ordinary_find x]
            by_cases hx : x ∈ sr.visited
            · rw [if_pos hx]
            · rw [if_neg hx]
              cases hf : StdMap.find pcs x with
              | none => rfl
              | some v =>
                exfalso
                have hxk := (StdMap.find_isSome_mem_keys pcs x).mp (by rw [hf]; rfl)
                obtain ⟨k, hk, rfl⟩ := (h.keys x).mp hxk
                exact hx (hall k hk)
          rw [hinv.special_nil] at h1
          cases ht : traceLoop mg [] (fuel + 1) ⟨sr.ordinary_pcells, VortexObject.empty⟩ with
          | none => simp [ht] at h1
          | some t =>
            simp only [ht, Option.some.injEq] at h1
            obtain ⟨m, hm, htr⟩ := h.traceLoop_round sr.ordinary_pcells hord _ t ht
            have hfm := traceLoop_facesMatch mg [] _ _ t ht (by
              intro x
              simp [VortexObject.empty])
            have hsorted := traceLoop_faces_sorted mg [] _ _ t ht (by
              simp [VortexObject.empty])
            have hs1 : s1.pcs = [] ∧ ∃ v m, m < N ∧ s1.vobjs = [v] ∧ v.id = 0 ∧
                v.traces = [(List.range (N + 1)).map (fun j => f ((m + j) % N))] ∧
                FacesMatch v.faces v.traces [] ∧ v.faces.Pairwise (fun a b => a < b) := by
              rw [← h1]
              refine ⟨?_, _, m, hm, rfl, rfl, htr, hfm, hsorted⟩
              apply StdMap.eraseAll_eq_nil
              intro x hx
              rw [hinv.pcs_eq] at hx
              obtain ⟨k, hk, rfl⟩ := (h.keys x).mp hx
              exact hall k hk
            cases fuel with
            | zero => simp [spaceLoop] at hrun
            | succ fuel =>
              unfold spaceLoop at hrun
              simp only [hs1.1, Option.some.injEq] at hrun
              rw [← hrun]
              exact hs1

theorem loop_trace_mem (N m : Nat) (f : Nat → Nat) (hN : 0 < N) (x : Nat) :
    x ∈ (List.range (N + 1)).map (fun j => f ((m + j) % N)) ↔ ∃ k, k < N ∧ x = f k := by
  simp only [List.mem_map, List.mem_range]
  constructor
  · rintro ⟨j, _, rfl⟩
    exact ⟨(m + j) % N, Nat.mod_lt _ hN, rfl⟩
  · rintro ⟨k, hk, rfl⟩
    obtain ⟨j, hj, hjk⟩ := add_mod_surj N m k hk
    exact ⟨j, by omega, by rw [hjk]⟩

theorem sorted_length_eq_of_mem_iff (l : List Nat) (N : Nat) (f : Nat → Nat)
    (hs : l.Pairwise (fun a b => a < b)) (hf : ∀ i j, i < N → j < N → f i = f j → i = j)
    (hmem : ∀ x, x ∈ l ↔ ∃ k, k < N ∧ x = f k) : l.length = N := by
  have hnd : l.Nodup := hs.imp (fun hab => Nat.ne_of_lt hab)
  have hset : l.toFinset = (Finset.range N).image f := by
    ext x
    simp only [List.mem_toFinset, Finset.mem_image, Finset.mem_range, hmem]
    constructor
    · rintro ⟨k, hk, rfl⟩
      exact ⟨k, hk, rfl⟩
    · rintro ⟨k, hk, rfl⟩
      exact ⟨k, hk, rfl⟩
  rw [← List.toFinset_card_of_nodup hnd, hset, Finset.card_image_of_injOn, Finset.card_range]
  intro i hi j hj hij
  simp only [Finset.coe_range, Set.mem_Iio] at hi hj
  exact hf i j hi hj hij

/-- C25: for a closed loop of `N >= 2` ordinary punctured cells (the line leaves each cell
through its +1 slot to the next cell and enters it through its -1 slot from the previous
cell; the `N` faces between consecutive cells are distinct), `TraceOverSpace` returns and
yields exactly one vortex object with a single trace of `N + 1` entries: starting from the
seed cell `c m`, the trace lists the faces `f m, f (m+1), ...` around the loop and ends with
`f m` again, the face between the last cell and the seed; the member-face set of the object
consists of the `N` faces of the loop, each once. -/
theorem TraceOverSpace_closed_loop (isSpecial : PuncturedCell → Bool) (mg : MeshGraph)
    (slot : Int) (st : VortexExtractor) (N : Nat) (c f : Nat → Nat)
    (h : ClosedLoop isSpecial mg (st.pcs slot) N c f) :
    (∃ fuel st1, TraceOverSpace isSpecial mg fuel slot st = some st1) ∧
    ∀ fuel st1, TraceOverSpace isSpecial mg fuel slot st = some st1 →
      ∃ v m, m < N ∧ st1.vobjs slot = [v] ∧
        v.traces = [(List.range (N + 1)).map (fun j => f ((m + j) % N))] ∧
        ((List.range (N + 1)).map (fun j => f ((m + j) % N))).length = N + 1 ∧
        ((List.range (N + 1)).map (fun j => f ((m + j) % N))).head? = some (f m) ∧
        ((List.range (N + 1)).map (fun j => f ((m + j) % N))).getLast? = some (f m) ∧
        v.faces.length = N ∧ (∀ x, x ∈ v.faces ↔ ∃ k, k < N ∧ x = f k) := by
  have hN := h.two
  refine ⟨TraceOverSpace_terminates isSpecial mg slot st, ?_⟩
  intro fuel st1 hrun
  unfold TraceOverSpace at hrun
  cases hs : spaceLoop isSpecial mg fuel
      ⟨if slot = 0 then st._punctured_cells else st._punctured_cells1, []⟩ with
  | none => simp [hs] at hrun
  | some r =>
    simp only [hs] at hrun
    obtain ⟨_, v, m, hm, hv, _, htr, hfm, hsorted⟩ := h.spaceLoop_round fuel r hs
    have hmem : ∀ x, x ∈ v.faces ↔ ∃ k, k < N ∧ x = f k := by
      intro x
      rw [hfm x, htr]
      simp only [List.mem_singleton, exists_eq_left, List.not_mem_nil, or_false]
      exact loop_trace_mem N m f (by omega) x
    refine ⟨v, m, hm, ?_, htr, by simp, ?_, ?_,
      sorted_length_eq_of_mem_iff v.faces N f hsorted h.face_inj hmem, hmem⟩
    · by_cases h0 : slot = 0
      · simp only [h0, if_true, Option.some.injEq] at hrun
        rw [← hrun]
        simpa [VortexExtractor.vobjs, h0] using hv
      · simp only [h0, if_false, Option.some.injEq] at hrun
        rw [← hrun]
        simpa [VortexExtractor.vobjs, h0] using hv
    · rw [List.range_eq_range', List.range'_succ]
      simp [Nat.mod_eq_of_lt hm]
    · rw [List.range_succ, List.map_append]
      simp [Nat.mod_eq_of_lt hm]

theorem loopState_closedLoop :
    ClosedLoop PuncturedCell.IsSpecial loopMesh (loopState.pcs 0) 3 (fun k => k)
      (fun k => 10 + k) where
  two := by decide
  inj := fun i j _ _ hij => hij
  keys := by
    intro x
    show x ∈ [0, 1, 2] ↔ _
    simp only [List.mem_cons, List.mem_singleton, List.not_mem_nil, or_false]
    constructor
    · rintro (rfl | rfl | rfl)
      · exact ⟨0, by decide, rfl⟩
      · exact ⟨1, by decide, rfl⟩
      · exact ⟨2, by decide, rfl⟩
    · rintro ⟨k, hk, rfl⟩
      omega
  valid := by
    intro k hk
    unfold UINT_MAX
    omega
  face_inj := by
    intro i j _ _ hij
    have hij1 : 10 + i = 10 + j := hij
    omega
  link := by
    intro k hk
    have hcases : k = 0 ∨ k = 1 ∨ k = 2 := by omega
    rcases hcases with rfl | rfl | rfl
    · exact ⟨⟨[-1, 1]⟩, rfl, rfl, 0, 1, rfl, rfl,
        fun i hi h0 h1 => absurd hi (by simp [loopMesh, MeshGraph.Cell]; omega),
        rfl, rfl, rfl, rfl⟩
    · exact ⟨⟨[-1, 1]⟩, rfl, rfl, 0, 1, rfl, rfl,
        fun i hi h0 h1 => absurd hi (by simp [loopMesh, MeshGraph.Cell]; omega),
        rfl, rfl, rfl, rfl⟩
    · exact ⟨⟨[-1, 1]⟩, rfl, rfl, 0, 1, rfl, rfl,
        fun i hi h0 h1 => absurd hi (by simp [loopMesh, MeshGraph.Cell]; omega),
        rfl, rfl, rfl, rfl⟩

/-- C25 (witness): the statement at the closed loop of three cells of `loopState`; the run
with fuel 5 gives the single trace 10, 11, 12, 10 and the member faces 10, 11, 12. -/
theorem TraceOverSpace_closed_loop_witness :
    (∀ fuel st1, TraceOverSpace PuncturedCell.IsSpecial loopMesh fuel 0 loopState = some st1 →
      ∃ v m, m < 3 ∧ st1.vobjs 0 = [v] ∧
        v.traces = [(List.range (3 + 1)).map (fun j => 10 + (m + j) % 3)] ∧
        ((List.range (3 + 1)).map (fun j => 10 + (m + j) % 3)).length = 3 + 1 ∧
        ((List.range (3 + 1)).map (fun j => 10 + (m + j) % 3)).head? = some (10 + m) ∧
        ((List.range (3 + 1)).map (fun j => 10 + (m + j) % 3)).getLast? = some (10 + m) ∧
        v.faces.length = 3 ∧ (∀ x, x ∈ v.faces ↔ ∃ k, k < 3 ∧ x = 10 + k)) ∧
    (TraceOverSpace PuncturedCell.IsSpecial loopMesh 5 0 loopState).map
      (fun s => s._vortex_objects) = some [⟨0, 0, 0, [10, 11, 12], [[10, 11, 12, 10]]⟩] :=
  ⟨(TraceOverSpace_closed_loop PuncturedCell.IsSpecial loopMesh 0 loopState 3 (fun k => k)
    (fun k => 10 + k) loopState_closedLoop).2, by decide⟩

end VortexFinder
